import Mathlib

/-! Chorlang: lexer, parser and code generator.

A shallow embedding of the Go packages `compiler/lexer`, `compiler/ast`,
`compiler/parser` and `compiler/codegen`, followed by theorems about them.

Conventions of the embedding:

* A Go `string` that holds well-formed UTF-8 is the list of its runes, `List Char`.
  `position` and `readPosition` count runes instead of bytes; every slice the lexer
  takes starts and ends at a rune boundary, so the slices are the same.
* Methods that mutate their receiver return the new receiver, paired with the
  result when there is one.
* Loops and recursive descent run on a fuel counter; `none` (or, in the lexer, the
  unchanged state) is returned only when the counter runs out. The counters the lexer
  starts its loops with are shown to be large enough (`skipWhitespaceLoop_exits` and
  the lemmas after it, `NextTokenAux_fuel`).
-/

namespace Chorlang

/-- Go strings as lists of runes. -/
abbrev Str := List Char

/-- The rune 0, which the lexer uses as its end-of-input marker. -/
def NUL : Char := '\x00'

/-- What the program needs from the Go standard library and cannot be written down
here: the Unicode range tables above Latin-1 and the float64 conversions. -/
structure StdLib where
  /-- Whether a rune above U+00FF is in the range table `unicode.Letter`. -/
  letterTable : Char → Bool
  /-- Whether a rune above U+00FF is in the range table `unicode.Digit`. -/
  digitTable : Char → Bool
  /-- The function `strconv.ParseFloat(s, 64)`: the bits of the float64, or `none` on error. -/
  parseFloat : Str → Option Nat
  /-- The text `fmt.Sprintf("%f", x)` for the float64 with the given bits. -/
  formatFloat : Nat → Str

/-! ## Package `lexer`: tokens -/

inductive TokenType where
  | ILLEGAL | EOF
  | IDENT | INT | FLOAT | STRING
  | ASSIGN | PLUS | MINUS | ASTERISK | SLASH | BANG | LT | GT | EQ | NOT_EQ | LTE | GTE
  | ARROW | SEND | MATCH_OP
  | COMMA | SEMICOLON | COLON | LPAREN | RPAREN | LBRACE | RBRACE | LBRACKET | RBRACKET
  | DANCE | SWAY | SPIN | FLOW | START | SEND_KW | MATCH | WHEN | FROM | TO | IF | ELSE
  | RETURN | FUNCTION | TRUE | FALSE
  deriving DecidableEq, Repr, Inhabited

open TokenType

/-- The map `keywords`, as its list of entries. -/
def keywords : List (Str × TokenType) :=
  [ ("dance".toList, DANCE), ("sway".toList, SWAY), ("spin".toList, SPIN),
    ("flow".toList, FLOW), ("start".toList, START), ("send".toList, SEND_KW),
    ("match".toList, MATCH), ("when".toList, WHEN), ("from".toList, FROM),
    ("to".toList, TO), ("if".toList, IF), ("else".toList, ELSE),
    ("return".toList, RETURN), ("function".toList, FUNCTION), ("true".toList, TRUE),
    ("false".toList, FALSE) ]

structure Token where
  Typ : TokenType := ILLEGAL
  Literal : Str := []
  Line : Nat := 0
  Column : Nat := 0
  deriving DecidableEq, Repr, Inhabited

def LookupIdent (ident : Str) : TokenType :=
  match keywords.lookup ident with
  | some tok => tok
  | none => IDENT

/-- The method `TokenType.String`. -/
def TokenType.String : TokenType → Str
  | ILLEGAL => "ILLEGAL".toList
  | EOF => "EOF".toList
  | IDENT => "IDENT".toList
  | INT => "INT".toList
  | FLOAT => "FLOAT".toList
  | STRING => "STRING".toList
  | ASSIGN => "=".toList
  | PLUS => "+".toList
  | MINUS => "-".toList
  | ASTERISK => "*".toList
  | SLASH => "/".toList
  | BANG => "!".toList
  | LT => "<".toList
  | GT => ">".toList
  | EQ => "==".toList
  | NOT_EQ => "!=".toList
  | LTE => "<=".toList
  | GTE => ">=".toList
  | ARROW => "->".toList
  | SEND => "<-".toList
  | MATCH_OP => "=~".toList
  | COMMA => ",".toList
  | SEMICOLON => ";".toList
  | COLON => ":".toList
  | LPAREN => "(".toList
  | RPAREN => ")".toList
  | LBRACE => "\x7b".toList
  | RBRACE => "\x7d".toList
  | LBRACKET => "[".toList
  | RBRACKET => "]".toList
  | DANCE => "dance".toList
  | SWAY => "sway".toList
  | SPIN => "spin".toList
  | FLOW => "flow".toList
  | START => "start".toList
  | SEND_KW => "send".toList
  | MATCH => "match".toList
  | WHEN => "when".toList
  | FROM => "from".toList
  | TO => "to".toList
  | IF => "if".toList
  | ELSE => "else".toList
  | RETURN => "return".toList
  | FUNCTION => "function".toList
  | TRUE => "true".toList
  | FALSE => "false".toList

/-! ## Package `lexer`: the scanner -/

/-- The Latin-1 part of `unicode.IsLetter` (the `properties` table of package `unicode`):
`A`-`Z`, `a`-`z`, U+00AA, U+00B5, U+00BA, U+00C0-U+00D6, U+00D8-U+00F6, U+00F8-U+00FF. -/
def latin1Letter (c : Char) : Bool :=
  (0x41 ≤ c.toNat && c.toNat ≤ 0x5A) || (0x61 ≤ c.toNat && c.toNat ≤ 0x7A) ||
  c.toNat == 0xAA || c.toNat == 0xB5 || c.toNat == 0xBA ||
  (0xC0 ≤ c.toNat && c.toNat ≤ 0xD6) || (0xD8 ≤ c.toNat && c.toNat ≤ 0xF6) ||
  (0xF8 ≤ c.toNat && c.toNat ≤ 0xFF)

/-- The function `unicode.IsLetter`. -/
def unicodeIsLetter (lib : StdLib) (c : Char) : Bool :=
  if c.toNat ≤ 0xFF then latin1Letter c else lib.letterTable c

/-- The function `unicode.IsDigit`. -/
def unicodeIsDigit (lib : StdLib) (c : Char) : Bool :=
  if c.toNat ≤ 0xFF then (0x30 ≤ c.toNat && c.toNat ≤ 0x39) else lib.digitTable c

def isLetter (lib : StdLib) (ch : Char) : Bool :=
  unicodeIsLetter lib ch || ch == '_'

def isDigit (lib : StdLib) (ch : Char) : Bool :=
  unicodeIsDigit lib ch

structure Lexer where
  input : Str
  position : Nat := 0
  readPosition : Nat := 0
  ch : Char := NUL
  line : Nat := 0
  column : Nat := 0
  deriving DecidableEq, Repr

namespace Lexer

/-- The Go slice expression `l.input[a:b]`. -/
def slice (input : Str) (a b : Nat) : Str :=
  (input.drop a).take (b - a)

def readChar (l : Lexer) : Lexer :=
  if l.readPosition ≥ l.input.length then
    { l with ch := NUL }
  else
    let r := l.input.getD l.readPosition NUL
    if r = '\n' then
      { l with ch := r, position := l.readPosition, readPosition := l.readPosition + 1,
               line := l.line + 1, column := 0 }
    else
      { l with ch := r, position := l.readPosition, readPosition := l.readPosition + 1,
               column := l.column + 1 }

def New (input : Str) : Lexer :=
  readChar { input := input, line := 1, column := 0 }

def peekChar (l : Lexer) : Char :=
  if l.readPosition ≥ l.input.length then NUL
  else l.input.getD l.readPosition NUL

def makeToken (l : Lexer) (tokenType : TokenType) (literal : Str) : Token :=
  { Typ := tokenType, Literal := literal, Line := l.line, Column := l.column }

/-- Fuel that covers every loop of the scanner: each turn of a loop reads a rune, and
one more turn sees the end-of-input marker. -/
def fuel (l : Lexer) : Nat :=
  l.input.length - l.readPosition + 1

def skipWhitespaceLoop : Nat → Lexer → Lexer
  | 0, l => l
  | n + 1, l =>
    if l.ch = ' ' ∨ l.ch = '\t' ∨ l.ch = '\n' ∨ l.ch = '\r' then
      skipWhitespaceLoop n l.readChar
    else l

def skipWhitespace (l : Lexer) : Lexer :=
  skipWhitespaceLoop l.fuel l

def skipCommentLoop : Nat → Lexer → Lexer
  | 0, l => l
  | n + 1, l =>
    if l.ch ≠ '\n' ∧ l.ch ≠ NUL then skipCommentLoop n l.readChar else l

def skipComment (l : Lexer) : Lexer :=
  skipCommentLoop l.fuel l

def readIdentifierLoop (lib : StdLib) : Nat → Lexer → Lexer
  | 0, l => l
  | n + 1, l =>
    if isLetter lib l.ch ∨ isDigit lib l.ch ∨ l.ch = '_' then
      readIdentifierLoop lib n l.readChar
    else l

def readIdentifier (lib : StdLib) (l : Lexer) : Lexer × Str :=
  let position := l.position
  let l1 := readIdentifierLoop lib l.fuel l
  (l1, slice l1.input position l1.position)

def readDigitsLoop (lib : StdLib) : Nat → Lexer → Lexer
  | 0, l => l
  | n + 1, l =>
    if isDigit lib l.ch then readDigitsLoop lib n l.readChar else l

def readNumber (lib : StdLib) (l : Lexer) : Lexer × TokenType × Str :=
  let position := l.position
  let l1 := readDigitsLoop lib l.fuel l
  if l1.ch = '.' ∧ isDigit lib l1.peekChar then
    let l2 := l1.readChar
    let l3 := readDigitsLoop lib l2.fuel l2
    (l3, FLOAT, slice l3.input position l3.position)
  else
    (l1, INT, slice l1.input position l1.position)

def readStringLoop : Nat → Lexer → Lexer
  | 0, l => l
  | n + 1, l =>
    if l.ch ≠ '"' ∧ l.ch ≠ NUL then
      if l.ch = '\\' then
        let l1 := l.readChar
        if l1.ch = NUL then l1 else readStringLoop n l1.readChar
      else readStringLoop n l.readChar
    else l

def readString (l : Lexer) : Lexer × Str :=
  let l1 := l.readChar
  let position := l1.position
  let l2 := readStringLoop l1.fuel l1
  let result := slice l2.input position l2.position
  if l2.ch = '"' then (l2.readChar, result) else (l2, result)

/-- The body of `NextToken`; the counter bounds the recursion after a comment. -/
def NextTokenAux (lib : StdLib) : Nat → Lexer → Lexer × Token
  | 0, l => (l, {})
  | n + 1, l0 =>
    let l := l0.skipWhitespace
    let tok : Token := { Line := l.line, Column := l.column }
    if l.ch = '=' then
      if l.peekChar = '=' then
        let l1 := l.readChar
        (l1.readChar, l1.makeToken EQ [l.ch, l1.ch])
      else if l.peekChar = '~' then
        let l1 := l.readChar
        (l1.readChar, l1.makeToken MATCH_OP [l.ch, l1.ch])
      else (l.readChar, l.makeToken ASSIGN [l.ch])
    else if l.ch = '+' then (l.readChar, l.makeToken PLUS [l.ch])
    else if l.ch = '-' then
      if l.peekChar = '>' then
        let l1 := l.readChar
        (l1.readChar, l1.makeToken ARROW [l.ch, l1.ch])
      else (l.readChar, l.makeToken MINUS [l.ch])
    else if l.ch = '!' then
      if l.peekChar = '=' then
        let l1 := l.readChar
        (l1.readChar, l1.makeToken NOT_EQ [l.ch, l1.ch])
      else (l.readChar, l.makeToken BANG [l.ch])
    else if l.ch = '/' then
      if l.peekChar = '/' then NextTokenAux lib n l.skipComment
      else (l.readChar, l.makeToken SLASH [l.ch])
    else if l.ch = '*' then (l.readChar, l.makeToken ASTERISK [l.ch])
    else if l.ch = '<' then
      if l.peekChar = '-' then
        let l1 := l.readChar
        (l1.readChar, l1.makeToken SEND [l.ch, l1.ch])
      else if l.peekChar = '=' then
        let l1 := l.readChar
        (l1.readChar, l1.makeToken LTE [l.ch, l1.ch])
      else (l.readChar, l.makeToken LT [l.ch])
    else if l.ch = '>' then
      if l.peekChar = '=' then
        let l1 := l.readChar
        (l1.readChar, l1.makeToken GTE [l.ch, l1.ch])
      else (l.readChar, l.makeToken GT [l.ch])
    else if l.ch = ',' then (l.readChar, l.makeToken COMMA [l.ch])
    else if l.ch = ';' then (l.readChar, l.makeToken SEMICOLON [l.ch])
    else if l.ch = ':' then (l.readChar, l.makeToken COLON [l.ch])
    else if l.ch = '(' then (l.readChar, l.makeToken LPAREN [l.ch])
    else if l.ch = ')' then (l.readChar, l.makeToken RPAREN [l.ch])
    else if l.ch = '{' then (l.readChar, l.makeToken LBRACE [l.ch])
    else if l.ch = '}' then (l.readChar, l.makeToken RBRACE [l.ch])
    else if l.ch = '[' then (l.readChar, l.makeToken LBRACKET [l.ch])
    else if l.ch = ']' then (l.readChar, l.makeToken RBRACKET [l.ch])
    else if l.ch = '"' then
      let r := l.readString
      (r.1, { Typ := STRING, Literal := r.2, Line := r.1.line, Column := r.1.column })
    else if l.ch = NUL then
      (l.readChar, { tok with Literal := [], Typ := EOF })
    else if isLetter lib l.ch then
      let r := l.readIdentifier lib
      (r.1, { tok with Literal := r.2, Typ := LookupIdent r.2 })
    else if isDigit lib l.ch then
      let r := l.readNumber lib
      (r.1, { tok with Typ := r.2.1, Literal := r.2.2 })
    else (l.readChar, l.makeToken ILLEGAL [l.ch])

def NextToken (lib : StdLib) (l : Lexer) : Lexer × Token :=
  NextTokenAux lib l.fuel l

/-- The token returned by the call number `n + 1` of `NextToken`. -/
def nthToken (lib : StdLib) (l : Lexer) : Nat → Token
  | 0 => (NextToken lib l).2
  | n + 1 => nthToken lib (NextToken lib l).1 n

end Lexer

/-! ## Package `ast` -/

/-- The struct `ast.Identifier`. -/
structure Identifier where
  Tok : Token
  Value : Str
  deriving DecidableEq, Repr

mutual
/-- A value of the interface `ast.Expression`: `nil` is the nil interface value, every
other constructor a non-nil pointer to the node struct of that name. -/
inductive Expression where
  | nil
  | Identifier (Tok : Token) (Value : Str)
  | IntegerLiteral (Tok : Token) (Value : Int)
  | FloatLiteral (Tok : Token) (Value : Nat)
  | StringLiteral (Tok : Token) (Value : Str)
  | Boolean (Tok : Token) (Value : Bool)
  | InfixExpression (Tok : Token) (Left : Expression) (Operator : Str) (Right : Expression)
  | SpinExpression (Tok : Token) (Function : Expression) (Arguments : List Expression)
  | FlowExpression (Tok : Token) (ChannelType : Expression)
  | MatchExpression (Tok : Token) (Expression : Expression) (Cases : List WhenCase)
/-- The struct `ast.WhenCase`. -/
inductive WhenCase where
  | mk (Tok : Token) (Pattern : Expression) (Consequence : Expression)
end

mutual
/-- A value of the interface `ast.Statement`. `nil` is the nil interface value. The
constructors `nilDanceStatement`, `nilSwayStatement`, `nilSendStatement` and
`nilIfStatement` are the interface values that hold a nil pointer of that node type
(what `parseStatement` returns when the statement parser returned a nil pointer).
The pointer fields `Name`, `Variable`, `Body` and `Consequence`, which the parser sets
in every node it returns, are values; `Alternative` may be the nil pointer. -/
inductive Statement where
  | nil
  | DanceStatement (Tok : Token) (Name : Identifier) (Value : Expression)
  | nilDanceStatement
  | ExpressionStatement (Tok : Token) (Expression : Expression)
  | SwayStatement (Tok : Token) (Variable : Identifier) (From : Expression) (To : Expression)
      (Body : BlockStatement)
  | nilSwayStatement
  | StartStatement (Tok : Token) (Statement : Statement)
  | SendStatement (Tok : Token) (Channel : Expression) (Value : Expression)
  | nilSendStatement
  | IfStatement (Tok : Token) (Condition : Expression) (Consequence : BlockStatement)
      (Alternative : Option BlockStatement)
  | nilIfStatement
  | Block (b : BlockStatement)
/-- The struct `ast.BlockStatement`. -/
inductive BlockStatement where
  | mk (Tok : Token) (Statements : List Statement)
end

def BlockStatement.Statements : BlockStatement → List Statement
  | .mk _ stmts => stmts

structure Program where
  Statements : List Statement

/-! ## Package `strconv`: `ParseInt(s, 0, 64)` -/

inductive NumError where
  | ErrSyntax
  | ErrRange
  deriving DecidableEq, Repr

/-- The value of a byte as a digit in `ParseUint`: `0`-`9`, then letters of either case
from 10 on; every other byte (so every byte of a rune outside ASCII) has none. -/
def digitVal (c : Char) : Option Nat :=
  if 0x30 ≤ c.toNat ∧ c.toNat ≤ 0x39 then some (c.toNat - 0x30)
  else if 0x61 ≤ c.toNat ∧ c.toNat ≤ 0x7A then some (c.toNat - 0x61 + 10)
  else if 0x41 ≤ c.toNat ∧ c.toNat ≤ 0x5A then some (c.toNat - 0x41 + 10)
  else none

/-- The byte-wise `lower` of package `strconv` compared with a lower-case letter. -/
def lowerIs (c : Char) (x : Char) : Bool :=
  c == x || c == Char.ofNat (x.toNat - 0x20)

/-- The loop of `underscoreOK`; `saw` is the last class of character seen. -/
def underscoreOKLoop (hex : Bool) : Char → Str → Bool
  | saw, [] => saw != '_'
  | saw, c :: rest =>
    if (0x30 ≤ c.toNat ∧ c.toNat ≤ 0x39) ∨
        (hex = true ∧ ((0x61 ≤ c.toNat ∧ c.toNat ≤ 0x66) ∨ (0x41 ≤ c.toNat ∧ c.toNat ≤ 0x46))) then
      underscoreOKLoop hex '0' rest
    else if c = '_' then
      if saw ≠ '0' then false else underscoreOKLoop hex '_' rest
    else if saw = '_' then false
    else underscoreOKLoop hex '!' rest

def underscoreOK (s0 : Str) : Bool :=
  let s := match s0 with
    | '-' :: r => r
    | '+' :: r => r
    | _ => s0
  match s with
  | '0' :: c :: r =>
    if lowerIs c 'b' || lowerIs c 'o' || lowerIs c 'x' then
      underscoreOKLoop (lowerIs c 'x') '0' r
    else underscoreOKLoop false '^' s
  | _ => underscoreOKLoop false '^' s

/-- The digit loop of `ParseUint` with bit size 64; `base0` says that the base was
given as 0. The result is the value and whether an underscore was met. -/
def parseUintLoop (base : Nat) (base0 : Bool) : Nat → Bool → Str → Except NumError (Nat × Bool)
  | n, us, [] => .ok (n, us)
  | n, us, c :: rest =>
    if c = '_' ∧ base0 = true then parseUintLoop base base0 n true rest
    else
      match digitVal c with
      | none => .error .ErrSyntax
      | some d =>
        if d ≥ base then .error .ErrSyntax
        else if n ≥ (2 ^ 64 - 1) / base + 1 then .error .ErrRange
        else
          let nb := (n * base) % 2 ^ 64
          let n1 := (nb + d) % 2 ^ 64
          if n1 < nb ∨ n1 > 2 ^ 64 - 1 then .error .ErrRange
          else parseUintLoop base base0 n1 us rest

/-- The call `strconv.ParseUint(s, 0, 64)`. -/
def ParseUint (s : Str) : Except NumError Nat :=
  match s with
  | [] => .error .ErrSyntax
  | c0 :: r0 =>
    let split : Nat × Str :=
      if c0 = '0' then
        match r0 with
        | c1 :: r1 =>
          if s.length ≥ 3 ∧ lowerIs c1 'b' then (2, r1)
          else if s.length ≥ 3 ∧ lowerIs c1 'o' then (8, r1)
          else if s.length ≥ 3 ∧ lowerIs c1 'x' then (16, r1)
          else (8, r0)
        | [] => (8, r0)
      else (10, s)
    match parseUintLoop split.1 true 0 false split.2 with
    | .error e => .error e
    | .ok (n, us) =>
      if us = true ∧ underscoreOK s = false then .error .ErrSyntax else .ok n

/-- The call `strconv.ParseInt(s, 0, 64)`. -/
def ParseInt (s : Str) : Except NumError Int :=
  match s with
  | [] => .error .ErrSyntax
  | c0 :: r0 =>
    let neg : Bool := c0 = '-'
    let s1 : Str := if c0 = '+' ∨ c0 = '-' then r0 else s
    match ParseUint s1 with
    | .error .ErrSyntax => .error .ErrSyntax
    | .error .ErrRange => .error .ErrRange
    | .ok un =>
      if neg = false ∧ un ≥ 2 ^ 63 then .error .ErrRange
      else if neg = true ∧ un > 2 ^ 63 then .error .ErrRange
      else if neg then .ok (-(un : Int)) else .ok (un : Int)

/-! ## Package `parser` -/

def LOWEST : Nat := 1
def EQUALS : Nat := 2
def LESSGREATER : Nat := 3
def SUM : Nat := 4
def PRODUCT : Nat := 5
def PREFIX : Nat := 6
def CALL : Nat := 7

/-- The map `precedences`. -/
def precedences : TokenType → Option Nat
  | .EQ => some EQUALS
  | NOT_EQ => some EQUALS
  | .LT => some LESSGREATER
  | .GT => some LESSGREATER
  | LTE => some LESSGREATER
  | GTE => some LESSGREATER
  | MATCH_OP => some EQUALS
  | PLUS => some SUM
  | MINUS => some SUM
  | SLASH => some PRODUCT
  | ASTERISK => some PRODUCT
  | _ => none

/-- The functions that `New` registers in the map `prefixParseFns`. -/
inductive PrefixParseFn where
  | parseIdentifier | parseIntegerLiteral | parseFloatLiteral | parseStringLiteral
  | parseBoolean | parseGroupedExpression | parseSpinExpression | parseFlowExpression
  | parseMatchExpression
  deriving DecidableEq, Repr

/-- The map `prefixParseFns` as `New` fills it. -/
def prefixParseFns : TokenType → Option PrefixParseFn
  | IDENT => some .parseIdentifier
  | INT => some .parseIntegerLiteral
  | FLOAT => some .parseFloatLiteral
  | STRING => some .parseStringLiteral
  | TRUE => some .parseBoolean
  | FALSE => some .parseBoolean
  | LPAREN => some .parseGroupedExpression
  | SPIN => some .parseSpinExpression
  | FLOW => some .parseFlowExpression
  | MATCH => some .parseMatchExpression
  | _ => none

/-- The map `infixParseFns` as `New` fills it: `true` where `parseInfixExpression` is
registered. -/
def infixParseFns : TokenType → Bool
  | PLUS | MINUS | SLASH | ASTERISK | .EQ | NOT_EQ | .LT | .GT | LTE | GTE | MATCH_OP => true
  | _ => false

/-- The verb `%q` of `fmt.Sprintf` on a lexeme of the scanner's number tokens: digits and
`.` are printable and need no escape, so the text is the lexeme between double quotes. -/
def quote (s : Str) : Str :=
  '"' :: s ++ ['"']

structure Parser where
  l : Lexer
  errors : List Str := []
  curToken : Token := {}
  peekToken : Token := {}
  deriving DecidableEq, Repr

namespace Parser

def nextToken (lib : StdLib) (p : Parser) : Parser :=
  { p with curToken := p.peekToken, peekToken := (p.l.NextToken lib).2,
           l := (p.l.NextToken lib).1 }

def New (lib : StdLib) (l : Lexer) : Parser :=
  nextToken lib (nextToken lib { l := l, errors := [] })

def curTokenIs (p : Parser) (t : TokenType) : Bool :=
  p.curToken.Typ = t

def peekTokenIs (p : Parser) (t : TokenType) : Bool :=
  p.peekToken.Typ = t

def peekError (p : Parser) (t : TokenType) : Parser :=
  { p with errors := p.errors ++
      ["expected next token to be ".toList ++ t.String ++ ", got ".toList ++
        p.peekToken.Typ.String ++ " instead".toList] }

def expectPeek (lib : StdLib) (p : Parser) (t : TokenType) : Parser × Bool :=
  if p.peekTokenIs t then (p.nextToken lib, true) else (p.peekError t, false)

def Errors (p : Parser) : List Str :=
  p.errors

def peekPrecedence (p : Parser) : Nat :=
  match precedences p.peekToken.Typ with
  | some x => x
  | none => LOWEST

def curPrecedence (p : Parser) : Nat :=
  match precedences p.curToken.Typ with
  | some x => x
  | none => LOWEST

def noPrefixParseFnError (p : Parser) (t : TokenType) : Parser :=
  { p with errors := p.errors ++
      ["no prefix parse function for ".toList ++ t.String ++ " found".toList] }

def parseIdentifier (p : Parser) : Parser × Expression :=
  (p, .Identifier p.curToken p.curToken.Literal)

def parseIntegerLiteral (p : Parser) : Parser × Expression :=
  match ParseInt p.curToken.Literal with
  | .error _ =>
    ({ p with errors := p.errors ++
        ["could not parse ".toList ++ quote p.curToken.Literal ++ " as integer".toList] },
      .nil)
  | .ok value => (p, .IntegerLiteral p.curToken value)

def parseFloatLiteral (lib : StdLib) (p : Parser) : Parser × Expression :=
  match lib.parseFloat p.curToken.Literal with
  | none =>
    ({ p with errors := p.errors ++
        ["could not parse ".toList ++ quote p.curToken.Literal ++ " as float".toList] },
      .nil)
  | some value => (p, .FloatLiteral p.curToken value)

def parseStringLiteral (p : Parser) : Parser × Expression :=
  (p, .StringLiteral p.curToken p.curToken.Literal)

def parseBoolean (p : Parser) : Parser × Expression :=
  (p, .Boolean p.curToken (p.curTokenIs TRUE))

/-- The loop of `parsePattern` that skips the parameters of a pattern. -/
def parsePatternLoop (lib : StdLib) : Nat → Parser → Option Parser
  | 0, _ => none
  | n + 1, p =>
    if p.curTokenIs RPAREN = false ∧ p.curTokenIs EOF = false then
      parsePatternLoop lib n (p.nextToken lib)
    else some p

/-- The guard `stmt != nil` followed by `append`: only the nil interface value is
left out; an interface value that holds a nil pointer is not equal to `nil`. -/
def appendStatement (stmts : List Statement) (stmt : Statement) : List Statement :=
  match stmt with
  | .nil => stmts
  | s => stmts ++ [s]

/-- The guard `whenCase != nil` on the pointer, followed by `append`. -/
def appendCase (cases : List WhenCase) (whenCase : Option WhenCase) : List WhenCase :=
  match whenCase with
  | none => cases
  | some c => cases ++ [c]

mutual

def parseStatement (lib : StdLib) : Nat → Parser → Option (Parser × Statement)
  | 0, _ => none
  | n + 1, p =>
    match p.curToken.Typ with
    | DANCE => parseDanceStatement lib n p
    | SWAY => parseSwayStatement lib n p
    | START => parseStartStatement lib n p
    | SEND_KW => parseSendStatement lib n p
    | IF => parseIfStatement lib n p
    | _ => parseExpressionStatement lib n p

def parseDanceStatement (lib : StdLib) : Nat → Parser → Option (Parser × Statement)
  | 0, _ => none
  | n + 1, p =>
    let r1 := p.expectPeek lib IDENT
    if r1.2 = false then some (r1.1, .nilDanceStatement)
    else
      let r2 := r1.1.expectPeek lib ASSIGN
      if r2.2 = false then some (r2.1, .nilDanceStatement)
      else
        match parseExpression lib n LOWEST (r2.1.nextToken lib) with
        | none => none
        | some (p4, value) =>
          some (if p4.peekTokenIs SEMICOLON then p4.nextToken lib else p4,
            .DanceStatement p.curToken ⟨r1.1.curToken, r1.1.curToken.Literal⟩ value)

def parseSwayStatement (lib : StdLib) : Nat → Parser → Option (Parser × Statement)
  | 0, _ => none
  | n + 1, p =>
    let r1 := p.expectPeek lib IDENT
    if r1.2 = false then some (r1.1, .nilSwayStatement)
    else
      let r2 := r1.1.expectPeek lib FROM
      if r2.2 = false then some (r2.1, .nilSwayStatement)
      else
        match parseExpression lib n LOWEST (r2.1.nextToken lib) with
        | none => none
        | some (p3, from_) =>
          let r3 := p3.expectPeek lib TO
          if r3.2 = false then some (r3.1, .nilSwayStatement)
          else
            match parseExpression lib n LOWEST (r3.1.nextToken lib) with
            | none => none
            | some (p4, to_) =>
              let r4 := p4.expectPeek lib LBRACE
              if r4.2 = false then some (r4.1, .nilSwayStatement)
              else
                match parseBlockStatement lib n r4.1 with
                | none => none
                | some (p5, body) =>
                  some (p5, .SwayStatement p.curToken
                    ⟨r1.1.curToken, r1.1.curToken.Literal⟩ from_ to_ body)

def parseStartStatement (lib : StdLib) : Nat → Parser → Option (Parser × Statement)
  | 0, _ => none
  | n + 1, p =>
    match parseStatement lib n (p.nextToken lib) with
    | none => none
    | some (p1, stmt) => some (p1, .StartStatement p.curToken stmt)

def parseSendStatement (lib : StdLib) : Nat → Parser → Option (Parser × Statement)
  | 0, _ => none
  | n + 1, p =>
    match parseExpression lib n LOWEST (p.nextToken lib) with
    | none => none
    | some (p1, channel) =>
      let r1 := p1.expectPeek lib SEND
      if r1.2 = false then some (r1.1, .nilSendStatement)
      else
        match parseExpression lib n LOWEST (r1.1.nextToken lib) with
        | none => none
        | some (p2, value) =>
          some (if p2.peekTokenIs SEMICOLON then p2.nextToken lib else p2,
            .SendStatement p.curToken channel value)

def parseIfStatement (lib : StdLib) : Nat → Parser → Option (Parser × Statement)
  | 0, _ => none
  | n + 1, p =>
    match parseExpression lib n LOWEST (p.nextToken lib) with
    | none => none
    | some (p1, condition) =>
      let r1 := p1.expectPeek lib LBRACE
      if r1.2 = false then some (r1.1, .nilIfStatement)
      else
        match parseBlockStatement lib n r1.1 with
        | none => none
        | some (p2, consequence) =>
          if p2.peekTokenIs ELSE then
            let r2 := (p2.nextToken lib).expectPeek lib LBRACE
            if r2.2 = false then some (r2.1, .nilIfStatement)
            else
              match parseBlockStatement lib n r2.1 with
              | none => none
              | some (p3, alternative) =>
                some (p3, .IfStatement p.curToken condition consequence (some alternative))
          else some (p2, .IfStatement p.curToken condition consequence none)

def parseExpressionStatement (lib : StdLib) : Nat → Parser → Option (Parser × Statement)
  | 0, _ => none
  | n + 1, p =>
    match parseExpression lib n LOWEST p with
    | none => none
    | some (p1, expression) =>
      some (if p1.peekTokenIs SEMICOLON then p1.nextToken lib else p1,
        .ExpressionStatement p.curToken expression)

def parseExpression (lib : StdLib) : Nat → Nat → Parser → Option (Parser × Expression)
  | 0, _, _ => none
  | n + 1, precedence, p =>
    match prefixParseFns p.curToken.Typ with
    | none => some (p.noPrefixParseFnError p.curToken.Typ, .nil)
    | some fn =>
      let r : Option (Parser × Expression) :=
        match fn with
        | .parseIdentifier => some p.parseIdentifier
        | .parseIntegerLiteral => some p.parseIntegerLiteral
        | .parseFloatLiteral => some (p.parseFloatLiteral lib)
        | .parseStringLiteral => some p.parseStringLiteral
        | .parseBoolean => some p.parseBoolean
        | .parseGroupedExpression => parseGroupedExpression lib n p
        | .parseSpinExpression => parseSpinExpression lib n p
        | .parseFlowExpression => parseFlowExpression lib n p
        | .parseMatchExpression => parseMatchExpression lib n p
      match r with
      | none => none
      | some (p1, leftExp) => parseExpressionLoop lib n precedence p1 leftExp

/-- The `for` loop of `parseExpression`. -/
def parseExpressionLoop (lib : StdLib) :
    Nat → Nat → Parser → Expression → Option (Parser × Expression)
  | 0, _, _, _ => none
  | n + 1, precedence, p, leftExp =>
    if p.peekTokenIs SEMICOLON = false ∧ precedence < p.peekPrecedence then
      if infixParseFns p.peekToken.Typ = false then some (p, leftExp)
      else
        match parseInfixExpression lib n (p.nextToken lib) leftExp with
        | none => none
        | some (p1, e) => parseExpressionLoop lib n precedence p1 e
    else some (p, leftExp)

def parseGroupedExpression (lib : StdLib) : Nat → Parser → Option (Parser × Expression)
  | 0, _ => none
  | n + 1, p =>
    match parseExpression lib n LOWEST (p.nextToken lib) with
    | none => none
    | some (p1, exp) =>
      let r := p1.expectPeek lib RPAREN
      if r.2 = false then some (r.1, .nil) else some (r.1, exp)

def parseSpinExpression (lib : StdLib) : Nat → Parser → Option (Parser × Expression)
  | 0, _ => none
  | n + 1, p =>
    match parseExpression lib n LOWEST (p.nextToken lib) with
    | none => none
    | some (p1, function) =>
      let r := p1.expectPeek lib LPAREN
      if r.2 = false then some (r.1, .nil)
      else
        match parseExpressionList lib n RPAREN r.1 with
        | none => none
        | some (p2, arguments) => some (p2, .SpinExpression p.curToken function arguments)

def parseFlowExpression (lib : StdLib) : Nat → Parser → Option (Parser × Expression)
  | 0, _ => none
  | n + 1, p =>
    match parseExpression lib n LOWEST (p.nextToken lib) with
    | none => none
    | some (p1, channelType) => some (p1, .FlowExpression p.curToken channelType)

def parseMatchExpression (lib : StdLib) : Nat → Parser → Option (Parser × Expression)
  | 0, _ => none
  | n + 1, p =>
    match parseExpression lib n LOWEST (p.nextToken lib) with
    | none => none
    | some (p1, expression) =>
      let r := p1.expectPeek lib LBRACE
      if r.2 = false then some (r.1, .nil)
      else
        match parseMatchLoop lib n (r.1.nextToken lib) [] with
        | none => none
        | some (p2, cases) => some (p2, .MatchExpression p.curToken expression cases)

/-- The `for` loop of `parseMatchExpression`. -/
def parseMatchLoop (lib : StdLib) :
    Nat → Parser → List WhenCase → Option (Parser × List WhenCase)
  | 0, _, _ => none
  | n + 1, p, cases =>
    if p.curTokenIs RBRACE = false ∧ p.curTokenIs EOF = false then
      if p.curTokenIs WHEN then
        match parseWhenCase lib n p with
        | none => none
        | some (p1, whenCase) =>
          parseMatchLoop lib n (p1.nextToken lib) (appendCase cases whenCase)
      else parseMatchLoop lib n (p.nextToken lib) cases
    else some (p, cases)

def parseWhenCase (lib : StdLib) : Nat → Parser → Option (Parser × Option WhenCase)
  | 0, _ => none
  | n + 1, p =>
    match parsePattern lib n (p.nextToken lib) with
    | none => none
    | some (p1, pattern) =>
      let r := p1.expectPeek lib COLON
      if r.2 = false then some (r.1, none)
      else
        match parseExpression lib n LOWEST (r.1.nextToken lib) with
        | none => none
        | some (p2, consequence) => some (p2, some (.mk p.curToken pattern consequence))

def parsePattern (lib : StdLib) : Nat → Parser → Option (Parser × Expression)
  | 0, _ => none
  | n + 1, p =>
    match parseExpression lib n CALL p with
    | none => none
    | some (p1, pattern) =>
      if p1.peekTokenIs LPAREN then
        match parsePatternLoop lib n (p1.nextToken lib) with
        | none => none
        | some p2 => some (p2, pattern)
      else some (p1, pattern)

def parseInfixExpression (lib : StdLib) :
    Nat → Parser → Expression → Option (Parser × Expression)
  | 0, _, _ => none
  | n + 1, p, left =>
    match parseExpression lib n p.curPrecedence (p.nextToken lib) with
    | none => none
    | some (p1, right) => some (p1, .InfixExpression p.curToken left p.curToken.Literal right)

def parseBlockStatement (lib : StdLib) : Nat → Parser → Option (Parser × BlockStatement)
  | 0, _ => none
  | n + 1, p =>
    match parseBlockLoop lib n (p.nextToken lib) [] with
    | none => none
    | some (p1, stmts) => some (p1, .mk p.curToken stmts)

/-- The `for` loop of `parseBlockStatement`. -/
def parseBlockLoop (lib : StdLib) :
    Nat → Parser → List Statement → Option (Parser × List Statement)
  | 0, _, _ => none
  | n + 1, p, stmts =>
    if p.curTokenIs RBRACE = false ∧ p.curTokenIs EOF = false then
      match parseStatement lib n p with
      | none => none
      | some (p1, stmt) => parseBlockLoop lib n (p1.nextToken lib) (appendStatement stmts stmt)
    else some (p, stmts)

def parseExpressionList (lib : StdLib) :
    Nat → TokenType → Parser → Option (Parser × List Expression)
  | 0, _, _ => none
  | n + 1, end_, p =>
    if p.peekTokenIs end_ then some (p.nextToken lib, [])
    else
      match parseExpression lib n LOWEST (p.nextToken lib) with
      | none => none
      | some (p1, e) =>
        match parseExpressionListLoop lib n p1 [e] with
        | none => none
        | some (p2, list) =>
          let r := p2.expectPeek lib end_
          if r.2 = false then some (r.1, []) else some (r.1, list)

/-- The `for` loop of `parseExpressionList`. -/
def parseExpressionListLoop (lib : StdLib) :
    Nat → Parser → List Expression → Option (Parser × List Expression)
  | 0, _, _ => none
  | n + 1, p, list =>
    if p.peekTokenIs COMMA then
      match parseExpression lib n LOWEST ((p.nextToken lib).nextToken lib) with
      | none => none
      | some (p1, e) => parseExpressionListLoop lib n p1 (list ++ [e])
    else some (p, list)

end

/-- The `for` loop of `ParseProgram`. -/
def ParseProgramLoop (lib : StdLib) :
    Nat → Parser → List Statement → Option (Parser × List Statement)
  | 0, _, _ => none
  | n + 1, p, stmts =>
    if p.curTokenIs EOF = false then
      match parseStatement lib n p with
      | none => none
      | some (p1, stmt) => ParseProgramLoop lib n (p1.nextToken lib) (appendStatement stmts stmt)
    else some (p, stmts)

def ParseProgram (lib : StdLib) (fuel : Nat) (p : Parser) : Option (Parser × Program) :=
  match ParseProgramLoop lib fuel p [] with
  | none => none
  | some (p1, stmts) => some (p1, { Statements := stmts })

end Parser

/-! ## Package `codegen` -/

/-- The struct `CodeGenerator`. A `map[string]bool` in which every stored value is
`true` is the list of its keys. The top of `scopeStack` (its last element in Go) is the
head of the list. -/
structure CodeGenerator where
  output : Str := []
  indent : Nat := 0
  errors : List Str := []
  hasMain : Bool := false
  imports : List Str := []
  declaredVars : List Str := []
  scopeStack : List (List Str) := []
  deriving DecidableEq, Repr

/-- How a method of the generator that returns `error` ends: it returns nil, it returns
an error, or the run-time system panics on a nil pointer. -/
inductive Res where
  | ok (g : CodeGenerator)
  | error (g : CodeGenerator) (msg : Str)
  | panic
  deriving DecidableEq, Repr

/-- The idiom `if err := f(); err != nil \x7b return err \x7d` followed by the rest. -/
def Res.bind (r : Res) (rest : CodeGenerator → Res) : Res :=
  match r with
  | .ok g => rest g
  | .error g msg => .error g msg
  | .panic => .panic

/-- The verb `%d` of `fmt.Sprintf` on an integer. -/
def formatInt (v : Int) : Str :=
  if v < 0 then '-' :: Nat.toDigits 10 v.natAbs else Nat.toDigits 10 v.toNat

namespace CodeGenerator

def write (g : CodeGenerator) (s : Str) : CodeGenerator :=
  { g with output := g.output ++ s }

def writeIndent (g : CodeGenerator) : CodeGenerator :=
  { g with output := g.output ++ List.replicate g.indent '\t' }

def writeLine (g : CodeGenerator) (s : Str) : CodeGenerator :=
  let g1 := g.writeIndent
  let g2 := { g1 with output := g1.output ++ s }
  { g2 with output := g2.output ++ "\n".toList }

def pushScope (g : CodeGenerator) : CodeGenerator :=
  match g.scopeStack with
  | [] => { g with scopeStack := [[]] }
  | parentScope :: rest => { g with scopeStack := parentScope :: parentScope :: rest }

def popScope (g : CodeGenerator) : CodeGenerator :=
  match g.scopeStack with
  | [] => g
  | _ :: rest => { g with scopeStack := rest }

def isVarDeclared (g : CodeGenerator) (name : Str) : Bool :=
  match g.scopeStack with
  | [] => false
  | currentScope :: _ => decide (name ∈ currentScope)

def declareVar (g : CodeGenerator) (name : Str) : CodeGenerator :=
  match g.scopeStack with
  | [] => g
  | currentScope :: rest => { g with scopeStack := (name :: currentScope) :: rest }

def New : CodeGenerator :=
  pushScope { imports := [], declaredVars := [], scopeStack := [] }

/-- The statement `g.indent++`. -/
def incIndent (g : CodeGenerator) : CodeGenerator :=
  { g with indent := g.indent + 1 }

/-- The statement `g.indent--`. -/
def decIndent (g : CodeGenerator) : CodeGenerator :=
  { g with indent := g.indent - 1 }

/-- The assignment `g.imports[name] = true`. -/
def addImport (g : CodeGenerator) (name : Str) : CodeGenerator :=
  if name ∈ g.imports then g else { g with imports := g.imports ++ [name] }

/-- The body of `generateSpinExpression`; `function` emits `exp.Function` and
`arguments` runs the loop over `exp.Arguments`. -/
def generateSpinExpression (fn : Expression) (function arguments : CodeGenerator → Res)
    (g : CodeGenerator) : Res :=
  let builtin : Bool :=
    match fn with
    | .Identifier _ value => decide (value = "print".toList ∨ value = "println".toList)
    | _ => false
  if builtin then
    (arguments (g.write "fmt.Println(".toList)).bind fun g1 => .ok (g1.write ")".toList)
  else
    (function g).bind fun g1 =>
      (arguments (g1.write "(".toList)).bind fun g2 => .ok (g2.write ")".toList)

/-- The body of `generateFlowExpression`; `channelType` emits `exp.ChannelType`. -/
def generateFlowExpression (ct : Expression) (channelType : CodeGenerator → Res)
    (g : CodeGenerator) : Res :=
  let isChannel : Bool :=
    match ct with
    | .Identifier _ value => decide (value = "channel".toList)
    | _ => false
  if isChannel then
    .ok ((g.write "make(chan ".toList).write "interface\x7b\x7d)".toList)
  else
    (channelType (g.write "make(".toList)).bind fun g1 => .ok (g1.write ")".toList)

/-- The body of `generateMatchExpression`; `expression` emits `exp.Expression` and
`cases` runs the loop over `exp.Cases`. -/
def generateMatchExpression (expression cases : CodeGenerator → Res) (g : CodeGenerator) : Res :=
  (expression (((g.write "func() interface\x7b\x7d \x7b\n".toList).incIndent.writeIndent).write
      "switch ".toList)).bind fun g1 =>
    (cases (g1.write " \x7b\n".toList)).bind fun g2 =>
      .ok ((((((g2.writeIndent.write "\x7d\n".toList).writeIndent).write
        "return nil\n".toList).decIndent).writeIndent).write "\x7d()".toList)

/-- One turn of the loop over `exp.Cases` in `generateMatchExpression`. -/
def generateWhenCase (pattern consequence : CodeGenerator → Res) (g : CodeGenerator) : Res :=
  (pattern (g.writeIndent.write "case ".toList)).bind fun g1 =>
    (consequence (((g1.write ":\n".toList).incIndent.writeIndent).write
        "return ".toList)).bind fun g2 =>
      .ok ((g2.write "\n".toList).decIndent)

mutual

def generateExpression (lib : StdLib) : Expression → CodeGenerator → Res
  | .Identifier _ value, g => .ok (g.write value)
  | .IntegerLiteral _ value, g => .ok (g.write (formatInt value))
  | .FloatLiteral _ value, g => .ok (g.write (lib.formatFloat value))
  | .StringLiteral _ value, g => .ok (g.write ('"' :: value ++ ['"']))
  | .Boolean _ value, g => .ok (g.write (if value then "true".toList else "false".toList))
  | .InfixExpression _ left operator right, g =>
    (generateExpression lib left (g.write "(".toList)).bind fun g1 =>
      (generateExpression lib right
          (g1.write (" ".toList ++ operator ++ " ".toList))).bind fun g2 =>
        .ok (g2.write ")".toList)
  | .SpinExpression _ function arguments, g =>
    generateSpinExpression function (generateExpression lib function)
      (generateArguments lib arguments 0) g
  | .FlowExpression _ channelType, g =>
    generateFlowExpression channelType (generateExpression lib channelType) g
  | .MatchExpression _ expression cases, g =>
    generateMatchExpression (generateExpression lib expression) (generateCases lib cases) g
  | .nil, g => .error g "unknown expression type: <nil>".toList

/-- The loop `for i, arg := range exp.Arguments` of `generateSpinExpression`, from
index `i` on. -/
def generateArguments (lib : StdLib) : List Expression → Nat → CodeGenerator → Res
  | [], _, g => .ok g
  | arg :: rest, i, g =>
    (generateExpression lib arg (if i > 0 then g.write ", ".toList else g)).bind fun g1 =>
      generateArguments lib rest (i + 1) g1

/-- The loop `for _, c := range exp.Cases` of `generateMatchExpression`. -/
def generateCases (lib : StdLib) : List WhenCase → CodeGenerator → Res
  | [], g => .ok g
  | .mk _ pattern consequence :: rest, g =>
    (generateWhenCase (generateExpression lib pattern)
        (generateExpression lib consequence) g).bind fun g1 =>
      generateCases lib rest g1

end

def generateDanceStatement (lib : StdLib) (name : Identifier) (value : Expression)
    (g : CodeGenerator) : Res :=
  let g1 := g.writeIndent
  let g2 :=
    if g1.isVarDeclared name.Value then (g1.write name.Value).write " = ".toList
    else ((g1.write name.Value).write " := ".toList).declareVar name.Value
  (generateExpression lib value g2).bind fun g3 => .ok (g3.write "\n".toList)

def generateExpressionStatement (lib : StdLib) (expression : Expression)
    (g : CodeGenerator) : Res :=
  (generateExpression lib expression g.writeIndent).bind fun g1 =>
    .ok (g1.write "\n".toList)

def generateSendStatement (lib : StdLib) (channel value : Expression)
    (g : CodeGenerator) : Res :=
  (generateExpression lib channel g.writeIndent).bind fun g1 =>
    (generateExpression lib value (g1.write " <- ".toList)).bind fun g2 =>
      .ok (g2.write "\n".toList)

/-- The body of `generateSwayStatement`; `body` runs the loop over
`stmt.Body.Statements`. -/
def generateSwayStatement (lib : StdLib) (variable_ : Identifier) (from_ to_ : Expression)
    (body : CodeGenerator → Res) (g : CodeGenerator) : Res :=
  (generateExpression lib from_
      (((g.writeIndent.write "for ".toList).write variable_.Value).write " := ".toList)).bind
    fun g1 =>
    (generateExpression lib to_
        (((g1.write "; ".toList).write variable_.Value).write " <= ".toList)).bind fun g2 =>
      (body (((((g2.write "; ".toList).write variable_.Value).write
          "++ \x7b\n".toList).pushScope).declareVar variable_.Value).incIndent).bind fun g3 =>
        .ok (((g3.decIndent.popScope).writeIndent).write "\x7d\n".toList)

/-- The body of `generateStartStatement`; `statement` emits `stmt.Statement`. -/
def generateStartStatement (statement : CodeGenerator → Res) (g : CodeGenerator) : Res :=
  (statement ((g.writeIndent.write "go func() \x7b\n".toList).pushScope).incIndent).bind fun g1 =>
    .ok (((g1.decIndent.popScope).writeIndent).write "\x7d()\n".toList)

/-- The body of `generateIfStatement`; `consequence` runs the loop over
`stmt.Consequence.Statements`, and `alternative` the one over
`stmt.Alternative.Statements` when that pointer is not nil. -/
def generateIfStatement (lib : StdLib) (condition : Expression)
    (consequence : CodeGenerator → Res) (alternative : Option (CodeGenerator → Res))
    (g : CodeGenerator) : Res :=
  (generateExpression lib condition (g.writeIndent.write "if ".toList)).bind fun g1 =>
    (consequence ((g1.write " \x7b\n".toList).pushScope).incIndent).bind fun g2 =>
      let g3 := ((g2.decIndent.popScope).writeIndent).write "\x7d".toList
      match alternative with
      | some alt =>
        (alt ((g3.write " else \x7b\n".toList).pushScope).incIndent).bind fun g4 =>
          .ok ((((g4.decIndent.popScope).writeIndent).write "\x7d".toList).write "\n".toList)
      | none => .ok (g3.write "\n".toList)

mutual

def generateStatement (lib : StdLib) : Statement → CodeGenerator → Res
  | .DanceStatement _ name value, g => generateDanceStatement lib name value g
  | .nilDanceStatement, _ => .panic
  | .ExpressionStatement _ expression, g => generateExpressionStatement lib expression g
  | .SwayStatement _ variable_ from_ to_ (.mk _ stmts), g =>
    generateSwayStatement lib variable_ from_ to_ (generateStatements lib stmts) g
  | .nilSwayStatement, _ => .panic
  | .StartStatement _ statement, g => generateStartStatement (generateStatement lib statement) g
  | .SendStatement _ channel value, g => generateSendStatement lib channel value g
  | .nilSendStatement, _ => .panic
  | .IfStatement _ condition (.mk _ stmts) none, g =>
    generateIfStatement lib condition (generateStatements lib stmts) none g
  | .IfStatement _ condition (.mk _ stmts) (some (.mk _ alt)), g =>
    generateIfStatement lib condition (generateStatements lib stmts)
      (some (generateStatements lib alt)) g
  | .nilIfStatement, _ => .panic
  | .Block _, g => .error g "unknown statement type: *ast.BlockStatement".toList
  | .nil, g => .error g "unknown statement type: <nil>".toList

/-- A loop `for _, s := range stmts` that emits each statement and returns at the
first error. -/
def generateStatements (lib : StdLib) : List Statement → CodeGenerator → Res
  | [], g => .ok g
  | s :: rest, g => (generateStatement lib s g).bind fun g1 => generateStatements lib rest g1

end

/-- Whether the expression is a `*ast.SpinExpression` whose `Function` is an
`*ast.Identifier` with the value `print` or `println`. -/
def isPrintCall : Expression → Bool
  | .SpinExpression _ (.Identifier _ value) _ =>
    decide (value = "print".toList ∨ value = "println".toList)
  | _ => false

mutual

/-- The method `collectImports`; `none` is a panic on a nil pointer. -/
def collectImports : Statement → CodeGenerator → Option CodeGenerator
  | .ExpressionStatement _ expression, g =>
    if isPrintCall expression then some (g.addImport "fmt".toList) else some g
  | .SwayStatement _ _ _ _ (.mk _ stmts), g => collectImportsFromBlock stmts g
  | .nilSwayStatement, _ => none
  | .StartStatement _ statement, g => collectImports statement g
  | .IfStatement _ _ (.mk _ stmts) none, g => collectImportsFromBlock stmts g
  | .IfStatement _ _ (.mk _ stmts) (some (.mk _ alt)), g =>
    match collectImportsFromBlock stmts g with
    | none => none
    | some g1 => collectImportsFromBlock alt g1
  | .nilIfStatement, _ => none
  | .DanceStatement _ _ _, g => some g
  | .nilDanceStatement, g => some g
  | .SendStatement _ _ _, g => some g
  | .nilSendStatement, g => some g
  | .Block _, g => some g
  | .nil, g => some g

/-- The method `collectImportsFromBlock`, on the statements of the block. -/
def collectImportsFromBlock : List Statement → CodeGenerator → Option CodeGenerator
  | [], g => some g
  | s :: rest, g =>
    match collectImports s g with
    | none => none
    | some g1 => collectImportsFromBlock rest g1

end

/-- The loop `for imp := range g.imports` of `Generate`. -/
def writeImports : List Str → CodeGenerator → CodeGenerator
  | [], g => g
  | imp :: rest, g => writeImports rest (g.writeLine ('"' :: imp ++ ['"']))

/-- The method `Generate`. On `Res.ok g` the text returned is `g.output` and the error is
nil; on `Res.error` the text returned is empty. -/
def Generate (lib : StdLib) (g : CodeGenerator) (program : Program) : Res :=
  let g1 := g.write "package main\n\n".toList
  match collectImportsFromBlock program.Statements g1 with
  | none => .panic
  | some g2 =>
    let g3 :=
      if g2.imports.length > 0 then
        (((writeImports g2.imports (g2.write "import (\n".toList).incIndent).decIndent).write
          ")\n\n".toList)
      else g2
    (generateStatements lib program.Statements
        ((g3.write "func main() \x7b\n".toList).incIndent)).bind fun g4 =>
      .ok (g4.decIndent.write "\x7d\n".toList)

end CodeGenerator

/-- A standard library whose tables above Latin-1 are empty; used to run examples on
ASCII input, where the tables are not consulted. -/
def asciiLib : StdLib :=
  { letterTable := fun _ => false, digitTable := fun _ => false,
    parseFloat := fun _ => some 0, formatFloat := fun _ => "0.000000".toList }

/-! ## Notions used to state the theorems -/

/-- Kind and lexeme of a token, without its position. -/
def Token.kindLit (t : Token) : TokenType × Str :=
  (t.Typ, t.Literal)

/-- The number that a string of ASCII digits denotes in the given base, read from the
left and continuing from `acc`. -/
def digitsValue (base : Nat) (acc : Nat) (d : Str) : Nat :=
  d.foldl (fun n c => n * base + (c.toNat - 0x30)) acc

/-- The decimal value of a string of ASCII digits. -/
def decimalValue (d : Str) : Nat :=
  digitsValue 10 0 d

/-- The octal value of a string of ASCII digits. -/
def octalValue (d : Str) : Nat :=
  digitsValue 8 0 d

/-- The parser after the diagnostic that `parseIntegerLiteral` appends for the lexeme
of the current token. -/
def Parser.withIntegerError (p : Parser) : Parser :=
  { p with errors := p.errors ++
      ["could not parse \"".toList ++ p.curToken.Literal ++ "\" as integer".toList] }

/-- The lexer `l2` reads a suffix of the input of `l1` that starts `k` runes in, and the
two are at the same rune of that suffix. -/
structure Lexer.Shifted (k : Nat) (l1 l2 : Lexer) : Prop where
  input : ∃ pre : Str, pre.length = k ∧ l1.input = pre ++ l2.input
  readPosition : l1.readPosition = l2.readPosition + k
  position : l1.position = l2.position + k
  ch : l1.ch = l2.ch

/-- The text between the quotes of a string literal: runes other than `"`, `\` and NUL,
and pairs of a backslash and a rune other than NUL. -/
def stringBody : Str → Bool
  | [] => true
  | c :: rest =>
    if c = '\\' then
      match rest with
      | [] => false
      | d :: rest2 => d ≠ NUL && stringBody rest2
    else c ≠ '"' && c ≠ NUL && stringBody rest

/-- The lexer is on the rune `c` of its input `pre ++ c :: post`. -/
structure Lexer.At (l : Lexer) (pre : Str) (c : Char) (post : Str) : Prop where
  input : l.input = pre ++ c :: post
  position : l.position = pre.length
  readPosition : l.readPosition = pre.length + 1
  ch : l.ch = c

/-- The lexer has met the end of its input. -/
structure Lexer.AtEnd (l : Lexer) : Prop where
  ch : l.ch = NUL
  readPosition : l.readPosition ≥ l.input.length

/-- Two results of `NextToken` agree up to a shift of the input: the lexers are shifted
and the tokens have the same kind and lexeme. -/
def Lexer.SameStep (k : Nat) (r1 r2 : Lexer × Token) : Prop :=
  Lexer.Shifted k r1.1 r2.1 ∧ r1.2.kindLit = r2.2.kindLit

/-- The text that `generateExpression` writes for an expression at the given
indentation: the output of a run that starts with an empty buffer, `none` when the run
does not return nil. -/
def emitExpression (lib : StdLib) (indent : Nat) (e : Expression) : Option Str :=
  match CodeGenerator.generateExpression lib e { indent := indent } with
  | .ok g => some g.output
  | _ => none

/-- The names of the dance statements of a statement list (those of the list itself,
not of nested blocks), in order. -/
def danceNames : List Statement → List Str
  | [] => []
  | .DanceStatement _ name _ :: rest => name.Value :: danceNames rest
  | _ :: rest => danceNames rest

/-- The nested blocks of a statement, each with the loop variable that is declared in
it, if any: the body of a sway, the statement of a start, the branches of an if. -/
def nestedBlocks : Statement → List (Option Str × List Statement)
  | .SwayStatement _ variable_ _ _ (.mk _ stmts) => [(some variable_.Value, stmts)]
  | .StartStatement _ statement => [(none, [statement])]
  | .IfStatement _ _ (.mk _ stmts) none => [(none, stmts)]
  | .IfStatement _ _ (.mk _ stmts) (some (.mk _ alt)) => [(none, stmts), (none, alt)]
  | _ => []

/-- A piece of emission only appends to the output, and what it appends depends on the
state only through the indentation. -/
def CodeGenerator.Lockstep (run : CodeGenerator → Res) : Prop :=
  ∀ b b', run b = .ok b' →
    ∃ s, b' = b.write s ∧ ∀ g, g.indent = b.indent → run g = .ok (g.write s)

/-- The current scope after a statement has been emitted in the scope `top`: a dance
statement adds its name unless it is there already, every other statement leaves the
scope as it was. -/
def declare (top : List Str) : Statement → List Str
  | .DanceStatement _ name _ => if name.Value ∈ top then top else name.Value :: top
  | _ => top

/-- The current scope after a list of statements has been emitted in the scope `top`. -/
def declareAll (top : List Str) (stmts : List Statement) : List Str :=
  stmts.foldl declare top

/-- A piece of emission that keeps the indentation, only appends to the output, and
changes the scope stack only by turning the current scope `top` into `f top`. -/
def CodeGenerator.Scoped (run : CodeGenerator → Res) (f : List Str → List Str) : Prop :=
  ∀ g g' top rest, run g = .ok g' → g.scopeStack = top :: rest →
    g'.indent = g.indent ∧ (∃ s, g'.output = g.output ++ s) ∧ g'.scopeStack = f top :: rest

mutual

/-- An expression without a nil interface value anywhere in it. -/
def Expression.wellFormed : Expression → Bool
  | .nil => false
  | .Identifier _ _ => true
  | .IntegerLiteral _ _ => true
  | .FloatLiteral _ _ => true
  | .StringLiteral _ _ => true
  | .Boolean _ _ => true
  | .InfixExpression _ left _ right => left.wellFormed && right.wellFormed
  | .SpinExpression _ function arguments => function.wellFormed && wellFormedList arguments
  | .FlowExpression _ channelType => channelType.wellFormed
  | .MatchExpression _ expression cases => expression.wellFormed && wellFormedCases cases

/-- A list of well-formed expressions. -/
def wellFormedList : List Expression → Bool
  | [] => true
  | e :: rest => e.wellFormed && wellFormedList rest

/-- A list of when cases whose patterns and consequences are well-formed. -/
def wellFormedCases : List WhenCase → Bool
  | [] => true
  | .mk _ pattern consequence :: rest =>
    pattern.wellFormed && consequence.wellFormed && wellFormedCases rest

end

mutual

/-- A statement of one of the six kinds that `generateStatement` knows, held through a
non-nil pointer, with well-formed expressions and statements inside. -/
def Statement.wellFormed : Statement → Bool
  | .DanceStatement _ _ value => value.wellFormed
  | .ExpressionStatement _ expression => expression.wellFormed
  | .SwayStatement _ _ from_ to_ (.mk _ stmts) =>
    from_.wellFormed && to_.wellFormed && wellFormedStatements stmts
  | .StartStatement _ statement => statement.wellFormed
  | .SendStatement _ channel value => channel.wellFormed && value.wellFormed
  | .IfStatement _ condition (.mk _ stmts) none =>
    condition.wellFormed && wellFormedStatements stmts
  | .IfStatement _ condition (.mk _ stmts) (some (.mk _ alt)) =>
    condition.wellFormed && wellFormedStatements stmts && wellFormedStatements alt
  | .nil => false
  | .nilDanceStatement => false
  | .nilSwayStatement => false
  | .nilSendStatement => false
  | .nilIfStatement => false
  | .Block _ => false

/-- A list of well-formed statements. -/
def wellFormedStatements : List Statement → Bool
  | [] => true
  | s :: rest => s.wellFormed && wellFormedStatements rest

end

/-- The error list of `p2` is the one of `p1` with diagnostics appended. -/
def Parser.Grows (p1 p2 : Parser) : Prop :=
  ∃ new, p2.errors = p1.errors ++ new

/-- What a step of the parser from `p1` to `p2` guarantees: diagnostics are only
appended, and `good` holds of the result when none was appended. -/
def Parser.Inv (p1 p2 : Parser) (good : Prop) : Prop :=
  Parser.Grows p1 p2 ∧ (p2.errors = p1.errors → good)

/-- A piece of emission that returns nil from every state. -/
def CodeGenerator.Total (run : CodeGenerator → Res) : Prop :=
  ∀ g, ∃ g', run g = .ok g'

/-- What every function of the recursive-descent parser guarantees when it returns with
the given fuel: diagnostics are only appended, and when none was appended the node
returned is well-formed (given that the nodes passed in are). -/
structure Parser.Specs (lib : StdLib) (n : Nat) : Prop where
  parseStatement : ∀ p p' s, Parser.parseStatement lib n p = some (p', s) →
    Parser.Inv p p' (s.wellFormed = true)
  parseDanceStatement : ∀ p p' s, Parser.parseDanceStatement lib n p = some (p', s) →
    Parser.Inv p p' (s.wellFormed = true)
  parseSwayStatement : ∀ p p' s, Parser.parseSwayStatement lib n p = some (p', s) →
    Parser.Inv p p' (s.wellFormed = true)
  parseStartStatement : ∀ p p' s, Parser.parseStartStatement lib n p = some (p', s) →
    Parser.Inv p p' (s.wellFormed = true)
  parseSendStatement : ∀ p p' s, Parser.parseSendStatement lib n p = some (p', s) →
    Parser.Inv p p' (s.wellFormed = true)
  parseIfStatement : ∀ p p' s, Parser.parseIfStatement lib n p = some (p', s) →
    Parser.Inv p p' (s.wellFormed = true)
  parseExpressionStatement : ∀ p p' s,
    Parser.parseExpressionStatement lib n p = some (p', s) →
    Parser.Inv p p' (s.wellFormed = true)
  parseExpression : ∀ prec p p' e, Parser.parseExpression lib n prec p = some (p', e) →
    Parser.Inv p p' (e.wellFormed = true)
  parseExpressionLoop : ∀ prec p left p' e,
    Parser.parseExpressionLoop lib n prec p left = some (p', e) →
    Parser.Inv p p' (left.wellFormed = true → e.wellFormed = true)
  parseGroupedExpression : ∀ p p' e, Parser.parseGroupedExpression lib n p = some (p', e) →
    Parser.Inv p p' (e.wellFormed = true)
  parseSpinExpression : ∀ p p' e, Parser.parseSpinExpression lib n p = some (p', e) →
    Parser.Inv p p' (e.wellFormed = true)
  parseFlowExpression : ∀ p p' e, Parser.parseFlowExpression lib n p = some (p', e) →
    Parser.Inv p p' (e.wellFormed = true)
  parseMatchExpression : ∀ p p' e, Parser.parseMatchExpression lib n p = some (p', e) →
    Parser.Inv p p' (e.wellFormed = true)
  parseMatchLoop : ∀ p cases p' r, Parser.parseMatchLoop lib n p cases = some (p', r) →
    Parser.Inv p p' (wellFormedCases cases = true → wellFormedCases r = true)
  parseWhenCase : ∀ p p' r, Parser.parseWhenCase lib n p = some (p', r) →
    Parser.Inv p p' (∃ c, r = some c ∧ wellFormedCases [c] = true)
  parsePattern : ∀ p p' e, Parser.parsePattern lib n p = some (p', e) →
    Parser.Inv p p' (e.wellFormed = true)
  parseInfixExpression : ∀ p left p' e,
    Parser.parseInfixExpression lib n p left = some (p', e) →
    Parser.Inv p p' (left.wellFormed = true → e.wellFormed = true)
  parseBlockStatement : ∀ p p' b, Parser.parseBlockStatement lib n p = some (p', b) →
    Parser.Inv p p' (wellFormedStatements b.Statements = true)
  parseBlockLoop : ∀ p stmts p' r, Parser.parseBlockLoop lib n p stmts = some (p', r) →
    Parser.Inv p p' (wellFormedStatements stmts = true → wellFormedStatements r = true)
  parseExpressionList : ∀ end_ p p' r,
    Parser.parseExpressionList lib n end_ p = some (p', r) →
    Parser.Inv p p' (wellFormedList r = true)
  parseExpressionListLoop : ∀ p list p' r,
    Parser.parseExpressionListLoop lib n p list = some (p', r) →
    Parser.Inv p p' (wellFormedList list = true → wellFormedList r = true)

/-- The sixteen reserved spellings with their token kinds, as the language definition
lists them. -/
def reserved : List (Str × TokenType) :=
  [ ("dance".toList, DANCE), ("sway".toList, SWAY), ("spin".toList, SPIN),
    ("flow".toList, FLOW), ("start".toList, START), ("send".toList, SEND_KW),
    ("match".toList, MATCH), ("when".toList, WHEN), ("from".toList, FROM),
    ("to".toList, TO), ("if".toList, IF), ("else".toList, ELSE),
    ("return".toList, RETURN), ("function".toList, FUNCTION), ("true".toList, TRUE),
    ("false".toList, FALSE) ]
/-- The lexer has the text `rest` before it, its current rune included: it is on the
first rune of `rest` (after `pre`), or at the end of its input when `rest` is empty. -/
def Lexer.Reading (l : Lexer) (pre : Str) : Str → Prop
  | [] => Lexer.AtEnd l ∧ l.input = pre
  | d :: r => Lexer.At l pre d r
/-- The lexer `l2` is the lexer `l1` after some calls of `readChar`. -/
def Lexer.Reads (l1 l2 : Lexer) : Prop :=
  ∃ k : Nat, l2 = (Lexer.readChar^[k]) l1

/-- The position `(line1, column1)` is not after `(line2, column2)` in lexicographic
order. -/
def posLE (line1 column1 line2 column2 : Nat) : Prop :=
  line1 < line2 ∨ (line1 = line2 ∧ column1 ≤ column2)

/-- The cursor of the lexer counts from one: the line is at least 1, and the column is
at least 1 whenever the current rune is a rune of the input other than a newline. -/
def Lexer.Counted (l : Lexer) : Prop :=
  1 ≤ l.line ∧ (l.ch ≠ NUL → l.ch ≠ '\n' → 1 ≤ l.column)

/-- What a call of `NextToken` on `l` does, as far as positions go: it reads on to a
state `la`, takes the position of the token there, and reads on to the state it leaves;
unless the token is EOF or STRING, `la` is on a rune other than NUL and newline. -/
def Lexer.Traced (l : Lexer) (r : Lexer × Token) : Prop :=
  ∃ la : Lexer, Lexer.Reads l la ∧ Lexer.Reads la r.1 ∧
    r.2.Line = la.line ∧ r.2.Column = la.column ∧
    (r.2.Typ ≠ EOF → r.2.Typ ≠ STRING → la.ch ≠ NUL ∧ la.ch ≠ '\n')

/-- Kind and lexeme of the token that `NextToken` returns at the end of the input. -/
def eofTok : TokenType × Str := (EOF, [])

/-- From the state `l` on, `NextToken` returns tokens with the kinds and lexemes `ts`, in
this order, and after them the end-of-input token for ever. -/
def Lexer.Tokens (lib : StdLib) : Lexer → List (TokenType × Str) → Prop
  | l, [] => ∀ n, (Lexer.nthToken lib l n).kindLit = eofTok
  | l, t :: ts =>
    (Lexer.NextToken lib l).2.kindLit = t ∧ Lexer.Tokens lib (Lexer.NextToken lib l).1 ts

/-- The text `txt` is scanned into the tokens `ts`: every lexer that has exactly `txt`
before it returns `ts` and then the end-of-input token. -/
def Lexes (lib : StdLib) (txt : Str) (ts : List (TokenType × Str)) : Prop :=
  ∀ (l : Lexer) (pre : Str), Lexer.Reading l pre txt → Lexer.Tokens lib l ts

/-- The runes that `skipWhitespace` skips. -/
def blank (c : Char) : Bool :=
  c = ' ' || c = '\t' || c = '\n' || c = '\r'

/-- Runes after which no token goes on: white space and the punctuation `, ; : ( ) [ ]`
and braces. -/
def stops (c : Char) : Bool :=
  blank c || c = ',' || c = ';' || c = ':' || c = '(' || c = ')' || c = '{' || c = '}' ||
    c = '[' || c = ']'

/-- The runes that `readIdentifier` reads on over. -/
def identRune (lib : StdLib) (c : Char) : Bool :=
  isLetter lib c || isDigit lib c || c = '_'

/-- An identifier of the language: a letter or `_`, then letters, digits and `_`. -/
def identifier (lib : StdLib) : Str → Bool
  | [] => false
  | c :: r => isLetter lib c && r.all (identRune lib)

/-- The ASCII digits `0` to `9`. -/
def asciiDigit (c : Char) : Bool :=
  decide (0x30 ≤ c.toNat ∧ c.toNat ≤ 0x39)

/-- A non-empty string of ASCII digits. -/
def decimal : Str → Bool
  | [] => false
  | c :: r => (c :: r).all asciiDigit

/-- The tokens of one rune that `NextToken` recognises without looking at the next
rune. -/
def punct : Char → Option TokenType
  | '+' => some PLUS
  | '*' => some ASTERISK
  | ',' => some COMMA
  | ';' => some SEMICOLON
  | ':' => some COLON
  | '(' => some LPAREN
  | ')' => some RPAREN
  | '{' => some LBRACE
  | '}' => some RBRACE
  | '[' => some LBRACKET
  | ']' => some RBRACKET
  | _ => none

/-- The infix operators of the language with their token kinds. -/
def infixOps : List (TokenType × Str) :=
  [ (PLUS, "+".toList), (MINUS, "-".toList), (ASTERISK, "*".toList), (SLASH, "/".toList),
    (TokenType.EQ, "==".toList), (NOT_EQ, "!=".toList), (TokenType.LT, "<".toList),
    (TokenType.GT, ">".toList), (LTE, "<=".toList), (GTE, ">=".toList),
    (MATCH_OP, "=~".toList) ]
/-- The function `f` of the fuel returns `r` for every fuel that is large enough. -/
def Returns {α : Type} (f : Nat → Option α) (r : α) : Prop :=
  ∃ n, ∀ m, n ≤ m → f m = some r

/-- The parser after `k` calls of `nextToken`. -/
def Parser.advance (lib : StdLib) : Nat → Parser → Parser
  | 0, p => p
  | k + 1, p => Parser.advance lib k (p.nextToken lib)

/-- The parser has the tokens `ts` before it: its current token is the first of them,
its peek token the second, its lexer returns the others, and after `ts` every token is
the end-of-input token. -/
def Parser.Ahead (lib : StdLib) (p : Parser) (ts : List (TokenType × Str)) : Prop :=
  p.curToken.kindLit = ts.headD eofTok ∧ p.peekToken.kindLit = ts.tail.headD eofTok ∧
    Lexer.Tokens lib p.l ts.tail.tail

/-- A token without its position. -/
def Token.strip (t : Token) : Token :=
  { t with Line := 0, Column := 0 }

/-- The token of the given kind and lexeme, without a position. -/
def tokenOf (t : TokenType × Str) : Token :=
  { Typ := t.1, Literal := t.2, Line := 0, Column := 0 }

mutual

/-- An expression without the positions of its tokens. -/
def Expression.strip : Expression → Expression
  | .nil => .nil
  | .Identifier t v => .Identifier t.strip v
  | .IntegerLiteral t v => .IntegerLiteral t.strip v
  | .FloatLiteral t v => .FloatLiteral t.strip v
  | .StringLiteral t v => .StringLiteral t.strip v
  | .Boolean t v => .Boolean t.strip v
  | .InfixExpression t left op right => .InfixExpression t.strip left.strip op right.strip
  | .SpinExpression t function arguments =>
    .SpinExpression t.strip function.strip (stripList arguments)
  | .FlowExpression t channelType => .FlowExpression t.strip channelType.strip
  | .MatchExpression t expression cases =>
    .MatchExpression t.strip expression.strip (stripCases cases)

/-- A list of expressions without the positions of their tokens. -/
def stripList : List Expression → List Expression
  | [] => []
  | e :: rest => e.strip :: stripList rest

/-- A list of when cases without the positions of their tokens. -/
def stripCases : List WhenCase → List WhenCase
  | [] => []
  | .mk t pattern consequence :: rest =>
    .mk t.strip pattern.strip consequence.strip :: stripCases rest

end

mutual

/-- A statement without the positions of its tokens. -/
def Statement.strip : Statement → Statement
  | .nil => .nil
  | .DanceStatement t name value => .DanceStatement t.strip ⟨name.Tok.strip, name.Value⟩ value.strip
  | .nilDanceStatement => .nilDanceStatement
  | .ExpressionStatement t expression => .ExpressionStatement t.strip expression.strip
  | .SwayStatement t v from_ to_ (.mk bt stmts) =>
    .SwayStatement t.strip ⟨v.Tok.strip, v.Value⟩ from_.strip to_.strip
      (.mk bt.strip (stripStatements stmts))
  | .nilSwayStatement => .nilSwayStatement
  | .StartStatement t statement => .StartStatement t.strip statement.strip
  | .SendStatement t channel value => .SendStatement t.strip channel.strip value.strip
  | .nilSendStatement => .nilSendStatement
  | .IfStatement t condition (.mk ct stmts) none =>
    .IfStatement t.strip condition.strip (.mk ct.strip (stripStatements stmts)) none
  | .IfStatement t condition (.mk ct stmts) (some (.mk at_ alt)) =>
    .IfStatement t.strip condition.strip (.mk ct.strip (stripStatements stmts))
      (some (.mk at_.strip (stripStatements alt)))
  | .nilIfStatement => .nilIfStatement
  | .Block (.mk bt stmts) => .Block (.mk bt.strip (stripStatements stmts))

/-- A list of statements without the positions of their tokens. -/
def stripStatements : List Statement → List Statement
  | [] => []
  | s :: rest => s.strip :: stripStatements rest

end

/-- The token kinds that a statement can start with: the five statement keywords and
the kinds that have a prefix parse function. -/
def startsStatement (k : TokenType) : Bool :=
  k = DANCE || k = SWAY || k = START || k = SEND_KW || k = IF || (prefixParseFns k).isSome

/-- The expression text with the tokens `ts` is parsed to the expression `E`: `ts` starts
with a token that has a prefix parse function, and whenever the parser has `ts` before
it, followed by a token that is not an infix operator, `parseExpression(LOWEST)` consumes
exactly `ts`, appends no diagnostic and returns `E` up to the positions of the tokens. -/
structure ParsesExpr (lib : StdLib) (ts : List (TokenType × Str)) (E : Expression) : Prop where
  first : (prefixParseFns (ts.headD eofTok).1).isSome = true
  parses : ∀ (p : Parser) (rest : List (TokenType × Str)),
    Parser.Ahead lib p (ts ++ rest) → precedences (rest.headD eofTok).1 = none →
    ∃ e, Returns (fun m => Parser.parseExpression lib m LOWEST p)
        (Parser.advance lib (ts.length - 1) p, e) ∧ e.strip = E

/-- The token kinds that can follow a statement in a program or a block: the end of the
input, the closing brace, and the kinds that a statement can start with. -/
def followsStatement (k : TokenType) : Bool :=
  k = EOF || k = RBRACE || startsStatement k

/-- The statement text with the tokens `ts` is parsed to the statement `S`: `ts` starts
with a token that can start a statement, `S` is a statement node, and whenever the
parser has `ts` before it, followed by the end of the input, a closing brace or the first
token of a statement, `parseStatement` consumes exactly `ts`, appends no diagnostic and
returns `S` up to the positions of the tokens. -/
structure ParsesStmt (lib : StdLib) (ts : List (TokenType × Str)) (S : Statement) : Prop where
  first : startsStatement (ts.headD eofTok).1 = true
  node : S ≠ Statement.nil
  parses : ∀ (p : Parser) (rest : List (TokenType × Str)),
    Parser.Ahead lib p (ts ++ rest) → followsStatement (rest.headD eofTok).1 = true →
    ∃ s, Returns (fun m => Parser.parseStatement lib m p)
        (Parser.advance lib (ts.length - 1) p, s) ∧ s.strip = S
/-- The precedence that `peekPrecedence` and `curPrecedence` give a token kind. -/
def precedenceOf (k : TokenType) : Nat :=
  match precedences k with
  | some x => x
  | none => LOWEST

/-- The token `t` is an operand that `parseExpression` turns into the node `E` at once:
with `t` as current token, `parseExpression` goes on with its loop and a left operand
that is `E` up to the position of the token. -/
def IsAtom (lib : StdLib) (t : TokenType × Str) (E : Expression) : Prop :=
  (prefixParseFns t.1).isSome = true ∧
  ∀ p : Parser, p.curToken.kindLit = t →
    ∃ e, e.strip = E ∧ ∀ (prec : Nat) (r : Parser × Expression),
      Returns (fun m => Parser.parseExpressionLoop lib m prec p e) r →
      Returns (fun m => Parser.parseExpression lib m prec p) r

/-- The identifier node for the name `a`, without position. -/
def identNode (a : Str) : Expression :=
  .Identifier (tokenOf (IDENT, a)) a

/-- The infix node for the operator `op`, without position. -/
def infixNode (op : TokenType × Str) (left right : Expression) : Expression :=
  .InfixExpression (tokenOf op) left op.2 right

/-- A decimal integer literal without a leading zero: the digit `0` alone, or ASCII
digits of which the first is not `0`. -/
def plainDecimal (w : Str) : Bool :=
  decimal w && (w = ['0'] || w.head? ≠ some '0')

/-- The operands without structure: what C16 puts on the right of a `dance` statement. -/
inductive Operand where
  | int (w : Str)
  | true_
  | false_
  | ident (a : Str)
  | string (t : Str)

/-- The text of an operand. -/
def Operand.text : Operand → Str
  | .int w => w
  | .true_ => "true".toList
  | .false_ => "false".toList
  | .ident a => a
  | .string t => '"' :: (t ++ ['"'])

/-- The token of an operand. -/
def Operand.token : Operand → TokenType × Str
  | .int w => (INT, w)
  | .true_ => (TRUE, "true".toList)
  | .false_ => (FALSE, "false".toList)
  | .ident a => (IDENT, a)
  | .string t => (STRING, t)

/-- The literal node of an operand, without position. -/
def Operand.node : Operand → Expression
  | .int w => .IntegerLiteral (tokenOf (INT, w)) (decimalValue w)
  | .true_ => .Boolean (tokenOf (TRUE, "true".toList)) true
  | .false_ => .Boolean (tokenOf (FALSE, "false".toList)) false
  | .ident a => identNode a
  | .string t => .StringLiteral (tokenOf (STRING, t)) t

/-- The operands that are admitted: a decimal integer literal without leading zeros below
2^63, `true`, `false`, a non-keyword identifier, a double-quoted string. -/
def Operand.admitted (lib : StdLib) : Operand → Bool
  | .int w => plainDecimal w && decide (decimalValue w < 2 ^ 63)
  | .true_ => true
  | .false_ => true
  | .ident a => identifier lib a && decide (LookupIdent a = IDENT)
  | .string t => stringBody t

/-- The text `dance n = v;`. -/
def danceText (n : Str) (v : Operand) : Str :=
  "dance ".toList ++ (n ++ (" = ".toList ++ (v.text ++ [';'])))

/-- The node of the statement `dance n = v`, without positions. -/
def danceNode (n : Str) (E : Expression) : Statement :=
  .DanceStatement (tokenOf (DANCE, "dance".toList)) ⟨tokenOf (IDENT, n), n⟩ E
/-- Token sequences separated by commas. -/
def commaSep : List (List (TokenType × Str)) → List (TokenType × Str)
  | [] => []
  | x :: r => x ++ (r.map (fun y => (COMMA, [',']) :: y)).flatten

/-- Texts separated by a comma and a space. -/
def commaText : List Str → Str
  | [] => []
  | x :: r => x ++ (r.map (fun y => ',' :: ' ' :: y)).flatten

/-- The text `s` is scanned into the tokens `ts` wherever a rune of `stops` follows it. -/
def LexesIn (lib : StdLib) (s : Str) (ts : List (TokenType × Str)) : Prop :=
  ∀ (d : Char) (rest : Str) (ts' : List (TokenType × Str)), stops d = true →
    Lexes lib (d :: rest) ts' → Lexes lib (s ++ d :: rest) (ts ++ ts')

/-- The text `e` is a well-formed expression with the parse `E`: it is scanned into
tokens that `parseExpression(LOWEST)` consumes as a whole and turns into `E`. -/
def ExprText (lib : StdLib) (e : Str) (E : Expression) : Prop :=
  ∃ ts, LexesIn lib e ts ∧ ParsesExpr lib ts E

/-- The text `s` is a well-formed statement with the parse `S`: it is scanned into
tokens that `parseStatement` consumes as a whole and turns into `S`. -/
def StmtText (lib : StdLib) (s : Str) (S : Statement) : Prop :=
  ∃ ts, LexesIn lib s ts ∧ ParsesStmt lib ts S
/-- The text `spin f(e_1, ..., e_n)`. -/
def spinText (f : Str) (args : List Str) : Str :=
  "spin ".toList ++ (f ++ ('(' :: (commaText args ++ [')'])))

/-- The node of the call `spin f(...)`, without positions. -/
def spinNode (f : Str) (args : List Expression) : Expression :=
  .SpinExpression (tokenOf (SPIN, "spin".toList)) (identNode f) args

/-- The text of a block: an opening brace, the statements, each after the separator
`sep`, and the closing brace after `sep`. -/
def blockText (sep : Str) (stmts : List Str) : Str :=
  '{' :: ((stmts.map (fun s => sep ++ s)).flatten ++ (sep ++ ['}']))

/-- The text `sway v from a to b` followed by a block. -/
def swayText (sep : Str) (v a b : Str) (stmts : List Str) : Str :=
  "sway ".toList ++ (v ++ (" from ".toList ++ (a ++ (" to ".toList ++
    (b ++ (' ' :: blockText sep stmts))))))

/-- The node of a block, without positions. -/
def blockNode (stmts : List Statement) : BlockStatement :=
  .mk (tokenOf (LBRACE, ['{'])) stmts

/-- The text `if c` followed by a block. -/
def ifText (sep : Str) (c : Str) (stmts : List Str) : Str :=
  "if ".toList ++ (c ++ (' ' :: blockText sep stmts))

/-- The text `if c`, a block, `else` and a block. -/
def ifElseText (sep : Str) (c : Str) (stmts alt : List Str) : Str :=
  "if ".toList ++ (c ++ (' ' :: (blockText sep stmts ++ (" else ".toList ++ blockText sep alt))))

/-- The text `dance n = v` without a semicolon. -/
def danceLine (n : Str) (v : Operand) : Str :=
  "dance ".toList ++ (n ++ (" = ".toList ++ v.text))

/-- The argument list `(i)` of the examples: its text and its parse. -/
def exampleArgs : List (Str × Expression) :=
  [((Operand.ident ['i']).text, (Operand.ident ['i']).node)]

/-- The body `spin print(i)` of the example for `sway`: its text and its parse. -/
def exampleBody : List (Str × Statement) :=
  [(spinText "print".toList (exampleArgs.map Prod.fst),
    .ExpressionStatement (tokenOf (SPIN, "spin".toList))
      (spinNode "print".toList (exampleArgs.map Prod.snd)))]

/-- The block `dance z = x` of the example for `if`. -/
def exampleThen : List (Str × Statement) :=
  [(danceLine ['z'] (.ident ['x']), danceNode ['z'] (Operand.ident ['x']).node)]

/-- The block `dance z = y` of the example for `if`. -/
def exampleElse : List (Str × Statement) :=
  [(danceLine ['z'] (.ident ['y']), danceNode ['z'] (Operand.ident ['y']).node)]
/-- A case `when P(args): flow f(args)` of a `match`: the name of the pattern, the name
after `flow`, and the arguments. -/
structure MatchCase where
  pattern : Str
  target : Str
  args : List Str

/-- The names of a case are identifiers that are not keywords. -/
def MatchCase.admitted (lib : StdLib) (c : MatchCase) : Bool :=
  (Operand.ident c.pattern).admitted lib && (Operand.ident c.target).admitted lib &&
    c.args.all (fun a => (Operand.ident a).admitted lib)

/-- The text `when P(args): flow f(args)`. -/
def MatchCase.text (c : MatchCase) : Str :=
  "when ".toList ++ (c.pattern ++ ('(' :: (commaText c.args ++ ("): flow ".toList ++
    (c.target ++ ('(' :: (commaText c.args ++ [')'])))))))

/-- The tokens of an argument list of identifiers. -/
def argTokens (args : List Str) : List (TokenType × Str) :=
  commaSep (args.map (fun a => [(IDENT, a)]))

/-- The tokens of the text of a case. -/
def MatchCase.tokens (c : MatchCase) : List (TokenType × Str) :=
  (WHEN, "when".toList) :: (IDENT, c.pattern) :: (LPAREN, ['(']) :: (argTokens c.args ++
    (RPAREN, [')']) :: (COLON, [':']) :: (FLOW, "flow".toList) :: (IDENT, c.target) ::
      (LPAREN, ['(']) :: (argTokens c.args ++ [(RPAREN, [')'])]))

/-- The node of a case, without positions: the pattern is the identifier `P`, the
consequence the `flow` expression on the identifier `f`. -/
def MatchCase.node (c : MatchCase) : WhenCase :=
  .mk (tokenOf (WHEN, "when".toList)) (identNode c.pattern)
    (.FlowExpression (tokenOf (FLOW, "flow".toList)) (identNode c.target))

/-- The text `dance r = match s` followed by the cases between braces, each case and the
closing brace after the white space `sep`. -/
def matchText (sep r s : Str) (cases : List MatchCase) : Str :=
  "dance ".toList ++ (r ++ (" = match ".toList ++ (s ++ (' ' ::
    blockText sep (cases.map MatchCase.text)))))

/-- The node of `match s` with the given cases, without positions. -/
def matchNode (s : Str) (cases : List WhenCase) : Expression :=
  .MatchExpression (tokenOf (MATCH, "match".toList)) (identNode s) cases

/-- The cases of the example: `when Note(n): flow process_note(n)` and
`when Rest(): flow handle_rest()`. -/
def exampleCases : List MatchCase :=
  [⟨"Note".toList, "process_note".toList, [['n']]⟩, ⟨"Rest".toList, "handle_rest".toList, []⟩]

/-- The generator `g` after a piece of emission that wrote `s` and left the scope
stack `ss` and the indentation `i`. -/
def CodeGenerator.put (g : CodeGenerator) (s : Str) (ss : List (List Str)) (i : Nat) :
    CodeGenerator :=
  { g with output := g.output ++ s, scopeStack := ss, indent := i }

/-- A piece of emission only appends to the output and changes the scope stack and the
indentation, and what it does depends on the state only through the indentation and the
scope stack. -/
def CodeGenerator.Uniform (run : CodeGenerator → Res) : Prop :=
  ∀ b b', run b = .ok b' →
    ∃ s ss i, b' = b.put s ss i ∧
      ∀ g, g.indent = b.indent → g.scopeStack = b.scopeStack → run g = .ok (g.put s ss i)

/-- The text that `generateStatement` writes for a statement at the given indentation
with the given scope stack: the output of a run that starts with an empty buffer, `none`
when the run does not return nil. -/
def emitStatement (lib : StdLib) (indent : Nat) (scopes : List (List Str)) (s : Statement) :
    Option Str :=
  match CodeGenerator.generateStatement lib s { indent := indent, scopeStack := scopes } with
  | .ok g => some g.output
  | _ => none

/-- The text that the statements of a list, emitted in order, write at the given
indentation, the first of them with the given scope stack: the output of the loop over
the list on an empty buffer, `none` when the loop does not return nil. -/
def emitStatements (lib : StdLib) (indent : Nat) (scopes : List (List Str))
    (stmts : List Statement) : Option Str :=
  match CodeGenerator.generateStatements lib stmts { indent := indent, scopeStack := scopes } with
  | .ok g => some g.output
  | _ => none

/-- Whether the callee of a spin expression is the identifier `print` or `println`. -/
def isPrintName : Expression → Bool
  | .Identifier _ value => decide (value = "print".toList ∨ value = "println".toList)
  | _ => false

/-- The call `spin print(i)` as a statement, the body of the loops in the examples. -/
def printCall (arg : Expression) : Statement :=
  .ExpressionStatement {} (.SpinExpression {} (.Identifier {} "print".toList) [arg])

/-- The statement `sway i from 0 to hi` with the body `spin print(i)`. -/
def exampleSway (hi : Int) : Statement :=
  .SwayStatement {} ⟨{}, ['i']⟩ (.IntegerLiteral {} 0) (.IntegerLiteral {} hi)
    (.mk {} [printCall (.Identifier {} ['i'])])

/-- The program `dance x = 5`, `dance y = 10`, `spin print(x + y)`. -/
def exampleProgram : Program :=
  { Statements :=
      [.DanceStatement {} ⟨{}, ['x']⟩ (.IntegerLiteral {} 5),
        .DanceStatement {} ⟨{}, ['y']⟩ (.IntegerLiteral {} 10),
        printCall (.InfixExpression {} (.Identifier {} ['x']) ['+'] (.Identifier {} ['y']))] }

/-- What the lexer has left to read: two for every rune after the read position, and
one while the current rune is not the end-of-input marker. -/
def Lexer.left (l : Lexer) : Nat :=
  2 * (l.input.length - l.readPosition) + (if l.ch = NUL then 0 else 1)

/-- What the parser has left: what its lexer has left, and its two tokens as far as
they are not end-of-input tokens. A call of `nextToken` never makes it larger, and
makes it smaller unless both tokens are end-of-input tokens. -/
def Parser.left (p : Parser) : Nat :=
  2 * p.l.left + 2 * (if p.peekToken.Typ = EOF then 0 else 1) +
    (if p.curToken.Typ = EOF then 0 else 1)

/-- The call returns for every fuel that is large enough, and the parser that it
returns has no more left than the parser `p`. -/
def Halts {α : Type} (f : Nat → Option (Parser × α)) (p : Parser) : Prop :=
  ∃ r, Returns f r ∧ r.1.left ≤ p.left

/-- Every function of the recursive-descent parser returns, with enough fuel, from every
state whose measure is below the given bound, and leaves a state whose measure is not
larger. -/
structure Parser.Ends (lib : StdLib) (k : Nat) : Prop where
  parseExpression : ∀ (prec : Nat) (q : Parser), q.left < k →
    Halts (fun m => Parser.parseExpression lib m prec q) q
  parseExpressionLoop : ∀ (prec : Nat) (q : Parser) (l : Expression), q.left < k →
    Halts (fun m => Parser.parseExpressionLoop lib m prec q l) q
  parseExpressionList : ∀ (end_ : TokenType) (q : Parser), q.left < k →
    Halts (fun m => Parser.parseExpressionList lib m end_ q) q
  parseExpressionListLoop : ∀ (q : Parser) (l : List Expression), q.left < k →
    Halts (fun m => Parser.parseExpressionListLoop lib m q l) q
  parseMatchLoop : ∀ (q : Parser) (c : List WhenCase), q.left < k →
    Halts (fun m => Parser.parseMatchLoop lib m q c) q
  parseStatement : ∀ q : Parser, q.left < k →
    Halts (fun m => Parser.parseStatement lib m q) q
  parseBlockLoop : ∀ (q : Parser) (s : List Statement), q.left < k →
    Halts (fun m => Parser.parseBlockLoop lib m q s) q
  parseBlockStatement : ∀ q : Parser, q.left < k →
    Halts (fun m => Parser.parseBlockStatement lib m q) q

/-- An expression of a statement: its text, its tokens and its parse. -/
structure Piece where
  text : Str
  tokens : List (TokenType × Str)
  parse : Expression

/-- The piece is a well-formed expression: its text is scanned into its tokens, which
`parseExpression(LOWEST)` consumes as a whole and turns into its parse. -/
def Piece.wellFormed (lib : StdLib) (e : Piece) : Prop :=
  LexesIn lib e.text e.tokens ∧ ParsesExpr lib e.tokens e.parse

/-- The statements whose parse function looks for a `;` after them: `dance n = v`,
`send c <- v`, an expression statement, and `start` before one of these. -/
inductive SimpleStatement where
  | dance (n : Str) (v : Piece)
  | send (c v : Piece)
  | expression (e : Piece)
  | start (s : SimpleStatement)

/-- The text of a simple statement, without a terminator. -/
def SimpleStatement.text : SimpleStatement → Str
  | .dance n v => "dance ".toList ++ (n ++ (" = ".toList ++ v.text))
  | .send c v => "send ".toList ++ (c.text ++ (" <- ".toList ++ v.text))
  | .expression e => e.text
  | .start s => "start ".toList ++ s.text

/-- The tokens of a simple statement, without a terminator. -/
def SimpleStatement.tokens : SimpleStatement → List (TokenType × Str)
  | .dance n v => (DANCE, "dance".toList) :: (IDENT, n) :: (ASSIGN, ['=']) :: v.tokens
  | .send c v => (SEND_KW, "send".toList) :: (c.tokens ++ (SEND, ['<', '-']) :: v.tokens)
  | .expression e => e.tokens
  | .start s => (START, "start".toList) :: s.tokens

/-- The node of a simple statement, without positions. -/
def SimpleStatement.node : SimpleStatement → Statement
  | .dance n v => danceNode n v.parse
  | .send c v => .SendStatement (tokenOf (SEND_KW, "send".toList)) c.parse v.parse
  | .expression e => .ExpressionStatement (tokenOf (e.tokens.headD eofTok)) e.parse
  | .start s => .StartStatement (tokenOf (START, "start".toList)) s.node

/-- The simple statement is well-formed: the name after `dance` is an identifier that is
not a keyword, and the expressions are well-formed. -/
def SimpleStatement.wellFormed (lib : StdLib) : SimpleStatement → Prop
  | .dance n v => (identifier lib n = true ∧ LookupIdent n = IDENT) ∧ v.wellFormed lib
  | .send c v => c.wellFormed lib ∧ v.wellFormed lib
  | .expression e => e.wellFormed lib
  | .start s => s.wellFormed lib

/-- The piece of an operand: its text, its token and its literal node. -/
def Operand.piece (v : Operand) : Piece :=
  ⟨v.text, [v.token], v.node⟩

/-- The statement `start send c <- 1` of the example. -/
def exampleSimple : SimpleStatement :=
  .start (.send (Operand.ident ['c']).piece (Operand.int ['1']).piece)

/-- The clause that `generateMatchExpression` writes for a case at the indentation `d`
of the switch: `case`, the text of the pattern and a colon on one line, `return` and the
text of the consequence on the next, one level deeper. -/
def clauseText (d : Nat) (c : Str × Str) : Str :=
  List.replicate d '\t' ++ ("case ".toList ++ (c.1 ++ (":\n".toList ++
    (List.replicate (d + 1) '\t' ++ ("return ".toList ++ (c.2 ++ "\n".toList))))))

/-- The text that `generateMatchExpression` writes at the indentation `d` for the
scrutinee text `s` and the clauses `cs`: the function that is called at once, with the
switch, its clauses, its closing brace and `return nil` one level deeper. -/
def matchEmitted (d : Nat) (s : Str) (cs : List (Str × Str)) : Str :=
  "func() interface\x7b\x7d \x7b\n".toList ++ (List.replicate (d + 1) '\t' ++
    ("switch ".toList ++ (s ++ (" \x7b\n".toList ++ ((cs.map (clauseText (d + 1))).flatten ++
      (List.replicate (d + 1) '\t' ++ ("\x7d\n".toList ++ (List.replicate (d + 1) '\t' ++
        ("return nil\n".toList ++ (List.replicate d '\t' ++ "\x7d()".toList))))))))))

/-- The texts `c` are those of the pattern and of the consequence of the case `w`,
emitted at the indentation `d` and one level deeper. -/
def WhenCase.emits (lib : StdLib) (d : Nat) (w : WhenCase) (c : Str × Str) : Prop :=
  match w with
  | .mk _ pattern consequence =>
    emitExpression lib d pattern = some c.1 ∧ emitExpression lib (d + 1) consequence = some c.2

mutual

/-- An expression that is written on one line: it holds no match expression, and no
identifier, string literal, operator or formatted float in it holds a newline. -/
def Expression.oneLine (lib : StdLib) : Expression → Bool
  | .nil => true
  | .Identifier _ value => decide ('\n' ∉ value)
  | .IntegerLiteral _ _ => true
  | .FloatLiteral _ value => decide ('\n' ∉ lib.formatFloat value)
  | .StringLiteral _ value => decide ('\n' ∉ value)
  | .Boolean _ _ => true
  | .InfixExpression _ left operator right =>
    left.oneLine lib && decide ('\n' ∉ operator) && right.oneLine lib
  | .SpinExpression _ function arguments => function.oneLine lib && oneLineList lib arguments
  | .FlowExpression _ channelType => channelType.oneLine lib
  | .MatchExpression _ _ _ => false

/-- A list of expressions that are written on one line. -/
def oneLineList (lib : StdLib) : List Expression → Bool
  | [] => true
  | e :: rest => e.oneLine lib && oneLineList lib rest

end

/-- A piece of emission that only appends text without a newline. -/
def CodeGenerator.Plain (run : CodeGenerator → Res) : Prop :=
  ∀ g g', run g = .ok g' → ∃ s, g' = g.write s ∧ '\n' ∉ s

/-- The depth of the scope stack after a piece of emission: the same as before when it
returns nil, and not smaller than before when it returns an error. -/
def CodeGenerator.Level (run : CodeGenerator → Res) : Prop :=
  ∀ g, match run g with
    | .ok g' => g'.scopeStack.length = g.scopeStack.length
    | .error g' _ => g.scopeStack.length ≤ g'.scopeStack.length
    | .panic => True

/-- The program whose only statement is a sway statement with a block statement in its
body, a kind of statement that `generateStatement` rejects. -/
def rejectedProgram : Program :=
  { Statements := [.SwayStatement {} ⟨{}, ['i']⟩ (.IntegerLiteral {} 0) (.IntegerLiteral {} 1)
      (.mk {} [.Block (.mk {} [])])] }

/-- The program `dance x = 5`. -/
def danceProgram : Program :=
  { Statements := [.DanceStatement {} ⟨{}, ['x']⟩ (.IntegerLiteral {} 5)] }

/-- The generator after `Generate` on `danceProgram`, called on a generator created by
`New`. -/
def danceGenerated : CodeGenerator :=
  { output := "package main\n\nfunc main() \x7b\n\tx := 5\n\x7d\n".toList,
    scopeStack := [[['x']]] }

/-- The generator after a second call of `Generate` on `danceProgram`. -/
def danceGeneratedTwice : CodeGenerator :=
  { output := ("package main\n\nfunc main() \x7b\n\tx := 5\n\x7d\n" ++
      "package main\n\nfunc main() \x7b\n\tx = 5\n\x7d\n").toList,
    scopeStack := [[['x']]] }

/-- The expressions of the round trip: identifiers, integers that are not negative, and
infix expressions over them. -/
inductive Arith where
  | ident (a : Str)
  | int (n : Nat)
  | binary (op : TokenType × Str) (left right : Arith)

/-- The tree of an expression of the round trip, without positions: every node with the
token that the lexer returns for it. -/
def Arith.node : Arith → Expression
  | .ident a => identNode a
  | .int n => .IntegerLiteral (tokenOf (INT, Nat.toDigits 10 n)) n
  | .binary op left right => infixNode op left.node right.node

/-- The identifiers are identifiers of the lexer that are not keywords, the integers are
below 2^63, and the operators are the infix operators of the language. -/
def Arith.admitted (lib : StdLib) : Arith → Bool
  | .ident a => identifier lib a && decide (LookupIdent a = IDENT)
  | .int n => decide (n < 2 ^ 63)
  | .binary op left right =>
    decide (op ∈ infixOps) && left.admitted lib && right.admitted lib

/-- The text that `generateExpression` writes for the tree: an infix expression between
parentheses, with a blank on each side of the operator. -/
def Arith.text : Arith → Str
  | .ident a => a
  | .int n => Nat.toDigits 10 n
  | .binary op left right =>
    '(' :: (left.text ++ (' ' :: (op.2 ++ (' ' :: (right.text ++ [')'])))))

/-- The tokens of the text of the tree. -/
def Arith.tokens : Arith → List (TokenType × Str)
  | .ident a => [(IDENT, a)]
  | .int n => [(INT, Nat.toDigits 10 n)]
  | .binary op left right =>
    (LPAREN, ['(']) :: (left.tokens ++ op :: (right.tokens ++ [(RPAREN, [')'])]))

/-- The tokens `ts` are an operand with the parse `E` at every precedence: with `ts`
before it, `parseExpression` consumes `ts` and goes on with its loop and a left operand
that is `E` up to the positions of the tokens. -/
def IsOperand (lib : StdLib) (ts : List (TokenType × Str)) (E : Expression) : Prop :=
  (prefixParseFns (ts.headD eofTok).1).isSome = true ∧
  ∀ (p : Parser) (rest : List (TokenType × Str)), Parser.Ahead lib p (ts ++ rest) →
    ∃ e, e.strip = E ∧ ∀ (prec : Nat) (r : Parser × Expression),
      Returns (fun m => Parser.parseExpressionLoop lib m prec
        (Parser.advance lib (ts.length - 1) p) e) r →
      Returns (fun m => Parser.parseExpression lib m prec p) r

/-- The tree `(x + 12) * y` of the example. -/
def exampleArith : Arith :=
  .binary (ASTERISK, ['*']) (.binary (PLUS, ['+']) (.ident ['x']) (.int 12)) (.ident ['y'])

/-- The operator strings that an `Infix` node may hold. -/
def listedOperators : List Str :=
  ["+".toList, "-".toList, "*".toList, "/".toList, "==".toList, "!=".toList, "<".toList,
    ">".toList, "<=".toList, ">=".toList, "=~".toList]

mutual

/-- Every infix node anywhere in the expression (operands, callee and call arguments,
channel type, scrutinee and match cases) has one of the listed operator strings. -/
def Expression.operatorsListed : Expression → Bool
  | .nil => true
  | .Identifier _ _ => true
  | .IntegerLiteral _ _ => true
  | .FloatLiteral _ _ => true
  | .StringLiteral _ _ => true
  | .Boolean _ _ => true
  | .InfixExpression _ left operator right =>
    decide (operator ∈ listedOperators) && left.operatorsListed && right.operatorsListed
  | .SpinExpression _ function arguments =>
    function.operatorsListed && argumentsListed arguments
  | .FlowExpression _ channelType => channelType.operatorsListed
  | .MatchExpression _ expression cases => expression.operatorsListed && casesListed cases

/-- Every infix node in a list of expressions has one of the listed operator strings. -/
def argumentsListed : List Expression → Bool
  | [] => true
  | e :: rest => e.operatorsListed && argumentsListed rest

/-- Every infix node in the patterns and consequences of the cases has one of the listed
operator strings. -/
def casesListed : List WhenCase → Bool
  | [] => true
  | .mk _ pattern consequence :: rest =>
    pattern.operatorsListed && consequence.operatorsListed && casesListed rest

end

mutual

/-- Every infix node anywhere in the statement (its expressions, its blocks, the
statement that it starts) has one of the listed operator strings. -/
def Statement.operatorsListed : Statement → Bool
  | .nil => true
  | .DanceStatement _ _ value => value.operatorsListed
  | .nilDanceStatement => true
  | .ExpressionStatement _ expression => expression.operatorsListed
  | .SwayStatement _ _ from_ to_ (.mk _ stmts) =>
    from_.operatorsListed && to_.operatorsListed && statementsListed stmts
  | .nilSwayStatement => true
  | .StartStatement _ statement => statement.operatorsListed
  | .SendStatement _ channel value => channel.operatorsListed && value.operatorsListed
  | .nilSendStatement => true
  | .IfStatement _ condition (.mk _ stmts) none =>
    condition.operatorsListed && statementsListed stmts
  | .IfStatement _ condition (.mk _ stmts) (some (.mk _ alt)) =>
    condition.operatorsListed && statementsListed stmts && statementsListed alt
  | .nilIfStatement => true
  | .Block (.mk _ stmts) => statementsListed stmts

/-- Every infix node in a list of statements has one of the listed operator strings. -/
def statementsListed : List Statement → Bool
  | [] => true
  | s :: rest => s.operatorsListed && statementsListed rest

end

/-- A token that, when its kind has an infix parse function, has one of the listed
operator strings as its lexeme. -/
def Token.Listed (t : Token) : Prop :=
  infixParseFns t.Typ = true → t.Literal ∈ listedOperators

/-- The result `r` of a function of the parser that was run on the state `p`: when the
peek token of `p` is listed, so is the peek token of the state returned, and the value
returned has the property `A`. -/
def Parser.Lists {α : Type} (r : Option (Parser × α)) (p : Parser) (A : α → Prop) : Prop :=
  ∀ x, r = some x → p.peekToken.Listed → x.1.peekToken.Listed ∧ A x.2

/-- The functions of the recursive-descent parser, run with the fuel `n`, keep the peek
token listed and return nodes whose infix operators are listed. -/
structure Parser.Listing (lib : StdLib) (n : Nat) : Prop where
  parseStatement : ∀ p, Parser.Lists (Parser.parseStatement lib n p) p
    (fun s => s.operatorsListed = true)
  parseDanceStatement : ∀ p, Parser.Lists (Parser.parseDanceStatement lib n p) p
    (fun s => s.operatorsListed = true)
  parseSwayStatement : ∀ p, Parser.Lists (Parser.parseSwayStatement lib n p) p
    (fun s => s.operatorsListed = true)
  parseStartStatement : ∀ p, Parser.Lists (Parser.parseStartStatement lib n p) p
    (fun s => s.operatorsListed = true)
  parseSendStatement : ∀ p, Parser.Lists (Parser.parseSendStatement lib n p) p
    (fun s => s.operatorsListed = true)
  parseIfStatement : ∀ p, Parser.Lists (Parser.parseIfStatement lib n p) p
    (fun s => s.operatorsListed = true)
  parseExpressionStatement : ∀ p, Parser.Lists (Parser.parseExpressionStatement lib n p) p
    (fun s => s.operatorsListed = true)
  parseExpression : ∀ prec p, Parser.Lists (Parser.parseExpression lib n prec p) p
    (fun e => e.operatorsListed = true)
  parseExpressionLoop : ∀ prec p left, left.operatorsListed = true →
    Parser.Lists (Parser.parseExpressionLoop lib n prec p left) p
      (fun e => e.operatorsListed = true)
  parseGroupedExpression : ∀ p, Parser.Lists (Parser.parseGroupedExpression lib n p) p
    (fun e => e.operatorsListed = true)
  parseSpinExpression : ∀ p, Parser.Lists (Parser.parseSpinExpression lib n p) p
    (fun e => e.operatorsListed = true)
  parseFlowExpression : ∀ p, Parser.Lists (Parser.parseFlowExpression lib n p) p
    (fun e => e.operatorsListed = true)
  parseMatchExpression : ∀ p, Parser.Lists (Parser.parseMatchExpression lib n p) p
    (fun e => e.operatorsListed = true)
  parseMatchLoop : ∀ p cases, casesListed cases = true →
    Parser.Lists (Parser.parseMatchLoop lib n p cases) p (fun cs => casesListed cs = true)
  parseWhenCase : ∀ p, Parser.Lists (Parser.parseWhenCase lib n p) p
    (fun c => ∀ cases, casesListed cases = true → casesListed (appendCase cases c) = true)
  parsePattern : ∀ p, Parser.Lists (Parser.parsePattern lib n p) p
    (fun e => e.operatorsListed = true)
  parseInfixExpression : ∀ p left, p.curToken.Literal ∈ listedOperators →
    left.operatorsListed = true →
    Parser.Lists (Parser.parseInfixExpression lib n p left) p
      (fun e => e.operatorsListed = true)
  parseBlockStatement : ∀ p, Parser.Lists (Parser.parseBlockStatement lib n p) p
    (fun b => statementsListed b.Statements = true)
  parseBlockLoop : ∀ p stmts, statementsListed stmts = true →
    Parser.Lists (Parser.parseBlockLoop lib n p stmts) p
      (fun ss => statementsListed ss = true)
  parseExpressionList : ∀ end_ p, Parser.Lists (Parser.parseExpressionList lib n end_ p) p
    (fun es => argumentsListed es = true)
  parseExpressionListLoop : ∀ p list, argumentsListed list = true →
    Parser.Lists (Parser.parseExpressionListLoop lib n p list) p
      (fun es => argumentsListed es = true)

/-- The precedence level of an infix operator, by its text, as the specification orders
the levels: `EQUALS` (1) for `== != =~`, `LESSGREATER` (2) for `< > <= >=`, `SUM` (3) for
`+ -` and `PRODUCT` (4) for `* /`; 0 for every other text. -/
def operatorLevel (op : Str) : Nat :=
  if op = "==".toList ∨ op = "!=".toList ∨ op = "=~".toList then 1
  else if op = "<".toList ∨ op = ">".toList ∨ op = "<=".toList ∨ op = ">=".toList then 2
  else if op = "+".toList ∨ op = "-".toList then 3
  else if op = "*".toList ∨ op = "/".toList then 4
  else 0

/-- The program `sway i from 0 to 1 { dance x = 5 }`. -/
def loopProgram : Program :=
  { Statements := [.SwayStatement {} ⟨{}, ['i']⟩ (.IntegerLiteral {} 0) (.IntegerLiteral {} 1)
      (.mk {} [.DanceStatement {} ⟨{}, ['x']⟩ (.IntegerLiteral {} 5)])] }

/-- The generator after `Generate` on `loopProgram`, called on a generator created by
`New`. -/
def loopGenerated : CodeGenerator :=
  { output := ("package main\n\nfunc main() \x7b\n\tfor i := 0; i <= 1; i++ \x7b\n" ++
      "\t\tx := 5\n\t\x7d\n\x7d\n").toList,
    scopeStack := [[]] }

/-- The generator after `Generate` on `rejectedProgram`, called on a generator created by
`New`. -/
def rejectedGenerated : CodeGenerator :=
  { output := "package main\n\nfunc main() \x7b\n\tfor i := 0; i <= 1; i++ \x7b\n".toList,
    indent := 2,
    scopeStack := [[['i']], []] }

/-! # Theorems -/

/-! ## The scanner on operators -/

section MaximalMunch

open Lexer

theorem NextToken_assign (lib : StdLib) (tail : Str) :
    (NextToken lib (New ('=' :: tail))).2.kindLit =
      if tail.head? = some '=' then (TokenType.EQ, "==".toList)
      else if tail.head? = some '~' then (MATCH_OP, "=~".toList)
      else (ASSIGN, "=".toList) := by
  cases tail with
  | nil =>
    simp [New, readChar, NextToken, NextTokenAux, Lexer.fuel, skipWhitespace,
      skipWhitespaceLoop, peekChar, makeToken, Token.kindLit, NUL]
  | cons c rest =>
    by_cases h1 : c = '='
    · subst h1
      simp [New, readChar, NextToken, NextTokenAux, Lexer.fuel, skipWhitespace,
        skipWhitespaceLoop, peekChar, makeToken, Token.kindLit, NUL]
    · by_cases h2 : c = '~'
      · subst h2
        simp [New, readChar, NextToken, NextTokenAux, Lexer.fuel, skipWhitespace,
          skipWhitespaceLoop, peekChar, makeToken, Token.kindLit, NUL]
      · simp [New, readChar, NextToken, NextTokenAux, Lexer.fuel, skipWhitespace,
          skipWhitespaceLoop, peekChar, makeToken, Token.kindLit, NUL, h1, h2]

theorem NextToken_bang (lib : StdLib) (tail : Str) :
    (NextToken lib (New ('!' :: tail))).2.kindLit =
      if tail.head? = some '=' then (NOT_EQ, "!=".toList) else (BANG, "!".toList) := by
  cases tail with
  | nil =>
    simp [New, readChar, NextToken, NextTokenAux, Lexer.fuel, skipWhitespace,
      skipWhitespaceLoop, peekChar, makeToken, Token.kindLit, NUL]
  | cons c rest =>
    by_cases h1 : c = '='
    · subst h1
      simp [New, readChar, NextToken, NextTokenAux, Lexer.fuel, skipWhitespace,
        skipWhitespaceLoop, peekChar, makeToken, Token.kindLit, NUL]
    · simp [New, readChar, NextToken, NextTokenAux, Lexer.fuel, skipWhitespace,
        skipWhitespaceLoop, peekChar, makeToken, Token.kindLit, NUL, h1]

theorem NextToken_less (lib : StdLib) (tail : Str) :
    (NextToken lib (New ('<' :: tail))).2.kindLit =
      if tail.head? = some '-' then (SEND, "<-".toList)
      else if tail.head? = some '=' then (LTE, "<=".toList)
      else (TokenType.LT, "<".toList) := by
  cases tail with
  | nil =>
    simp [New, readChar, NextToken, NextTokenAux, Lexer.fuel, skipWhitespace,
      skipWhitespaceLoop, peekChar, makeToken, Token.kindLit, NUL]
  | cons c rest =>
    by_cases h1 : c = '-'
    · subst h1
      simp [New, readChar, NextToken, NextTokenAux, Lexer.fuel, skipWhitespace,
        skipWhitespaceLoop, peekChar, makeToken, Token.kindLit, NUL]
    · by_cases h2 : c = '='
      · subst h2
        simp [New, readChar, NextToken, NextTokenAux, Lexer.fuel, skipWhitespace,
          skipWhitespaceLoop, peekChar, makeToken, Token.kindLit, NUL]
      · simp [New, readChar, NextToken, NextTokenAux, Lexer.fuel, skipWhitespace,
          skipWhitespaceLoop, peekChar, makeToken, Token.kindLit, NUL, h1, h2]

theorem NextToken_greater (lib : StdLib) (tail : Str) :
    (NextToken lib (New ('>' :: tail))).2.kindLit =
      if tail.head? = some '=' then (GTE, ">=".toList) else (TokenType.GT, ">".toList) := by
  cases tail with
  | nil =>
    simp [New, readChar, NextToken, NextTokenAux, Lexer.fuel, skipWhitespace,
      skipWhitespaceLoop, peekChar, makeToken, Token.kindLit, NUL]
  | cons c rest =>
    by_cases h1 : c = '='
    · subst h1
      simp [New, readChar, NextToken, NextTokenAux, Lexer.fuel, skipWhitespace,
        skipWhitespaceLoop, peekChar, makeToken, Token.kindLit, NUL]
    · simp [New, readChar, NextToken, NextTokenAux, Lexer.fuel, skipWhitespace,
        skipWhitespaceLoop, peekChar, makeToken, Token.kindLit, NUL, h1]

theorem NextToken_minus (lib : StdLib) (tail : Str) :
    (NextToken lib (New ('-' :: tail))).2.kindLit =
      if tail.head? = some '>' then (ARROW, "->".toList) else (MINUS, "-".toList) := by
  cases tail with
  | nil =>
    simp [New, readChar, NextToken, NextTokenAux, Lexer.fuel, skipWhitespace,
      skipWhitespaceLoop, peekChar, makeToken, Token.kindLit, NUL]
  | cons c rest =>
    by_cases h1 : c = '>'
    · subst h1
      simp [New, readChar, NextToken, NextTokenAux, Lexer.fuel, skipWhitespace,
        skipWhitespaceLoop, peekChar, makeToken, Token.kindLit, NUL]
    · simp [New, readChar, NextToken, NextTokenAux, Lexer.fuel, skipWhitespace,
        skipWhitespaceLoop, peekChar, makeToken, Token.kindLit, NUL, h1]

/-- C10 (maximal munch). For every input that starts with `=`, `!`, `<`, `>` or `-`, the
first token returned by `NextToken` is the two-character operator `==`, `=~`, `!=`, `<-`,
`<=`, `>=` or `->` (kinds EQ, MATCH_OP, NOT_EQ, SEND, LTE, GTE, ARROW, with that
two-character lexeme) when the second rune completes it, and otherwise, whatever rune
follows and also at the end of input, the one-character ASSIGN, BANG, LT, GT or MINUS. -/
theorem maximal_munch (lib : StdLib) (tail : Str) :
    ((NextToken lib (New ('=' :: tail))).2.kindLit =
      if tail.head? = some '=' then (TokenType.EQ, "==".toList)
      else if tail.head? = some '~' then (MATCH_OP, "=~".toList)
      else (ASSIGN, "=".toList)) ∧
    ((NextToken lib (New ('!' :: tail))).2.kindLit =
      if tail.head? = some '=' then (NOT_EQ, "!=".toList) else (BANG, "!".toList)) ∧
    ((NextToken lib (New ('<' :: tail))).2.kindLit =
      if tail.head? = some '-' then (SEND, "<-".toList)
      else if tail.head? = some '=' then (LTE, "<=".toList)
      else (TokenType.LT, "<".toList)) ∧
    ((NextToken lib (New ('>' :: tail))).2.kindLit =
      if tail.head? = some '=' then (GTE, ">=".toList) else (TokenType.GT, ">".toList)) ∧
    ((NextToken lib (New ('-' :: tail))).2.kindLit =
      if tail.head? = some '>' then (ARROW, "->".toList) else (MINUS, "-".toList)) :=
  ⟨NextToken_assign lib tail, NextToken_bang lib tail, NextToken_less lib tail,
    NextToken_greater lib tail, NextToken_minus lib tail⟩

end MaximalMunch

/-! ## The scanner at the end of the input -/

section EndOfInput

open Lexer

/-- C2 (evaluation at the failing input). On the input `abc` the first token is an
identifier with the lexeme `ab`, not `abc`: `readChar` leaves `position` on the last rune
when it meets the end of the input, so the slice stops one rune short. The next token
is EOF. -/
theorem readIdentifier_drops_last_rune (lib : StdLib) :
    (nthToken lib (New "abc".toList) 0).kindLit = (IDENT, "ab".toList) ∧
    (nthToken lib (New "abc".toList) 1).kindLit = (EOF, []) := by
  constructor <;> rfl

/-- C3 (evaluation at the failing inputs). On the input `12` the token is INT with the
lexeme `1`, and on `10.5` it is FLOAT with the lexeme `10.`; on `5.` the tokens are
INT `5` and then ILLEGAL `.`. -/
theorem readNumber_drops_last_rune (lib : StdLib) :
    (nthToken lib (New "12".toList) 0).kindLit = (INT, "1".toList) ∧
    (nthToken lib (New "10.5".toList) 0).kindLit = (FLOAT, "10.".toList) ∧
    (nthToken lib (New "5.".toList) 0).kindLit = (INT, "5".toList) ∧
    (nthToken lib (New "5.".toList) 1).kindLit = (ILLEGAL, ".".toList) := by
  refine ⟨?_, ?_, ?_, ?_⟩ <;> rfl

/-- C5 (evaluation at the failing input). On the unterminated string `"abc` the token
is STRING with the lexeme `ab`, not `abc`. -/
theorem readString_drops_last_rune (lib : StdLib) :
    (nthToken lib (New "\"abc".toList) 0).kindLit = (STRING, "ab".toList) ∧
    (nthToken lib (New "\"abc".toList) 1).kindLit = (EOF, []) := by
  constructor <;> rfl

end EndOfInput

/-! ## Integer literals -/

section IntegerLiterals

theorem digitsValue_ge (b : Nat) (ds : Str) : ∀ acc, 1 ≤ b → acc ≤ digitsValue b acc ds := by
  induction ds with
  | nil => intro acc _; simp [digitsValue]
  | cons c rest ih =>
    intro acc hb
    have h := ih (acc * b + (c.toNat - 0x30)) hb
    have h2 : acc ≤ acc * b := Nat.le_mul_of_pos_right acc hb
    simp only [digitsValue, List.foldl_cons] at h ⊢
    omega

theorem parseUintLoop_digits (b : Nat) (hb : 2 ≤ b) (hb10 : b ≤ 10) (us : Bool) :
    ∀ (ds : Str) (n : Nat), n < 2 ^ 64 →
      (∀ c ∈ ds, 0x30 ≤ c.toNat ∧ c.toNat < 0x30 + b) →
      parseUintLoop b true n us ds =
        if digitsValue b n ds < 2 ^ 64 then .ok (digitsValue b n ds, us)
        else .error .ErrRange := by
  intro ds
  induction ds with
  | nil =>
    intro n hn _
    simp only [parseUintLoop, digitsValue, List.foldl_nil]
    rw [if_pos hn]
  | cons c rest ih =>
    intro n hn hds
    have hc := hds c (List.mem_cons_self _ _)
    have hrest : ∀ c ∈ rest, 0x30 ≤ c.toNat ∧ c.toNat < 0x30 + b :=
      fun x hx => hds x (List.mem_cons_of_mem _ hx)
    have hne : c ≠ '_' := by
      intro h
      rw [h] at hc
      have : ('_' : Char).toNat = 95 := rfl
      omega
    have hdv : digitVal c = some (c.toNat - 0x30) := by
      unfold digitVal
      rw [if_pos (by omega)]
    have hstep : digitsValue b n (c :: rest) = digitsValue b (n * b + (c.toNat - 0x30)) rest := by
      simp [digitsValue]
    have hge := digitsValue_ge b rest (n * b + (c.toNat - 0x30)) (by omega)
    rw [parseUintLoop, if_neg (by simp [hne]), hdv]
    simp only []
    rw [if_neg (by omega), hstep]
    by_cases hcut : n ≥ (2 ^ 64 - 1) / b + 1
    · rw [if_pos hcut]
      have h1 : (2 ^ 64 - 1) / b < n := by omega
      have h2 : 2 ^ 64 - 1 < n * b := (Nat.div_lt_iff_lt_mul (by omega)).mp h1
      rw [if_neg (by omega)]
    · rw [if_neg hcut]
      have h1 : n ≤ (2 ^ 64 - 1) / b := by omega
      have h2 : n * b ≤ 2 ^ 64 - 1 := (Nat.le_div_iff_mul_le (by omega)).mp h1
      have hnb : n * b % 2 ^ 64 = n * b := Nat.mod_eq_of_lt (by omega)
      rw [hnb]
      by_cases hov : n * b + (c.toNat - 0x30) < 2 ^ 64
      · have hn1 : (n * b + (c.toNat - 0x30)) % 2 ^ 64 = n * b + (c.toNat - 0x30) :=
          Nat.mod_eq_of_lt hov
        rw [hn1, if_neg (by omega)]
        exact ih _ hov hrest
      · have hn1 : (n * b + (c.toNat - 0x30)) % 2 ^ 64 = n * b + (c.toNat - 0x30) - 2 ^ 64 := by
          rw [Nat.mod_eq_sub_mod (by omega)]
          exact Nat.mod_eq_of_lt (by omega)
        rw [hn1, if_pos (by omega), if_neg (by omega)]

theorem ParseUint_decimal (c : Char) (r : Str) (hc0 : c ≠ '0')
    (hd : ∀ x ∈ c :: r, 0x30 ≤ x.toNat ∧ x.toNat ≤ 0x39) :
    ParseUint (c :: r) =
      if decimalValue (c :: r) < 2 ^ 64 then .ok (decimalValue (c :: r))
      else .error .ErrRange := by
  have h := parseUintLoop_digits 10 (by omega) (by omega) false (c :: r) 0 (by omega)
    (fun x hx => by have := hd x hx; omega)
  unfold ParseUint
  simp only [if_neg hc0]
  rw [h]
  unfold decimalValue
  split_ifs <;> simp

theorem ParseUint_octal (r : Str) (hd : ∀ x ∈ r, 0x30 ≤ x.toNat ∧ x.toNat ≤ 0x37) :
    ParseUint ('0' :: r) =
      if octalValue r < 2 ^ 64 then .ok (octalValue r) else .error .ErrRange := by
  have h := parseUintLoop_digits 8 (by omega) (by omega) false r 0 (by omega)
    (fun x hx => by have := hd x hx; omega)
  have hsplit : ∀ (c1 : Char) (r1 : Str), r = c1 :: r1 →
      lowerIs c1 'b' = false ∧ lowerIs c1 'o' = false ∧ lowerIs c1 'x' = false := by
    intro c1 r1 hr
    have hc1 := hd c1 (by rw [hr]; exact List.mem_cons_self _ _)
    have hne : ∀ y : Char, 0x40 < y.toNat → c1 ≠ y := by
      intro y hy h
      rw [h] at hc1
      omega
    refine ⟨?_, ?_, ?_⟩ <;>
      · simp only [lowerIs, Bool.or_eq_false_iff, beq_eq_false_iff_ne, ne_eq]
        exact ⟨hne _ (by decide), hne _ (by decide)⟩
  unfold ParseUint
  cases r with
  | nil => simp [parseUintLoop, octalValue, digitsValue]
  | cons c1 r1 =>
    obtain ⟨h1, h2, h3⟩ := hsplit c1 r1 rfl
    simp only [h1, h2, h3, if_true, Bool.false_eq_true, and_false, if_false]
    rw [h]
    unfold octalValue
    split_ifs <;> simp

theorem lowerIs_digit (c1 : Char) (hc1 : c1.toNat ≤ 0x39) :
    lowerIs c1 'b' = false ∧ lowerIs c1 'o' = false ∧ lowerIs c1 'x' = false := by
  have hne : ∀ y : Char, 0x40 < y.toNat → c1 ≠ y := by
    intro y hy h
    rw [h] at hc1
    omega
  refine ⟨?_, ?_, ?_⟩ <;>
    · simp only [lowerIs, Bool.or_eq_false_iff, beq_eq_false_iff_ne, ne_eq]
      exact ⟨hne _ (by decide), hne _ (by decide)⟩

theorem parseUintLoop_bad_digit (us : Bool) :
    ∀ (ds : Str) (n : Nat),
      (∀ c ∈ ds, 0x30 ≤ c.toNat ∧ c.toNat ≤ 0x39) →
      (∃ c ∈ ds, 0x38 ≤ c.toNat) →
      ∃ e, parseUintLoop 8 true n us ds = .error e := by
  intro ds
  induction ds with
  | nil => intro n _ h; obtain ⟨c, hc, _⟩ := h; cases hc
  | cons c rest ih =>
    intro n hds hbad
    have hc := hds c (List.mem_cons_self _ _)
    have hne : c ≠ '_' := by
      intro h
      rw [h] at hc
      have : ('_' : Char).toNat = 95 := rfl
      omega
    have hdv : digitVal c = some (c.toNat - 0x30) := by
      unfold digitVal
      rw [if_pos (by omega)]
    rw [parseUintLoop, if_neg (by simp [hne]), hdv]
    simp only []
    by_cases h8 : c.toNat - 0x30 ≥ 8
    · exact ⟨_, if_pos h8⟩
    · rw [if_neg h8]
      have hrest : ∃ c ∈ rest, 0x38 ≤ c.toNat := by
        obtain ⟨x, hx, hx8⟩ := hbad
        rcases List.mem_cons.mp hx with rfl | hx'
        · omega
        · exact ⟨x, hx', hx8⟩
      split_ifs
      · exact ⟨_, rfl⟩
      · exact ⟨_, rfl⟩
      · exact ih _ (fun x hx => hds x (List.mem_cons_of_mem _ hx)) hrest

theorem ParseUint_octal_bad (r : Str) (hd : ∀ x ∈ r, 0x30 ≤ x.toNat ∧ x.toNat ≤ 0x39)
    (hbad : ∃ c ∈ r, 0x38 ≤ c.toNat) : ∃ e, ParseUint ('0' :: r) = .error e := by
  unfold ParseUint
  cases r with
  | nil => obtain ⟨c, hc, _⟩ := hbad; cases hc
  | cons c1 r1 =>
    have hc1 := hd c1 (List.mem_cons_self _ _)
    obtain ⟨h1, h2, h3⟩ := lowerIs_digit c1 hc1.2
    obtain ⟨e, he⟩ := parseUintLoop_bad_digit false (c1 :: r1) 0 hd hbad
    simp only [h1, h2, h3, if_true,
      Bool.false_eq_true, and_false, if_false]
    rw [he]
    exact ⟨e, rfl⟩

theorem ParseInt_digits (c : Char) (r : Str)
    (hd : ∀ x ∈ c :: r, 0x30 ≤ x.toNat ∧ x.toNat ≤ 0x39) :
    ParseInt (c :: r) =
      match ParseUint (c :: r) with
      | .error e => .error e
      | .ok un => if un < 2 ^ 63 then .ok (un : Int) else .error .ErrRange := by
  have hc := hd c (List.mem_cons_self _ _)
  have hp : c ≠ '+' := by
    intro h; rw [h] at hc; have : ('+' : Char).toNat = 43 := rfl; omega
  have hm : c ≠ '-' := by
    intro h; rw [h] at hc; have : ('-' : Char).toNat = 45 := rfl; omega
  unfold ParseInt
  simp only [hp, hm, or_self, if_false, decide_False]
  cases hU : ParseUint (c :: r) with
  | error e => cases e <;> rfl
  | ok un =>
    simp only []
    by_cases h : un < 2 ^ 63
    · rw [if_pos h, if_neg (by simp; omega), if_neg (by simp)]
      simp
    · rw [if_neg h, if_pos (by simp; omega)]

theorem integerError_eq (p : Parser) :
    ({ p with errors := p.errors ++
      ["could not parse ".toList ++ quote p.curToken.Literal ++ " as integer".toList] } : Parser)
      = p.withIntegerError := by
  simp [Parser.withIntegerError, quote]

/-- C4, as amended. For every INT lexeme of ASCII decimal digits: when it does not
start with `0`, `parseIntegerLiteral` returns the integer literal of its decimal value
and appends nothing if that value is below 2^63, and appends the diagnostic
`could not parse "d" as integer` and returns nil otherwise; when it starts with `0`, the
digits after that `0` are read in base 8 (`ParseInt` is called with base 0): it returns
the literal of their octal value if they are all below 8 and the value is below 2^63,
and appends the diagnostic and returns nil otherwise. -/
theorem parseIntegerLiteral_on_digits (p : Parser) (c : Char) (r : Str)
    (hlit : p.curToken.Literal = c :: r)
    (hd : ∀ x ∈ c :: r, 0x30 ≤ x.toNat ∧ x.toNat ≤ 0x39) :
    p.parseIntegerLiteral =
      if c = '0' then
        if (∀ x ∈ r, x.toNat ≤ 0x37) ∧ octalValue r < 2 ^ 63 then
          (p, .IntegerLiteral p.curToken (octalValue r))
        else (p.withIntegerError, .nil)
      else
        if decimalValue (c :: r) < 2 ^ 63 then
          (p, .IntegerLiteral p.curToken (decimalValue (c :: r)))
        else (p.withIntegerError, .nil) := by
  have hr : ∀ x ∈ r, 0x30 ≤ x.toNat ∧ x.toNat ≤ 0x39 :=
    fun x hx => hd x (List.mem_cons_of_mem _ hx)
  unfold Parser.parseIntegerLiteral
  rw [integerError_eq, hlit, ParseInt_digits c r hd]
  by_cases hc : c = '0'
  · subst hc
    rw [if_pos rfl]
    by_cases hoct : ∀ x ∈ r, x.toNat ≤ 0x37
    · rw [ParseUint_octal r (fun x hx => ⟨(hr x hx).1, hoct x hx⟩)]
      by_cases hv : octalValue r < 2 ^ 63
      · have hv2 : octalValue r < 2 ^ 64 := by omega
        simp only [hv, hv2, if_true, and_true]
        rw [if_pos hoct]
      · by_cases hv2 : octalValue r < 2 ^ 64
        · simp only [hv, hv2, if_true, if_false, and_false]
        · simp only [hv, hv2, if_false, and_false]
    · have hbad : ∃ x ∈ r, 0x38 ≤ x.toNat := by
        by_contra hcon
        apply hoct
        intro x hx
        by_contra hx8
        exact hcon ⟨x, hx, by omega⟩
      obtain ⟨e, he⟩ := ParseUint_octal_bad r hr hbad
      rw [he]
      simp only [hoct, false_and, if_false]
  · rw [if_neg hc, ParseUint_decimal c r hc hd]
    by_cases hv : decimalValue (c :: r) < 2 ^ 63
    · have hv2 : decimalValue (c :: r) < 2 ^ 64 := by omega
      simp only [hv, hv2, if_true]
    · by_cases hv2 : decimalValue (c :: r) < 2 ^ 64
      · simp only [hv, hv2, if_true, if_false]
      · simp only [hv, hv2, if_false]

/-- Witness for `parseIntegerLiteral_on_digits`: the lexeme `42`. -/
theorem parseIntegerLiteral_on_digits_witness :
    (∀ x ∈ ['4', '2'], 0x30 ≤ x.toNat ∧ x.toNat ≤ 0x39) ∧
    ({ l := Lexer.New [], curToken := ⟨INT, ['4', '2'], 1, 1⟩ } : Parser).parseIntegerLiteral =
      if '4' = '0' then
        if (∀ x ∈ ['2'], x.toNat ≤ 0x37) ∧ octalValue ['2'] < 2 ^ 63 then
          ({ l := Lexer.New [], curToken := ⟨INT, ['4', '2'], 1, 1⟩ },
            .IntegerLiteral ⟨INT, ['4', '2'], 1, 1⟩ (octalValue ['2']))
        else
          (({ l := Lexer.New [], curToken := ⟨INT, ['4', '2'], 1, 1⟩ } :
            Parser).withIntegerError, .nil)
      else
        if decimalValue ['4', '2'] < 2 ^ 63 then
          ({ l := Lexer.New [], curToken := ⟨INT, ['4', '2'], 1, 1⟩ },
            .IntegerLiteral ⟨INT, ['4', '2'], 1, 1⟩ (decimalValue ['4', '2']))
        else
          (({ l := Lexer.New [], curToken := ⟨INT, ['4', '2'], 1, 1⟩ } :
            Parser).withIntegerError, .nil) :=
  ⟨by decide,
    parseIntegerLiteral_on_digits { l := Lexer.New [], curToken := ⟨INT, ['4', '2'], 1, 1⟩ }
      '4' ['2'] rfl (by decide)⟩

/-- C4 fails as stated. The lexeme `010` has the decimal value 10, which is below 2^63,
yet `parseIntegerLiteral` returns the integer literal 8; the lexeme `08` has the decimal
value 8, yet `parseIntegerLiteral` appends the diagnostic and returns nil. -/
theorem parseIntegerLiteral_leading_zero :
    decimalValue "010".toList = 10 ∧
    ({ l := Lexer.New [], curToken := ⟨INT, "010".toList, 1, 1⟩ } : Parser).parseIntegerLiteral =
      ({ l := Lexer.New [], curToken := ⟨INT, "010".toList, 1, 1⟩ },
        .IntegerLiteral ⟨INT, "010".toList, 1, 1⟩ 8) ∧
    decimalValue "08".toList = 8 ∧
    ({ l := Lexer.New [], curToken := ⟨INT, "08".toList, 1, 1⟩ } : Parser).parseIntegerLiteral =
      ({ l := Lexer.New [], curToken := ⟨INT, "08".toList, 1, 1⟩,
         errors := ["could not parse \"08\" as integer".toList] }, .nil) := by
  refine ⟨rfl, rfl, rfl, rfl⟩

end IntegerLiterals

/-! ## The scanner on a suffix of the input -/

namespace Lexer

variable {k : Nat} {l1 l2 : Lexer}

theorem Shifted.length (h : Shifted k l1 l2) : l1.input.length = l2.input.length + k := by
  obtain ⟨pre, hk, hin⟩ := h.input
  rw [hin, List.length_append, hk, Nat.add_comm]

theorem Shifted.getD (h : Shifted k l1 l2) :
    l1.input.getD l1.readPosition NUL = l2.input.getD l2.readPosition NUL := by
  obtain ⟨pre, hk, hin⟩ := h.input
  rw [hin, h.readPosition, ← hk, List.getD_eq_getElem?_getD, List.getD_eq_getElem?_getD,
    List.getElem?_append_right (by omega)]
  simp

theorem Shifted.fuel (h : Shifted k l1 l2) : l1.fuel = l2.fuel := by
  have := h.length
  have := h.readPosition
  unfold Lexer.fuel
  omega

theorem Shifted.peekChar (h : Shifted k l1 l2) : l1.peekChar = l2.peekChar := by
  have hl := h.length
  have hr := h.readPosition
  unfold Lexer.peekChar
  by_cases hend : l2.readPosition ≥ l2.input.length
  · rw [if_pos hend, if_pos (by omega)]
  · rw [if_neg hend, if_neg (by omega), h.getD]

theorem Shifted.readChar (h : Shifted k l1 l2) : Shifted k l1.readChar l2.readChar := by
  have hl := h.length
  have hr := h.readPosition
  unfold Lexer.readChar
  by_cases hend : l2.readPosition ≥ l2.input.length
  · rw [if_pos hend, if_pos (by omega)]
    exact ⟨h.input, h.readPosition, h.position, rfl⟩
  · rw [if_neg hend, if_neg (by omega), h.getD]
    simp only []
    split_ifs
    · exact ⟨h.input, by simp only []; omega, hr, rfl⟩
    · exact ⟨h.input, by simp only []; omega, hr, rfl⟩

theorem Shifted.slice (h : Shifted k l1 l2) (a b : Nat) :
    Lexer.slice l1.input (a + k) (b + k) = Lexer.slice l2.input a b := by
  obtain ⟨pre, hk, hin⟩ := h.input
  unfold Lexer.slice
  rw [hin, ← hk, Nat.add_comm a, List.drop_append]
  congr 1
  omega

theorem Shifted.same_input (h : Shifted k l1 l2) {a b : Lexer} (ha : a.input = l1.input)
    (hb : b.input = l2.input) (hrp : a.readPosition = b.readPosition + k)
    (hp : a.position = b.position + k) (hc : a.ch = b.ch) : Shifted k a b :=
  ⟨by rw [ha, hb]; exact h.input, hrp, hp, hc⟩

theorem Shifted.skipWhitespaceLoop (n : Nat) :
    ∀ {l1 l2 : Lexer}, Shifted k l1 l2 →
      Shifted k (skipWhitespaceLoop n l1) (skipWhitespaceLoop n l2) := by
  induction n with
  | zero => intro l1 l2 h; exact h
  | succ n ih =>
    intro l1 l2 h
    simp only [Lexer.skipWhitespaceLoop, h.ch]
    split_ifs
    · exact ih h.readChar
    · exact h

theorem Shifted.skipWhitespace (h : Shifted k l1 l2) :
    Shifted k l1.skipWhitespace l2.skipWhitespace := by
  unfold Lexer.skipWhitespace
  rw [h.fuel]
  exact Shifted.skipWhitespaceLoop _ h

theorem Shifted.skipCommentLoop (n : Nat) :
    ∀ {l1 l2 : Lexer}, Shifted k l1 l2 →
      Shifted k (skipCommentLoop n l1) (skipCommentLoop n l2) := by
  induction n with
  | zero => intro l1 l2 h; exact h
  | succ n ih =>
    intro l1 l2 h
    simp only [Lexer.skipCommentLoop, h.ch]
    split_ifs
    · exact ih h.readChar
    · exact h

theorem Shifted.skipComment (h : Shifted k l1 l2) :
    Shifted k l1.skipComment l2.skipComment := by
  unfold Lexer.skipComment
  rw [h.fuel]
  exact Shifted.skipCommentLoop _ h

theorem Shifted.readIdentifierLoop (lib : StdLib) (n : Nat) :
    ∀ {l1 l2 : Lexer}, Shifted k l1 l2 →
      Shifted k (readIdentifierLoop lib n l1) (readIdentifierLoop lib n l2) := by
  induction n with
  | zero => intro l1 l2 h; exact h
  | succ n ih =>
    intro l1 l2 h
    simp only [Lexer.readIdentifierLoop, h.ch]
    split_ifs
    · exact ih h.readChar
    · exact h

theorem Shifted.readDigitsLoop (lib : StdLib) (n : Nat) :
    ∀ {l1 l2 : Lexer}, Shifted k l1 l2 →
      Shifted k (readDigitsLoop lib n l1) (readDigitsLoop lib n l2) := by
  induction n with
  | zero => intro l1 l2 h; exact h
  | succ n ih =>
    intro l1 l2 h
    simp only [Lexer.readDigitsLoop, h.ch]
    split_ifs
    · exact ih h.readChar
    · exact h

theorem Shifted.readStringLoop (n : Nat) :
    ∀ {l1 l2 : Lexer}, Shifted k l1 l2 →
      Shifted k (readStringLoop n l1) (readStringLoop n l2) := by
  induction n with
  | zero => intro l1 l2 h; exact h
  | succ n ih =>
    intro l1 l2 h
    simp only [Lexer.readStringLoop, h.ch, h.readChar.ch]
    split_ifs
    · exact h.readChar
    · exact ih h.readChar.readChar
    · exact ih h.readChar
    · exact h

theorem Shifted.slice_eq (h : Shifted k l1 l2) {a b : Lexer} (hab : Shifted k a b) :
    Lexer.slice l1.input a.position l1.position = Lexer.slice l2.input b.position l2.position := by
  rw [hab.position, h.position]
  exact h.slice _ _

theorem Shifted.readIdentifier (lib : StdLib) (h : Shifted k l1 l2) :
    Shifted k (l1.readIdentifier lib).1 (l2.readIdentifier lib).1 ∧
      (l1.readIdentifier lib).2 = (l2.readIdentifier lib).2 := by
  unfold Lexer.readIdentifier
  simp only [h.fuel]
  have h1 := Shifted.readIdentifierLoop lib l2.fuel h
  exact ⟨h1, h1.slice_eq h⟩

theorem Shifted.readNumber (lib : StdLib) (h : Shifted k l1 l2) :
    Shifted k (l1.readNumber lib).1 (l2.readNumber lib).1 ∧
      (l1.readNumber lib).2 = (l2.readNumber lib).2 := by
  unfold Lexer.readNumber
  simp only [h.fuel]
  have h1 := Shifted.readDigitsLoop lib l2.fuel h
  have h3 := Shifted.readDigitsLoop lib (Lexer.readDigitsLoop lib l2.fuel l2).readChar.fuel h1.readChar
  rw [h1.ch, h1.peekChar, h1.readChar.fuel]
  split_ifs
  · exact ⟨h3, by rw [h3.slice_eq h]⟩
  · exact ⟨h1, by rw [h1.slice_eq h]⟩

theorem Shifted.readString (h : Shifted k l1 l2) :
    Shifted k l1.readString.1 l2.readString.1 ∧ l1.readString.2 = l2.readString.2 := by
  unfold Lexer.readString
  have h1 := h.readChar
  have h2 := Shifted.readStringLoop l2.readChar.fuel h1
  simp only [h1.fuel, h2.ch]
  split_ifs
  · exact ⟨h2.readChar, h2.slice_eq h1⟩
  · exact ⟨h2, h2.slice_eq h1⟩

end Lexer


namespace Lexer

theorem Shifted.oneChar {k : Nat} {a b : Lexer} (h : Shifted k a b) (t : TokenType) (lit : Str) :
    SameStep k (a.readChar, a.makeToken t lit) (b.readChar, b.makeToken t lit) :=
  ⟨h.readChar, rfl⟩

theorem Shifted.twoChar {k : Nat} {a b : Lexer} (h : Shifted k a b) (t : TokenType) (c : Char) :
    SameStep k (a.readChar.readChar, a.readChar.makeToken t [c, a.readChar.ch])
      (b.readChar.readChar, b.readChar.makeToken t [c, b.readChar.ch]) :=
  ⟨h.readChar.readChar, by simp [Token.kindLit, makeToken, h.readChar.ch]⟩

theorem Shifted.NextTokenAux {k : Nat} (lib : StdLib) (n : Nat) :
    ∀ {l1 l2 : Lexer}, Shifted k l1 l2 →
      SameStep k (NextTokenAux lib n l1) (NextTokenAux lib n l2) := by
  induction n with
  | zero => intro l1 l2 h; exact ⟨h, rfl⟩
  | succ n ih =>
    intro l1 l2 h0
    have h := h0.skipWhitespace
    rw [Lexer.NextTokenAux, Lexer.NextTokenAux]
    dsimp only
    generalize l1.skipWhitespace = a at h ⊢
    generalize l2.skipWhitespace = b at h ⊢
    have hid := h.readIdentifier lib
    have hnum := h.readNumber lib
    have hstr := h.readString
    rw [h.ch, h.peekChar]
    by_cases hc1 : b.ch = '='
    · rw [if_pos hc1, if_pos hc1]
      by_cases hp1 : b.peekChar = '='
      · rw [if_pos hp1, if_pos hp1]; exact Shifted.twoChar h _ _
      rw [if_neg hp1, if_neg hp1]
      by_cases hp2 : b.peekChar = '~'
      · rw [if_pos hp2, if_pos hp2]; exact Shifted.twoChar h _ _
      rw [if_neg hp2, if_neg hp2]
      exact Shifted.oneChar h _ _
    rw [if_neg hc1, if_neg hc1]
    by_cases hc2 : b.ch = '+'
    · rw [if_pos hc2, if_pos hc2]; exact Shifted.oneChar h _ _
    rw [if_neg hc2, if_neg hc2]
    by_cases hc3 : b.ch = '-'
    · rw [if_pos hc3, if_pos hc3]
      by_cases hp1 : b.peekChar = '>'
      · rw [if_pos hp1, if_pos hp1]; exact Shifted.twoChar h _ _
      rw [if_neg hp1, if_neg hp1]
      exact Shifted.oneChar h _ _
    rw [if_neg hc3, if_neg hc3]
    by_cases hc4 : b.ch = '!'
    · rw [if_pos hc4, if_pos hc4]
      by_cases hp1 : b.peekChar = '='
      · rw [if_pos hp1, if_pos hp1]; exact Shifted.twoChar h _ _
      rw [if_neg hp1, if_neg hp1]
      exact Shifted.oneChar h _ _
    rw [if_neg hc4, if_neg hc4]
    by_cases hc5 : b.ch = '/'
    · rw [if_pos hc5, if_pos hc5]
      by_cases hp1 : b.peekChar = '/'
      · rw [if_pos hp1, if_pos hp1]; exact ih h.skipComment
      rw [if_neg hp1, if_neg hp1]
      exact Shifted.oneChar h _ _
    rw [if_neg hc5, if_neg hc5]
    by_cases hc6 : b.ch = '*'
    · rw [if_pos hc6, if_pos hc6]; exact Shifted.oneChar h _ _
    rw [if_neg hc6, if_neg hc6]
    by_cases hc7 : b.ch = '<'
    · rw [if_pos hc7, if_pos hc7]
      by_cases hp1 : b.peekChar = '-'
      · rw [if_pos hp1, if_pos hp1]; exact Shifted.twoChar h _ _
      rw [if_neg hp1, if_neg hp1]
      by_cases hp2 : b.peekChar = '='
      · rw [if_pos hp2, if_pos hp2]; exact Shifted.twoChar h _ _
      rw [if_neg hp2, if_neg hp2]
      exact Shifted.oneChar h _ _
    rw [if_neg hc7, if_neg hc7]
    by_cases hc8 : b.ch = '>'
    · rw [if_pos hc8, if_pos hc8]
      by_cases hp1 : b.peekChar = '='
      · rw [if_pos hp1, if_pos hp1]; exact Shifted.twoChar h _ _
      rw [if_neg hp1, if_neg hp1]
      exact Shifted.oneChar h _ _
    rw [if_neg hc8, if_neg hc8]
    by_cases hc9 : b.ch = ','
    · rw [if_pos hc9, if_pos hc9]; exact Shifted.oneChar h _ _
    rw [if_neg hc9, if_neg hc9]
    by_cases hc10 : b.ch = ';'
    · rw [if_pos hc10, if_pos hc10]; exact Shifted.oneChar h _ _
    rw [if_neg hc10, if_neg hc10]
    by_cases hc11 : b.ch = ':'
    · rw [if_pos hc11, if_pos hc11]; exact Shifted.oneChar h _ _
    rw [if_neg hc11, if_neg hc11]
    by_cases hc12 : b.ch = '('
    · rw [if_pos hc12, if_pos hc12]; exact Shifted.oneChar h _ _
    rw [if_neg hc12, if_neg hc12]
    by_cases hc13 : b.ch = ')'
    · rw [if_pos hc13, if_pos hc13]; exact Shifted.oneChar h _ _
    rw [if_neg hc13, if_neg hc13]
    by_cases hc14 : b.ch = '{'
    · rw [if_pos hc14, if_pos hc14]; exact Shifted.oneChar h _ _
    rw [if_neg hc14, if_neg hc14]
    by_cases hc15 : b.ch = '}'
    · rw [if_pos hc15, if_pos hc15]; exact Shifted.oneChar h _ _
    rw [if_neg hc15, if_neg hc15]
    by_cases hc16 : b.ch = '['
    · rw [if_pos hc16, if_pos hc16]; exact Shifted.oneChar h _ _
    rw [if_neg hc16, if_neg hc16]
    by_cases hc17 : b.ch = ']'
    · rw [if_pos hc17, if_pos hc17]; exact Shifted.oneChar h _ _
    rw [if_neg hc17, if_neg hc17]
    by_cases hq : b.ch = '"'
    · rw [if_pos hq, if_pos hq]
      exact ⟨hstr.1, by simp [Token.kindLit, hstr.2]⟩
    rw [if_neg hq, if_neg hq]
    by_cases hz : b.ch = NUL
    · rw [if_pos hz, if_pos hz]
      exact ⟨h.readChar, rfl⟩
    rw [if_neg hz, if_neg hz]
    by_cases hl : isLetter lib b.ch = true
    · rw [if_pos hl, if_pos hl]
      exact ⟨hid.1, by simp [Token.kindLit, hid.2]⟩
    rw [if_neg hl, if_neg hl]
    by_cases hd : isDigit lib b.ch = true
    · rw [if_pos hd, if_pos hd]
      exact ⟨hnum.1, by simp [Token.kindLit, hnum.2]⟩
    rw [if_neg hd, if_neg hd]
    exact Shifted.oneChar h _ _

theorem Shifted.NextToken {k : Nat} {l1 l2 : Lexer} (lib : StdLib) (h : Shifted k l1 l2) :
    SameStep k (NextToken lib l1) (NextToken lib l2) := by
  unfold Lexer.NextToken
  rw [h.fuel]
  exact Shifted.NextTokenAux lib _ h

theorem Shifted.nthToken {k : Nat} (lib : StdLib) (n : Nat) :
    ∀ {l1 l2 : Lexer}, Shifted k l1 l2 →
      (nthToken lib l1 n).kindLit = (nthToken lib l2 n).kindLit := by
  induction n with
  | zero => intro l1 l2 h; exact (h.NextToken lib).2
  | succ n ih => intro l1 l2 h; exact ih (h.NextToken lib).1

end Lexer


namespace Lexer

theorem skipWhitespace_of_not_space (l : Lexer)
    (h : ¬(l.ch = ' ' ∨ l.ch = '\t' ∨ l.ch = '\n' ∨ l.ch = '\r')) : l.skipWhitespace = l := by
  unfold Lexer.skipWhitespace Lexer.fuel
  rw [Lexer.skipWhitespaceLoop, if_neg h]

theorem NextTokenAux_string (lib : StdLib) (n : Nat) (l : Lexer) (h : l.ch = '"') :
    NextTokenAux lib (n + 1) l =
      (l.readString.1,
        ⟨STRING, l.readString.2, l.readString.1.line, l.readString.1.column⟩) := by
  have hws : l.skipWhitespace = l := skipWhitespace_of_not_space l (by simp [h])
  simp [Lexer.NextTokenAux, hws, h]

theorem NextTokenAux_eof (lib : StdLib) (n : Nat) (l : Lexer) (h : l.ch = NUL) :
    NextTokenAux lib (n + 1) l =
      (l.readChar, { Typ := EOF, Literal := [], Line := l.line, Column := l.column }) := by
  have hws : l.skipWhitespace = l := skipWhitespace_of_not_space l (by simp [h, NUL])
  simp [Lexer.NextTokenAux, hws, h, NUL]

theorem AtEnd.readChar_eq {l : Lexer} (h : AtEnd l) : l.readChar = l := by
  unfold Lexer.readChar
  rw [if_pos h.readPosition, ← h.ch]

theorem AtEnd.NextToken_eof {l : Lexer} (lib : StdLib) (h : AtEnd l) :
    NextToken lib l = (l, { Typ := EOF, Literal := [], Line := l.line, Column := l.column }) := by
  unfold Lexer.NextToken Lexer.fuel
  rw [NextTokenAux_eof lib _ l h.ch, h.readChar_eq]

theorem AtEnd.nthToken_eof {l : Lexer} (lib : StdLib) (h : AtEnd l) (n : Nat) :
    (nthToken lib l n).kindLit = (EOF, []) := by
  induction n with
  | zero => rw [Lexer.nthToken, h.NextToken_eof lib]; rfl
  | succ n ih => rw [Lexer.nthToken, h.NextToken_eof lib]; exact ih

theorem AtEnd.New_nil : AtEnd (New []) :=
  ⟨rfl, by simp [New, Lexer.readChar]⟩

theorem At.New (c : Char) (post : Str) : At (New (c :: post)) [] c post := by
  unfold Lexer.New Lexer.readChar
  simp only [List.length_cons, ge_iff_le, Nat.le_zero_eq, Nat.add_one_ne_zero, if_false,
    List.getD_cons_zero]
  split_ifs <;> exact ⟨rfl, rfl, rfl, rfl⟩

theorem At.advance {l : Lexer} {pre : Str} {c d : Char} {post : Str}
    (h : At l pre c (d :: post)) : At l.readChar (pre ++ [c]) d post := by
  have hlt : ¬ l.readPosition ≥ l.input.length := by
    rw [h.readPosition, h.input]
    simp
  have hget : l.input.getD l.readPosition NUL = d := by
    rw [h.readPosition, h.input, List.getD_eq_getElem?_getD,
      List.getElem?_append_right (by omega)]
    simp
  have hin : l.input = (pre ++ [c]) ++ d :: post := by rw [h.input]; simp
  unfold Lexer.readChar
  rw [if_neg hlt, hget]
  simp only []
  split_ifs <;> exact ⟨hin, by simp [h.readPosition], by simp [h.readPosition], rfl⟩

theorem At.readChar_end {l : Lexer} {pre : Str} {c : Char} (h : At l pre c []) :
    AtEnd l.readChar := by
  have hge : l.readPosition ≥ l.input.length := by
    rw [h.readPosition, h.input]
    simp
  unfold Lexer.readChar
  rw [if_pos hge]
  exact ⟨rfl, hge⟩

theorem At.fuel_eq {l : Lexer} {pre : Str} {c : Char} {post : Str} (h : At l pre c post) :
    l.fuel = post.length + 1 := by
  unfold Lexer.fuel
  rw [h.readPosition, h.input]
  simp only [List.length_append, List.length_cons]
  omega

theorem At.shifted {l1 l2 : Lexer} {pre p2 : Str} {c : Char} {post : Str}
    (h1 : At l1 (pre ++ p2) c post) (h2 : At l2 p2 c post) : Shifted pre.length l1 l2 :=
  ⟨⟨pre, rfl, by rw [h1.input, h2.input]; simp⟩,
    by rw [h1.readPosition, h2.readPosition]; simp; omega,
    by rw [h1.position, h2.position]; simp; omega,
    by rw [h1.ch, h2.ch]⟩

theorem At.readStringLoop_body (rest : Str) :
    ∀ (n : Nat) (t : Str) (l : Lexer) (pre : Str) (c : Char) (post : Str),
      stringBody t = true → c :: post = t ++ '"' :: rest → At l pre c post → t.length < n →
      At (Lexer.readStringLoop n l) (pre ++ t) '"' rest := by
  intro n
  induction n with
  | zero => intro t l pre c post _ _ _ hn; omega
  | succ n ih =>
    intro t l pre c post hb hsplit hat hn
    cases t with
    | nil =>
      simp only [List.nil_append, List.cons.injEq] at hsplit
      obtain ⟨hc, hp⟩ := hsplit
      subst hc hp
      rw [Lexer.readStringLoop, if_neg (by simp [hat.ch]), List.append_nil]
      exact hat
    | cons a t1 =>
      simp only [List.cons_append, List.cons.injEq] at hsplit
      obtain ⟨hc, hp⟩ := hsplit
      subst hc
      unfold stringBody at hb
      by_cases ha : c = '\\'
      · rw [if_pos ha] at hb
        cases t1 with
        | nil => simp at hb
        | cons d t2 =>
          simp only [Bool.and_eq_true, decide_eq_true_eq] at hb
          simp only [List.cons_append] at hp
          subst hp
          have h1 := hat.advance
          obtain ⟨e, post2, he⟩ : ∃ e post2, t2 ++ '"' :: rest = e :: post2 := by
            cases t2 with
            | nil => exact ⟨_, _, rfl⟩
            | cons x y => exact ⟨_, _, rfl⟩
          rw [he] at h1
          have h2 := h1.advance
          rw [Lexer.readStringLoop, if_pos (by rw [hat.ch, ha]; simp [NUL]),
            if_pos (by rw [hat.ch, ha])]
          simp only []
          rw [if_neg (by rw [h1.ch]; exact hb.1)]
          have := ih t2 _ _ e post2 hb.2 he.symm h2 (by simp at hn; omega)
          simpa using this
      · rw [if_neg ha] at hb
        simp only [Bool.and_eq_true, decide_eq_true_eq] at hb
        obtain ⟨e, post2, he⟩ : ∃ e post2, t1 ++ '"' :: rest = e :: post2 := by
          cases t1 with
          | nil => exact ⟨_, _, rfl⟩
          | cons x y => exact ⟨_, _, rfl⟩
        rw [he] at hp
        subst hp
        have h1 := hat.advance
        rw [Lexer.readStringLoop, if_pos (by rw [hat.ch]; exact ⟨hb.1.1, hb.1.2⟩),
          if_neg (by rw [hat.ch]; exact ha)]
        have := ih t1 _ _ e post2 hb.2 he.symm h1 (by simp at hn; omega)
        simpa using this

end Lexer


namespace Lexer

theorem slice_mid (pre mid post : Str) :
    Lexer.slice (pre ++ mid ++ post) pre.length (pre.length + mid.length) = mid := by
  unfold Lexer.slice
  rw [List.append_assoc, List.drop_left, Nat.add_sub_cancel_left, List.take_left]

theorem At.readString_body {l : Lexer} {pre : Str} (t rest : Str)
    (h : At l pre '"' (t ++ '"' :: rest)) (hb : stringBody t = true) :
    ∃ l2, At l2 (pre ++ '"' :: t) '"' rest ∧ l.readString = (l2.readChar, t) := by
  obtain ⟨e, post2, he⟩ : ∃ e post2, t ++ '"' :: rest = e :: post2 := by
    cases t with
    | nil => exact ⟨_, _, rfl⟩
    | cons x y => exact ⟨_, _, rfl⟩
  have h1 : At l.readChar (pre ++ ['"']) e post2 := by
    rw [he] at h
    exact h.advance
  have hlen : t.length < l.readChar.fuel := by
    rw [h1.fuel_eq]
    have : (t ++ '"' :: rest).length = (e :: post2).length := by rw [he]
    simp only [List.length_append, List.length_cons] at this
    omega
  have h2 := At.readStringLoop_body rest l.readChar.fuel t l.readChar (pre ++ ['"']) e post2 hb
    he.symm h1 hlen
  refine ⟨Lexer.readStringLoop l.readChar.fuel l.readChar, by simpa using h2, ?_⟩
  unfold Lexer.readString
  simp only []
  rw [if_pos h2.ch, h2.input, h1.position, h2.position]
  have hl : (pre ++ ['"'] ++ t).length = (pre ++ ['"']).length + t.length :=
    List.length_append _ _
  rw [hl, slice_mid]

end Lexer

section StringLiterals

open Lexer

/-- C9. For every text `t` made of runes other than `"`, `\` and NUL and of pairs of a
backslash and a rune other than NUL, and every `rest`: on the input `"` `t` `"` `rest`
the first token is STRING with the lexeme `t`, escape sequences left as they are, and
the tokens after it have the kinds and lexemes of the tokens of `rest`. -/
theorem string_literal_token (lib : StdLib) (t rest : Str) (ht : stringBody t = true) :
    (nthToken lib (New ('"' :: (t ++ '"' :: rest))) 0).kindLit = (STRING, t) ∧
    ∀ n, (nthToken lib (New ('"' :: (t ++ '"' :: rest))) (n + 1)).kindLit =
      (nthToken lib (New rest) n).kindLit := by
  have h0 := At.New '"' (t ++ '"' :: rest)
  obtain ⟨l2, hl2, hrs⟩ := h0.readString_body t rest ht
  have hnext : NextToken lib (New ('"' :: (t ++ '"' :: rest))) =
      (l2.readChar, ⟨STRING, t, l2.readChar.line, l2.readChar.column⟩) := by
    unfold Lexer.NextToken
    rw [h0.fuel_eq, NextTokenAux_string lib _ _ h0.ch, hrs]
  refine ⟨by rw [Lexer.nthToken, hnext]; rfl, ?_⟩
  intro n
  rw [Lexer.nthToken, hnext]
  cases rest with
  | nil =>
    rw [hl2.readChar_end.nthToken_eof lib n, AtEnd.New_nil.nthToken_eof lib n]
  | cons d rest1 =>
    have h3 : At l2.readChar (([] ++ '"' :: t ++ ['"']) ++ []) d rest1 := by
      simpa using hl2.advance
    exact (h3.shifted (At.New d rest1)).nthToken lib n

/-- Witness for `string_literal_token`: the text `a\"b` followed by ` x;`. -/
theorem string_literal_token_witness :
    stringBody "a\\\"b".toList = true ∧
    ((nthToken asciiLib (New ('"' :: ("a\\\"b".toList ++ '"' :: " x;".toList))) 0).kindLit =
        (STRING, "a\\\"b".toList) ∧
      ∀ n, (nthToken asciiLib (New ('"' :: ("a\\\"b".toList ++ '"' :: " x;".toList)))
          (n + 1)).kindLit = (nthToken asciiLib (New " x;".toList) n).kindLit) :=
  ⟨by decide, string_literal_token asciiLib "a\\\"b".toList " x;".toList (by decide)⟩

end StringLiterals

/-! ## Emission of expressions -/

namespace CodeGenerator

theorem Res.bind_eq_ok {r : Res} {f : CodeGenerator → Res} {g' : CodeGenerator}
    (h : r.bind f = .ok g') : ∃ g1, r = .ok g1 ∧ f g1 = .ok g' := by
  cases r with
  | ok g1 => exact ⟨g1, rfl, h⟩
  | error g1 msg => simp [Res.bind] at h
  | panic => simp [Res.bind] at h

@[simp] theorem write_nil (g : CodeGenerator) : g.write [] = g := by
  simp [write]

@[simp] theorem write_write (g : CodeGenerator) (a b : Str) :
    (g.write a).write b = g.write (a ++ b) := by
  simp [write]

@[simp] theorem write_indent (g : CodeGenerator) (a : Str) : (g.write a).indent = g.indent := rfl

@[simp] theorem write_scopeStack (g : CodeGenerator) (a : Str) :
    (g.write a).scopeStack = g.scopeStack := rfl

@[simp] theorem write_output (g : CodeGenerator) (a : Str) :
    (g.write a).output = g.output ++ a := rfl

theorem writeIndent_eq (g : CodeGenerator) :
    g.writeIndent = g.write (List.replicate g.indent '\t') := rfl

/-- The state `g` after a piece of emission that wrote `s` with the indentation raised
by one in between. -/
theorem inc_write_dec (g : CodeGenerator) (s : Str) :
    (g.incIndent.write s).decIndent = g.write s := by
  simp [write, incIndent, decIndent]

theorem incIndent_write (g : CodeGenerator) (s : Str) :
    (g.write s).incIndent = g.incIndent.write s := rfl

theorem Lockstep.pure_write (f : CodeGenerator → Str)
    (hf : ∀ g b, g.indent = b.indent → f g = f b) :
    Lockstep (fun g => .ok (g.write (f g))) := by
  intro b b' h
  injection h with h
  exact ⟨f b, h.symm, fun g hg => by show Res.ok (g.write (f g)) = _; rw [hf g b hg]⟩

theorem Lockstep.seq {r1 : CodeGenerator → Res} {r2 : CodeGenerator → Res}
    (h1 : Lockstep r1) (h2 : Lockstep r2) : Lockstep (fun g => (r1 g).bind r2) := by
  intro b b' h
  obtain ⟨b1, hb1, hb2⟩ := Res.bind_eq_ok h
  obtain ⟨s1, e1, k1⟩ := h1 b b1 hb1
  obtain ⟨s2, e2, k2⟩ := h2 b1 b' hb2
  refine ⟨s1 ++ s2, by rw [e2, e1, write_write], ?_⟩
  intro g hg
  show (r1 g).bind r2 = _
  rw [k1 g hg]
  show r2 (g.write s1) = _
  rw [k2 (g.write s1) (by rw [e1]; simpa using hg), write_write]

theorem Lockstep.pre (s : Str) {r : CodeGenerator → Res} (h : Lockstep r) :
    Lockstep (fun g => r (g.write s)) := by
  intro b b' hb
  obtain ⟨s1, e1, k1⟩ := h (b.write s) b' hb
  refine ⟨s ++ s1, by rw [e1, write_write], ?_⟩
  intro g hg
  show r (g.write s) = _
  rw [k1 (g.write s) (by simpa using hg), write_write]

theorem Lockstep.ok_write (s : Str) : Lockstep (fun g => .ok (g.write s)) :=
  Lockstep.pure_write (fun _ => s) (fun _ _ _ => rfl)

theorem Lockstep.id : Lockstep (fun g => .ok g) := by
  intro b b' h
  injection h with h
  exact ⟨[], by simp [h], fun g _ => by simp⟩

theorem Lockstep.generateSpinExpression (fn : Expression) {function arguments : CodeGenerator → Res}
    (hf : Lockstep function) (ha : Lockstep arguments) :
    Lockstep (generateSpinExpression fn function arguments) := by
  have h1 : Lockstep (fun g => (arguments (g.write "fmt.Println(".toList)).bind
      fun g1 => .ok (g1.write ")".toList)) :=
    Lockstep.seq (Lockstep.pre _ ha) (Lockstep.ok_write _)
  have h2 : Lockstep (fun g => (function g).bind fun g1 =>
      (arguments (g1.write "(".toList)).bind fun g2 => .ok (g2.write ")".toList)) :=
    Lockstep.seq hf (Lockstep.seq (Lockstep.pre _ ha) (Lockstep.ok_write _))
  unfold CodeGenerator.generateSpinExpression
  simp only []
  split_ifs
  · exact h1
  · exact h2

theorem Lockstep.generateFlowExpression (ct : Expression) {channelType : CodeGenerator → Res}
    (hc : Lockstep channelType) : Lockstep (generateFlowExpression ct channelType) := by
  have h1 : Lockstep (fun g : CodeGenerator =>
      Res.ok ((g.write "make(chan ".toList).write "interface\x7b\x7d)".toList)) := by
    simp only [write_write]
    exact Lockstep.ok_write _
  have h2 : Lockstep (fun g => (channelType (g.write "make(".toList)).bind
      fun g1 => .ok (g1.write ")".toList)) :=
    Lockstep.seq (Lockstep.pre _ hc) (Lockstep.ok_write _)
  unfold CodeGenerator.generateFlowExpression
  simp only []
  split_ifs
  · exact h1
  · exact h2

theorem Lockstep.generateWhenCase {pattern consequence : CodeGenerator → Res}
    (hp : Lockstep pattern) (hc : Lockstep consequence) :
    Lockstep (generateWhenCase pattern consequence) := by
  intro b b' h
  unfold CodeGenerator.generateWhenCase at h
  obtain ⟨g1, h1, h⟩ := Res.bind_eq_ok h
  obtain ⟨g2, h2, h⟩ := Res.bind_eq_ok h
  injection h with h
  obtain ⟨s1, e1, k1⟩ := hp _ _ h1
  obtain ⟨s2, e2, k2⟩ := hc _ _ h2
  refine ⟨List.replicate b.indent '\t' ++ "case ".toList ++ s1 ++ ":\n".toList ++
    List.replicate (b.indent + 1) '\t' ++ "return ".toList ++ s2 ++ "\n".toList, ?_, ?_⟩
  · subst h e2 e1
    simp [write, writeIndent, incIndent, decIndent]
  · intro g hg
    unfold CodeGenerator.generateWhenCase
    rw [k1 _ (by simp [writeIndent, write, hg])]
    simp only [Res.bind]
    rw [k2 _ (by subst e1; simp [writeIndent, write, incIndent, hg])]
    simp [Res.bind, write, writeIndent, incIndent, decIndent, hg]

theorem Lockstep.generateMatchExpression {expression cases : CodeGenerator → Res}
    (he : Lockstep expression) (hc : Lockstep cases) :
    Lockstep (generateMatchExpression expression cases) := by
  intro b b' h
  unfold CodeGenerator.generateMatchExpression at h
  obtain ⟨g1, h1, h⟩ := Res.bind_eq_ok h
  obtain ⟨g2, h2, h⟩ := Res.bind_eq_ok h
  injection h with h
  obtain ⟨s1, e1, k1⟩ := he _ _ h1
  obtain ⟨s2, e2, k2⟩ := hc _ _ h2
  refine ⟨"func() interface\x7b\x7d \x7b\n".toList ++ List.replicate (b.indent + 1) '\t' ++
    "switch ".toList ++ s1 ++ " \x7b\n".toList ++ s2 ++ List.replicate (b.indent + 1) '\t' ++
    "\x7d\n".toList ++ List.replicate (b.indent + 1) '\t' ++ "return nil\n".toList ++
    List.replicate b.indent '\t' ++ "\x7d()".toList, ?_, ?_⟩
  · subst h e2 e1
    simp [write, writeIndent, incIndent, decIndent]
  · intro g hg
    unfold CodeGenerator.generateMatchExpression
    rw [k1 _ (by simp [writeIndent, write, incIndent, hg])]
    simp only [Res.bind]
    rw [k2 _ (by subst e1; simp [writeIndent, write, incIndent, hg])]
    simp [Res.bind, write, writeIndent, incIndent, decIndent, hg]

mutual

theorem generateExpression_lockstep (lib : StdLib) :
    ∀ e : Expression, Lockstep (generateExpression lib e)
  | .Identifier tok value => by
    have : generateExpression lib (.Identifier tok value) = fun g => .ok (g.write value) := by
      funext g; rw [generateExpression]
    rw [this]; exact Lockstep.ok_write _
  | .IntegerLiteral tok value => by
    have : generateExpression lib (.IntegerLiteral tok value) =
        fun g => .ok (g.write (formatInt value)) := by
      funext g; rw [generateExpression]
    rw [this]; exact Lockstep.ok_write _
  | .FloatLiteral tok value => by
    have : generateExpression lib (.FloatLiteral tok value) =
        fun g => .ok (g.write (lib.formatFloat value)) := by
      funext g; rw [generateExpression]
    rw [this]; exact Lockstep.ok_write _
  | .StringLiteral tok value => by
    have : generateExpression lib (.StringLiteral tok value) =
        fun g => .ok (g.write ('"' :: value ++ ['"'])) := by
      funext g; rw [generateExpression]
    rw [this]; exact Lockstep.ok_write _
  | .Boolean tok value => by
    have : generateExpression lib (.Boolean tok value) =
        fun g => .ok (g.write (if value then "true".toList else "false".toList)) := by
      funext g; rw [generateExpression]
    rw [this]; exact Lockstep.ok_write _
  | .InfixExpression tok left operator right => by
    have : generateExpression lib (.InfixExpression tok left operator right) =
        fun g => (generateExpression lib left (g.write "(".toList)).bind fun g1 =>
          (generateExpression lib right
            (g1.write (" ".toList ++ operator ++ " ".toList))).bind fun g2 =>
              .ok (g2.write ")".toList) := by
      funext g; rw [generateExpression]
    rw [this]
    exact Lockstep.seq (Lockstep.pre _ (generateExpression_lockstep lib left))
      (Lockstep.seq (Lockstep.pre _ (generateExpression_lockstep lib right))
        (Lockstep.ok_write _))
  | .SpinExpression tok function arguments => by
    have : generateExpression lib (.SpinExpression tok function arguments) =
        generateSpinExpression function (generateExpression lib function)
          (generateArguments lib arguments 0) := by
      funext g; rw [generateExpression]
    rw [this]
    exact Lockstep.generateSpinExpression _ (generateExpression_lockstep lib function)
      (generateArguments_lockstep lib arguments 0)
  | .FlowExpression tok channelType => by
    have : generateExpression lib (.FlowExpression tok channelType) =
        generateFlowExpression channelType (generateExpression lib channelType) := by
      funext g; rw [generateExpression]
    rw [this]
    exact Lockstep.generateFlowExpression _ (generateExpression_lockstep lib channelType)
  | .MatchExpression tok expression cases => by
    have : generateExpression lib (.MatchExpression tok expression cases) =
        generateMatchExpression (generateExpression lib expression)
          (generateCases lib cases) := by
      funext g; rw [generateExpression]
    rw [this]
    exact Lockstep.generateMatchExpression (generateExpression_lockstep lib expression)
      (generateCases_lockstep lib cases)
  | .nil => by
    intro b b' h
    rw [generateExpression] at h
    cases h

theorem generateArguments_lockstep (lib : StdLib) :
    ∀ (arguments : List Expression) (i : Nat), Lockstep (generateArguments lib arguments i)
  | [], i => by
    have : generateArguments lib [] i = fun g => .ok g := by
      funext g; rw [generateArguments]
    rw [this]; exact Lockstep.id
  | arg :: rest, i => by
    have : generateArguments lib (arg :: rest) i =
        fun g => (generateExpression lib arg
          (if i > 0 then g.write ", ".toList else g)).bind fun g1 =>
            generateArguments lib rest (i + 1) g1 := by
      funext g; rw [generateArguments]
    rw [this]
    have ha := generateExpression_lockstep lib arg
    have hr := generateArguments_lockstep lib rest (i + 1)
    by_cases hi : i > 0
    · simp only [hi, if_true]
      exact Lockstep.seq (Lockstep.pre _ ha) hr
    · simp only [hi, if_false]
      exact Lockstep.seq ha hr

theorem generateCases_lockstep (lib : StdLib) :
    ∀ cases : List WhenCase, Lockstep (generateCases lib cases)
  | [] => by
    have : generateCases lib [] = fun g => .ok g := by
      funext g; rw [generateCases]
    rw [this]; exact Lockstep.id
  | .mk tok pattern consequence :: rest => by
    have : generateCases lib (.mk tok pattern consequence :: rest) =
        fun g => (generateWhenCase (generateExpression lib pattern)
          (generateExpression lib consequence) g).bind fun g1 =>
            generateCases lib rest g1 := by
      funext g; rw [generateCases]
    rw [this]
    exact Lockstep.seq
      (Lockstep.generateWhenCase (generateExpression_lockstep lib pattern)
        (generateExpression_lockstep lib consequence))
      (generateCases_lockstep lib rest)

end

end CodeGenerator

/-! ## Emission of statements and the scope stack -/

namespace CodeGenerator

theorem generateExpression_ok {lib : StdLib} {e : Expression} {g g' : CodeGenerator}
    (h : generateExpression lib e g = .ok g') :
    ∃ s, g' = g.write s ∧ emitExpression lib g.indent e = some s := by
  obtain ⟨s, e1, k⟩ := generateExpression_lockstep lib e g g' h
  refine ⟨s, e1, ?_⟩
  unfold emitExpression
  rw [k { indent := g.indent } rfl]
  simp [write]

theorem generateDanceStatement_ok {lib : StdLib} {name : Identifier} {value : Expression}
    {g g' : CodeGenerator} {top : List Str} {rest : List (List Str)}
    (h : generateDanceStatement lib name value g = .ok g') (hs : g.scopeStack = top :: rest) :
    ∃ text, emitExpression lib g.indent value = some text ∧
      g'.output = g.output ++ List.replicate g.indent '\t' ++ name.Value ++
        (if name.Value ∈ top then " = ".toList else " := ".toList) ++ text ++ "\n".toList ∧
      g'.scopeStack = (if name.Value ∈ top then top else name.Value :: top) :: rest ∧
      g'.indent = g.indent := by
  unfold CodeGenerator.generateDanceStatement at h
  obtain ⟨g3, h3, h⟩ := Res.bind_eq_ok h
  injection h with h
  obtain ⟨text, e3, hem⟩ := generateExpression_ok h3
  by_cases hd : name.Value ∈ top
  · have hdecl : g.writeIndent.isVarDeclared name.Value = true := by
      simp [isVarDeclared, writeIndent, hs, hd]
    simp only [hdecl, if_true] at e3 hem
    refine ⟨text, by simpa [writeIndent] using hem, ?_, ?_, ?_⟩
    · subst h e3
      simp [write, writeIndent, hd]
    · subst h e3
      simp [write, writeIndent, hd, hs]
    · subst h e3
      simp [write, writeIndent]
  · have hdecl : g.writeIndent.isVarDeclared name.Value = false := by
      simp [isVarDeclared, writeIndent, hs, hd]
    simp only [hdecl, Bool.false_eq_true, if_false] at e3 hem
    refine ⟨text, by simpa [writeIndent, write, declareVar, hs] using hem, ?_, ?_, ?_⟩
    · subst h e3
      simp [write, writeIndent, declareVar, hs, hd]
    · subst h e3
      simp [write, writeIndent, declareVar, hd, hs]
    · subst h e3
      simp [write, writeIndent, declareVar, hs]

theorem Scoped.of_lockstep {run : CodeGenerator → Res} (h : Lockstep run) : Scoped run id := by
  intro g g' top rest hrun hs
  obtain ⟨s, e1, _⟩ := h g g' hrun
  subst e1
  exact ⟨rfl, ⟨s, rfl⟩, hs⟩

theorem generateExpression_scoped (lib : StdLib) (e : Expression) :
    Scoped (generateExpression lib e) id :=
  Scoped.of_lockstep (generateExpression_lockstep lib e)

theorem generateExpressionStatement_scoped (lib : StdLib) (e : Expression) :
    Scoped (generateExpressionStatement lib e) id :=
  Scoped.of_lockstep
    (Lockstep.seq (fun b b' h => by
        obtain ⟨s, e1, k⟩ := generateExpression_lockstep lib e _ _ h
        refine ⟨List.replicate b.indent '\t' ++ s, by rw [e1, writeIndent_eq, write_write], ?_⟩
        intro g hg
        rw [k _ (by simp [writeIndent_eq, hg]), writeIndent_eq, write_write, hg])
      (Lockstep.ok_write _))

theorem generateSendStatement_scoped (lib : StdLib) (channel value : Expression) :
    Scoped (generateSendStatement lib channel value) id :=
  Scoped.of_lockstep
    (Lockstep.seq (fun b b' h => by
        obtain ⟨s, e1, k⟩ := generateExpression_lockstep lib channel _ _ h
        refine ⟨List.replicate b.indent '\t' ++ s, by rw [e1, writeIndent_eq, write_write], ?_⟩
        intro g hg
        rw [k _ (by simp [writeIndent_eq, hg]), writeIndent_eq, write_write, hg])
      (Lockstep.seq (Lockstep.pre _ (generateExpression_lockstep lib value))
        (Lockstep.ok_write _)))

theorem generateDanceStatement_scoped (lib : StdLib) (tok : Token) (name : Identifier)
    (value : Expression) :
    Scoped (generateDanceStatement lib name value)
      (fun top => declare top (.DanceStatement tok name value)) := by
  intro g g' top rest hrun hs
  obtain ⟨text, _, ho, hst, hi⟩ := generateDanceStatement_ok hrun hs
  exact ⟨hi, ⟨_, by rw [ho]; simp only [List.append_assoc]; rfl⟩, by rw [hst]; rfl⟩

/-- The state in which the body of a sway statement is emitted, and the state after it. -/
theorem generateSwayStatement_body {lib : StdLib} {variable_ : Identifier}
    {from_ to_ : Expression} {body : CodeGenerator → Res} {g g' : CodeGenerator}
    {top : List Str} {rest : List (List Str)}
    (h : generateSwayStatement lib variable_ from_ to_ body g = .ok g')
    (hs : g.scopeStack = top :: rest) :
    ∃ entry exit, body entry = .ok exit ∧
      entry.scopeStack = (variable_.Value :: top) :: top :: rest ∧
      entry.indent = g.indent + 1 ∧ (∃ s, entry.output = g.output ++ s) ∧
      g' = ((exit.decIndent.popScope).writeIndent).write "\x7d\n".toList := by
  unfold CodeGenerator.generateSwayStatement at h
  obtain ⟨g1, h1, ha⟩ := Res.bind_eq_ok h
  obtain ⟨g2, h2, hb⟩ := Res.bind_eq_ok ha
  obtain ⟨g3, h3, hc⟩ := Res.bind_eq_ok hb
  injection hc with hfin
  obtain ⟨s1, e1, _⟩ := generateExpression_lockstep lib from_ _ _ h1
  obtain ⟨s2, e2, _⟩ := generateExpression_lockstep lib to_ _ _ h2
  subst e2 e1
  refine ⟨_, g3, h3, ?_, ?_, ?_, hfin.symm⟩
  · simp [write, writeIndent, pushScope, declareVar, incIndent, hs]
  · simp [write, writeIndent, pushScope, declareVar, incIndent, hs]
  · exact ⟨_, by
      simp only [write, writeIndent, pushScope, declareVar, incIndent, hs, List.append_assoc]
      rfl⟩

theorem generateStartStatement_body {statement : CodeGenerator → Res} {g g' : CodeGenerator}
    {top : List Str} {rest : List (List Str)}
    (h : generateStartStatement statement g = .ok g') (hs : g.scopeStack = top :: rest) :
    ∃ entry exit, statement entry = .ok exit ∧
      entry.scopeStack = top :: top :: rest ∧
      entry.indent = g.indent + 1 ∧ (∃ s, entry.output = g.output ++ s) ∧
      g' = ((exit.decIndent.popScope).writeIndent).write "\x7d()\n".toList := by
  unfold CodeGenerator.generateStartStatement at h
  obtain ⟨g1, h1, ha⟩ := Res.bind_eq_ok h
  injection ha with hfin
  refine ⟨_, g1, h1, ?_, ?_, ?_, hfin.symm⟩
  · simp [write, writeIndent, pushScope, incIndent, hs]
  · simp [write, writeIndent, pushScope, incIndent, hs]
  · exact ⟨_, by
      simp only [write, writeIndent, pushScope, incIndent, hs, List.append_assoc]
      rfl⟩

/-- The states in which the branches of an if statement are emitted. -/
theorem generateIfStatement_body {lib : StdLib} {condition : Expression}
    {consequence : CodeGenerator → Res} {alternative : Option (CodeGenerator → Res)}
    {g g' : CodeGenerator} {top : List Str} {rest : List (List Str)}
    (h : generateIfStatement lib condition consequence alternative g = .ok g')
    (hs : g.scopeStack = top :: rest) :
    ∃ entry exit, consequence entry = .ok exit ∧
      entry.scopeStack = top :: top :: rest ∧
      entry.indent = g.indent + 1 ∧ (∃ s, entry.output = g.output ++ s) ∧
      match alternative with
      | none => g' = (((exit.decIndent.popScope).writeIndent).write "\x7d".toList).write "\n".toList
      | some alt =>
        ∃ exit2,
          alt ((((((exit.decIndent.popScope).writeIndent).write "\x7d".toList).write
            " else \x7b\n".toList).pushScope).incIndent) = .ok exit2 ∧
          g' = ((((exit2.decIndent.popScope).writeIndent).write "\x7d".toList).write
            "\n".toList) := by
  unfold CodeGenerator.generateIfStatement at h
  obtain ⟨g1, h1, ha⟩ := Res.bind_eq_ok h
  obtain ⟨g2, h2, hb⟩ := Res.bind_eq_ok ha
  obtain ⟨s1, e1, _⟩ := generateExpression_lockstep lib condition _ _ h1
  subst e1
  refine ⟨_, g2, h2, ?_, ?_, ?_, ?_⟩
  · simp [write, writeIndent, pushScope, incIndent, hs]
  · simp [write, writeIndent, pushScope, incIndent, hs]
  · exact ⟨_, by
      simp only [write, writeIndent, pushScope, incIndent, hs, List.append_assoc]
      rfl⟩
  · cases alternative with
    | none =>
      simp only [] at hb ⊢
      injection hb with hfin
      exact hfin.symm
    | some alt =>
      simp only [] at hb ⊢
      obtain ⟨g4, h4, hc⟩ := Res.bind_eq_ok hb
      injection hc with hfin
      exact ⟨g4, h4, hfin.symm⟩

/-- Leaving a block: the state after `decIndent`, `popScope`, `writeIndent` and a closing
text, for a block that was entered one level deeper with a pushed scope. -/
theorem leave_block {exit : CodeGenerator} {inner : List Str} {top : List Str}
    {rest : List (List Str)} (close : Str) (k : Nat) (hst : exit.scopeStack = inner :: top :: rest)
    (hi : exit.indent = k + 1) :
    (((exit.decIndent.popScope).writeIndent).write close).scopeStack = top :: rest ∧
    (((exit.decIndent.popScope).writeIndent).write close).indent = k ∧
    (((exit.decIndent.popScope).writeIndent).write close).output =
      exit.output ++ List.replicate k '\t' ++ close := by
  simp [write, writeIndent, popScope, decIndent, hst, hi]

/-- Entering a block: the state after a text, `pushScope` and `incIndent`. -/
theorem enter_block {x : CodeGenerator} {top : List Str} {rest : List (List Str)} (t : Str)
    (hst : x.scopeStack = top :: rest) :
    (((x.write t).pushScope).incIndent).scopeStack = top :: top :: rest ∧
    (((x.write t).pushScope).incIndent).indent = x.indent + 1 ∧
    (((x.write t).pushScope).incIndent).output = x.output ++ t := by
  simp [write, pushScope, incIndent, hst]

theorem Scoped.generateSwayStatement_scoped {lib : StdLib} {variable_ : Identifier}
    {from_ to_ : Expression} {body : CodeGenerator → Res} {f : List Str → List Str}
    (hb : Scoped body f) : Scoped (generateSwayStatement lib variable_ from_ to_ body) id := by
  intro g g' top rest hrun hs
  obtain ⟨entry, exit, hbody, hst, hi, ⟨s0, ho⟩, hg'⟩ := generateSwayStatement_body hrun hs
  obtain ⟨hi2, ⟨s, ho2⟩, hst2⟩ := hb entry exit _ _ hbody hst
  obtain ⟨l1, l2, l3⟩ := leave_block "\x7d\n".toList g.indent hst2 (by rw [hi2, hi])
  rw [hg']
  exact ⟨l2, ⟨_, by rw [l3, ho2, ho]; simp only [List.append_assoc]; rfl⟩, l1⟩

theorem Scoped.generateStartStatement_scoped {statement : CodeGenerator → Res}
    {f : List Str → List Str} (hb : Scoped statement f) :
    Scoped (generateStartStatement statement) id := by
  intro g g' top rest hrun hs
  obtain ⟨entry, exit, hbody, hst, hi, ⟨s0, ho⟩, hg'⟩ := generateStartStatement_body hrun hs
  obtain ⟨hi2, ⟨s, ho2⟩, hst2⟩ := hb entry exit _ _ hbody hst
  obtain ⟨l1, l2, l3⟩ := leave_block "\x7d()\n".toList g.indent hst2 (by rw [hi2, hi])
  rw [hg']
  exact ⟨l2, ⟨_, by rw [l3, ho2, ho]; simp only [List.append_assoc]; rfl⟩, l1⟩

theorem Scoped.generateIfStatement_scoped {lib : StdLib} {condition : Expression}
    {consequence : CodeGenerator → Res} {alternative : Option (CodeGenerator → Res)}
    {f1 f2 : List Str → List Str} (hc : Scoped consequence f1)
    (ha : ∀ alt, alternative = some alt → Scoped alt f2) :
    Scoped (generateIfStatement lib condition consequence alternative) id := by
  intro g g' top rest hrun hs
  obtain ⟨entry, exit, hbody, hst, hi, ⟨s0, ho⟩, hg'⟩ := generateIfStatement_body hrun hs
  obtain ⟨hi2, ⟨s, ho2⟩, hst2⟩ := hc entry exit _ _ hbody hst
  obtain ⟨l1, l2, l3⟩ := leave_block "\x7d".toList g.indent hst2 (by rw [hi2, hi])
  cases alternative with
  | none =>
    simp only [] at hg'
    rw [hg']
    exact ⟨l2, ⟨_, by rw [write_output, l3, ho2, ho]; simp only [List.append_assoc]; rfl⟩, l1⟩
  | some alt =>
    simp only [] at hg'
    obtain ⟨exit2, halt, hg'⟩ := hg'
    obtain ⟨n1, n2, n3⟩ := enter_block " else \x7b\n".toList l1
    obtain ⟨hi4, ⟨s4, ho4⟩, hst4⟩ := ha alt rfl _ exit2 _ _ halt n1
    obtain ⟨m1, m2, m3⟩ := leave_block "\x7d".toList g.indent hst4 (by rw [hi4, n2, l2])
    rw [hg']
    exact ⟨m2, ⟨_, by
      rw [write_output, m3, ho4, n3, l3, ho2, ho]; simp only [List.append_assoc]; rfl⟩, m1⟩

theorem declareAll_cons (top : List Str) (s : Statement) (rest : List Statement) :
    declareAll top (s :: rest) = declareAll (declare top s) rest := rfl

theorem Scoped.nil : Scoped (fun g => Res.ok g) (fun top => declareAll top []) := by
  intro g g' top rest hrun hs
  injection hrun with hrun
  subst hrun
  exact ⟨rfl, ⟨[], by simp⟩, hs⟩

theorem Scoped.seq_scoped {r1 r2 : CodeGenerator → Res} {f1 f2 : List Str → List Str}
    (h1 : Scoped r1 f1) (h2 : Scoped r2 f2) :
    Scoped (fun g => (r1 g).bind r2) (fun top => f2 (f1 top)) := by
  intro g g' top rest hrun hs
  obtain ⟨g1, hr1, hr2⟩ := Res.bind_eq_ok hrun
  obtain ⟨i1, ⟨s1, o1⟩, st1⟩ := h1 g g1 top rest hr1 hs
  obtain ⟨i2, ⟨s2, o2⟩, st2⟩ := h2 g1 g' _ rest hr2 st1
  exact ⟨by rw [i2, i1], ⟨s1 ++ s2, by rw [o2, o1, List.append_assoc]⟩, st2⟩

mutual

theorem generateStatement_scoped (lib : StdLib) :
    ∀ s : Statement, Scoped (generateStatement lib s) (fun top => declare top s)
  | .DanceStatement tok name value => by
    have : generateStatement lib (.DanceStatement tok name value) =
        generateDanceStatement lib name value := by
      funext g; rw [generateStatement]
    rw [this]; exact generateDanceStatement_scoped lib tok name value
  | .nilDanceStatement => by
    intro g g' top rest hrun _; rw [generateStatement] at hrun; cases hrun
  | .ExpressionStatement tok expression => by
    have : generateStatement lib (.ExpressionStatement tok expression) =
        generateExpressionStatement lib expression := by
      funext g; rw [generateStatement]
    rw [this]; exact generateExpressionStatement_scoped lib expression
  | .SwayStatement tok variable_ from_ to_ (.mk btok stmts) => by
    have : generateStatement lib (.SwayStatement tok variable_ from_ to_ (.mk btok stmts)) =
        generateSwayStatement lib variable_ from_ to_ (generateStatements lib stmts) := by
      funext g; rw [generateStatement]
    rw [this]; exact Scoped.generateSwayStatement_scoped (generateStatements_scoped lib stmts)
  | .nilSwayStatement => by
    intro g g' top rest hrun _; rw [generateStatement] at hrun; cases hrun
  | .StartStatement tok statement => by
    have : generateStatement lib (.StartStatement tok statement) =
        generateStartStatement (generateStatement lib statement) := by
      funext g; rw [generateStatement]
    rw [this]; exact Scoped.generateStartStatement_scoped (generateStatement_scoped lib statement)
  | .SendStatement tok channel value => by
    have : generateStatement lib (.SendStatement tok channel value) =
        generateSendStatement lib channel value := by
      funext g; rw [generateStatement]
    rw [this]; exact generateSendStatement_scoped lib channel value
  | .nilSendStatement => by
    intro g g' top rest hrun _; rw [generateStatement] at hrun; cases hrun
  | .IfStatement tok condition (.mk btok stmts) none => by
    have : generateStatement lib (.IfStatement tok condition (.mk btok stmts) none) =
        generateIfStatement lib condition (generateStatements lib stmts) none := by
      funext g; rw [generateStatement]
    rw [this]
    exact @Scoped.generateIfStatement_scoped lib condition (generateStatements lib stmts) none
      _ id (generateStatements_scoped lib stmts) (fun alt h => by cases h)
  | .IfStatement tok condition (.mk btok stmts) (some (.mk atok alt)) => by
    have : generateStatement lib
        (.IfStatement tok condition (.mk btok stmts) (some (.mk atok alt))) =
        generateIfStatement lib condition (generateStatements lib stmts)
          (some (generateStatements lib alt)) := by
      funext g; rw [generateStatement]
    rw [this]
    exact Scoped.generateIfStatement_scoped (generateStatements_scoped lib stmts)
      (fun a h => by
        injection h with h
        rw [← h]
        exact generateStatements_scoped lib alt)
  | .nilIfStatement => by
    intro g g' top rest hrun _; rw [generateStatement] at hrun; cases hrun
  | .Block b => by
    intro g g' top rest hrun _; rw [generateStatement] at hrun; cases hrun
  | .nil => by
    intro g g' top rest hrun _; rw [generateStatement] at hrun; cases hrun

theorem generateStatements_scoped (lib : StdLib) :
    ∀ stmts : List Statement,
      Scoped (generateStatements lib stmts) (fun top => declareAll top stmts)
  | [] => by
    have : generateStatements lib [] = fun g => .ok g := by
      funext g; rw [generateStatements]
    rw [this]; exact Scoped.nil
  | s :: rest => by
    have : generateStatements lib (s :: rest) =
        fun g => (generateStatement lib s g).bind fun g1 => generateStatements lib rest g1 := by
      funext g; rw [generateStatements]
    rw [this]
    exact Scoped.seq_scoped (generateStatement_scoped lib s) (generateStatements_scoped lib rest)

end

end CodeGenerator


namespace CodeGenerator

theorem mem_declareAll (n : Str) :
    ∀ (stmts : List Statement) (top : List Str),
      n ∈ declareAll top stmts ↔ n ∈ top ∨ n ∈ danceNames stmts := by
  intro stmts
  induction stmts with
  | nil => intro top; simp [declareAll, danceNames]
  | cons s rest ih =>
    intro top
    rw [declareAll_cons, ih]
    cases s <;> simp only [declare, danceNames, List.mem_cons]
    case DanceStatement tok name value =>
      by_cases h : name.Value ∈ top
      · rw [if_pos h]
        constructor
        · rintro (h1 | h1)
          · exact Or.inl h1
          · exact Or.inr (Or.inr h1)
        · rintro (h1 | h1 | h1)
          · exact Or.inl h1
          · exact Or.inl (h1 ▸ h)
          · exact Or.inr h1
      · rw [if_neg h]
        simp only [List.mem_cons]
        tauto

theorem ext_trans {a b c : Str} (h1 : ∃ s, b = a ++ s) (h2 : ∃ s, c = b ++ s) :
    ∃ s, c = a ++ s := by
  obtain ⟨s1, e1⟩ := h1
  obtain ⟨s2, e2⟩ := h2
  exact ⟨s1 ++ s2, by rw [e2, e1, List.append_assoc]⟩

theorem generateStatements_append {lib : StdLib} {d : Statement} {post : List Statement}
    {exit : CodeGenerator} :
    ∀ (pre : List Statement) (entry : CodeGenerator),
      generateStatements lib (pre ++ d :: post) entry = .ok exit →
      ∃ g1 g2, generateStatements lib pre entry = .ok g1 ∧
        generateStatement lib d g1 = .ok g2 ∧ generateStatements lib post g2 = .ok exit := by
  intro pre
  induction pre with
  | nil =>
    intro entry h
    rw [List.nil_append, generateStatements] at h
    obtain ⟨g2, h2, h3⟩ := Res.bind_eq_ok h
    exact ⟨entry, g2, by rw [generateStatements], h2, h3⟩
  | cons s pre ih =>
    intro entry h
    rw [List.cons_append, generateStatements] at h
    obtain ⟨g0, h0, h1⟩ := Res.bind_eq_ok h
    obtain ⟨g1, g2, k1, k2, k3⟩ := ih g0 h1
    exact ⟨g1, g2, by rw [generateStatements, h0]; exact k1, k2, k3⟩

/-- A dance statement inside a list of statements that is emitted in one scope. -/
theorem block_dance {lib : StdLib} {entry exit : CodeGenerator} {etop : List Str}
    {erest : List (List Str)} (pre post : List Statement) (tok : Token) (name : Identifier)
    (value : Expression) (hst : entry.scopeStack = etop :: erest)
    (hrun : generateStatements lib (pre ++ .DanceStatement tok name value :: post) entry =
      .ok exit) :
    ∃ g1 g2 text, generateStatements lib pre entry = .ok g1 ∧
      emitExpression lib entry.indent value = some text ∧
      generateStatement lib (.DanceStatement tok name value) g1 = .ok g2 ∧
      g2.output = g1.output ++ List.replicate entry.indent '\t' ++ name.Value ++
        (if name.Value ∈ etop ∨ name.Value ∈ danceNames pre then " = ".toList
          else " := ".toList) ++ text ++ "\n".toList ∧
      generateStatements lib post g2 = .ok exit ∧
      (∃ s, g1.output = entry.output ++ s) ∧ (∃ s, exit.output = g2.output ++ s) := by
  obtain ⟨g1, g2, k1, k2, k3⟩ := generateStatements_append pre entry hrun
  obtain ⟨i1, o1, st1⟩ := generateStatements_scoped lib pre entry g1 _ _ k1 hst
  have k2' : generateDanceStatement lib name value g1 = .ok g2 := by
    rw [generateStatement] at k2; exact k2
  obtain ⟨text, hem, ho, hst2, hi2⟩ := generateDanceStatement_ok k2' st1
  obtain ⟨_, o3, _⟩ := generateStatements_scoped lib post g2 exit _ _ k3 hst2
  refine ⟨g1, g2, text, k1, by rw [← i1]; exact hem, k2, ?_, k3, o1, o3⟩
  rw [ho, i1]
  have hiff : name.Value ∈ declareAll etop pre ↔
      name.Value ∈ etop ∨ name.Value ∈ danceNames pre := mem_declareAll _ _ _
  by_cases hm : name.Value ∈ declareAll etop pre
  · rw [if_pos hm, if_pos (hiff.mp hm)]
  · rw [if_neg hm, if_neg (fun h => hm (hiff.mpr h))]

theorem popScope_output (g : CodeGenerator) : g.popScope.output = g.output := by
  unfold CodeGenerator.popScope
  split <;> rfl

theorem leave_output (exit : CodeGenerator) (close : Str) :
    ∃ s, (((exit.decIndent.popScope).writeIndent).write close).output = exit.output ++ s :=
  ⟨_, by
    rw [write_output, writeIndent_eq, write_output, popScope_output, List.append_assoc]
    rfl⟩

theorem pushScope_output (g : CodeGenerator) : g.pushScope.output = g.output := by
  unfold CodeGenerator.pushScope
  split <;> rfl

theorem enter_output (x : CodeGenerator) (t : Str) :
    ∃ s, (((x.write t).pushScope).incIndent).output = x.output ++ s :=
  ⟨t, by show ((x.write t).pushScope).output = _; rw [pushScope_output, write_output]⟩

/-- The line of a dance statement, with the operator chosen by a condition. -/
theorem dance_line_congr {p q : Prop} [Decidable p] [Decidable q] (h : p ↔ q)
    (a b c : Str) :
    a ++ (if p then " = ".toList else " := ".toList) ++ b ++ c =
      a ++ (if q then " = ".toList else " := ".toList) ++ b ++ c := by
  by_cases hp : p
  · rw [if_pos hp, if_pos (h.mp hp)]
  · rw [if_neg hp, if_neg (fun hq => hp (h.mpr hq))]

end CodeGenerator

section Scopes

open CodeGenerator

/-- C7. In a list of statements emitted in one scope (for instance the top-level
statements of a program), a dance statement is emitted as `name = expr` when its name
is already declared in the scope or is the name of an earlier dance statement of the
list, and as `name := expr` otherwise; so each name is introduced with `:=` once. -/
theorem dance_declares_once (lib : StdLib) (g g' : CodeGenerator) (top : List Str)
    (rest : List (List Str)) (pre post : List Statement) (tok : Token) (name : Identifier)
    (value : Expression) (hscope : g.scopeStack = top :: rest)
    (hrun : generateStatements lib (pre ++ .DanceStatement tok name value :: post) g = .ok g') :
    ∃ g1 g2 text, generateStatements lib pre g = .ok g1 ∧
      emitExpression lib g.indent value = some text ∧
      generateStatement lib (.DanceStatement tok name value) g1 = .ok g2 ∧
      g2.output = g1.output ++ List.replicate g.indent '\t' ++ name.Value ++
        (if name.Value ∈ top ∨ name.Value ∈ danceNames pre then " = ".toList
          else " := ".toList) ++ text ++ "\n".toList ∧
      generateStatements lib post g2 = .ok g' := by
  obtain ⟨g1, g2, text, h1, h2, h3, h4, h5, _, _⟩ :=
    block_dance pre post tok name value hscope hrun
  exact ⟨g1, g2, text, h1, h2, h3, h4, h5⟩

/-- C8. When a statement with a nested block (the body of a sway, the statement of a
start, a branch of an if) is emitted in a scope `top`: a dance statement of the block is
emitted one level deeper with `=` when its name is in `top`, is the loop variable of the
sway, or is the name of an earlier dance statement of the block, and with `:=` otherwise;
afterwards the scope stack is what it was before the statement, so that a later dance
statement is emitted with `:=` unless its name is in `top`. -/
theorem nested_block_scope (lib : StdLib) (s : Statement) (g g' : CodeGenerator)
    (top : List Str) (rest : List (List Str)) (lv : Option Str) (pre post : List Statement)
    (tok : Token) (name : Identifier) (value : Expression)
    (hscope : g.scopeStack = top :: rest)
    (hrun : generateStatement lib s g = .ok g')
    (hblock : (lv, pre ++ .DanceStatement tok name value :: post) ∈ nestedBlocks s) :
    g'.scopeStack = top :: rest ∧
    (∃ g1 g2 text, emitExpression lib (g.indent + 1) value = some text ∧
      (∃ a, g1.output = g.output ++ a) ∧
      generateStatement lib (.DanceStatement tok name value) g1 = .ok g2 ∧
      g2.output = g1.output ++ List.replicate (g.indent + 1) '\t' ++ name.Value ++
        (if name.Value ∈ top ∨ lv = some name.Value ∨ name.Value ∈ danceNames pre
          then " = ".toList else " := ".toList) ++ text ++ "\n".toList ∧
      (∃ b, g'.output = g2.output ++ b)) ∧
    (∀ tok2 name2 value2 g'',
      generateStatement lib (.DanceStatement tok2 name2 value2) g' = .ok g'' →
      ∃ text2, g''.output = g'.output ++ List.replicate g.indent '\t' ++ name2.Value ++
        (if name2.Value ∈ top then " = ".toList else " := ".toList) ++ text2 ++
        "\n".toList) := by
  obtain ⟨hi, ho, hst⟩ := generateStatement_scoped lib s g g' top rest hrun hscope
  have hdecl : declare top s = top := by
    cases s <;> first | rfl | (simp [nestedBlocks] at hblock)
  simp only [hdecl] at hst
  refine ⟨hst, ?_, ?_⟩
  · cases s with
    | SwayStatement stok variable_ from_ to_ body =>
      cases body with
      | mk btok stmts =>
        simp only [nestedBlocks, List.mem_singleton, Prod.mk.injEq] at hblock
        obtain ⟨hlv, hstmts⟩ := hblock
        subst hlv hstmts
        rw [generateStatement] at hrun
        obtain ⟨entry, exit, hbody, est, ei, eo, hg'⟩ := generateSwayStatement_body hrun hscope
        obtain ⟨g1, g2, text, k1, kem, k2, ko, k3, o1, o3⟩ :=
          block_dance pre post tok name value est hbody
        refine ⟨g1, g2, text, by rw [← ei]; exact kem, ext_trans eo o1, k2, ?_, ?_⟩
        · rw [ko, ei]
          exact dance_line_congr (by simp only [List.mem_cons, Option.some.injEq]; tauto) _ _ _
        · rw [hg']
          exact ext_trans o3 (leave_output exit _)
    | StartStatement stok statement =>
      simp only [nestedBlocks, List.mem_singleton, Prod.mk.injEq] at hblock
      obtain ⟨hlv, hstmts⟩ := hblock
      subst hlv
      have hpre : pre = [] := by
        cases pre with
        | nil => rfl
        | cons x y => simp at hstmts
      subst hpre
      simp only [List.nil_append, List.cons.injEq] at hstmts
      obtain ⟨hd, hpost⟩ := hstmts
      subst hd
      rw [generateStatement] at hrun
      obtain ⟨entry, exit, hbody, est, ei, eo, hg'⟩ := generateStartStatement_body hrun hscope
      have hbody' : generateDanceStatement lib name value entry = .ok exit := by
        rw [generateStatement] at hbody; exact hbody
      obtain ⟨text, hem, hout, _, _⟩ := generateDanceStatement_ok hbody' est
      refine ⟨entry, exit, text, by rw [← ei]; exact hem, eo, hbody, ?_, ?_⟩
      · rw [hout, ei]
        exact dance_line_congr (by simp [danceNames]) _ _ _
      · rw [hg']
        exact leave_output exit _
    | IfStatement stok condition consequence alternative =>
      cases consequence with
      | mk btok stmts =>
        cases alternative with
        | none =>
          simp only [nestedBlocks, List.mem_singleton, Prod.mk.injEq] at hblock
          obtain ⟨hlv, hstmts⟩ := hblock
          subst hlv hstmts
          rw [generateStatement] at hrun
          obtain ⟨entry, exit, hbody, est, ei, eo, hg'⟩ := generateIfStatement_body hrun hscope
          obtain ⟨g1, g2, text, k1, kem, k2, ko, k3, o1, o3⟩ :=
            block_dance pre post tok name value est hbody
          simp only [] at hg'
          refine ⟨g1, g2, text, by rw [← ei]; exact kem, ext_trans eo o1, k2, ?_, ?_⟩
          · rw [ko, ei]
            exact dance_line_congr (by simp) _ _ _
          · rw [hg']
            exact ext_trans o3 (ext_trans (leave_output exit _) ⟨_, write_output _ _⟩)
        | some alternative =>
          cases alternative with
          | mk atok alt =>
            rw [generateStatement] at hrun
            obtain ⟨entry, exit, hbody, est, ei, eo, hg'⟩ :=
              generateIfStatement_body hrun hscope
            simp only [] at hg'
            obtain ⟨exit2, halt, hg'⟩ := hg'
            obtain ⟨xi, xo, xst⟩ := generateStatements_scoped lib stmts entry exit _ _ hbody est
            obtain ⟨l1, l2, l3⟩ := leave_block "\x7d".toList g.indent xst (by rw [xi, ei])
            obtain ⟨n1, n2, n3⟩ := enter_block " else \x7b\n".toList l1
            obtain ⟨yi, yo, yst⟩ := generateStatements_scoped lib alt _ exit2 _ _ halt n1
            have hx : ∃ s, ((((((exit.decIndent.popScope).writeIndent).write
                "\x7d".toList).write " else \x7b\n".toList).pushScope).incIndent).output =
                exit.output ++ s :=
              ext_trans (leave_output exit _) (enter_output _ _)
            have hy : ∃ s, g'.output = exit2.output ++ s := by
              rw [hg']
              exact ext_trans (leave_output exit2 _) ⟨_, write_output _ _⟩
            simp only [nestedBlocks, List.mem_cons, Prod.mk.injEq, List.mem_singleton,
              List.not_mem_nil, or_false] at hblock
            rcases hblock with ⟨hlv, hstmts⟩ | ⟨hlv, hstmts⟩
            · subst hlv hstmts
              obtain ⟨g1, g2, text, k1, kem, k2, ko, k3, o1, o3⟩ :=
                block_dance pre post tok name value est hbody
              refine ⟨g1, g2, text, by rw [← ei]; exact kem, ext_trans eo o1, k2, ?_, ?_⟩
              · rw [ko, ei]
                exact dance_line_congr (by simp) _ _ _
              · exact ext_trans o3 (ext_trans hx (ext_trans yo hy))
            · subst hlv hstmts
              obtain ⟨g1, g2, text, k1, kem, k2, ko, k3, o1, o3⟩ :=
                block_dance pre post tok name value n1 halt
              refine ⟨g1, g2, text, by rw [← l2, ← n2]; exact kem,
                ext_trans eo (ext_trans xo (ext_trans hx o1)), k2, ?_, ?_⟩
              · rw [ko, n2, l2]
                exact dance_line_congr (by simp) _ _ _
              · exact ext_trans o3 hy
    | _ => simp [nestedBlocks] at hblock
  · intro tok2 name2 value2 g'' h2
    rw [generateStatement] at h2
    obtain ⟨text, _, ho2, _, _⟩ := generateDanceStatement_ok h2 hst
    exact ⟨text, by rw [ho2, hi]⟩

/-- Witness for `dance_declares_once`: `dance x = 5` and then `dance x = 6` in the scope
of a new generator. -/
theorem dance_declares_once_witness :
    (CodeGenerator.New.scopeStack = [] :: []) ∧
    generateStatements asciiLib
      ([.DanceStatement {} ⟨{}, "x".toList⟩ (.IntegerLiteral {} 5)] ++
        .DanceStatement {} ⟨{}, "x".toList⟩ (.IntegerLiteral {} 6) :: []) CodeGenerator.New =
      .ok { output := "x := 5\nx = 6\n".toList, scopeStack := [["x".toList]] } ∧
    ∃ g1 g2 text,
      generateStatements asciiLib [.DanceStatement {} ⟨{}, "x".toList⟩ (.IntegerLiteral {} 5)]
        CodeGenerator.New = .ok g1 ∧
      emitExpression asciiLib CodeGenerator.New.indent (.IntegerLiteral {} 6) = some text ∧
      generateStatement asciiLib (.DanceStatement {} ⟨{}, "x".toList⟩ (.IntegerLiteral {} 6)) g1 =
        .ok g2 ∧
      g2.output = g1.output ++ List.replicate CodeGenerator.New.indent '\t' ++ "x".toList ++
        (if "x".toList ∈ ([] : List Str) ∨
            "x".toList ∈ danceNames
              [.DanceStatement {} ⟨{}, "x".toList⟩ (.IntegerLiteral {} 5)]
          then " = ".toList else " := ".toList) ++ text ++ "\n".toList ∧
      generateStatements asciiLib [] g2 =
        .ok { output := "x := 5\nx = 6\n".toList, scopeStack := [["x".toList]] } :=
  ⟨rfl, by decide,
    dance_declares_once asciiLib CodeGenerator.New
      { output := "x := 5\nx = 6\n".toList, scopeStack := [["x".toList]] } [] []
      [.DanceStatement {} ⟨{}, "x".toList⟩ (.IntegerLiteral {} 5)] [] {} ⟨{}, "x".toList⟩
      (.IntegerLiteral {} 6) rfl (by decide)⟩

/-- Witness for `nested_block_scope`: `sway i from 0 to 3` with the body `dance i = 1`,
emitted by a new generator; the dance statement on the loop variable is emitted
with `=`. -/
theorem nested_block_scope_witness :
    (CodeGenerator.New.scopeStack = [] :: []) ∧
    generateStatement asciiLib
      (.SwayStatement {} ⟨{}, "i".toList⟩ (.IntegerLiteral {} 0) (.IntegerLiteral {} 3)
        (.mk {} [.DanceStatement {} ⟨{}, "i".toList⟩ (.IntegerLiteral {} 1)]))
      CodeGenerator.New =
      .ok { output := "for i := 0; i <= 3; i++ \x7b\n\ti = 1\n\x7d\n".toList,
            scopeStack := [[]] } ∧
    ((some "i".toList,
        [] ++ Statement.DanceStatement {} ⟨{}, "i".toList⟩ (.IntegerLiteral {} 1) :: []) ∈
      nestedBlocks
        (.SwayStatement {} ⟨{}, "i".toList⟩ (.IntegerLiteral {} 0) (.IntegerLiteral {} 3)
          (.mk {} [.DanceStatement {} ⟨{}, "i".toList⟩ (.IntegerLiteral {} 1)]))) ∧
    (({ output := "for i := 0; i <= 3; i++ \x7b\n\ti = 1\n\x7d\n".toList,
        scopeStack := [[]] } : CodeGenerator).scopeStack = [] :: [] ∧
      (∃ g1 g2 text, emitExpression asciiLib (CodeGenerator.New.indent + 1)
          (.IntegerLiteral {} 1) = some text ∧
        (∃ a, g1.output = CodeGenerator.New.output ++ a) ∧
        generateStatement asciiLib
          (.DanceStatement {} ⟨{}, "i".toList⟩ (.IntegerLiteral {} 1)) g1 = .ok g2 ∧
        g2.output = g1.output ++ List.replicate (CodeGenerator.New.indent + 1) '\t' ++
          "i".toList ++
          (if "i".toList ∈ ([] : List Str) ∨ some "i".toList = some "i".toList ∨
              "i".toList ∈ danceNames []
            then " = ".toList else " := ".toList) ++ text ++ "\n".toList ∧
        (∃ b, ({ output := "for i := 0; i <= 3; i++ \x7b\n\ti = 1\n\x7d\n".toList,
                 scopeStack := [[]] } : CodeGenerator).output = g2.output ++ b)) ∧
      (∀ tok2 name2 value2 g'',
        generateStatement asciiLib (.DanceStatement tok2 name2 value2)
          { output := "for i := 0; i <= 3; i++ \x7b\n\ti = 1\n\x7d\n".toList,
            scopeStack := [[]] } = .ok g'' →
        ∃ text2, g''.output =
          ({ output := "for i := 0; i <= 3; i++ \x7b\n\ti = 1\n\x7d\n".toList,
             scopeStack := [[]] } : CodeGenerator).output ++
          List.replicate CodeGenerator.New.indent '\t' ++ name2.Value ++
          (if name2.Value ∈ ([] : List Str) then " = ".toList else " := ".toList) ++ text2 ++
          "\n".toList)) :=
  ⟨rfl, by decide, List.mem_cons_self _ _,
    nested_block_scope asciiLib
      (.SwayStatement {} ⟨{}, "i".toList⟩ (.IntegerLiteral {} 0) (.IntegerLiteral {} 3)
        (.mk {} [.DanceStatement {} ⟨{}, "i".toList⟩ (.IntegerLiteral {} 1)]))
      CodeGenerator.New
      { output := "for i := 0; i <= 3; i++ \x7b\n\ti = 1\n\x7d\n".toList, scopeStack := [[]] }
      [] [] (some "i".toList) [] [] {} ⟨{}, "i".toList⟩ (.IntegerLiteral {} 1) rfl
      (by decide) (List.mem_cons_self _ _)⟩

end Scopes

section Imports

open CodeGenerator Parser

/-- C6 (evaluation at the failing input). The source text `dance x = spin print(1)`
parses without error, and `Generate` on a new generator emits `fmt.Println(1)` in the
value of the dance statement while the import set stays empty and no import block is
written: `collectImports` looks only at expression statements. -/
theorem print_in_dance_value_has_no_import :
    (ParseProgram asciiLib 40
        (Parser.New asciiLib (Lexer.New "dance x = spin print(1)\n".toList))).map
        (fun r => (r.1.errors, Generate asciiLib CodeGenerator.New r.2)) =
      some ([], .ok
        { output := "package main\n\nfunc main() \x7b\n\tx := fmt.Println(1)\n\x7d\n".toList,
          imports := [],
          scopeStack := [["x".toList]] }) := by
  decide

end Imports

/-! ## Emission of a well-formed program -/

namespace CodeGenerator

theorem Total.seq_total {r1 r2 : CodeGenerator → Res} (h1 : Total r1) (h2 : Total r2) :
    Total (fun g => (r1 g).bind r2) := by
  intro g
  obtain ⟨g1, e1⟩ := h1 g
  obtain ⟨g2, e2⟩ := h2 g1
  exact ⟨g2, by show (r1 g).bind r2 = _; rw [e1]; exact e2⟩

theorem Total.pre_total (f : CodeGenerator → CodeGenerator) {r : CodeGenerator → Res} (h : Total r) :
    Total (fun g => r (f g)) :=
  fun g => h (f g)

theorem Total.ok (f : CodeGenerator → CodeGenerator) : Total (fun g => Res.ok (f g)) :=
  fun g => ⟨f g, rfl⟩

theorem Total.generateSpinExpression_total (fn : Expression) {function arguments : CodeGenerator → Res}
    (hf : Total function) (ha : Total arguments) :
    Total (generateSpinExpression fn function arguments) := by
  have h1 : Total (fun g => (arguments (g.write "fmt.Println(".toList)).bind
      fun g1 => .ok (g1.write ")".toList)) :=
    Total.seq_total (Total.pre_total _ ha) (Total.ok _)
  have h2 : Total (fun g => (function g).bind fun g1 =>
      (arguments (g1.write "(".toList)).bind fun g2 => .ok (g2.write ")".toList)) :=
    Total.seq_total hf (Total.seq_total (Total.pre_total _ ha) (Total.ok _))
  unfold CodeGenerator.generateSpinExpression
  simp only []
  split_ifs
  · exact h1
  · exact h2

theorem Total.generateFlowExpression_total (ct : Expression) {channelType : CodeGenerator → Res}
    (hc : Total channelType) : Total (generateFlowExpression ct channelType) := by
  have h2 : Total (fun g => (channelType (g.write "make(".toList)).bind
      fun g1 => .ok (g1.write ")".toList)) :=
    Total.seq_total (Total.pre_total _ hc) (Total.ok _)
  unfold CodeGenerator.generateFlowExpression
  simp only []
  split_ifs
  · exact Total.ok _
  · exact h2

theorem Total.generateWhenCase_total {pattern consequence : CodeGenerator → Res}
    (hp : Total pattern) (hc : Total consequence) :
    Total (generateWhenCase pattern consequence) :=
  Total.seq_total (Total.pre_total _ hp) (Total.seq_total (Total.pre_total _ hc) (Total.ok _))

theorem Total.generateMatchExpression_total {expression cases : CodeGenerator → Res}
    (he : Total expression) (hc : Total cases) :
    Total (generateMatchExpression expression cases) :=
  Total.seq_total (Total.pre_total _ he) (Total.seq_total (Total.pre_total _ hc) (Total.ok _))

mutual

theorem generateExpression_total (lib : StdLib) :
    ∀ e : Expression, e.wellFormed = true → Total (generateExpression lib e)
  | .Identifier tok value, _ => fun g => ⟨_, by rw [generateExpression]⟩
  | .IntegerLiteral tok value, _ => fun g => ⟨_, by rw [generateExpression]⟩
  | .FloatLiteral tok value, _ => fun g => ⟨_, by rw [generateExpression]⟩
  | .StringLiteral tok value, _ => fun g => ⟨_, by rw [generateExpression]⟩
  | .Boolean tok value, _ => fun g => ⟨_, by rw [generateExpression]⟩
  | .InfixExpression tok left operator right, h => by
    have : generateExpression lib (.InfixExpression tok left operator right) =
        fun g => (generateExpression lib left (g.write "(".toList)).bind fun g1 =>
          (generateExpression lib right
            (g1.write (" ".toList ++ operator ++ " ".toList))).bind fun g2 =>
              .ok (g2.write ")".toList) := by
      funext g; rw [generateExpression]
    rw [this]
    simp only [Expression.wellFormed, Bool.and_eq_true] at h
    exact Total.seq_total (Total.pre_total _ (generateExpression_total lib left h.1))
      (Total.seq_total (Total.pre_total _ (generateExpression_total lib right h.2)) (Total.ok _))
  | .SpinExpression tok function arguments, h => by
    have : generateExpression lib (.SpinExpression tok function arguments) =
        generateSpinExpression function (generateExpression lib function)
          (generateArguments lib arguments 0) := by
      funext g; rw [generateExpression]
    rw [this]
    simp only [Expression.wellFormed, Bool.and_eq_true] at h
    exact Total.generateSpinExpression_total _ (generateExpression_total lib function h.1)
      (generateArguments_total lib arguments h.2 0)
  | .FlowExpression tok channelType, h => by
    have : generateExpression lib (.FlowExpression tok channelType) =
        generateFlowExpression channelType (generateExpression lib channelType) := by
      funext g; rw [generateExpression]
    rw [this]
    simp only [Expression.wellFormed] at h
    exact Total.generateFlowExpression_total _ (generateExpression_total lib channelType h)
  | .MatchExpression tok expression cases, h => by
    have : generateExpression lib (.MatchExpression tok expression cases) =
        generateMatchExpression (generateExpression lib expression)
          (generateCases lib cases) := by
      funext g; rw [generateExpression]
    rw [this]
    simp only [Expression.wellFormed, Bool.and_eq_true] at h
    exact Total.generateMatchExpression_total (generateExpression_total lib expression h.1)
      (generateCases_total lib cases h.2)
  | .nil, h => by simp [Expression.wellFormed] at h

theorem generateArguments_total (lib : StdLib) :
    ∀ (arguments : List Expression), wellFormedList arguments = true →
      ∀ i : Nat, Total (generateArguments lib arguments i)
  | [], _, i => fun g => ⟨g, by rw [generateArguments]⟩
  | arg :: rest, h, i => by
    have : generateArguments lib (arg :: rest) i =
        fun g => (generateExpression lib arg
          (if i > 0 then g.write ", ".toList else g)).bind fun g1 =>
            generateArguments lib rest (i + 1) g1 := by
      funext g; rw [generateArguments]
    rw [this]
    simp only [wellFormedList, Bool.and_eq_true] at h
    exact Total.seq_total (Total.pre_total _ (generateExpression_total lib arg h.1))
      (generateArguments_total lib rest h.2 (i + 1))

theorem generateCases_total (lib : StdLib) :
    ∀ cases : List WhenCase, wellFormedCases cases = true → Total (generateCases lib cases)
  | [], _ => fun g => ⟨g, by rw [generateCases]⟩
  | .mk tok pattern consequence :: rest, h => by
    have : generateCases lib (.mk tok pattern consequence :: rest) =
        fun g => (generateWhenCase (generateExpression lib pattern)
          (generateExpression lib consequence) g).bind fun g1 =>
            generateCases lib rest g1 := by
      funext g; rw [generateCases]
    rw [this]
    simp only [wellFormedCases, Bool.and_eq_true] at h
    exact Total.seq_total
      (Total.generateWhenCase_total (generateExpression_total lib pattern h.1.1)
        (generateExpression_total lib consequence h.1.2))
      (generateCases_total lib rest h.2)

end

theorem Total.generateDanceStatement_total (lib : StdLib) (name : Identifier) {value : Expression}
    (h : value.wellFormed = true) : Total (generateDanceStatement lib name value) :=
  Total.seq_total (Total.pre_total _ (generateExpression_total lib value h)) (Total.ok _)

theorem Total.generateExpressionStatement_total (lib : StdLib) {expression : Expression}
    (h : expression.wellFormed = true) : Total (generateExpressionStatement lib expression) :=
  Total.seq_total (Total.pre_total _ (generateExpression_total lib expression h)) (Total.ok _)

theorem Total.generateSendStatement_total (lib : StdLib) {channel value : Expression}
    (hc : channel.wellFormed = true) (hv : value.wellFormed = true) :
    Total (generateSendStatement lib channel value) :=
  Total.seq_total (Total.pre_total _ (generateExpression_total lib channel hc))
    (Total.seq_total (Total.pre_total _ (generateExpression_total lib value hv)) (Total.ok _))

theorem Total.generateSwayStatement_total (lib : StdLib) (variable_ : Identifier)
    {from_ to_ : Expression} {body : CodeGenerator → Res}
    (hf : from_.wellFormed = true) (ht : to_.wellFormed = true) (hb : Total body) :
    Total (generateSwayStatement lib variable_ from_ to_ body) :=
  Total.seq_total (Total.pre_total _ (generateExpression_total lib from_ hf))
    (Total.seq_total (Total.pre_total _ (generateExpression_total lib to_ ht))
      (Total.seq_total (Total.pre_total _ hb) (Total.ok _)))

theorem Total.generateStartStatement_total {statement : CodeGenerator → Res} (h : Total statement) :
    Total (generateStartStatement statement) :=
  Total.seq_total (Total.pre_total _ h) (Total.ok _)

theorem Total.generateIfStatement_total (lib : StdLib) {condition : Expression}
    {consequence : CodeGenerator → Res} {alternative : Option (CodeGenerator → Res)}
    (hc : condition.wellFormed = true) (hb : Total consequence)
    (ha : ∀ alt, alternative = some alt → Total alt) :
    Total (generateIfStatement lib condition consequence alternative) := by
  cases alternative with
  | none =>
    exact Total.seq_total (Total.pre_total _ (generateExpression_total lib condition hc))
      (Total.seq_total (Total.pre_total _ hb) (Total.ok _))
  | some alt =>
    exact Total.seq_total (Total.pre_total _ (generateExpression_total lib condition hc))
      (Total.seq_total (Total.pre_total _ hb) (Total.seq_total (Total.pre_total _ (ha alt rfl)) (Total.ok _)))

mutual

theorem generateStatement_total (lib : StdLib) :
    ∀ s : Statement, s.wellFormed = true → Total (generateStatement lib s)
  | .DanceStatement tok name value, h => by
    have : generateStatement lib (.DanceStatement tok name value) =
        generateDanceStatement lib name value := by
      funext g; rw [generateStatement]
    rw [this]
    simp only [Statement.wellFormed] at h
    exact Total.generateDanceStatement_total lib name h
  | .ExpressionStatement tok expression, h => by
    have : generateStatement lib (.ExpressionStatement tok expression) =
        generateExpressionStatement lib expression := by
      funext g; rw [generateStatement]
    rw [this]
    simp only [Statement.wellFormed] at h
    exact Total.generateExpressionStatement_total lib h
  | .SwayStatement tok variable_ from_ to_ (.mk btok stmts), h => by
    have : generateStatement lib (.SwayStatement tok variable_ from_ to_ (.mk btok stmts)) =
        generateSwayStatement lib variable_ from_ to_ (generateStatements lib stmts) := by
      funext g; rw [generateStatement]
    rw [this]
    simp only [Statement.wellFormed, Bool.and_eq_true] at h
    exact Total.generateSwayStatement_total lib variable_ h.1.1 h.1.2
      (generateStatements_total lib stmts h.2)
  | .StartStatement tok statement, h => by
    have : generateStatement lib (.StartStatement tok statement) =
        generateStartStatement (generateStatement lib statement) := by
      funext g; rw [generateStatement]
    rw [this]
    simp only [Statement.wellFormed] at h
    exact Total.generateStartStatement_total (generateStatement_total lib statement h)
  | .SendStatement tok channel value, h => by
    have : generateStatement lib (.SendStatement tok channel value) =
        generateSendStatement lib channel value := by
      funext g; rw [generateStatement]
    rw [this]
    simp only [Statement.wellFormed, Bool.and_eq_true] at h
    exact Total.generateSendStatement_total lib h.1 h.2
  | .IfStatement tok condition (.mk btok stmts) none, h => by
    have : generateStatement lib (.IfStatement tok condition (.mk btok stmts) none) =
        generateIfStatement lib condition (generateStatements lib stmts) none := by
      funext g; rw [generateStatement]
    rw [this]
    simp only [Statement.wellFormed, Bool.and_eq_true] at h
    exact Total.generateIfStatement_total lib h.1 (generateStatements_total lib stmts h.2)
      (fun alt h => by cases h)
  | .IfStatement tok condition (.mk btok stmts) (some (.mk atok alt)), h => by
    have : generateStatement lib
        (.IfStatement tok condition (.mk btok stmts) (some (.mk atok alt))) =
        generateIfStatement lib condition (generateStatements lib stmts)
          (some (generateStatements lib alt)) := by
      funext g; rw [generateStatement]
    rw [this]
    simp only [Statement.wellFormed, Bool.and_eq_true] at h
    exact Total.generateIfStatement_total lib h.1.1 (generateStatements_total lib stmts h.1.2)
      (fun a ha => by
        injection ha with ha
        rw [← ha]
        exact generateStatements_total lib alt h.2)
  | .nil, h => by simp [Statement.wellFormed] at h
  | .nilDanceStatement, h => by simp [Statement.wellFormed] at h
  | .nilSwayStatement, h => by simp [Statement.wellFormed] at h
  | .nilSendStatement, h => by simp [Statement.wellFormed] at h
  | .nilIfStatement, h => by simp [Statement.wellFormed] at h
  | .Block b, h => by simp [Statement.wellFormed] at h

theorem generateStatements_total (lib : StdLib) :
    ∀ stmts : List Statement, wellFormedStatements stmts = true →
      Total (generateStatements lib stmts)
  | [], _ => fun g => ⟨g, by rw [generateStatements]⟩
  | s :: rest, h => by
    have : generateStatements lib (s :: rest) =
        fun g => (generateStatement lib s g).bind fun g1 => generateStatements lib rest g1 := by
      funext g; rw [generateStatements]
    rw [this]
    simp only [wellFormedStatements, Bool.and_eq_true] at h
    exact Total.seq_total (generateStatement_total lib s h.1) (generateStatements_total lib rest h.2)

end

mutual

theorem collectImports_wellFormed :
    ∀ s : Statement, s.wellFormed = true → ∀ g, ∃ g', collectImports s g = some g'
  | .DanceStatement tok name value, _, g => ⟨g, by rw [collectImports]⟩
  | .ExpressionStatement tok expression, _, g => by
    rw [collectImports]
    split_ifs
    · exact ⟨_, rfl⟩
    · exact ⟨_, rfl⟩
  | .SwayStatement tok variable_ from_ to_ (.mk btok stmts), h, g => by
    rw [collectImports]
    simp only [Statement.wellFormed, Bool.and_eq_true] at h
    exact collectImportsFromBlock_wellFormed stmts h.2 g
  | .StartStatement tok statement, h, g => by
    rw [collectImports]
    simp only [Statement.wellFormed] at h
    exact collectImports_wellFormed statement h g
  | .SendStatement tok channel value, _, g => ⟨g, by rw [collectImports]⟩
  | .IfStatement tok condition (.mk btok stmts) none, h, g => by
    rw [collectImports]
    simp only [Statement.wellFormed, Bool.and_eq_true] at h
    exact collectImportsFromBlock_wellFormed stmts h.2 g
  | .IfStatement tok condition (.mk btok stmts) (some (.mk atok alt)), h, g => by
    rw [collectImports]
    simp only [Statement.wellFormed, Bool.and_eq_true] at h
    obtain ⟨g1, e1⟩ := collectImportsFromBlock_wellFormed stmts h.1.2 g
    rw [e1]
    exact collectImportsFromBlock_wellFormed alt h.2 g1
  | .nil, h, _ => by simp [Statement.wellFormed] at h
  | .nilDanceStatement, h, _ => by simp [Statement.wellFormed] at h
  | .nilSwayStatement, h, _ => by simp [Statement.wellFormed] at h
  | .nilSendStatement, h, _ => by simp [Statement.wellFormed] at h
  | .nilIfStatement, h, _ => by simp [Statement.wellFormed] at h
  | .Block b, h, _ => by simp [Statement.wellFormed] at h

theorem collectImportsFromBlock_wellFormed :
    ∀ stmts : List Statement, wellFormedStatements stmts = true →
      ∀ g, ∃ g', collectImportsFromBlock stmts g = some g'
  | [], _, g => ⟨g, by rw [collectImportsFromBlock]⟩
  | s :: rest, h, g => by
    rw [collectImportsFromBlock]
    simp only [wellFormedStatements, Bool.and_eq_true] at h
    obtain ⟨g1, e1⟩ := collectImports_wellFormed s h.1 g
    rw [e1]
    exact collectImportsFromBlock_wellFormed rest h.2 g1

end

/-- On a program whose statements are well-formed, `Generate` returns nil as its error. -/
theorem Generate_wellFormed (lib : StdLib) (g : CodeGenerator) (program : Program)
    (h : wellFormedStatements program.Statements = true) :
    ∃ g', Generate lib g program = .ok g' := by
  unfold CodeGenerator.Generate
  obtain ⟨g2, e2⟩ := collectImportsFromBlock_wellFormed program.Statements h
    (g.write "package main\n\n".toList)
  simp only [e2]
  obtain ⟨g4, e4⟩ := generateStatements_total lib program.Statements h
    (((if g2.imports.length > 0 then
        (((writeImports g2.imports (g2.write "import (\n".toList).incIndent).decIndent).write
          ")\n\n".toList)
      else g2).write "func main() \x7b\n".toList).incIndent)
  rw [e4]
  exact ⟨_, rfl⟩

end CodeGenerator

/-! ## The parser: diagnostics and well-formed results -/

namespace Parser

theorem Inv.refl {p : Parser} {A : Prop} (h : A) : Inv p p A :=
  ⟨⟨[], by simp⟩, fun _ => h⟩

theorem Inv.mono {p1 p2 : Parser} {A B : Prop} (hab : A → B) (h : Inv p1 p2 A) : Inv p1 p2 B :=
  ⟨h.1, fun e => hab (h.2 e)⟩

theorem Inv.left_eq {p1 q p2 : Parser} {A : Prop} (he : q.errors = p1.errors)
    (h : Inv q p2 A) : Inv p1 p2 A := by
  unfold Inv Grows at *
  rw [← he]
  exact h

theorem Inv.right_eq {p1 p2 q : Parser} {A : Prop} (he : q.errors = p2.errors)
    (h : Inv p1 p2 A) : Inv p1 q A := by
  unfold Inv Grows at *
  rw [he]
  exact h

theorem Inv.seq_inv {p1 p2 p3 : Parser} {A B : Prop} (h1 : Inv p1 p2 A) (h2 : Inv p2 p3 B) :
    Inv p1 p3 (A ∧ B) := by
  obtain ⟨⟨n1, e1⟩, a⟩ := h1
  obtain ⟨⟨n2, e2⟩, b⟩ := h2
  refine ⟨⟨n1 ++ n2, by rw [e2, e1, List.append_assoc]⟩, ?_⟩
  intro e
  have hnil : n1 ++ n2 = [] := by
    rw [e2, e1, List.append_assoc] at e
    exact List.append_right_eq_self.mp e
  obtain ⟨h1, h2⟩ := List.append_eq_nil.mp hnil
  subst h1 h2
  exact ⟨a (by rw [e1]; simp), b (by rw [e2]; simp)⟩

/-- A step that appends a diagnostic guarantees anything about its result. -/
theorem Inv.failed {p q : Parser} {A : Prop} (msg : Str) (h : q.errors = p.errors ++ [msg]) :
    Inv p q A :=
  ⟨⟨[msg], h⟩, fun e => by
    rw [h] at e
    have := congrArg List.length e
    simp at this⟩

@[simp] theorem nextToken_errors (lib : StdLib) (p : Parser) :
    (p.nextToken lib).errors = p.errors := rfl

theorem expectPeek_true {lib : StdLib} {p : Parser} {t : TokenType}
    (h : (p.expectPeek lib t).2 = true) : (p.expectPeek lib t).1.errors = p.errors := by
  unfold Parser.expectPeek at h ⊢
  by_cases hc : p.peekTokenIs t = true
  · rw [if_pos hc]; rfl
  · rw [if_neg hc] at h; cases h

theorem expectPeek_false {lib : StdLib} {p : Parser} {t : TokenType} {A : Prop}
    (h : (p.expectPeek lib t).2 = false) : Inv p (p.expectPeek lib t).1 A := by
  unfold Parser.expectPeek at h ⊢
  by_cases hc : p.peekTokenIs t = true
  · rw [if_pos hc] at h; cases h
  · rw [if_neg hc]; exact Inv.failed _ rfl

/-- The two ways `expectPeek` ends. -/
theorem expectPeek_cases (lib : StdLib) (p : Parser) (t : TokenType) (A : Prop) :
    ((p.expectPeek lib t).2 = false ∧ Inv p (p.expectPeek lib t).1 A) ∨
    ((p.expectPeek lib t).2 = true ∧ (p.expectPeek lib t).1.errors = p.errors) := by
  cases h : (p.expectPeek lib t).2 with
  | false => exact Or.inl ⟨rfl, expectPeek_false h⟩
  | true => exact Or.inr ⟨rfl, expectPeek_true h⟩

theorem semicolon_errors (lib : StdLib) (p : Parser) :
    (if p.peekTokenIs SEMICOLON = true then p.nextToken lib else p).errors = p.errors := by
  split_ifs <;> rfl

theorem wellFormedStatements_append (a b : List Statement) :
    wellFormedStatements (a ++ b) = (wellFormedStatements a && wellFormedStatements b) := by
  induction a with
  | nil => simp [wellFormedStatements]
  | cons s rest ih => simp [wellFormedStatements, ih, Bool.and_assoc]

theorem wellFormedStatements_appendStatement {stmts : List Statement} {s : Statement}
    (h1 : wellFormedStatements stmts = true) (h2 : s.wellFormed = true) :
    wellFormedStatements (appendStatement stmts s) = true := by
  have : appendStatement stmts s = stmts ++ [s] := by
    cases s <;> first | rfl | (simp [Statement.wellFormed] at h2)
  rw [this, wellFormedStatements_append]
  simp [wellFormedStatements, h1, h2]

theorem wellFormedList_append (a b : List Expression) :
    wellFormedList (a ++ b) = (wellFormedList a && wellFormedList b) := by
  induction a with
  | nil => simp [wellFormedList]
  | cons s rest ih => simp [wellFormedList, ih, Bool.and_assoc]

theorem wellFormedCases_append (a b : List WhenCase) :
    wellFormedCases (a ++ b) = (wellFormedCases a && wellFormedCases b) := by
  induction a with
  | nil => simp [wellFormedCases]
  | cons s rest ih =>
    cases s
    simp [wellFormedCases, ih, Bool.and_assoc]

theorem parsePatternLoop_errors (lib : StdLib) :
    ∀ (n : Nat) (p p' : Parser), parsePatternLoop lib n p = some p' → p'.errors = p.errors := by
  intro n
  induction n with
  | zero => intro p p' h; simp [parsePatternLoop] at h
  | succ n ih =>
    intro p p' h
    rw [parsePatternLoop] at h
    split_ifs at h
    · rw [ih _ _ h]; rfl
    · injection h with h; rw [h]

theorem Specs.zero (lib : StdLib) : Specs lib 0 := by
  constructor <;> intros <;> rename_i h <;>
    first
    | (rw [Parser.parseStatement] at h; cases h)
    | (rw [Parser.parseDanceStatement] at h; cases h)
    | (rw [Parser.parseSwayStatement] at h; cases h)
    | (rw [Parser.parseStartStatement] at h; cases h)
    | (rw [Parser.parseSendStatement] at h; cases h)
    | (rw [Parser.parseIfStatement] at h; cases h)
    | (rw [Parser.parseExpressionStatement] at h; cases h)
    | (rw [Parser.parseExpression] at h; cases h)
    | (rw [Parser.parseExpressionLoop] at h; cases h)
    | (rw [Parser.parseGroupedExpression] at h; cases h)
    | (rw [Parser.parseSpinExpression] at h; cases h)
    | (rw [Parser.parseFlowExpression] at h; cases h)
    | (rw [Parser.parseMatchExpression] at h; cases h)
    | (rw [Parser.parseMatchLoop] at h; cases h)
    | (rw [Parser.parseWhenCase] at h; cases h)
    | (rw [Parser.parsePattern] at h; cases h)
    | (rw [Parser.parseInfixExpression] at h; cases h)
    | (rw [Parser.parseBlockStatement] at h; cases h)
    | (rw [Parser.parseBlockLoop] at h; cases h)
    | (rw [Parser.parseExpressionList] at h; cases h)
    | (rw [Parser.parseExpressionListLoop] at h; cases h)

theorem step_parseDanceStatement {lib : StdLib} {n : Nat} (ih : Specs lib n) :
    ∀ p p' s, Parser.parseDanceStatement lib (n + 1) p = some (p', s) →
      Inv p p' (s.wellFormed = true) := by
  intro p p' s h
  rw [Parser.parseDanceStatement] at h
  simp only [] at h
  rcases expectPeek_cases lib p IDENT (s.wellFormed = true) with ⟨h1, f1⟩ | ⟨h1, e1⟩
  · rw [if_pos h1] at h
    injection h with h
    injection h with ha hb
    rw [← ha]
    exact f1
  rw [if_neg (by rw [h1]; simp)] at h
  rcases expectPeek_cases lib (p.expectPeek lib IDENT).1 ASSIGN (s.wellFormed = true) with
    ⟨h2, f2⟩ | ⟨h2, e2⟩
  · rw [if_pos h2] at h
    injection h with h
    injection h with ha hb
    rw [← ha]
    exact Inv.left_eq e1 f2
  rw [if_neg (by rw [h2]; simp)] at h
  cases hx : Parser.parseExpression lib n LOWEST
      (((p.expectPeek lib IDENT).1.expectPeek lib ASSIGN).1.nextToken lib) with
  | none => rw [hx] at h; cases h
  | some r =>
    obtain ⟨p4, value⟩ := r
    rw [hx] at h
    injection h with h
    injection h with ha hb
    have i4 := ih.parseExpression _ _ _ _ hx
    rw [← ha, ← hb]
    refine Inv.right_eq (semicolon_errors lib p4) ?_
    refine Inv.left_eq ?_ (Inv.mono ?_ i4)
    · rw [nextToken_errors, e2, e1]
    · intro hv; simpa [Statement.wellFormed] using hv

theorem Inv.seq_right {p1 p2 p3 : Parser} {A B : Prop} (h1 : Inv p1 p2 A) (h2 : Inv p2 p3 B) :
    Inv p1 p3 B :=
  Inv.mono And.right (Inv.seq_inv h1 h2)

theorem step_parseStatement {lib : StdLib} {n : Nat} (ih : Specs lib n) :
    ∀ p p' s, Parser.parseStatement lib (n + 1) p = some (p', s) →
      Inv p p' (s.wellFormed = true) := by
  intro p p' s h
  rw [Parser.parseStatement] at h
  split at h
  · exact ih.parseDanceStatement _ _ _ h
  · exact ih.parseSwayStatement _ _ _ h
  · exact ih.parseStartStatement _ _ _ h
  · exact ih.parseSendStatement _ _ _ h
  · exact ih.parseIfStatement _ _ _ h
  · exact ih.parseExpressionStatement _ _ _ h

theorem step_parseStartStatement {lib : StdLib} {n : Nat} (ih : Specs lib n) :
    ∀ p p' s, Parser.parseStartStatement lib (n + 1) p = some (p', s) →
      Inv p p' (s.wellFormed = true) := by
  intro p p' s h
  rw [Parser.parseStartStatement] at h
  cases hx : Parser.parseStatement lib n (p.nextToken lib) with
  | none => rw [hx] at h; cases h
  | some r =>
    obtain ⟨p1, stmt⟩ := r
    rw [hx] at h
    injection h with h
    injection h with ha hb
    rw [← ha, ← hb]
    refine Inv.left_eq (nextToken_errors lib p) (Inv.mono ?_ (ih.parseStatement _ _ _ hx))
    intro hv; simpa [Statement.wellFormed] using hv

theorem step_parseExpressionStatement {lib : StdLib} {n : Nat} (ih : Specs lib n) :
    ∀ p p' s, Parser.parseExpressionStatement lib (n + 1) p = some (p', s) →
      Inv p p' (s.wellFormed = true) := by
  intro p p' s h
  rw [Parser.parseExpressionStatement] at h
  cases hx : Parser.parseExpression lib n LOWEST p with
  | none => rw [hx] at h; cases h
  | some r =>
    obtain ⟨p1, e⟩ := r
    rw [hx] at h
    injection h with h
    injection h with ha hb
    rw [← ha, ← hb]
    refine Inv.right_eq (semicolon_errors lib p1) (Inv.mono ?_ (ih.parseExpression _ _ _ _ hx))
    intro hv; simpa [Statement.wellFormed] using hv

theorem step_parseSendStatement {lib : StdLib} {n : Nat} (ih : Specs lib n) :
    ∀ p p' s, Parser.parseSendStatement lib (n + 1) p = some (p', s) →
      Inv p p' (s.wellFormed = true) := by
  intro p p' s h
  rw [Parser.parseSendStatement] at h
  cases hx : Parser.parseExpression lib n LOWEST (p.nextToken lib) with
  | none => rw [hx] at h; cases h
  | some r =>
    obtain ⟨p1, channel⟩ := r
    rw [hx] at h
    simp only [] at h
    have i1 : Inv p p1 (channel.wellFormed = true) :=
      Inv.left_eq (nextToken_errors lib p) (ih.parseExpression _ _ _ _ hx)
    rcases expectPeek_cases lib p1 SEND (s.wellFormed = true) with ⟨h1, f1⟩ | ⟨h1, e1⟩
    · rw [if_pos h1] at h
      injection h with h
      injection h with ha hb
      rw [← ha]
      exact Inv.seq_right i1 f1
    rw [if_neg (by rw [h1]; simp)] at h
    cases hy : Parser.parseExpression lib n LOWEST ((p1.expectPeek lib SEND).1.nextToken lib) with
    | none => rw [hy] at h; cases h
    | some r2 =>
      obtain ⟨p2, value⟩ := r2
      rw [hy] at h
      injection h with h
      injection h with ha hb
      rw [← ha, ← hb]
      have i2 : Inv p1 p2 (value.wellFormed = true) :=
        Inv.left_eq (by rw [nextToken_errors, e1]) (ih.parseExpression _ _ _ _ hy)
      refine Inv.right_eq (semicolon_errors lib p2) (Inv.mono ?_ (Inv.seq_inv i1 i2))
      intro hv; simpa [Statement.wellFormed] using hv

theorem step_parseBlockStatement {lib : StdLib} {n : Nat} (ih : Specs lib n) :
    ∀ p p' b, Parser.parseBlockStatement lib (n + 1) p = some (p', b) →
      Inv p p' (wellFormedStatements b.Statements = true) := by
  intro p p' b h
  rw [Parser.parseBlockStatement] at h
  cases hx : Parser.parseBlockLoop lib n (p.nextToken lib) [] with
  | none => rw [hx] at h; cases h
  | some r =>
    obtain ⟨p1, stmts⟩ := r
    rw [hx] at h
    injection h with h
    injection h with ha hb
    rw [← ha, ← hb]
    refine Inv.left_eq (nextToken_errors lib p) (Inv.mono ?_ (ih.parseBlockLoop _ _ _ _ hx))
    intro hv
    exact hv rfl

theorem step_parseBlockLoop {lib : StdLib} {n : Nat} (ih : Specs lib n) :
    ∀ p stmts p' r, Parser.parseBlockLoop lib (n + 1) p stmts = some (p', r) →
      Inv p p' (wellFormedStatements stmts = true → wellFormedStatements r = true) := by
  intro p stmts p' r h
  rw [Parser.parseBlockLoop] at h
  split_ifs at h
  · cases hx : Parser.parseStatement lib n p with
    | none => rw [hx] at h; cases h
    | some r1 =>
      obtain ⟨p1, stmt⟩ := r1
      rw [hx] at h
      have i1 := ih.parseStatement _ _ _ hx
      have i2 : Inv p1 p' _ :=
        Inv.left_eq (nextToken_errors lib p1) (ih.parseBlockLoop _ _ _ _ h)
      refine Inv.mono ?_ (Inv.seq_inv i1 i2)
      rintro ⟨hs, hl⟩ hst
      exact hl (wellFormedStatements_appendStatement hst hs)
  · injection h with h
    injection h with ha hb
    rw [← ha, ← hb]
    exact Inv.refl id

theorem step_parseIfStatement {lib : StdLib} {n : Nat} (ih : Specs lib n) :
    ∀ p p' s, Parser.parseIfStatement lib (n + 1) p = some (p', s) →
      Inv p p' (s.wellFormed = true) := by
  intro p p' s h
  rw [Parser.parseIfStatement] at h
  cases hx : Parser.parseExpression lib n LOWEST (p.nextToken lib) with
  | none => rw [hx] at h; cases h
  | some r =>
    obtain ⟨p1, condition⟩ := r
    rw [hx] at h
    simp only [] at h
    have i1 : Inv p p1 (condition.wellFormed = true) :=
      Inv.left_eq (nextToken_errors lib p) (ih.parseExpression _ _ _ _ hx)
    rcases expectPeek_cases lib p1 LBRACE (s.wellFormed = true) with ⟨h1, f1⟩ | ⟨h1, e1⟩
    · rw [if_pos h1] at h
      injection h with h
      injection h with ha hb
      rw [← ha]
      exact Inv.seq_right i1 f1
    rw [if_neg (by rw [h1]; simp)] at h
    cases hy : Parser.parseBlockStatement lib n (p1.expectPeek lib LBRACE).1 with
    | none => rw [hy] at h; cases h
    | some r2 =>
      obtain ⟨p2, consequence⟩ := r2
      rw [hy] at h
      simp only [] at h
      have i2 : Inv p1 p2 (wellFormedStatements consequence.Statements = true) :=
        Inv.left_eq e1 (ih.parseBlockStatement _ _ _ hy)
      cases consequence with
      | mk btok stmts =>
        by_cases helse : p2.peekTokenIs ELSE = true
        · rw [if_pos helse] at h
          rcases expectPeek_cases lib (p2.nextToken lib) LBRACE (s.wellFormed = true) with
            ⟨h2, f2⟩ | ⟨h2, e2⟩
          · rw [if_pos h2] at h
            injection h with h
            injection h with ha hb
            rw [← ha]
            exact Inv.seq_right i1 (Inv.seq_right i2 (Inv.left_eq (nextToken_errors lib p2) f2))
          rw [if_neg (by rw [h2]; simp)] at h
          cases hz : Parser.parseBlockStatement lib n
              ((p2.nextToken lib).expectPeek lib LBRACE).1 with
          | none => rw [hz] at h; cases h
          | some r3 =>
            obtain ⟨p3, alternative⟩ := r3
            rw [hz] at h
            injection h with h
            injection h with ha hb
            rw [← ha, ← hb]
            have i3 : Inv p2 p3 (wellFormedStatements alternative.Statements = true) :=
              Inv.left_eq (by rw [e2, nextToken_errors]) (ih.parseBlockStatement _ _ _ hz)
            cases alternative with
            | mk atok alt =>
              refine Inv.mono ?_ (Inv.seq_inv i1 (Inv.seq_inv i2 i3))
              rintro ⟨hc, hb, ha⟩
              simp only [BlockStatement.Statements] at hb ha
              simp [Statement.wellFormed, hc, hb, ha]
        · rw [if_neg helse] at h
          injection h with h
          injection h with ha hb
          rw [← ha, ← hb]
          refine Inv.mono ?_ (Inv.seq_inv i1 i2)
          rintro ⟨hc, hb⟩
          simp only [BlockStatement.Statements] at hb
          simp [Statement.wellFormed, hc, hb]

theorem step_parseSwayStatement {lib : StdLib} {n : Nat} (ih : Specs lib n) :
    ∀ p p' s, Parser.parseSwayStatement lib (n + 1) p = some (p', s) →
      Inv p p' (s.wellFormed = true) := by
  intro p p' s h
  rw [Parser.parseSwayStatement] at h
  simp only [] at h
  rcases expectPeek_cases lib p IDENT (s.wellFormed = true) with ⟨h1, f1⟩ | ⟨h1, e1⟩
  · rw [if_pos h1] at h
    injection h with h
    injection h with ha hb
    rw [← ha]
    exact f1
  rw [if_neg (by rw [h1]; simp)] at h
  rcases expectPeek_cases lib (p.expectPeek lib IDENT).1 FROM (s.wellFormed = true) with
    ⟨h2, f2⟩ | ⟨h2, e2⟩
  · rw [if_pos h2] at h
    injection h with h
    injection h with ha hb
    rw [← ha]
    exact Inv.left_eq e1 f2
  rw [if_neg (by rw [h2]; simp)] at h
  cases hx : Parser.parseExpression lib n LOWEST
      (((p.expectPeek lib IDENT).1.expectPeek lib FROM).1.nextToken lib) with
  | none => rw [hx] at h; cases h
  | some r =>
    obtain ⟨p3, from_⟩ := r
    rw [hx] at h
    simp only [] at h
    have i3 : Inv p p3 (from_.wellFormed = true) :=
      Inv.left_eq (by rw [nextToken_errors, e2, e1]) (ih.parseExpression _ _ _ _ hx)
    rcases expectPeek_cases lib p3 TO (s.wellFormed = true) with ⟨h3, f3⟩ | ⟨h3, e3⟩
    · rw [if_pos h3] at h
      injection h with h
      injection h with ha hb
      rw [← ha]
      exact Inv.seq_right i3 f3
    rw [if_neg (by rw [h3]; simp)] at h
    cases hy : Parser.parseExpression lib n LOWEST ((p3.expectPeek lib TO).1.nextToken lib) with
    | none => rw [hy] at h; cases h
    | some r2 =>
      obtain ⟨p4, to_⟩ := r2
      rw [hy] at h
      simp only [] at h
      have i4 : Inv p3 p4 (to_.wellFormed = true) :=
        Inv.left_eq (by rw [nextToken_errors, e3]) (ih.parseExpression _ _ _ _ hy)
      rcases expectPeek_cases lib p4 LBRACE (s.wellFormed = true) with ⟨h4, f4⟩ | ⟨h4, e4⟩
      · rw [if_pos h4] at h
        injection h with h
        injection h with ha hb
        rw [← ha]
        exact Inv.seq_right i3 (Inv.seq_right i4 f4)
      rw [if_neg (by rw [h4]; simp)] at h
      cases hz : Parser.parseBlockStatement lib n (p4.expectPeek lib LBRACE).1 with
      | none => rw [hz] at h; cases h
      | some r3 =>
        obtain ⟨p5, body⟩ := r3
        rw [hz] at h
        injection h with h
        injection h with ha hb
        rw [← ha, ← hb]
        have i5 : Inv p4 p5 (wellFormedStatements body.Statements = true) :=
          Inv.left_eq e4 (ih.parseBlockStatement _ _ _ hz)
        cases body with
        | mk btok stmts =>
          refine Inv.mono ?_ (Inv.seq_inv i3 (Inv.seq_inv i4 i5))
          rintro ⟨hf, ht, hb⟩
          simp only [BlockStatement.Statements] at hb
          simp [Statement.wellFormed, hf, ht, hb]

theorem parseIntegerLiteral_inv (p : Parser) :
    Inv p p.parseIntegerLiteral.1 (p.parseIntegerLiteral.2.wellFormed = true) := by
  unfold Parser.parseIntegerLiteral
  cases ParseInt p.curToken.Literal with
  | error e => exact Inv.failed _ rfl
  | ok v => exact Inv.refl rfl

theorem parseFloatLiteral_inv (lib : StdLib) (p : Parser) :
    Inv p (p.parseFloatLiteral lib).1 ((p.parseFloatLiteral lib).2.wellFormed = true) := by
  unfold Parser.parseFloatLiteral
  cases lib.parseFloat p.curToken.Literal with
  | none => exact Inv.failed _ rfl
  | some v => exact Inv.refl rfl

theorem step_parseExpression {lib : StdLib} {n : Nat} (ih : Specs lib n) :
    ∀ prec p p' e, Parser.parseExpression lib (n + 1) prec p = some (p', e) →
      Inv p p' (e.wellFormed = true) := by
  intro prec p p' e h
  rw [Parser.parseExpression] at h
  cases hfn : prefixParseFns p.curToken.Typ with
  | none =>
    rw [hfn] at h
    injection h with h
    injection h with ha hb
    rw [← ha]
    exact Inv.failed _ rfl
  | some fn =>
    rw [hfn] at h
    simp only [] at h
    have key : ∀ r : Option (Parser × Expression),
        (∀ p1 l, r = some (p1, l) → Inv p p1 (l.wellFormed = true)) →
        (match r with
          | none => none
          | some (p1, leftExp) => Parser.parseExpressionLoop lib n prec p1 leftExp) =
          some (p', e) → Inv p p' (e.wellFormed = true) := by
      intro r hr hm
      cases r with
      | none => cases hm
      | some x =>
        obtain ⟨p1, l⟩ := x
        have i1 := hr p1 l rfl
        have i2 := ih.parseExpressionLoop _ _ _ _ _ hm
        exact Inv.mono (fun hh => hh.2 hh.1) (Inv.seq_inv i1 i2)
    refine key _ ?_ h
    intro p1 l hr
    cases fn with
    | parseIdentifier =>
      injection hr with hr; injection hr with ha hb
      rw [← ha, ← hb]; exact Inv.refl rfl
    | parseIntegerLiteral =>
      injection hr with hr
      have hi := parseIntegerLiteral_inv p
      rw [hr] at hi
      exact hi
    | parseFloatLiteral =>
      injection hr with hr
      have hi := parseFloatLiteral_inv lib p
      rw [hr] at hi
      exact hi
    | parseStringLiteral =>
      injection hr with hr; injection hr with ha hb
      rw [← ha, ← hb]; exact Inv.refl rfl
    | parseBoolean =>
      injection hr with hr; injection hr with ha hb
      rw [← ha, ← hb]; exact Inv.refl rfl
    | parseGroupedExpression => exact ih.parseGroupedExpression _ _ _ hr
    | parseSpinExpression => exact ih.parseSpinExpression _ _ _ hr
    | parseFlowExpression => exact ih.parseFlowExpression _ _ _ hr
    | parseMatchExpression => exact ih.parseMatchExpression _ _ _ hr

theorem step_parseExpressionLoop {lib : StdLib} {n : Nat} (ih : Specs lib n) :
    ∀ prec p left p' e, Parser.parseExpressionLoop lib (n + 1) prec p left = some (p', e) →
      Inv p p' (left.wellFormed = true → e.wellFormed = true) := by
  intro prec p left p' e h
  rw [Parser.parseExpressionLoop] at h
  split_ifs at h
  · injection h with h
    injection h with ha hb
    rw [← ha, ← hb]
    exact Inv.refl id
  · cases hx : Parser.parseInfixExpression lib n (p.nextToken lib) left with
    | none => rw [hx] at h; cases h
    | some r =>
      obtain ⟨p1, e1⟩ := r
      rw [hx] at h
      have i1 : Inv p p1 _ :=
        Inv.left_eq (nextToken_errors lib p) (ih.parseInfixExpression _ _ _ _ hx)
      have i2 := ih.parseExpressionLoop _ _ _ _ _ h
      exact Inv.mono (fun hh hl => hh.2 (hh.1 hl)) (Inv.seq_inv i1 i2)
  · injection h with h
    injection h with ha hb
    rw [← ha, ← hb]
    exact Inv.refl id

theorem step_parseInfixExpression {lib : StdLib} {n : Nat} (ih : Specs lib n) :
    ∀ p left p' e, Parser.parseInfixExpression lib (n + 1) p left = some (p', e) →
      Inv p p' (left.wellFormed = true → e.wellFormed = true) := by
  intro p left p' e h
  rw [Parser.parseInfixExpression] at h
  cases hx : Parser.parseExpression lib n p.curPrecedence (p.nextToken lib) with
  | none => rw [hx] at h; cases h
  | some r =>
    obtain ⟨p1, right⟩ := r
    rw [hx] at h
    injection h with h
    injection h with ha hb
    rw [← ha, ← hb]
    refine Inv.left_eq (nextToken_errors lib p) (Inv.mono ?_ (ih.parseExpression _ _ _ _ hx))
    intro hr hl
    simp [Expression.wellFormed, hr, hl]

theorem step_parseGroupedExpression {lib : StdLib} {n : Nat} (ih : Specs lib n) :
    ∀ p p' e, Parser.parseGroupedExpression lib (n + 1) p = some (p', e) →
      Inv p p' (e.wellFormed = true) := by
  intro p p' e h
  rw [Parser.parseGroupedExpression] at h
  cases hx : Parser.parseExpression lib n LOWEST (p.nextToken lib) with
  | none => rw [hx] at h; cases h
  | some r =>
    obtain ⟨p1, exp⟩ := r
    rw [hx] at h
    simp only [] at h
    have i1 : Inv p p1 (exp.wellFormed = true) :=
      Inv.left_eq (nextToken_errors lib p) (ih.parseExpression _ _ _ _ hx)
    rcases expectPeek_cases lib p1 RPAREN (e.wellFormed = true) with ⟨h1, f1⟩ | ⟨h1, e1⟩
    · rw [if_pos h1] at h
      injection h with h
      injection h with ha hb
      rw [← ha]
      exact Inv.seq_right i1 f1
    rw [if_neg (by rw [h1]; simp)] at h
    injection h with h
    injection h with ha hb
    rw [← ha, ← hb]
    exact Inv.right_eq e1 i1

theorem step_parseFlowExpression {lib : StdLib} {n : Nat} (ih : Specs lib n) :
    ∀ p p' e, Parser.parseFlowExpression lib (n + 1) p = some (p', e) →
      Inv p p' (e.wellFormed = true) := by
  intro p p' e h
  rw [Parser.parseFlowExpression] at h
  cases hx : Parser.parseExpression lib n LOWEST (p.nextToken lib) with
  | none => rw [hx] at h; cases h
  | some r =>
    obtain ⟨p1, ct⟩ := r
    rw [hx] at h
    injection h with h
    injection h with ha hb
    rw [← ha, ← hb]
    refine Inv.left_eq (nextToken_errors lib p) (Inv.mono ?_ (ih.parseExpression _ _ _ _ hx))
    intro hv; simpa [Expression.wellFormed] using hv

theorem step_parseSpinExpression {lib : StdLib} {n : Nat} (ih : Specs lib n) :
    ∀ p p' e, Parser.parseSpinExpression lib (n + 1) p = some (p', e) →
      Inv p p' (e.wellFormed = true) := by
  intro p p' e h
  rw [Parser.parseSpinExpression] at h
  cases hx : Parser.parseExpression lib n LOWEST (p.nextToken lib) with
  | none => rw [hx] at h; cases h
  | some r =>
    obtain ⟨p1, function⟩ := r
    rw [hx] at h
    simp only [] at h
    have i1 : Inv p p1 (function.wellFormed = true) :=
      Inv.left_eq (nextToken_errors lib p) (ih.parseExpression _ _ _ _ hx)
    rcases expectPeek_cases lib p1 LPAREN (e.wellFormed = true) with ⟨h1, f1⟩ | ⟨h1, e1⟩
    · rw [if_pos h1] at h
      injection h with h
      injection h with ha hb
      rw [← ha]
      exact Inv.seq_right i1 f1
    rw [if_neg (by rw [h1]; simp)] at h
    cases hy : Parser.parseExpressionList lib n RPAREN (p1.expectPeek lib LPAREN).1 with
    | none => rw [hy] at h; cases h
    | some r2 =>
      obtain ⟨p2, arguments⟩ := r2
      rw [hy] at h
      injection h with h
      injection h with ha hb
      rw [← ha, ← hb]
      have i2 : Inv p1 p2 (wellFormedList arguments = true) :=
        Inv.left_eq e1 (ih.parseExpressionList _ _ _ _ hy)
      refine Inv.mono ?_ (Inv.seq_inv i1 i2)
      rintro ⟨hf, ha⟩
      simp [Expression.wellFormed, hf, ha]

theorem step_parseExpressionList {lib : StdLib} {n : Nat} (ih : Specs lib n) :
    ∀ end_ p p' r, Parser.parseExpressionList lib (n + 1) end_ p = some (p', r) →
      Inv p p' (wellFormedList r = true) := by
  intro end_ p p' r h
  rw [Parser.parseExpressionList] at h
  split_ifs at h
  · injection h with h
    injection h with ha hb
    rw [← ha, ← hb]
    exact Inv.right_eq (nextToken_errors lib p) (Inv.refl rfl)
  · cases hx : Parser.parseExpression lib n LOWEST (p.nextToken lib) with
    | none => rw [hx] at h; cases h
    | some r1 =>
      obtain ⟨p1, e⟩ := r1
      rw [hx] at h
      simp only [] at h
      have i1 : Inv p p1 (e.wellFormed = true) :=
        Inv.left_eq (nextToken_errors lib p) (ih.parseExpression _ _ _ _ hx)
      cases hy : Parser.parseExpressionListLoop lib n p1 [e] with
      | none => rw [hy] at h; cases h
      | some r2 =>
        obtain ⟨p2, list⟩ := r2
        rw [hy] at h
        simp only [] at h
        have i2 := ih.parseExpressionListLoop _ _ _ _ hy
        rcases expectPeek_cases lib p2 end_ (wellFormedList r = true) with ⟨h1, f1⟩ | ⟨h1, e1⟩
        · rw [if_pos h1] at h
          injection h with h
          injection h with ha hb
          rw [← ha]
          exact Inv.seq_right i1 (Inv.seq_right i2 f1)
        rw [if_neg (by rw [h1]; simp)] at h
        injection h with h
        injection h with ha hb
        rw [← ha, ← hb]
        refine Inv.right_eq e1 (Inv.mono ?_ (Inv.seq_inv i1 i2))
        rintro ⟨he, hl⟩
        exact hl (by simp [wellFormedList, he])

theorem step_parseExpressionListLoop {lib : StdLib} {n : Nat} (ih : Specs lib n) :
    ∀ p list p' r, Parser.parseExpressionListLoop lib (n + 1) p list = some (p', r) →
      Inv p p' (wellFormedList list = true → wellFormedList r = true) := by
  intro p list p' r h
  rw [Parser.parseExpressionListLoop] at h
  split_ifs at h
  · cases hx : Parser.parseExpression lib n LOWEST ((p.nextToken lib).nextToken lib) with
    | none => rw [hx] at h; cases h
    | some r1 =>
      obtain ⟨p1, e⟩ := r1
      rw [hx] at h
      have i1 : Inv p p1 (e.wellFormed = true) :=
        Inv.left_eq (by rw [nextToken_errors, nextToken_errors])
          (ih.parseExpression _ _ _ _ hx)
      have i2 := ih.parseExpressionListLoop _ _ _ _ h
      refine Inv.mono ?_ (Inv.seq_inv i1 i2)
      rintro ⟨he, hl⟩ hlist
      exact hl (by rw [wellFormedList_append]; simp [wellFormedList, he, hlist])
  · injection h with h
    injection h with ha hb
    rw [← ha, ← hb]
    exact Inv.refl id

theorem step_parsePattern {lib : StdLib} {n : Nat} (ih : Specs lib n) :
    ∀ p p' e, Parser.parsePattern lib (n + 1) p = some (p', e) →
      Inv p p' (e.wellFormed = true) := by
  intro p p' e h
  rw [Parser.parsePattern] at h
  cases hx : Parser.parseExpression lib n CALL p with
  | none => rw [hx] at h; cases h
  | some r =>
    obtain ⟨p1, pattern⟩ := r
    rw [hx] at h
    simp only [] at h
    have i1 := ih.parseExpression _ _ _ _ hx
    split_ifs at h
    · cases hy : parsePatternLoop lib n (p1.nextToken lib) with
      | none => rw [hy] at h; cases h
      | some p2 =>
        rw [hy] at h
        injection h with h
        injection h with ha hb
        rw [← ha, ← hb]
        exact Inv.right_eq (by rw [parsePatternLoop_errors lib n _ _ hy, nextToken_errors]) i1
    · injection h with h
      injection h with ha hb
      rw [← ha, ← hb]
      exact i1

theorem step_parseWhenCase {lib : StdLib} {n : Nat} (ih : Specs lib n) :
    ∀ p p' r, Parser.parseWhenCase lib (n + 1) p = some (p', r) →
      Inv p p' (∃ c, r = some c ∧ wellFormedCases [c] = true) := by
  intro p p' r h
  rw [Parser.parseWhenCase] at h
  cases hx : Parser.parsePattern lib n (p.nextToken lib) with
  | none => rw [hx] at h; cases h
  | some r1 =>
    obtain ⟨p1, pattern⟩ := r1
    rw [hx] at h
    simp only [] at h
    have i1 : Inv p p1 (pattern.wellFormed = true) :=
      Inv.left_eq (nextToken_errors lib p) (ih.parsePattern _ _ _ hx)
    rcases expectPeek_cases lib p1 COLON (∃ c, r = some c ∧ wellFormedCases [c] = true) with
      ⟨h1, f1⟩ | ⟨h1, e1⟩
    · rw [if_pos h1] at h
      injection h with h
      injection h with ha hb
      rw [← ha]
      exact Inv.seq_right i1 f1
    rw [if_neg (by rw [h1]; simp)] at h
    cases hy : Parser.parseExpression lib n LOWEST ((p1.expectPeek lib COLON).1.nextToken lib) with
    | none => rw [hy] at h; cases h
    | some r2 =>
      obtain ⟨p2, consequence⟩ := r2
      rw [hy] at h
      injection h with h
      injection h with ha hb
      rw [← ha, ← hb]
      have i2 : Inv p1 p2 (consequence.wellFormed = true) :=
        Inv.left_eq (by rw [nextToken_errors, e1]) (ih.parseExpression _ _ _ _ hy)
      refine Inv.mono ?_ (Inv.seq_inv i1 i2)
      rintro ⟨hp, hc⟩
      exact ⟨_, rfl, by simp [wellFormedCases, hp, hc]⟩

theorem step_parseMatchLoop {lib : StdLib} {n : Nat} (ih : Specs lib n) :
    ∀ p cases p' r, Parser.parseMatchLoop lib (n + 1) p cases = some (p', r) →
      Inv p p' (wellFormedCases cases = true → wellFormedCases r = true) := by
  intro p cases p' r h
  rw [Parser.parseMatchLoop] at h
  split_ifs at h
  · cases hx : Parser.parseWhenCase lib n p with
    | none => rw [hx] at h; cases h
    | some r1 =>
      obtain ⟨p1, whenCase⟩ := r1
      rw [hx] at h
      have i1 := ih.parseWhenCase _ _ _ hx
      have i2 : Inv p1 p' _ :=
        Inv.left_eq (nextToken_errors lib p1) (ih.parseMatchLoop _ _ _ _ h)
      refine Inv.mono ?_ (Inv.seq_inv i1 i2)
      rintro ⟨⟨c, hc, hwf⟩, hl⟩ hcases
      apply hl
      rw [hc]
      show wellFormedCases (cases ++ [c]) = true
      rw [wellFormedCases_append, hcases, hwf]
      rfl
  · exact Inv.left_eq (nextToken_errors lib p) (ih.parseMatchLoop _ _ _ _ h)
  · injection h with h
    injection h with ha hb
    rw [← ha, ← hb]
    exact Inv.refl id

theorem step_parseMatchExpression {lib : StdLib} {n : Nat} (ih : Specs lib n) :
    ∀ p p' e, Parser.parseMatchExpression lib (n + 1) p = some (p', e) →
      Inv p p' (e.wellFormed = true) := by
  intro p p' e h
  rw [Parser.parseMatchExpression] at h
  cases hx : Parser.parseExpression lib n LOWEST (p.nextToken lib) with
  | none => rw [hx] at h; cases h
  | some r =>
    obtain ⟨p1, expression⟩ := r
    rw [hx] at h
    simp only [] at h
    have i1 : Inv p p1 (expression.wellFormed = true) :=
      Inv.left_eq (nextToken_errors lib p) (ih.parseExpression _ _ _ _ hx)
    rcases expectPeek_cases lib p1 LBRACE (e.wellFormed = true) with ⟨h1, f1⟩ | ⟨h1, e1⟩
    · rw [if_pos h1] at h
      injection h with h
      injection h with ha hb
      rw [← ha]
      exact Inv.seq_right i1 f1
    rw [if_neg (by rw [h1]; simp)] at h
    cases hy : Parser.parseMatchLoop lib n ((p1.expectPeek lib LBRACE).1.nextToken lib) [] with
    | none => rw [hy] at h; cases h
    | some r2 =>
      obtain ⟨p2, cases⟩ := r2
      rw [hy] at h
      injection h with h
      injection h with ha hb
      rw [← ha, ← hb]
      have i2 : Inv p1 p2 _ :=
        Inv.left_eq (by rw [nextToken_errors, e1]) (ih.parseMatchLoop _ _ _ _ hy)
      refine Inv.mono ?_ (Inv.seq_inv i1 i2)
      rintro ⟨he, hc⟩
      simp [Expression.wellFormed, he, hc rfl]

theorem Specs.all (lib : StdLib) : ∀ n, Specs lib n := by
  intro n
  induction n with
  | zero => exact Specs.zero lib
  | succ n ih =>
    exact
      { parseStatement := step_parseStatement ih
        parseDanceStatement := step_parseDanceStatement ih
        parseSwayStatement := step_parseSwayStatement ih
        parseStartStatement := step_parseStartStatement ih
        parseSendStatement := step_parseSendStatement ih
        parseIfStatement := step_parseIfStatement ih
        parseExpressionStatement := step_parseExpressionStatement ih
        parseExpression := step_parseExpression ih
        parseExpressionLoop := step_parseExpressionLoop ih
        parseGroupedExpression := step_parseGroupedExpression ih
        parseSpinExpression := step_parseSpinExpression ih
        parseFlowExpression := step_parseFlowExpression ih
        parseMatchExpression := step_parseMatchExpression ih
        parseMatchLoop := step_parseMatchLoop ih
        parseWhenCase := step_parseWhenCase ih
        parsePattern := step_parsePattern ih
        parseInfixExpression := step_parseInfixExpression ih
        parseBlockStatement := step_parseBlockStatement ih
        parseBlockLoop := step_parseBlockLoop ih
        parseExpressionList := step_parseExpressionList ih
        parseExpressionListLoop := step_parseExpressionListLoop ih }

theorem ParseProgramLoop_inv (lib : StdLib) :
    ∀ (n : Nat) (p : Parser) (stmts : List Statement) (p' : Parser) (r : List Statement),
      ParseProgramLoop lib n p stmts = some (p', r) →
      Inv p p' (wellFormedStatements stmts = true → wellFormedStatements r = true) := by
  intro n
  induction n with
  | zero => intro p stmts p' r h; rw [Parser.ParseProgramLoop] at h; cases h
  | succ n ih =>
    intro p stmts p' r h
    rw [Parser.ParseProgramLoop] at h
    split_ifs at h
    · cases hx : Parser.parseStatement lib n p with
      | none => rw [hx] at h; cases h
      | some r1 =>
        obtain ⟨p1, stmt⟩ := r1
        rw [hx] at h
        have i1 := (Specs.all lib n).parseStatement _ _ _ hx
        have i2 : Inv p1 p' _ := Inv.left_eq (nextToken_errors lib p1) (ih _ _ _ _ h)
        refine Inv.mono ?_ (Inv.seq_inv i1 i2)
        rintro ⟨hs, hl⟩ hst
        exact hl (wellFormedStatements_appendStatement hst hs)
    · injection h with h
      injection h with ha hb
      rw [← ha, ← hb]
      exact Inv.refl id

end Parser


section ParseThenGenerate

open Parser CodeGenerator

/-- C1. For every source text: when `ParseProgram` on a parser over `lexer.New(source)`
returns with an empty error list, `Generate` on a new generator returns no error (and
does not panic) on the program returned; the branches for an unknown statement or
expression type are not reached. -/
theorem parsed_program_generates (lib : StdLib) (source : Str) (fuel : Nat) (p : Parser)
    (program : Program)
    (hparse : ParseProgram lib fuel (Parser.New lib (Lexer.New source)) = some (p, program))
    (herr : p.errors = []) :
    ∃ g, Generate lib CodeGenerator.New program = .ok g := by
  unfold Parser.ParseProgram at hparse
  cases hx : ParseProgramLoop lib fuel (Parser.New lib (Lexer.New source)) [] with
  | none => rw [hx] at hparse; cases hparse
  | some r =>
    obtain ⟨p1, stmts⟩ := r
    rw [hx] at hparse
    injection hparse with hparse
    injection hparse with ha hb
    subst ha
    have inv := ParseProgramLoop_inv lib fuel _ _ _ _ hx
    have hwf : wellFormedStatements stmts = true := inv.2 (by rw [herr]; rfl) rfl
    exact Generate_wellFormed lib CodeGenerator.New program (by rw [← hb]; exact hwf)

/-- Witness for `parsed_program_generates`: the source text `dance x = 5`. -/
theorem parsed_program_generates_witness :
    ParseProgram asciiLib 30 (Parser.New asciiLib (Lexer.New "dance x = 5\n".toList)) =
      some
        ({ l := { input := "dance x = 5\n".toList, position := 11, readPosition := 12,
                  ch := NUL, line := 2, column := 0 },
           errors := [],
           curToken := { Typ := EOF, Literal := [], Line := 2, Column := 0 },
           peekToken := { Typ := EOF, Literal := [], Line := 2, Column := 0 } },
         { Statements :=
            [.DanceStatement ⟨DANCE, "dance".toList, 1, 1⟩ ⟨⟨IDENT, "x".toList, 1, 7⟩, "x".toList⟩
              (.IntegerLiteral ⟨INT, "5".toList, 1, 11⟩ 5)] }) ∧
    ([] : List Str) = [] ∧
    ∃ g, Generate asciiLib CodeGenerator.New
      { Statements :=
          [.DanceStatement ⟨DANCE, "dance".toList, 1, 1⟩ ⟨⟨IDENT, "x".toList, 1, 7⟩, "x".toList⟩
            (.IntegerLiteral ⟨INT, "5".toList, 1, 11⟩ 5)] } = .ok g :=
  ⟨rfl, rfl,
    parsed_program_generates asciiLib "dance x = 5\n".toList 30
      { l := { input := "dance x = 5\n".toList, position := 11, readPosition := 12,
               ch := NUL, line := 2, column := 0 },
        errors := [],
        curToken := { Typ := EOF, Literal := [], Line := 2, Column := 0 },
        peekToken := { Typ := EOF, Literal := [], Line := 2, Column := 0 } }
      { Statements :=
          [.DanceStatement ⟨DANCE, "dance".toList, 1, 1⟩ ⟨⟨IDENT, "x".toList, 1, 7⟩, "x".toList⟩
            (.IntegerLiteral ⟨INT, "5".toList, 1, 11⟩ 5)] }
      rfl rfl⟩

end ParseThenGenerate

namespace Lexer

/-! ## The counters of the scanner's loops are large enough -/

theorem readChar_input (l : Lexer) : l.readChar.input = l.input := by
  unfold Lexer.readChar
  dsimp only
  split_ifs <;> rfl

theorem readChar_at_end {l : Lexer} (h : l.readPosition ≥ l.input.length) :
    l.readChar.ch = NUL := by
  unfold Lexer.readChar
  rw [if_pos h]

theorem readChar_readPosition {l : Lexer} (h : ¬ l.readPosition ≥ l.input.length) :
    l.readChar.readPosition = l.readPosition + 1 := by
  unfold Lexer.readChar
  rw [if_neg h]
  dsimp only
  split_ifs <;> rfl

theorem readChar_readPosition_le (l : Lexer) : l.readPosition ≤ l.readChar.readPosition := by
  by_cases h : l.readPosition ≥ l.input.length
  · unfold Lexer.readChar
    rw [if_pos h]
  · rw [readChar_readPosition h]
    omega

/-- After `skipWhitespace` the current rune is not a white-space rune. -/
theorem skipWhitespaceLoop_exits :
    ∀ (n : Nat) (l : Lexer), l.input.length - l.readPosition < n →
      ¬((skipWhitespaceLoop n l).ch = ' ' ∨ (skipWhitespaceLoop n l).ch = '\t' ∨
        (skipWhitespaceLoop n l).ch = '\n' ∨ (skipWhitespaceLoop n l).ch = '\r') := by
  intro n
  induction n with
  | zero => intro l h; omega
  | succ n ih =>
    intro l h
    rw [Lexer.skipWhitespaceLoop]
    split_ifs with hc
    · by_cases hend : l.readPosition ≥ l.input.length
      · have hnul := readChar_at_end hend
        have : skipWhitespaceLoop n l.readChar = l.readChar := by
          cases n with
          | zero => rfl
          | succ m => rw [Lexer.skipWhitespaceLoop, if_neg (by rw [hnul]; simp [NUL])]
        rw [this, hnul]
        simp [NUL]
      · exact ih _ (by rw [readChar_input, readChar_readPosition hend]; omega)
    · exact hc

/-- After `skipComment` the current rune is a newline or the end marker. -/
theorem skipCommentLoop_exits :
    ∀ (n : Nat) (l : Lexer), l.input.length - l.readPosition < n →
      ¬((skipCommentLoop n l).ch ≠ '\n' ∧ (skipCommentLoop n l).ch ≠ NUL) := by
  intro n
  induction n with
  | zero => intro l h; omega
  | succ n ih =>
    intro l h
    rw [Lexer.skipCommentLoop]
    split_ifs with hc
    · by_cases hend : l.readPosition ≥ l.input.length
      · have hnul := readChar_at_end hend
        have : skipCommentLoop n l.readChar = l.readChar := by
          cases n with
          | zero => rfl
          | succ m => rw [Lexer.skipCommentLoop, if_neg (by rw [hnul]; simp)]
        rw [this, hnul]
        simp
      · exact ih _ (by rw [readChar_input, readChar_readPosition hend]; omega)
    · exact hc

theorem isLetter_NUL (lib : StdLib) : isLetter lib NUL = false := by
  simp [isLetter, unicodeIsLetter, latin1Letter, NUL]

theorem isDigit_NUL (lib : StdLib) : isDigit lib NUL = false := by
  simp [isDigit, unicodeIsDigit, NUL]

/-- After the loop of `readIdentifier` the current rune does not continue an identifier. -/
theorem readIdentifierLoop_exits (lib : StdLib) :
    ∀ (n : Nat) (l : Lexer), l.input.length - l.readPosition < n →
      ¬(isLetter lib (readIdentifierLoop lib n l).ch = true ∨
        isDigit lib (readIdentifierLoop lib n l).ch = true ∨
        (readIdentifierLoop lib n l).ch = '_') := by
  intro n
  induction n with
  | zero => intro l h; omega
  | succ n ih =>
    intro l h
    rw [Lexer.readIdentifierLoop]
    split_ifs with hc
    · by_cases hend : l.readPosition ≥ l.input.length
      · have hnul := readChar_at_end hend
        have hno : ¬(isLetter lib NUL = true ∨ isDigit lib NUL = true ∨ NUL = '_') := by
          rw [isLetter_NUL, isDigit_NUL]
          simp [NUL]
        have : readIdentifierLoop lib n l.readChar = l.readChar := by
          cases n with
          | zero => rfl
          | succ m => rw [Lexer.readIdentifierLoop, if_neg (by rw [hnul]; exact hno)]
        rw [this, hnul]
        exact hno
      · exact ih _ (by rw [readChar_input, readChar_readPosition hend]; omega)
    · exact hc

/-- After a loop of `readNumber` the current rune is not a digit. -/
theorem readDigitsLoop_exits (lib : StdLib) :
    ∀ (n : Nat) (l : Lexer), l.input.length - l.readPosition < n →
      ¬(isDigit lib (readDigitsLoop lib n l).ch = true) := by
  intro n
  induction n with
  | zero => intro l h; omega
  | succ n ih =>
    intro l h
    rw [Lexer.readDigitsLoop]
    split_ifs with hc
    · by_cases hend : l.readPosition ≥ l.input.length
      · have hnul := readChar_at_end hend
        have : readDigitsLoop lib n l.readChar = l.readChar := by
          cases n with
          | zero => rfl
          | succ m =>
            rw [Lexer.readDigitsLoop, if_neg (by rw [hnul, isDigit_NUL]; simp)]
        rw [this, hnul, isDigit_NUL]
        simp
      · exact ih _ (by rw [readChar_input, readChar_readPosition hend]; omega)
    · exact hc

/-- After the loop of `readString` the current rune is the closing quote or the end
marker. -/
theorem readStringLoop_exits :
    ∀ (n : Nat) (l : Lexer), l.input.length - l.readPosition < n →
      ¬((readStringLoop n l).ch ≠ '"' ∧ (readStringLoop n l).ch ≠ NUL) := by
  intro n
  induction n with
  | zero => intro l h; omega
  | succ n ih =>
    intro l h
    have stop : ∀ (m : Nat) (x : Lexer), x.ch = NUL → readStringLoop m x = x := by
      intro m x hx
      cases m with
      | zero => rfl
      | succ k => rw [Lexer.readStringLoop, if_neg (by rw [hx]; simp)]
    rw [Lexer.readStringLoop]
    dsimp only
    split_ifs with hc hb hz
    · rw [hz]; simp
    · by_cases hend : l.readPosition ≥ l.input.length
      · exact absurd (readChar_at_end hend) hz
      · by_cases hend2 : l.readChar.readPosition ≥ l.readChar.input.length
        · rw [stop n _ (readChar_at_end hend2), readChar_at_end hend2]
          simp
        · refine ih _ ?_
          rw [readChar_input, readChar_readPosition hend2, readChar_input,
            readChar_readPosition hend]
          omega
    · by_cases hend : l.readPosition ≥ l.input.length
      · rw [stop n _ (readChar_at_end hend), readChar_at_end hend]
        simp
      · exact ih _ (by rw [readChar_input, readChar_readPosition hend]; omega)
    · exact hc

theorem skipWhitespaceLoop_frame :
    ∀ (n : Nat) (l : Lexer), (skipWhitespaceLoop n l).input = l.input ∧
      l.readPosition ≤ (skipWhitespaceLoop n l).readPosition := by
  intro n
  induction n with
  | zero => intro l; exact ⟨rfl, Nat.le_refl _⟩
  | succ n ih =>
    intro l
    rw [Lexer.skipWhitespaceLoop]
    split_ifs
    · obtain ⟨h1, h2⟩ := ih l.readChar
      exact ⟨by rw [h1, readChar_input], Nat.le_trans (readChar_readPosition_le l) h2⟩
    · exact ⟨rfl, Nat.le_refl _⟩

theorem skipCommentLoop_frame :
    ∀ (n : Nat) (l : Lexer), (skipCommentLoop n l).input = l.input ∧
      l.readPosition ≤ (skipCommentLoop n l).readPosition := by
  intro n
  induction n with
  | zero => intro l; exact ⟨rfl, Nat.le_refl _⟩
  | succ n ih =>
    intro l
    rw [Lexer.skipCommentLoop]
    split_ifs
    · obtain ⟨h1, h2⟩ := ih l.readChar
      exact ⟨by rw [h1, readChar_input], Nat.le_trans (readChar_readPosition_le l) h2⟩
    · exact ⟨rfl, Nat.le_refl _⟩

/-- A comment is at least one rune long: `skipComment` moves the read position. -/
theorem skipComment_advances {a : Lexer} (hc : a.ch = '/') (hp : a.peekChar = '/') :
    a.skipComment.input = a.input ∧ a.readPosition < a.skipComment.readPosition ∧
      a.readPosition < a.input.length := by
  have hlt : ¬ a.readPosition ≥ a.input.length := by
    intro hge
    unfold Lexer.peekChar at hp
    rw [if_pos hge] at hp
    simp [NUL] at hp
  unfold Lexer.skipComment Lexer.fuel
  rw [Lexer.skipCommentLoop, if_pos (by rw [hc]; simp [NUL])]
  obtain ⟨h1, h2⟩ := skipCommentLoop_frame (a.input.length - a.readPosition) a.readChar
  rw [readChar_readPosition hlt] at h2
  exact ⟨by rw [h1, readChar_input], by omega, by omega⟩

theorem NextTokenAux_comment (lib : StdLib) (n : Nat) (l : Lexer)
    (hc : l.skipWhitespace.ch = '/') (hp : l.skipWhitespace.peekChar = '/') :
    NextTokenAux lib (n + 1) l = NextTokenAux lib n l.skipWhitespace.skipComment := by
  simp [Lexer.NextTokenAux, hc, hp]

theorem NextTokenAux_no_comment (lib : StdLib) (n m : Nat) (l : Lexer)
    (h : ¬(l.skipWhitespace.ch = '/' ∧ l.skipWhitespace.peekChar = '/')) :
    NextTokenAux lib (n + 1) l = NextTokenAux lib (m + 1) l := by
  rw [Lexer.NextTokenAux, Lexer.NextTokenAux]
  dsimp only
  by_cases hc : l.skipWhitespace.ch = '/'
  · have hp : ¬ l.skipWhitespace.peekChar = '/' := fun hp => h ⟨hc, hp⟩
    simp only [hp, if_false]
  · simp only [hc, if_false]

/-- The counter of `NextToken` is large enough: any two counters above the number of
runes left give the same result. -/
theorem NextTokenAux_fuel (lib : StdLib) :
    ∀ (n m : Nat) (l : Lexer), l.input.length - l.readPosition < n →
      l.input.length - l.readPosition < m → NextTokenAux lib n l = NextTokenAux lib m l := by
  intro n
  induction n with
  | zero => intro m l h; omega
  | succ n ih =>
    intro m l hn hm
    cases m with
    | zero => omega
    | succ m =>
      by_cases hcm : l.skipWhitespace.ch = '/' ∧ l.skipWhitespace.peekChar = '/'
      · rw [NextTokenAux_comment lib n l hcm.1 hcm.2, NextTokenAux_comment lib m l hcm.1 hcm.2]
        obtain ⟨w1, w2⟩ := skipWhitespaceLoop_frame l.fuel l
        obtain ⟨c1, c2, c3⟩ := skipComment_advances hcm.1 hcm.2
        have w1' : l.skipWhitespace.input = l.input := w1
        have w2' : l.readPosition ≤ l.skipWhitespace.readPosition := w2
        rw [w1'] at c3
        refine ih m _ ?_ ?_
        · rw [c1, w1']; omega
        · rw [c1, w1']; omega
      · exact NextTokenAux_no_comment lib n m l hcm

end Lexer

/-! ## The keyword table -/

section Keywords

theorem lookup_of_not_mem (a : Str) :
    ∀ es : List (Str × TokenType), a ∉ es.map Prod.fst → List.lookup a es = none := by
  intro es
  induction es with
  | nil => intro _; rfl
  | cons e es ih =>
    intro h
    obtain ⟨k, b⟩ := e
    simp only [List.map_cons, List.mem_cons, not_or] at h
    have hb : (a == k) = false := by simpa using h.1
    simp only [List.lookup, hb]
    exact ih h.2

theorem lookup_of_mem (a : Str) (b : TokenType) :
    ∀ es : List (Str × TokenType), (es.map Prod.fst).Nodup → (a, b) ∈ es →
      List.lookup a es = some b := by
  intro es
  induction es with
  | nil => intro _ h; simp at h
  | cons e es ih =>
    intro hnd hmem
    obtain ⟨k, c⟩ := e
    simp only [List.map_cons, List.nodup_cons] at hnd
    rcases List.mem_cons.1 hmem with heq | hin
    · injection heq with h1 h2
      subst h1; subst h2
      simp [List.lookup]
    · have hne : a ≠ k := by
        intro h
        subst h
        exact hnd.1 (List.mem_map.2 ⟨(a, b), hin, rfl⟩)
      have hb : (a == k) = false := by simpa using hne
      simp only [List.lookup, hb]
      exact ih hnd.2 hin

theorem keywords_eq_reserved : keywords = reserved := rfl

theorem reserved_keys_nodup : (reserved.map Prod.fst).Nodup := by decide

/-- C11. `LookupIdent` returns a keyword kind exactly on the sixteen reserved spellings,
compared rune by rune (so case-sensitively): each spelling has its own kind, the sixteen
kinds are pairwise distinct and none of them is IDENT; every other string gives IDENT. -/
theorem LookupIdent_reserved (s : Str) :
    (∀ k, (s, k) ∈ reserved → LookupIdent s = k) ∧
    (s ∉ reserved.map Prod.fst → LookupIdent s = IDENT) ∧
    (LookupIdent s ∈ reserved.map Prod.snd ↔ s ∈ reserved.map Prod.fst) ∧
    (reserved.map Prod.snd).Nodup ∧ IDENT ∉ reserved.map Prod.snd ∧ reserved.length = 16 ∧
    LookupIdent "Dance".toList = IDENT := by
  have h1 : ∀ k, (s, k) ∈ reserved → LookupIdent s = k := by
    intro k hk
    unfold LookupIdent
    rw [keywords_eq_reserved, lookup_of_mem s k reserved reserved_keys_nodup hk]
  have h2 : s ∉ reserved.map Prod.fst → LookupIdent s = IDENT := by
    intro hs
    unfold LookupIdent
    rw [keywords_eq_reserved, lookup_of_not_mem s reserved hs]
  have h5 : IDENT ∉ reserved.map Prod.snd := by decide
  refine ⟨h1, h2, ⟨?_, ?_⟩, by decide, h5, rfl, ?_⟩
  · intro h
    by_contra hs
    rw [h2 hs] at h
    exact h5 h
  · intro h
    obtain ⟨⟨a, k⟩, hin, ha⟩ := List.mem_map.1 h
    simp only at ha
    subst ha
    rw [h1 k hin]
    exact List.mem_map.2 ⟨(a, k), hin, rfl⟩
  · unfold LookupIdent
    rw [keywords_eq_reserved, lookup_of_not_mem _ reserved (by decide)]

end Keywords
/-! ## Comments and white space -/

namespace Lexer

theorem Reading.of_New (src : Str) : Reading (New src) [] src := by
  cases src with
  | nil => exact ⟨AtEnd.New_nil, rfl⟩
  | cons c post => exact At.New c post

theorem Reading.next {l : Lexer} {pre : Str} {d : Char} {r : Str}
    (h : Reading l pre (d :: r)) : Reading l.readChar (pre ++ [d]) r := by
  cases r with
  | nil =>
    have hat : At l pre d [] := h
    exact ⟨hat.readChar_end, by rw [readChar_input, hat.input]⟩
  | cons e r1 =>
    have hat : At l pre d (e :: r1) := h
    exact hat.advance

theorem Reading.input_eq {l : Lexer} {pre rest : Str} (h : Reading l pre rest) :
    l.input = pre ++ rest := by
  cases rest with
  | nil => rw [h.2, List.append_nil]
  | cons d r => exact At.input h

/-- The number of runes that `readChar` can still read. -/
theorem Reading.remaining {l : Lexer} {pre rest : Str} (h : Reading l pre rest) :
    l.input.length - l.readPosition = rest.length - 1 := by
  cases rest with
  | nil =>
    have := h.1.readPosition
    simp only [List.length_nil]
    omega
  | cons d r =>
    have hat : At l pre d r := h
    rw [hat.input, hat.readPosition]
    simp only [List.length_append, List.length_cons]
    omega

/-- A lexer that has the text `rest` before it produces the tokens of `rest`, up to
their positions. -/
theorem Reading.nthToken_eq (lib : StdLib) {l : Lexer} {pre rest : Str}
    (h : Reading l pre rest) (n : Nat) :
    (nthToken lib l n).kindLit = (nthToken lib (Lexer.New rest) n).kindLit := by
  cases rest with
  | nil => rw [AtEnd.nthToken_eof lib h.1 n, AtEnd.nthToken_eof lib AtEnd.New_nil n]
  | cons d r =>
    have a1 : At l (pre ++ []) d r := by simpa using (show At l pre d r from h)
    exact (a1.shifted (At.New d r)).nthToken lib n

end Lexer
namespace Lexer

theorem skipWhitespaceLoop_fuel :
    ∀ (n m : Nat) (l : Lexer), l.input.length - l.readPosition < n →
      l.input.length - l.readPosition < m → skipWhitespaceLoop n l = skipWhitespaceLoop m l := by
  intro n
  induction n with
  | zero => intro m l h; omega
  | succ n ih =>
    intro m l hn hm
    cases m with
    | zero => omega
    | succ m =>
      rw [Lexer.skipWhitespaceLoop, Lexer.skipWhitespaceLoop]
      split_ifs with hc
      · by_cases hend : l.readPosition ≥ l.input.length
        · have hnul : l.readChar.ch = NUL := readChar_at_end hend
          have hstop : ∀ k, skipWhitespaceLoop k l.readChar = l.readChar := by
            intro k
            cases k with
            | zero => rfl
            | succ k => rw [Lexer.skipWhitespaceLoop, if_neg (by rw [hnul]; simp [NUL])]
          rw [hstop n, hstop m]
        · have h1 := readChar_readPosition hend
          have h2 := readChar_input l
          exact ih m l.readChar (by rw [h1, h2]; omega) (by rw [h1, h2]; omega)
      · rfl

theorem skipWhitespace_readChar (l : Lexer)
    (h : l.ch = ' ' ∨ l.ch = '\t' ∨ l.ch = '\n' ∨ l.ch = '\r') :
    l.skipWhitespace = l.readChar.skipWhitespace := by
  unfold Lexer.skipWhitespace Lexer.fuel
  rw [Lexer.skipWhitespaceLoop, if_pos h]
  by_cases hend : l.readPosition ≥ l.input.length
  · have hnul : l.readChar.ch = NUL := readChar_at_end hend
    have hstop : ∀ k, skipWhitespaceLoop k l.readChar = l.readChar := by
      intro k
      cases k with
      | zero => rfl
      | succ k => rw [Lexer.skipWhitespaceLoop, if_neg (by rw [hnul]; simp [NUL])]
    rw [hstop, hstop]
  · have h1 := readChar_readPosition hend
    have h2 := readChar_input l
    exact skipWhitespaceLoop_fuel _ _ _ (by rw [h1, h2]; omega) (by rw [h1, h2]; omega)

theorem NextTokenAux_congr (lib : StdLib) (n : Nat) {a b : Lexer}
    (h : a.skipWhitespace = b.skipWhitespace) :
    NextTokenAux lib (n + 1) a = NextTokenAux lib (n + 1) b := by
  rw [Lexer.NextTokenAux, Lexer.NextTokenAux]
  dsimp only
  rw [h]

/-- A white-space rune before a token does not change the token. -/
theorem NextToken_space (lib : StdLib) (l : Lexer)
    (h : l.ch = ' ' ∨ l.ch = '\t' ∨ l.ch = '\n' ∨ l.ch = '\r') :
    NextToken lib l = NextToken lib l.readChar := by
  unfold Lexer.NextToken Lexer.fuel
  rw [NextTokenAux_congr lib _ (skipWhitespace_readChar l h)]
  have h1 := readChar_readPosition_le l
  have h2 := readChar_input l
  exact NextTokenAux_fuel lib _ _ _ (by rw [h2]; omega) (by rw [h2]; omega)

/-- A comment before a token does not change the token. -/
theorem NextToken_comment (lib : StdLib) (l : Lexer) (hc : l.ch = '/')
    (hp : l.peekChar = '/') : NextToken lib l = NextToken lib l.skipComment := by
  have hws : l.skipWhitespace = l := skipWhitespace_of_not_space l (by rw [hc]; simp)
  obtain ⟨c1, c2, c3⟩ := skipComment_advances hc hp
  unfold Lexer.NextToken Lexer.fuel
  rw [NextTokenAux_comment lib _ l (by rw [hws]; exact hc) (by rw [hws]; exact hp), hws]
  exact NextTokenAux_fuel lib _ _ _ (by rw [c1]; omega) (by rw [c1]; omega)

theorem nthToken_congr (lib : StdLib) {a b : Lexer} (h : NextToken lib a = NextToken lib b)
    (n : Nat) : nthToken lib a n = nthToken lib b n := by
  cases n with
  | zero => rw [Lexer.nthToken, Lexer.nthToken, h]
  | succ n => rw [Lexer.nthToken, Lexer.nthToken, h]

theorem At.skipCommentLoop_body (rest : Str) :
    ∀ (n : Nat) (c : Str) (l : Lexer) (pre : Str) (x : Char) (post : Str),
      (∀ y ∈ c, y ≠ '\n' ∧ y ≠ NUL) → x :: post = c ++ '\n' :: rest → At l pre x post →
      c.length < n → At (Lexer.skipCommentLoop n l) (pre ++ c) '\n' rest := by
  intro n
  induction n with
  | zero => intro c l pre x post _ _ _ hn; omega
  | succ n ih =>
    intro c l pre x post hc hsplit hat hn
    cases c with
    | nil =>
      simp only [List.nil_append, List.cons.injEq] at hsplit
      obtain ⟨hx, hp⟩ := hsplit
      subst hx hp
      rw [Lexer.skipCommentLoop, if_neg (by simp [hat.ch]), List.append_nil]
      exact hat
    | cons a c1 =>
      simp only [List.cons_append, List.cons.injEq] at hsplit
      obtain ⟨hx, hp⟩ := hsplit
      subst hx
      obtain ⟨e, post2, he⟩ : ∃ e post2, c1 ++ '\n' :: rest = e :: post2 := by
        cases c1 with
        | nil => exact ⟨_, _, rfl⟩
        | cons u v => exact ⟨_, _, rfl⟩
      rw [he] at hp
      subst hp
      have h1 := hat.advance
      rw [Lexer.skipCommentLoop, if_pos (by rw [hat.ch]; exact hc x (List.mem_cons_self _ _))]
      have := ih c1 _ _ e post2 (fun y hy => hc y (List.mem_cons_of_mem _ hy)) he.symm h1
        (by simp at hn; omega)
      simpa using this

end Lexer

section Comments

open Lexer

/-- C12. For every comment text `c` without newline and NUL and every `rest`: the tokens
of `//` `c` newline `rest` have, one by one, the kinds and lexemes of the tokens of
`rest` alone. -/
theorem comment_leaves_tokens (lib : StdLib) (c rest : Str)
    (hc : ∀ y ∈ c, y ≠ '\n' ∧ y ≠ NUL) :
    ∀ n, (nthToken lib (New ('/' :: '/' :: (c ++ '\n' :: rest))) n).kindLit =
      (nthToken lib (New rest) n).kindLit := by
  intro n
  have h0 := At.New '/' ('/' :: (c ++ '\n' :: rest))
  have hpeek : (New ('/' :: '/' :: (c ++ '\n' :: rest))).peekChar = '/' := by
    unfold Lexer.peekChar
    rw [h0.readPosition, h0.input]
    simp
  have hbody : At (New ('/' :: '/' :: (c ++ '\n' :: rest))).skipComment
      ([] ++ '/' :: '/' :: c) '\n' rest := by
    unfold Lexer.skipComment
    exact At.skipCommentLoop_body rest _ ('/' :: '/' :: c) _ [] '/' _
      (by
        intro y hy
        simp only [List.mem_cons] at hy
        rcases hy with h | h | h
        · subst h; simp [NUL]
        · subst h; simp [NUL]
        · exact hc y h)
      (by simp) h0 (by rw [h0.fuel_eq]; simp)
  have hread : Reading (New ('/' :: '/' :: (c ++ '\n' :: rest))).skipComment.readChar
      (([] ++ '/' :: '/' :: c) ++ ['\n']) rest :=
    Reading.next (show Reading _ _ ('\n' :: rest) from hbody)
  rw [nthToken_congr lib (NextToken_comment lib _ h0.ch hpeek) n,
    nthToken_congr lib (NextToken_space lib _ (Or.inr (Or.inr (Or.inl hbody.ch)))) n]
  exact hread.nthToken_eq lib n

/-- Witness for `comment_leaves_tokens`: the comment ` note` before the text `x = 1;`. -/
theorem comment_leaves_tokens_witness :
    (∀ y ∈ " note".toList, y ≠ '\n' ∧ y ≠ NUL) ∧
    ∀ n, (nthToken asciiLib (New ('/' :: '/' :: (" note".toList ++ '\n' :: "x = 1;".toList)))
        n).kindLit = (nthToken asciiLib (New "x = 1;".toList) n).kindLit :=
  ⟨by decide, comment_leaves_tokens asciiLib " note".toList "x = 1;".toList (by decide)⟩

end Comments
/-! ## Positions of tokens -/

namespace Lexer

theorem Reads.here (l : Lexer) : Reads l l := ⟨0, rfl⟩

theorem Reads.append {a b c : Lexer} (h1 : Reads a b) (h2 : Reads b c) : Reads a c := by
  obtain ⟨k1, e1⟩ := h1
  obtain ⟨k2, e2⟩ := h2
  exact ⟨k2 + k1, by rw [e2, e1, Function.iterate_add_apply]⟩

theorem Reads.one (l : Lexer) : Reads l l.readChar := ⟨1, rfl⟩

theorem Reads.of_skipWhitespaceLoop : ∀ (n : Nat) (l : Lexer), Reads l (skipWhitespaceLoop n l) := by
  intro n
  induction n with
  | zero => intro l; exact Reads.here l
  | succ n ih =>
    intro l
    rw [Lexer.skipWhitespaceLoop]
    split_ifs
    · exact (Reads.one l).append (ih _)
    · exact Reads.here l

theorem Reads.of_skipCommentLoop : ∀ (n : Nat) (l : Lexer), Reads l (skipCommentLoop n l) := by
  intro n
  induction n with
  | zero => intro l; exact Reads.here l
  | succ n ih =>
    intro l
    rw [Lexer.skipCommentLoop]
    split_ifs
    · exact (Reads.one l).append (ih _)
    · exact Reads.here l

theorem Reads.of_skipComment (l : Lexer) : Reads l l.skipComment :=
  Reads.of_skipCommentLoop _ l

theorem Reads.of_readIdentifierLoop (lib : StdLib) :
    ∀ (n : Nat) (l : Lexer), Reads l (readIdentifierLoop lib n l) := by
  intro n
  induction n with
  | zero => intro l; exact Reads.here l
  | succ n ih =>
    intro l
    rw [Lexer.readIdentifierLoop]
    split_ifs
    · exact (Reads.one l).append (ih _)
    · exact Reads.here l

theorem Reads.of_readDigitsLoop (lib : StdLib) :
    ∀ (n : Nat) (l : Lexer), Reads l (readDigitsLoop lib n l) := by
  intro n
  induction n with
  | zero => intro l; exact Reads.here l
  | succ n ih =>
    intro l
    rw [Lexer.readDigitsLoop]
    split_ifs
    · exact (Reads.one l).append (ih _)
    · exact Reads.here l

theorem Reads.of_readStringLoop : ∀ (n : Nat) (l : Lexer), Reads l (readStringLoop n l) := by
  intro n
  induction n with
  | zero => intro l; exact Reads.here l
  | succ n ih =>
    intro l
    rw [Lexer.readStringLoop]
    dsimp only
    split_ifs
    · exact Reads.one l
    · exact ((Reads.one l).append (Reads.one _)).append (ih _)
    · exact (Reads.one l).append (ih _)
    · exact Reads.here l

theorem Reads.of_readIdentifier (lib : StdLib) (l : Lexer) : Reads l (l.readIdentifier lib).1 :=
  Reads.of_readIdentifierLoop lib _ l

theorem Reads.of_readNumber (lib : StdLib) (l : Lexer) : Reads l (l.readNumber lib).1 := by
  unfold Lexer.readNumber
  dsimp only
  split_ifs
  · exact ((Reads.of_readDigitsLoop lib _ l).append (Reads.one _)).append
      (Reads.of_readDigitsLoop lib _ _)
  · exact Reads.of_readDigitsLoop lib _ l

theorem Reads.of_readString (l : Lexer) : Reads l l.readString.1 := by
  unfold Lexer.readString
  dsimp only
  split_ifs
  · exact ((Reads.one l).append (Reads.of_readStringLoop _ _)).append (Reads.one _)
  · exact (Reads.one l).append (Reads.of_readStringLoop _ _)

theorem readChar_ch (l : Lexer) : l.readChar.ch = l.peekChar := by
  unfold Lexer.readChar Lexer.peekChar
  dsimp only
  split_ifs <;> rfl

theorem isLetter_newline (lib : StdLib) : isLetter lib '\n' = false := by
  simp [isLetter, unicodeIsLetter, latin1Letter]

theorem isDigit_newline (lib : StdLib) : isDigit lib '\n' = false := by
  simp [isDigit, unicodeIsDigit]

theorem Traced.from_earlier {l0 l : Lexer} {r : Lexer × Token} (h0 : Reads l0 l) (h : Traced l r) :
    Traced l0 r := by
  obtain ⟨la, h1, h2, h3⟩ := h
  exact ⟨la, h0.append h1, h2, h3⟩

theorem Traced.one_rune (a : Lexer) (t : TokenType) (lit : Str) (hz : a.ch ≠ NUL)
    (hnl : a.ch ≠ '\n') : Traced a (a.readChar, a.makeToken t lit) :=
  ⟨a, Reads.here a, Reads.one a, rfl, rfl, fun _ _ => ⟨hz, hnl⟩⟩

theorem Traced.two_runes (a : Lexer) (t : TokenType) (lit : Str) (hz : a.peekChar ≠ NUL)
    (hnl : a.peekChar ≠ '\n') :
    Traced a (a.readChar.readChar, a.readChar.makeToken t lit) :=
  ⟨a.readChar, Reads.one a, Reads.one _, rfl, rfl,
    fun _ _ => ⟨by rw [readChar_ch]; exact hz, by rw [readChar_ch]; exact hnl⟩⟩

theorem NextTokenAux_traced (lib : StdLib) :
    ∀ (n : Nat) (l : Lexer), l.input.length - l.readPosition < n →
      Traced l (NextTokenAux lib n l) := by
  intro n
  induction n with
  | zero => intro l h; omega
  | succ n ih =>
    intro l hn
    have hws : Reads l l.skipWhitespace := Reads.of_skipWhitespaceLoop _ l
    have hnl : l.skipWhitespace.ch ≠ '\n' := fun h =>
      skipWhitespaceLoop_exits l.fuel l (by unfold Lexer.fuel; omega) (Or.inr (Or.inr (Or.inl h)))
    obtain ⟨w1, w2⟩ := skipWhitespaceLoop_frame l.fuel l
    have w1' : l.skipWhitespace.input = l.input := w1
    have w2' : l.readPosition ≤ l.skipWhitespace.readPosition := w2
    refine Traced.from_earlier hws ?_
    rw [Lexer.NextTokenAux]
    dsimp only
    generalize l.skipWhitespace = a at hnl w1' w2' ⊢
    have hlen : a.input.length = l.input.length := by rw [w1']
    by_cases hc1 : a.ch = '='
    · rw [if_pos hc1]
      by_cases hp1 : a.peekChar = '='
      · rw [if_pos hp1]; exact Traced.two_runes a _ _ (by rw [hp1]; simp [NUL]) (by rw [hp1]; simp)
      rw [if_neg hp1]
      by_cases hp2 : a.peekChar = '~'
      · rw [if_pos hp2]; exact Traced.two_runes a _ _ (by rw [hp2]; simp [NUL]) (by rw [hp2]; simp)
      rw [if_neg hp2]
      exact Traced.one_rune a _ _ (by rw [hc1]; simp [NUL]) hnl
    rw [if_neg hc1]
    by_cases hc2 : a.ch = '+'
    · rw [if_pos hc2]; exact Traced.one_rune a _ _ (by rw [hc2]; simp [NUL]) hnl
    rw [if_neg hc2]
    by_cases hc3 : a.ch = '-'
    · rw [if_pos hc3]
      by_cases hp1 : a.peekChar = '>'
      · rw [if_pos hp1]; exact Traced.two_runes a _ _ (by rw [hp1]; simp [NUL]) (by rw [hp1]; simp)
      rw [if_neg hp1]
      exact Traced.one_rune a _ _ (by rw [hc3]; simp [NUL]) hnl
    rw [if_neg hc3]
    by_cases hc4 : a.ch = '!'
    · rw [if_pos hc4]
      by_cases hp1 : a.peekChar = '='
      · rw [if_pos hp1]; exact Traced.two_runes a _ _ (by rw [hp1]; simp [NUL]) (by rw [hp1]; simp)
      rw [if_neg hp1]
      exact Traced.one_rune a _ _ (by rw [hc4]; simp [NUL]) hnl
    rw [if_neg hc4]
    by_cases hc5 : a.ch = '/'
    · rw [if_pos hc5]
      by_cases hp1 : a.peekChar = '/'
      · rw [if_pos hp1]
        obtain ⟨c1, c2, c3⟩ := skipComment_advances hc5 hp1
        exact Traced.from_earlier (Reads.of_skipComment a) (ih a.skipComment (by rw [c1]; omega))
      rw [if_neg hp1]
      exact Traced.one_rune a _ _ (by rw [hc5]; simp [NUL]) hnl
    rw [if_neg hc5]
    by_cases hc6 : a.ch = '*'
    · rw [if_pos hc6]; exact Traced.one_rune a _ _ (by rw [hc6]; simp [NUL]) hnl
    rw [if_neg hc6]
    by_cases hc7 : a.ch = '<'
    · rw [if_pos hc7]
      by_cases hp1 : a.peekChar = '-'
      · rw [if_pos hp1]; exact Traced.two_runes a _ _ (by rw [hp1]; simp [NUL]) (by rw [hp1]; simp)
      rw [if_neg hp1]
      by_cases hp2 : a.peekChar = '='
      · rw [if_pos hp2]; exact Traced.two_runes a _ _ (by rw [hp2]; simp [NUL]) (by rw [hp2]; simp)
      rw [if_neg hp2]
      exact Traced.one_rune a _ _ (by rw [hc7]; simp [NUL]) hnl
    rw [if_neg hc7]
    by_cases hc8 : a.ch = '>'
    · rw [if_pos hc8]
      by_cases hp1 : a.peekChar = '='
      · rw [if_pos hp1]; exact Traced.two_runes a _ _ (by rw [hp1]; simp [NUL]) (by rw [hp1]; simp)
      rw [if_neg hp1]
      exact Traced.one_rune a _ _ (by rw [hc8]; simp [NUL]) hnl
    rw [if_neg hc8]
    by_cases hc9 : a.ch = ','
    · rw [if_pos hc9]; exact Traced.one_rune a _ _ (by rw [hc9]; simp [NUL]) hnl
    rw [if_neg hc9]
    by_cases hc10 : a.ch = ';'
    · rw [if_pos hc10]; exact Traced.one_rune a _ _ (by rw [hc10]; simp [NUL]) hnl
    rw [if_neg hc10]
    by_cases hc11 : a.ch = ':'
    · rw [if_pos hc11]; exact Traced.one_rune a _ _ (by rw [hc11]; simp [NUL]) hnl
    rw [if_neg hc11]
    by_cases hc12 : a.ch = '('
    · rw [if_pos hc12]; exact Traced.one_rune a _ _ (by rw [hc12]; simp [NUL]) hnl
    rw [if_neg hc12]
    by_cases hc13 : a.ch = ')'
    · rw [if_pos hc13]; exact Traced.one_rune a _ _ (by rw [hc13]; simp [NUL]) hnl
    rw [if_neg hc13]
    by_cases hc14 : a.ch = '{'
    · rw [if_pos hc14]; exact Traced.one_rune a _ _ (by rw [hc14]; simp [NUL]) hnl
    rw [if_neg hc14]
    by_cases hc15 : a.ch = '}'
    · rw [if_pos hc15]; exact Traced.one_rune a _ _ (by rw [hc15]; simp [NUL]) hnl
    rw [if_neg hc15]
    by_cases hc16 : a.ch = '['
    · rw [if_pos hc16]; exact Traced.one_rune a _ _ (by rw [hc16]; simp [NUL]) hnl
    rw [if_neg hc16]
    by_cases hc17 : a.ch = ']'
    · rw [if_pos hc17]; exact Traced.one_rune a _ _ (by rw [hc17]; simp [NUL]) hnl
    rw [if_neg hc17]
    by_cases hq : a.ch = '"'
    · rw [if_pos hq]
      exact ⟨a.readString.1, Reads.of_readString a, Reads.here _, rfl, rfl,
        fun _ h => absurd rfl h⟩
    rw [if_neg hq]
    by_cases hz : a.ch = NUL
    · rw [if_pos hz]
      exact ⟨a, Reads.here a, Reads.one a, rfl, rfl, fun h _ => absurd rfl h⟩
    rw [if_neg hz]
    by_cases hl : isLetter lib a.ch = true
    · rw [if_pos hl]
      exact ⟨a, Reads.here a, Reads.of_readIdentifier lib a, rfl, rfl, fun _ _ => ⟨hz, hnl⟩⟩
    rw [if_neg hl]
    by_cases hd : isDigit lib a.ch = true
    · rw [if_pos hd]
      exact ⟨a, Reads.here a, Reads.of_readNumber lib a, rfl, rfl, fun _ _ => ⟨hz, hnl⟩⟩
    rw [if_neg hd]
    exact Traced.one_rune a _ _ hz hnl

theorem NextToken_traced (lib : StdLib) (l : Lexer) : Traced l (NextToken lib l) :=
  NextTokenAux_traced lib _ l (by unfold Lexer.fuel; omega)

end Lexer
namespace Lexer

theorem posLE_refl (a b : Nat) : posLE a b a b := Or.inr ⟨rfl, Nat.le_refl b⟩

theorem posLE_trans {a b c d e f : Nat} (h1 : posLE a b c d) (h2 : posLE c d e f) :
    posLE a b e f := by
  unfold posLE at *
  omega

theorem readChar_posLE (l : Lexer) : posLE l.line l.column l.readChar.line l.readChar.column := by
  unfold Lexer.readChar posLE
  dsimp only
  split_ifs
  · right; exact ⟨rfl, Nat.le_refl _⟩
  · left; simp
  · right; simp

theorem Reads.pos_le {a b : Lexer} (h : Reads a b) : posLE a.line a.column b.line b.column := by
  obtain ⟨k, hk⟩ := h
  subst hk
  induction k generalizing a with
  | zero => exact posLE_refl _ _
  | succ k ih =>
    rw [Function.iterate_succ_apply]
    exact posLE_trans (readChar_posLE a) ih

theorem readChar_counted {l : Lexer} (h : Counted l) : Counted l.readChar := by
  unfold Lexer.readChar Counted
  dsimp only
  split_ifs with h1 h2
  · exact ⟨h.1, fun hz => absurd rfl hz⟩
  · exact ⟨Nat.le_succ_of_le h.1, fun _ hn => absurd h2 hn⟩
  · exact ⟨h.1, fun _ _ => Nat.le_add_left 1 _⟩

theorem Reads.keeps_counted {a b : Lexer} (h : Reads a b) (ha : Counted a) : Counted b := by
  obtain ⟨k, hk⟩ := h
  subst hk
  induction k generalizing a with
  | zero => exact ha
  | succ k ih =>
    rw [Function.iterate_succ_apply]
    exact ih (readChar_counted ha)

theorem New_counted (input : Str) : Counted (New input) :=
  readChar_counted ⟨Nat.le_refl 1, fun hz => absurd rfl hz⟩

theorem nthToken_zero (lib : StdLib) (l : Lexer) : nthToken lib l 0 = (NextToken lib l).2 := by
  rw [Lexer.nthToken]

theorem nthToken_succ (lib : StdLib) (l : Lexer) (n : Nat) :
    nthToken lib l (n + 1) = nthToken lib (NextToken lib l).1 n := by
  rw [Lexer.nthToken]

theorem nthToken_posLE (lib : StdLib) :
    ∀ (n : Nat) (l : Lexer),
      posLE (nthToken lib l n).Line (nthToken lib l n).Column
        (nthToken lib l (n + 1)).Line (nthToken lib l (n + 1)).Column := by
  intro n
  induction n with
  | zero =>
    intro l
    obtain ⟨la, _, a2, a3, a4, _⟩ := NextToken_traced lib l
    obtain ⟨lb, b1, _, b3, b4, _⟩ := NextToken_traced lib (NextToken lib l).1
    rw [nthToken_succ, nthToken_zero, nthToken_zero, a3, a4, b3, b4]
    exact (a2.append b1).pos_le
  | succ n ih =>
    intro l
    rw [nthToken_succ, nthToken_succ lib l (n + 1)]
    exact ih (NextToken lib l).1

theorem nthToken_counted (lib : StdLib) :
    ∀ (n : Nat) (l : Lexer), Counted l →
      1 ≤ (nthToken lib l n).Line ∧
      ((nthToken lib l n).Typ ≠ EOF → (nthToken lib l n).Typ ≠ STRING →
        1 ≤ (nthToken lib l n).Column) := by
  intro n
  induction n with
  | zero =>
    intro l hl
    obtain ⟨la, a1, _, a3, a4, a5⟩ := NextToken_traced lib l
    have hla := a1.keeps_counted hl
    rw [nthToken_zero, a3, a4]
    exact ⟨hla.1, fun h1 h2 => hla.2 (a5 h1 h2).1 (a5 h1 h2).2⟩
  | succ n ih =>
    intro l hl
    obtain ⟨la, a1, a2, _⟩ := NextToken_traced lib l
    rw [nthToken_succ]
    exact ih (NextToken lib l).1 (a2.keeps_counted (a1.keeps_counted hl))

end Lexer

section Positions

open Lexer

/-- C13. For every input and every two consecutive tokens that `NextToken` returns, the
position (line, column) of the later token is not smaller, in lexicographic order, than
that of the earlier one. -/
theorem token_positions_increase (lib : StdLib) (input : Str) (n : Nat) :
    posLE (nthToken lib (New input) n).Line (nthToken lib (New input) n).Column
      (nthToken lib (New input) (n + 1)).Line (nthToken lib (New input) (n + 1)).Column :=
  nthToken_posLE lib n (New input)

/-- C14, as amended. For every input, every token that `NextToken` returns has a line of
at least 1, and every token other than EOF and STRING has a column of at least 1. -/
theorem token_positions_from_one (lib : StdLib) (input : Str) (n : Nat) :
    1 ≤ (nthToken lib (New input) n).Line ∧
    ((nthToken lib (New input) n).Typ ≠ EOF → (nthToken lib (New input) n).Typ ≠ STRING →
      1 ≤ (nthToken lib (New input) n).Column) :=
  nthToken_counted lib n (New input) (New_counted input)

/-- C14 fails as stated. On the empty input the first token is EOF at line 1, column 0; on
the input `a` newline the second token is EOF at line 2, column 0; on the input `"a"`
newline the first token is STRING at line 2, column 0. -/
theorem token_column_zero :
    nthToken asciiLib (New []) 0 = ⟨EOF, [], 1, 0⟩ ∧
    nthToken asciiLib (New "a\n".toList) 1 = ⟨EOF, [], 2, 0⟩ ∧
    nthToken asciiLib (New "\"a\"\n".toList) 0 = ⟨STRING, ['a'], 2, 0⟩ ∧
    ¬ (∀ (input : Str) (n : Nat), 1 ≤ (nthToken asciiLib (New input) n).Line ∧
        1 ≤ (nthToken asciiLib (New input) n).Column) := by
  refine ⟨by decide, by decide, by decide, ?_⟩
  intro h
  have := (h [] 0).2
  revert this
  decide

end Positions

/-! ## From text to tokens -/

namespace Lexer

theorem NextToken_unfold (lib : StdLib) (l : Lexer) :
    NextToken lib l = NextTokenAux lib (l.input.length - l.readPosition + 1) l := rfl

theorem Tokens.of_congr (lib : StdLib) {a b : Lexer} (h : NextToken lib a = NextToken lib b)
    {ts : List (TokenType × Str)} (hb : Tokens lib b ts) : Tokens lib a ts := by
  cases ts with
  | nil =>
    intro n
    rw [nthToken_congr lib h n]
    exact hb n
  | cons t ts =>
    unfold Lexer.Tokens at hb ⊢
    rw [h]
    exact hb

theorem Tokens.of_atEnd (lib : StdLib) {l : Lexer} (h : AtEnd l) : Tokens lib l [] :=
  fun n => h.nthToken_eof lib n

theorem Tokens.after_end (lib : StdLib) {l : Lexer} (h : Tokens lib l []) :
    (NextToken lib l).2.kindLit = eofTok ∧ Tokens lib (NextToken lib l).1 [] := by
  refine ⟨?_, fun n => ?_⟩
  · have := h 0
    rwa [nthToken_zero] at this
  · have := h (n + 1)
    rwa [nthToken_succ] at this

theorem Reading.ch_eq {l : Lexer} {pre : Str} {c : Char} {rest : Str}
    (h : Reading l pre (c :: rest)) : l.ch = c :=
  At.ch h

theorem Reading.peekChar_eq {l : Lexer} {pre : Str} {c : Char} {rest : Str}
    (h : Reading l pre (c :: rest)) : l.peekChar = rest.headD NUL := by
  have hat : At l pre c rest := h
  unfold Lexer.peekChar
  rw [hat.readPosition, hat.input]
  cases rest with
  | nil => simp
  | cons d r =>
    rw [if_neg (by simp)]
    rw [List.getD_eq_getElem?_getD, List.getElem?_append_right (by omega)]
    simp

end Lexer

theorem blank_iff (c : Char) :
    blank c = true ↔ (c = ' ' ∨ c = '\t' ∨ c = '\n' ∨ c = '\r') := by
  simp [blank, or_assoc]

theorem Lexes_nil (lib : StdLib) : Lexes lib [] [] :=
  fun _ _ h => Lexer.Tokens.of_atEnd lib h.1

theorem Lexes_blank (lib : StdLib) {c : Char} {txt : Str} {ts : List (TokenType × Str)}
    (hc : blank c = true) (h : Lexes lib txt ts) : Lexes lib (c :: txt) ts := by
  intro l pre hr
  have hch := hr.ch_eq
  refine Lexer.Tokens.of_congr lib
    (Lexer.NextToken_space lib l (by rw [hch]; exact (blank_iff c).1 hc)) ?_
  exact h _ _ hr.next

theorem Lexes_blanks (lib : StdLib) {txt : Str} {ts : List (TokenType × Str)}
    (h : Lexes lib txt ts) : ∀ ws : Str, ws.all blank = true → Lexes lib (ws ++ txt) ts := by
  intro ws
  induction ws with
  | nil => intro _; exact h
  | cons c ws ih =>
    intro hws
    simp only [List.all_cons, Bool.and_eq_true] at hws
    exact Lexes_blank lib hws.1 (ih hws.2)
namespace Lexer

theorem NextTokenAux_plus (lib : StdLib) (n : Nat) (l : Lexer) (h : l.ch = '+') :
    NextTokenAux lib (n + 1) l = (l.readChar, l.makeToken PLUS ['+']) := by
  have hws : l.skipWhitespace = l := skipWhitespace_of_not_space l (by rw [h]; simp)
  simp [Lexer.NextTokenAux, hws, h]

theorem NextTokenAux_asterisk (lib : StdLib) (n : Nat) (l : Lexer) (h : l.ch = '*') :
    NextTokenAux lib (n + 1) l = (l.readChar, l.makeToken ASTERISK ['*']) := by
  have hws : l.skipWhitespace = l := skipWhitespace_of_not_space l (by rw [h]; simp)
  simp [Lexer.NextTokenAux, hws, h]

theorem NextTokenAux_comma (lib : StdLib) (n : Nat) (l : Lexer) (h : l.ch = ',') :
    NextTokenAux lib (n + 1) l = (l.readChar, l.makeToken COMMA [',']) := by
  have hws : l.skipWhitespace = l := skipWhitespace_of_not_space l (by rw [h]; simp)
  simp [Lexer.NextTokenAux, hws, h]

theorem NextTokenAux_semicolon (lib : StdLib) (n : Nat) (l : Lexer) (h : l.ch = ';') :
    NextTokenAux lib (n + 1) l = (l.readChar, l.makeToken SEMICOLON [';']) := by
  have hws : l.skipWhitespace = l := skipWhitespace_of_not_space l (by rw [h]; simp)
  simp [Lexer.NextTokenAux, hws, h]

theorem NextTokenAux_colon (lib : StdLib) (n : Nat) (l : Lexer) (h : l.ch = ':') :
    NextTokenAux lib (n + 1) l = (l.readChar, l.makeToken COLON [':']) := by
  have hws : l.skipWhitespace = l := skipWhitespace_of_not_space l (by rw [h]; simp)
  simp [Lexer.NextTokenAux, hws, h]

theorem NextTokenAux_lparen (lib : StdLib) (n : Nat) (l : Lexer) (h : l.ch = '(') :
    NextTokenAux lib (n + 1) l = (l.readChar, l.makeToken LPAREN ['(']) := by
  have hws : l.skipWhitespace = l := skipWhitespace_of_not_space l (by rw [h]; simp)
  simp [Lexer.NextTokenAux, hws, h]

theorem NextTokenAux_rparen (lib : StdLib) (n : Nat) (l : Lexer) (h : l.ch = ')') :
    NextTokenAux lib (n + 1) l = (l.readChar, l.makeToken RPAREN [')']) := by
  have hws : l.skipWhitespace = l := skipWhitespace_of_not_space l (by rw [h]; simp)
  simp [Lexer.NextTokenAux, hws, h]

theorem NextTokenAux_lbrace (lib : StdLib) (n : Nat) (l : Lexer) (h : l.ch = '{') :
    NextTokenAux lib (n + 1) l = (l.readChar, l.makeToken LBRACE ['{']) := by
  have hws : l.skipWhitespace = l := skipWhitespace_of_not_space l (by rw [h]; simp)
  simp [Lexer.NextTokenAux, hws, h]

theorem NextTokenAux_rbrace (lib : StdLib) (n : Nat) (l : Lexer) (h : l.ch = '}') :
    NextTokenAux lib (n + 1) l = (l.readChar, l.makeToken RBRACE ['}']) := by
  have hws : l.skipWhitespace = l := skipWhitespace_of_not_space l (by rw [h]; simp)
  simp [Lexer.NextTokenAux, hws, h]

theorem NextTokenAux_lbracket (lib : StdLib) (n : Nat) (l : Lexer) (h : l.ch = '[') :
    NextTokenAux lib (n + 1) l = (l.readChar, l.makeToken LBRACKET ['[']) := by
  have hws : l.skipWhitespace = l := skipWhitespace_of_not_space l (by rw [h]; simp)
  simp [Lexer.NextTokenAux, hws, h]

theorem NextTokenAux_rbracket (lib : StdLib) (n : Nat) (l : Lexer) (h : l.ch = ']') :
    NextTokenAux lib (n + 1) l = (l.readChar, l.makeToken RBRACKET [']']) := by
  have hws : l.skipWhitespace = l := skipWhitespace_of_not_space l (by rw [h]; simp)
  simp [Lexer.NextTokenAux, hws, h]

theorem NextTokenAux_assign (lib : StdLib) (n : Nat) (l : Lexer) (h : l.ch = '=') (hp0 : l.peekChar ≠ '=') (hp1 : l.peekChar ≠ '~') :
    NextTokenAux lib (n + 1) l = (l.readChar, l.makeToken ASSIGN ['=']) := by
  have hws : l.skipWhitespace = l := skipWhitespace_of_not_space l (by rw [h]; simp)
  simp [Lexer.NextTokenAux, hws, h, hp0, hp1]

theorem NextTokenAux_minus (lib : StdLib) (n : Nat) (l : Lexer) (h : l.ch = '-') (hp0 : l.peekChar ≠ '>') :
    NextTokenAux lib (n + 1) l = (l.readChar, l.makeToken MINUS ['-']) := by
  have hws : l.skipWhitespace = l := skipWhitespace_of_not_space l (by rw [h]; simp)
  simp [Lexer.NextTokenAux, hws, h, hp0]

theorem NextTokenAux_bang (lib : StdLib) (n : Nat) (l : Lexer) (h : l.ch = '!') (hp0 : l.peekChar ≠ '=') :
    NextTokenAux lib (n + 1) l = (l.readChar, l.makeToken BANG ['!']) := by
  have hws : l.skipWhitespace = l := skipWhitespace_of_not_space l (by rw [h]; simp)
  simp [Lexer.NextTokenAux, hws, h, hp0]

theorem NextTokenAux_slash (lib : StdLib) (n : Nat) (l : Lexer) (h : l.ch = '/') (hp0 : l.peekChar ≠ '/') :
    NextTokenAux lib (n + 1) l = (l.readChar, l.makeToken SLASH ['/']) := by
  have hws : l.skipWhitespace = l := skipWhitespace_of_not_space l (by rw [h]; simp)
  simp [Lexer.NextTokenAux, hws, h, hp0]

theorem NextTokenAux_lt (lib : StdLib) (n : Nat) (l : Lexer) (h : l.ch = '<') (hp0 : l.peekChar ≠ '-') (hp1 : l.peekChar ≠ '=') :
    NextTokenAux lib (n + 1) l = (l.readChar, l.makeToken TokenType.LT ['<']) := by
  have hws : l.skipWhitespace = l := skipWhitespace_of_not_space l (by rw [h]; simp)
  simp [Lexer.NextTokenAux, hws, h, hp0, hp1]

theorem NextTokenAux_gt (lib : StdLib) (n : Nat) (l : Lexer) (h : l.ch = '>') (hp0 : l.peekChar ≠ '=') :
    NextTokenAux lib (n + 1) l = (l.readChar, l.makeToken TokenType.GT ['>']) := by
  have hws : l.skipWhitespace = l := skipWhitespace_of_not_space l (by rw [h]; simp)
  simp [Lexer.NextTokenAux, hws, h, hp0]

theorem NextTokenAux_eq (lib : StdLib) (n : Nat) (l : Lexer) (h : l.ch = '=')
    (hp : l.peekChar = '=') :
    NextTokenAux lib (n + 1) l = (l.readChar.readChar, l.readChar.makeToken TokenType.EQ ['=', '=']) := by
  have hws : l.skipWhitespace = l := skipWhitespace_of_not_space l (by rw [h]; simp)
  simp [Lexer.NextTokenAux, hws, h, hp, readChar_ch]

theorem NextTokenAux_match_op (lib : StdLib) (n : Nat) (l : Lexer) (h : l.ch = '=')
    (hp : l.peekChar = '~') :
    NextTokenAux lib (n + 1) l = (l.readChar.readChar, l.readChar.makeToken MATCH_OP ['=', '~']) := by
  have hws : l.skipWhitespace = l := skipWhitespace_of_not_space l (by rw [h]; simp)
  simp [Lexer.NextTokenAux, hws, h, hp, readChar_ch]

theorem NextTokenAux_arrow (lib : StdLib) (n : Nat) (l : Lexer) (h : l.ch = '-')
    (hp : l.peekChar = '>') :
    NextTokenAux lib (n + 1) l = (l.readChar.readChar, l.readChar.makeToken ARROW ['-', '>']) := by
  have hws : l.skipWhitespace = l := skipWhitespace_of_not_space l (by rw [h]; simp)
  simp [Lexer.NextTokenAux, hws, h, hp, readChar_ch]

theorem NextTokenAux_not_eq (lib : StdLib) (n : Nat) (l : Lexer) (h : l.ch = '!')
    (hp : l.peekChar = '=') :
    NextTokenAux lib (n + 1) l = (l.readChar.readChar, l.readChar.makeToken NOT_EQ ['!', '=']) := by
  have hws : l.skipWhitespace = l := skipWhitespace_of_not_space l (by rw [h]; simp)
  simp [Lexer.NextTokenAux, hws, h, hp, readChar_ch]

theorem NextTokenAux_send (lib : StdLib) (n : Nat) (l : Lexer) (h : l.ch = '<')
    (hp : l.peekChar = '-') :
    NextTokenAux lib (n + 1) l = (l.readChar.readChar, l.readChar.makeToken SEND ['<', '-']) := by
  have hws : l.skipWhitespace = l := skipWhitespace_of_not_space l (by rw [h]; simp)
  simp [Lexer.NextTokenAux, hws, h, hp, readChar_ch]

theorem NextTokenAux_lte (lib : StdLib) (n : Nat) (l : Lexer) (h : l.ch = '<')
    (hp : l.peekChar = '=') :
    NextTokenAux lib (n + 1) l = (l.readChar.readChar, l.readChar.makeToken LTE ['<', '=']) := by
  have hws : l.skipWhitespace = l := skipWhitespace_of_not_space l (by rw [h]; simp)
  simp [Lexer.NextTokenAux, hws, h, hp, readChar_ch]

theorem NextTokenAux_gte (lib : StdLib) (n : Nat) (l : Lexer) (h : l.ch = '>')
    (hp : l.peekChar = '=') :
    NextTokenAux lib (n + 1) l = (l.readChar.readChar, l.readChar.makeToken GTE ['>', '=']) := by
  have hws : l.skipWhitespace = l := skipWhitespace_of_not_space l (by rw [h]; simp)
  simp [Lexer.NextTokenAux, hws, h, hp, readChar_ch]

end Lexer
theorem Lexes_cons (lib : StdLib) {txt rest : Str} {t : TokenType × Str}
    {ts : List (TokenType × Str)} (h : Lexes lib rest ts)
    (hstep : ∀ l pre, Lexer.Reading l pre txt →
      ∃ pre', (Lexer.NextToken lib l).2.kindLit = t ∧
        Lexer.Reading (Lexer.NextToken lib l).1 pre' rest) :
    Lexes lib txt (t :: ts) := by
  intro l pre hr
  obtain ⟨pre', h1, h2⟩ := hstep l pre hr
  exact ⟨h1, h _ _ h2⟩

theorem Lexes_plus (lib : StdLib) {rest : Str} {ts : List (TokenType × Str)}
    (h : Lexes lib rest ts) : Lexes lib ('+' :: rest) ((PLUS, ['+']) :: ts) := by
  refine Lexes_cons lib h (fun l pre hr => ⟨pre ++ ['+'], ?_, ?_⟩)
  · rw [Lexer.NextToken_unfold, Lexer.NextTokenAux_plus lib _ l hr.ch_eq]; rfl
  · rw [Lexer.NextToken_unfold, Lexer.NextTokenAux_plus lib _ l hr.ch_eq]; exact hr.next

theorem Lexes_asterisk (lib : StdLib) {rest : Str} {ts : List (TokenType × Str)}
    (h : Lexes lib rest ts) : Lexes lib ('*' :: rest) ((ASTERISK, ['*']) :: ts) := by
  refine Lexes_cons lib h (fun l pre hr => ⟨pre ++ ['*'], ?_, ?_⟩)
  · rw [Lexer.NextToken_unfold, Lexer.NextTokenAux_asterisk lib _ l hr.ch_eq]; rfl
  · rw [Lexer.NextToken_unfold, Lexer.NextTokenAux_asterisk lib _ l hr.ch_eq]; exact hr.next

theorem Lexes_comma (lib : StdLib) {rest : Str} {ts : List (TokenType × Str)}
    (h : Lexes lib rest ts) : Lexes lib (',' :: rest) ((COMMA, [',']) :: ts) := by
  refine Lexes_cons lib h (fun l pre hr => ⟨pre ++ [','], ?_, ?_⟩)
  · rw [Lexer.NextToken_unfold, Lexer.NextTokenAux_comma lib _ l hr.ch_eq]; rfl
  · rw [Lexer.NextToken_unfold, Lexer.NextTokenAux_comma lib _ l hr.ch_eq]; exact hr.next

theorem Lexes_semicolon (lib : StdLib) {rest : Str} {ts : List (TokenType × Str)}
    (h : Lexes lib rest ts) : Lexes lib (';' :: rest) ((SEMICOLON, [';']) :: ts) := by
  refine Lexes_cons lib h (fun l pre hr => ⟨pre ++ [';'], ?_, ?_⟩)
  · rw [Lexer.NextToken_unfold, Lexer.NextTokenAux_semicolon lib _ l hr.ch_eq]; rfl
  · rw [Lexer.NextToken_unfold, Lexer.NextTokenAux_semicolon lib _ l hr.ch_eq]; exact hr.next

theorem Lexes_colon (lib : StdLib) {rest : Str} {ts : List (TokenType × Str)}
    (h : Lexes lib rest ts) : Lexes lib (':' :: rest) ((COLON, [':']) :: ts) := by
  refine Lexes_cons lib h (fun l pre hr => ⟨pre ++ [':'], ?_, ?_⟩)
  · rw [Lexer.NextToken_unfold, Lexer.NextTokenAux_colon lib _ l hr.ch_eq]; rfl
  · rw [Lexer.NextToken_unfold, Lexer.NextTokenAux_colon lib _ l hr.ch_eq]; exact hr.next

theorem Lexes_lparen (lib : StdLib) {rest : Str} {ts : List (TokenType × Str)}
    (h : Lexes lib rest ts) : Lexes lib ('(' :: rest) ((LPAREN, ['(']) :: ts) := by
  refine Lexes_cons lib h (fun l pre hr => ⟨pre ++ ['('], ?_, ?_⟩)
  · rw [Lexer.NextToken_unfold, Lexer.NextTokenAux_lparen lib _ l hr.ch_eq]; rfl
  · rw [Lexer.NextToken_unfold, Lexer.NextTokenAux_lparen lib _ l hr.ch_eq]; exact hr.next

theorem Lexes_rparen (lib : StdLib) {rest : Str} {ts : List (TokenType × Str)}
    (h : Lexes lib rest ts) : Lexes lib (')' :: rest) ((RPAREN, [')']) :: ts) := by
  refine Lexes_cons lib h (fun l pre hr => ⟨pre ++ [')'], ?_, ?_⟩)
  · rw [Lexer.NextToken_unfold, Lexer.NextTokenAux_rparen lib _ l hr.ch_eq]; rfl
  · rw [Lexer.NextToken_unfold, Lexer.NextTokenAux_rparen lib _ l hr.ch_eq]; exact hr.next

theorem Lexes_lbrace (lib : StdLib) {rest : Str} {ts : List (TokenType × Str)}
    (h : Lexes lib rest ts) : Lexes lib ('{' :: rest) ((LBRACE, ['{']) :: ts) := by
  refine Lexes_cons lib h (fun l pre hr => ⟨pre ++ ['{'], ?_, ?_⟩)
  · rw [Lexer.NextToken_unfold, Lexer.NextTokenAux_lbrace lib _ l hr.ch_eq]; rfl
  · rw [Lexer.NextToken_unfold, Lexer.NextTokenAux_lbrace lib _ l hr.ch_eq]; exact hr.next

theorem Lexes_rbrace (lib : StdLib) {rest : Str} {ts : List (TokenType × Str)}
    (h : Lexes lib rest ts) : Lexes lib ('}' :: rest) ((RBRACE, ['}']) :: ts) := by
  refine Lexes_cons lib h (fun l pre hr => ⟨pre ++ ['}'], ?_, ?_⟩)
  · rw [Lexer.NextToken_unfold, Lexer.NextTokenAux_rbrace lib _ l hr.ch_eq]; rfl
  · rw [Lexer.NextToken_unfold, Lexer.NextTokenAux_rbrace lib _ l hr.ch_eq]; exact hr.next

theorem Lexes_lbracket (lib : StdLib) {rest : Str} {ts : List (TokenType × Str)}
    (h : Lexes lib rest ts) : Lexes lib ('[' :: rest) ((LBRACKET, ['[']) :: ts) := by
  refine Lexes_cons lib h (fun l pre hr => ⟨pre ++ ['['], ?_, ?_⟩)
  · rw [Lexer.NextToken_unfold, Lexer.NextTokenAux_lbracket lib _ l hr.ch_eq]; rfl
  · rw [Lexer.NextToken_unfold, Lexer.NextTokenAux_lbracket lib _ l hr.ch_eq]; exact hr.next

theorem Lexes_rbracket (lib : StdLib) {rest : Str} {ts : List (TokenType × Str)}
    (h : Lexes lib rest ts) : Lexes lib (']' :: rest) ((RBRACKET, [']']) :: ts) := by
  refine Lexes_cons lib h (fun l pre hr => ⟨pre ++ [']'], ?_, ?_⟩)
  · rw [Lexer.NextToken_unfold, Lexer.NextTokenAux_rbracket lib _ l hr.ch_eq]; rfl
  · rw [Lexer.NextToken_unfold, Lexer.NextTokenAux_rbracket lib _ l hr.ch_eq]; exact hr.next

theorem Lexes_assign (lib : StdLib) {rest : Str} {ts : List (TokenType × Str)}
    (hp0 : rest.headD NUL ≠ '=') (hp1 : rest.headD NUL ≠ '~') (h : Lexes lib rest ts) :
    Lexes lib ('=' :: rest) ((ASSIGN, ['=']) :: ts) := by
  refine Lexes_cons lib h (fun l pre hr => ⟨pre ++ ['='], ?_, ?_⟩)
  · rw [Lexer.NextToken_unfold, Lexer.NextTokenAux_assign lib _ l hr.ch_eq (by rw [hr.peekChar_eq]; exact hp0) (by rw [hr.peekChar_eq]; exact hp1)]; rfl
  · rw [Lexer.NextToken_unfold, Lexer.NextTokenAux_assign lib _ l hr.ch_eq (by rw [hr.peekChar_eq]; exact hp0) (by rw [hr.peekChar_eq]; exact hp1)]
    exact hr.next

theorem Lexes_minus (lib : StdLib) {rest : Str} {ts : List (TokenType × Str)}
    (hp0 : rest.headD NUL ≠ '>') (h : Lexes lib rest ts) :
    Lexes lib ('-' :: rest) ((MINUS, ['-']) :: ts) := by
  refine Lexes_cons lib h (fun l pre hr => ⟨pre ++ ['-'], ?_, ?_⟩)
  · rw [Lexer.NextToken_unfold, Lexer.NextTokenAux_minus lib _ l hr.ch_eq (by rw [hr.peekChar_eq]; exact hp0)]; rfl
  · rw [Lexer.NextToken_unfold, Lexer.NextTokenAux_minus lib _ l hr.ch_eq (by rw [hr.peekChar_eq]; exact hp0)]
    exact hr.next

theorem Lexes_bang (lib : StdLib) {rest : Str} {ts : List (TokenType × Str)}
    (hp0 : rest.headD NUL ≠ '=') (h : Lexes lib rest ts) :
    Lexes lib ('!' :: rest) ((BANG, ['!']) :: ts) := by
  refine Lexes_cons lib h (fun l pre hr => ⟨pre ++ ['!'], ?_, ?_⟩)
  · rw [Lexer.NextToken_unfold, Lexer.NextTokenAux_bang lib _ l hr.ch_eq (by rw [hr.peekChar_eq]; exact hp0)]; rfl
  · rw [Lexer.NextToken_unfold, Lexer.NextTokenAux_bang lib _ l hr.ch_eq (by rw [hr.peekChar_eq]; exact hp0)]
    exact hr.next

theorem Lexes_slash (lib : StdLib) {rest : Str} {ts : List (TokenType × Str)}
    (hp0 : rest.headD NUL ≠ '/') (h : Lexes lib rest ts) :
    Lexes lib ('/' :: rest) ((SLASH, ['/']) :: ts) := by
  refine Lexes_cons lib h (fun l pre hr => ⟨pre ++ ['/'], ?_, ?_⟩)
  · rw [Lexer.NextToken_unfold, Lexer.NextTokenAux_slash lib _ l hr.ch_eq (by rw [hr.peekChar_eq]; exact hp0)]; rfl
  · rw [Lexer.NextToken_unfold, Lexer.NextTokenAux_slash lib _ l hr.ch_eq (by rw [hr.peekChar_eq]; exact hp0)]
    exact hr.next

theorem Lexes_lt (lib : StdLib) {rest : Str} {ts : List (TokenType × Str)}
    (hp0 : rest.headD NUL ≠ '-') (hp1 : rest.headD NUL ≠ '=') (h : Lexes lib rest ts) :
    Lexes lib ('<' :: rest) ((TokenType.LT, ['<']) :: ts) := by
  refine Lexes_cons lib h (fun l pre hr => ⟨pre ++ ['<'], ?_, ?_⟩)
  · rw [Lexer.NextToken_unfold, Lexer.NextTokenAux_lt lib _ l hr.ch_eq (by rw [hr.peekChar_eq]; exact hp0) (by rw [hr.peekChar_eq]; exact hp1)]; rfl
  · rw [Lexer.NextToken_unfold, Lexer.NextTokenAux_lt lib _ l hr.ch_eq (by rw [hr.peekChar_eq]; exact hp0) (by rw [hr.peekChar_eq]; exact hp1)]
    exact hr.next

theorem Lexes_gt (lib : StdLib) {rest : Str} {ts : List (TokenType × Str)}
    (hp0 : rest.headD NUL ≠ '=') (h : Lexes lib rest ts) :
    Lexes lib ('>' :: rest) ((TokenType.GT, ['>']) :: ts) := by
  refine Lexes_cons lib h (fun l pre hr => ⟨pre ++ ['>'], ?_, ?_⟩)
  · rw [Lexer.NextToken_unfold, Lexer.NextTokenAux_gt lib _ l hr.ch_eq (by rw [hr.peekChar_eq]; exact hp0)]; rfl
  · rw [Lexer.NextToken_unfold, Lexer.NextTokenAux_gt lib _ l hr.ch_eq (by rw [hr.peekChar_eq]; exact hp0)]
    exact hr.next

theorem Lexes_eq (lib : StdLib) {rest : Str} {ts : List (TokenType × Str)}
    (h : Lexes lib rest ts) : Lexes lib ('=' :: '=' :: rest) ((TokenType.EQ, ['=', '=']) :: ts) := by
  refine Lexes_cons lib h (fun l pre hr => ⟨pre ++ ['='] ++ ['='], ?_, ?_⟩)
  · rw [Lexer.NextToken_unfold,
      Lexer.NextTokenAux_eq lib _ l hr.ch_eq (by rw [hr.peekChar_eq]; rfl)]
    rfl
  · rw [Lexer.NextToken_unfold,
      Lexer.NextTokenAux_eq lib _ l hr.ch_eq (by rw [hr.peekChar_eq]; rfl)]
    exact hr.next.next

theorem Lexes_match_op (lib : StdLib) {rest : Str} {ts : List (TokenType × Str)}
    (h : Lexes lib rest ts) : Lexes lib ('=' :: '~' :: rest) ((MATCH_OP, ['=', '~']) :: ts) := by
  refine Lexes_cons lib h (fun l pre hr => ⟨pre ++ ['='] ++ ['~'], ?_, ?_⟩)
  · rw [Lexer.NextToken_unfold,
      Lexer.NextTokenAux_match_op lib _ l hr.ch_eq (by rw [hr.peekChar_eq]; rfl)]
    rfl
  · rw [Lexer.NextToken_unfold,
      Lexer.NextTokenAux_match_op lib _ l hr.ch_eq (by rw [hr.peekChar_eq]; rfl)]
    exact hr.next.next

theorem Lexes_arrow (lib : StdLib) {rest : Str} {ts : List (TokenType × Str)}
    (h : Lexes lib rest ts) : Lexes lib ('-' :: '>' :: rest) ((ARROW, ['-', '>']) :: ts) := by
  refine Lexes_cons lib h (fun l pre hr => ⟨pre ++ ['-'] ++ ['>'], ?_, ?_⟩)
  · rw [Lexer.NextToken_unfold,
      Lexer.NextTokenAux_arrow lib _ l hr.ch_eq (by rw [hr.peekChar_eq]; rfl)]
    rfl
  · rw [Lexer.NextToken_unfold,
      Lexer.NextTokenAux_arrow lib _ l hr.ch_eq (by rw [hr.peekChar_eq]; rfl)]
    exact hr.next.next

theorem Lexes_not_eq (lib : StdLib) {rest : Str} {ts : List (TokenType × Str)}
    (h : Lexes lib rest ts) : Lexes lib ('!' :: '=' :: rest) ((NOT_EQ, ['!', '=']) :: ts) := by
  refine Lexes_cons lib h (fun l pre hr => ⟨pre ++ ['!'] ++ ['='], ?_, ?_⟩)
  · rw [Lexer.NextToken_unfold,
      Lexer.NextTokenAux_not_eq lib _ l hr.ch_eq (by rw [hr.peekChar_eq]; rfl)]
    rfl
  · rw [Lexer.NextToken_unfold,
      Lexer.NextTokenAux_not_eq lib _ l hr.ch_eq (by rw [hr.peekChar_eq]; rfl)]
    exact hr.next.next

theorem Lexes_send (lib : StdLib) {rest : Str} {ts : List (TokenType × Str)}
    (h : Lexes lib rest ts) : Lexes lib ('<' :: '-' :: rest) ((SEND, ['<', '-']) :: ts) := by
  refine Lexes_cons lib h (fun l pre hr => ⟨pre ++ ['<'] ++ ['-'], ?_, ?_⟩)
  · rw [Lexer.NextToken_unfold,
      Lexer.NextTokenAux_send lib _ l hr.ch_eq (by rw [hr.peekChar_eq]; rfl)]
    rfl
  · rw [Lexer.NextToken_unfold,
      Lexer.NextTokenAux_send lib _ l hr.ch_eq (by rw [hr.peekChar_eq]; rfl)]
    exact hr.next.next

theorem Lexes_lte (lib : StdLib) {rest : Str} {ts : List (TokenType × Str)}
    (h : Lexes lib rest ts) : Lexes lib ('<' :: '=' :: rest) ((LTE, ['<', '=']) :: ts) := by
  refine Lexes_cons lib h (fun l pre hr => ⟨pre ++ ['<'] ++ ['='], ?_, ?_⟩)
  · rw [Lexer.NextToken_unfold,
      Lexer.NextTokenAux_lte lib _ l hr.ch_eq (by rw [hr.peekChar_eq]; rfl)]
    rfl
  · rw [Lexer.NextToken_unfold,
      Lexer.NextTokenAux_lte lib _ l hr.ch_eq (by rw [hr.peekChar_eq]; rfl)]
    exact hr.next.next

theorem Lexes_gte (lib : StdLib) {rest : Str} {ts : List (TokenType × Str)}
    (h : Lexes lib rest ts) : Lexes lib ('>' :: '=' :: rest) ((GTE, ['>', '=']) :: ts) := by
  refine Lexes_cons lib h (fun l pre hr => ⟨pre ++ ['>'] ++ ['='], ?_, ?_⟩)
  · rw [Lexer.NextToken_unfold,
      Lexer.NextTokenAux_gte lib _ l hr.ch_eq (by rw [hr.peekChar_eq]; rfl)]
    rfl
  · rw [Lexer.NextToken_unfold,
      Lexer.NextTokenAux_gte lib _ l hr.ch_eq (by rw [hr.peekChar_eq]; rfl)]
    exact hr.next.next
namespace Lexer

theorem identRune_iff (lib : StdLib) (c : Char) :
    identRune lib c = true ↔ (isLetter lib c = true ∨ isDigit lib c = true ∨ c = '_') := by
  simp [identRune, or_assoc]

theorem At.readIdentifierLoop_body (lib : StdLib) (d : Char) (rest : Str)
    (hd : identRune lib d = false) :
    ∀ (n : Nat) (w : Str) (l : Lexer) (pre : Str) (x : Char) (post : Str),
      w.all (identRune lib) = true → x :: post = w ++ d :: rest → At l pre x post →
      w.length < n → At (Lexer.readIdentifierLoop lib n l) (pre ++ w) d rest := by
  intro n
  induction n with
  | zero => intro w l pre x post _ _ _ hn; omega
  | succ n ih =>
    intro w l pre x post hw hsplit hat hn
    cases w with
    | nil =>
      simp only [List.nil_append, List.cons.injEq] at hsplit
      obtain ⟨hx, hp⟩ := hsplit
      subst hx hp
      have hno : ¬(isLetter lib l.ch = true ∨ isDigit lib l.ch = true ∨ l.ch = '_') := by
        rw [hat.ch, ← identRune_iff, hd]
        simp
      rw [Lexer.readIdentifierLoop, if_neg hno, List.append_nil]
      exact hat
    | cons a w1 =>
      simp only [List.cons_append, List.cons.injEq] at hsplit
      obtain ⟨hx, hp⟩ := hsplit
      subst hx
      simp only [List.all_cons, Bool.and_eq_true] at hw
      obtain ⟨e, post2, he⟩ : ∃ e post2, w1 ++ d :: rest = e :: post2 := by
        cases w1 with
        | nil => exact ⟨_, _, rfl⟩
        | cons u v => exact ⟨_, _, rfl⟩
      rw [he] at hp
      subst hp
      have h1 := hat.advance
      have hyes : isLetter lib l.ch = true ∨ isDigit lib l.ch = true ∨ l.ch = '_' := by
        rw [hat.ch, ← identRune_iff]
        exact hw.1
      rw [Lexer.readIdentifierLoop, if_pos hyes]
      have := ih w1 _ _ e post2 hw.2 he.symm h1 (by simp at hn; omega)
      simpa using this

theorem At.readDigitsLoop_body (lib : StdLib) (d : Char) (rest : Str)
    (hd : isDigit lib d = false) :
    ∀ (n : Nat) (w : Str) (l : Lexer) (pre : Str) (x : Char) (post : Str),
      w.all (isDigit lib) = true → x :: post = w ++ d :: rest → At l pre x post →
      w.length < n → At (Lexer.readDigitsLoop lib n l) (pre ++ w) d rest := by
  intro n
  induction n with
  | zero => intro w l pre x post _ _ _ hn; omega
  | succ n ih =>
    intro w l pre x post hw hsplit hat hn
    cases w with
    | nil =>
      simp only [List.nil_append, List.cons.injEq] at hsplit
      obtain ⟨hx, hp⟩ := hsplit
      subst hx hp
      rw [Lexer.readDigitsLoop, if_neg (by rw [hat.ch, hd]; simp), List.append_nil]
      exact hat
    | cons a w1 =>
      simp only [List.cons_append, List.cons.injEq] at hsplit
      obtain ⟨hx, hp⟩ := hsplit
      subst hx
      simp only [List.all_cons, Bool.and_eq_true] at hw
      obtain ⟨e, post2, he⟩ : ∃ e post2, w1 ++ d :: rest = e :: post2 := by
        cases w1 with
        | nil => exact ⟨_, _, rfl⟩
        | cons u v => exact ⟨_, _, rfl⟩
      rw [he] at hp
      subst hp
      have h1 := hat.advance
      rw [Lexer.readDigitsLoop, if_pos (by rw [hat.ch]; exact hw.1)]
      have := ih w1 _ _ e post2 hw.2 he.symm h1 (by simp at hn; omega)
      simpa using this

theorem letter_ne (lib : StdLib) {c x : Char} (hl : isLetter lib c = true)
    (hx : isLetter lib x = false) : c ≠ x := by
  intro h
  rw [h, hx] at hl
  cases hl

theorem not_letter_special (lib : StdLib) :

    isLetter lib '=' = false ∧
    isLetter lib '+' = false ∧
    isLetter lib '-' = false ∧
    isLetter lib '!' = false ∧
    isLetter lib '/' = false ∧
    isLetter lib '*' = false ∧
    isLetter lib '<' = false ∧
    isLetter lib '>' = false ∧
    isLetter lib ',' = false ∧
    isLetter lib ';' = false ∧
    isLetter lib ':' = false ∧
    isLetter lib '(' = false ∧
    isLetter lib ')' = false ∧
    isLetter lib '{' = false ∧
    isLetter lib '}' = false ∧
    isLetter lib '[' = false ∧
    isLetter lib ']' = false ∧
    isLetter lib '"' = false ∧
    isLetter lib ' ' = false ∧
    isLetter lib '\t' = false ∧
    isLetter lib '\n' = false ∧
    isLetter lib '\r' = false ∧
    isLetter lib NUL = false := by
  simp [isLetter, unicodeIsLetter, latin1Letter, NUL]


theorem NextTokenAux_letter (lib : StdLib) (n : Nat) (l : Lexer) (hl : isLetter lib l.ch = true) :
    NextTokenAux lib (n + 1) l =
      ((l.readIdentifier lib).1,
        ⟨LookupIdent (l.readIdentifier lib).2, (l.readIdentifier lib).2, l.line, l.column⟩) := by
  obtain ⟨n0, n1, n2, n3, n4, n5, n6, n7, n8, n9, n10, n11, n12, n13, n14, n15, n16, n17, n18, n19, n20, n21, n22⟩ := not_letter_special lib

  have e0 : l.ch ≠ '=' := letter_ne lib hl n0
  have e1 : l.ch ≠ '+' := letter_ne lib hl n1
  have e2 : l.ch ≠ '-' := letter_ne lib hl n2
  have e3 : l.ch ≠ '!' := letter_ne lib hl n3
  have e4 : l.ch ≠ '/' := letter_ne lib hl n4
  have e5 : l.ch ≠ '*' := letter_ne lib hl n5
  have e6 : l.ch ≠ '<' := letter_ne lib hl n6
  have e7 : l.ch ≠ '>' := letter_ne lib hl n7
  have e8 : l.ch ≠ ',' := letter_ne lib hl n8
  have e9 : l.ch ≠ ';' := letter_ne lib hl n9
  have e10 : l.ch ≠ ':' := letter_ne lib hl n10
  have e11 : l.ch ≠ '(' := letter_ne lib hl n11
  have e12 : l.ch ≠ ')' := letter_ne lib hl n12
  have e13 : l.ch ≠ '{' := letter_ne lib hl n13
  have e14 : l.ch ≠ '}' := letter_ne lib hl n14
  have e15 : l.ch ≠ '[' := letter_ne lib hl n15
  have e16 : l.ch ≠ ']' := letter_ne lib hl n16
  have e17 : l.ch ≠ '"' := letter_ne lib hl n17
  have e18 : l.ch ≠ ' ' := letter_ne lib hl n18
  have e19 : l.ch ≠ '\t' := letter_ne lib hl n19
  have e20 : l.ch ≠ '\n' := letter_ne lib hl n20
  have e21 : l.ch ≠ '\r' := letter_ne lib hl n21
  have e22 : l.ch ≠ NUL := letter_ne lib hl n22
  have hws : l.skipWhitespace = l :=
    skipWhitespace_of_not_space l (by simp [e18, e19, e20, e21])
  simp [Lexer.NextTokenAux, hws, hl, e0, e1, e2, e3, e4, e5, e6, e7, e8, e9, e10, e11, e12, e13, e14, e15, e16, e17, e18, e19, e20, e21, e22]

end Lexer
namespace Lexer

theorem digit_ne {c x : Char} (hd : asciiDigit c = true) (hx : asciiDigit x = false) : c ≠ x := by
  intro h
  rw [h, hx] at hd
  cases hd

theorem isDigit_of_ascii (lib : StdLib) {c : Char} (h : asciiDigit c = true) :
    isDigit lib c = true := by
  simp only [asciiDigit, decide_eq_true_eq] at h
  unfold isDigit unicodeIsDigit
  rw [if_pos (by omega)]
  simp [h.1, h.2]

theorem isLetter_of_ascii (lib : StdLib) {c : Char} (h : asciiDigit c = true) :
    isLetter lib c = false := by
  have hu : c ≠ '_' := digit_ne h (by decide)
  simp only [asciiDigit, decide_eq_true_eq] at h
  unfold isLetter unicodeIsLetter latin1Letter
  rw [if_pos (by omega)]
  simp only [Bool.or_eq_false_iff, Bool.and_eq_false_iff, decide_eq_false_iff_not, beq_eq_false_iff_ne,
    ne_eq]
  exact ⟨by omega, hu⟩

theorem NextTokenAux_digit (lib : StdLib) (n : Nat) (l : Lexer) (hd : asciiDigit l.ch = true) :
    NextTokenAux lib (n + 1) l =
      ((l.readNumber lib).1,
        ⟨(l.readNumber lib).2.1, (l.readNumber lib).2.2, l.line, l.column⟩) := by
  have hl := isLetter_of_ascii lib hd
  have hdig := isDigit_of_ascii lib hd

  have e0 : l.ch ≠ '=' := digit_ne hd (by decide)
  have e1 : l.ch ≠ '+' := digit_ne hd (by decide)
  have e2 : l.ch ≠ '-' := digit_ne hd (by decide)
  have e3 : l.ch ≠ '!' := digit_ne hd (by decide)
  have e4 : l.ch ≠ '/' := digit_ne hd (by decide)
  have e5 : l.ch ≠ '*' := digit_ne hd (by decide)
  have e6 : l.ch ≠ '<' := digit_ne hd (by decide)
  have e7 : l.ch ≠ '>' := digit_ne hd (by decide)
  have e8 : l.ch ≠ ',' := digit_ne hd (by decide)
  have e9 : l.ch ≠ ';' := digit_ne hd (by decide)
  have e10 : l.ch ≠ ':' := digit_ne hd (by decide)
  have e11 : l.ch ≠ '(' := digit_ne hd (by decide)
  have e12 : l.ch ≠ ')' := digit_ne hd (by decide)
  have e13 : l.ch ≠ '{' := digit_ne hd (by decide)
  have e14 : l.ch ≠ '}' := digit_ne hd (by decide)
  have e15 : l.ch ≠ '[' := digit_ne hd (by decide)
  have e16 : l.ch ≠ ']' := digit_ne hd (by decide)
  have e17 : l.ch ≠ '"' := digit_ne hd (by decide)
  have e18 : l.ch ≠ ' ' := digit_ne hd (by decide)
  have e19 : l.ch ≠ '\t' := digit_ne hd (by decide)
  have e20 : l.ch ≠ '\n' := digit_ne hd (by decide)
  have e21 : l.ch ≠ '\r' := digit_ne hd (by decide)
  have e22 : l.ch ≠ NUL := digit_ne hd (by decide)
  have hws : l.skipWhitespace = l :=
    skipWhitespace_of_not_space l (by simp [e18, e19, e20, e21])
  simp [Lexer.NextTokenAux, hws, hl, hdig, e0, e1, e2, e3, e4, e5, e6, e7, e8, e9, e10, e11, e12, e13, e14, e15, e16, e17, e18, e19, e20, e21, e22]

theorem At.readIdentifier_eq (lib : StdLib) {l : Lexer} {pre : Str} {c : Char} {r : Str}
    {d : Char} {rest : Str} (h : At l pre c (r ++ d :: rest))
    (hw : (c :: r).all (identRune lib) = true) (hd : identRune lib d = false) :
    At (l.readIdentifier lib).1 (pre ++ c :: r) d rest ∧ (l.readIdentifier lib).2 = c :: r := by
  have hlen : (c :: r).length < l.fuel := by
    rw [h.fuel_eq]
    simp only [List.length_cons, List.length_append]
    omega
  have h2 := At.readIdentifierLoop_body lib d rest hd l.fuel (c :: r) l pre c (r ++ d :: rest) hw
    rfl h hlen
  refine ⟨h2, ?_⟩
  unfold Lexer.readIdentifier
  simp only []
  rw [h2.input, h.position, h2.position, List.length_append, slice_mid]

theorem At.readNumber_eq (lib : StdLib) {l : Lexer} {pre : Str} {c : Char} {r : Str}
    {d : Char} {rest : Str} (h : At l pre c (r ++ d :: rest))
    (hw : (c :: r).all asciiDigit = true) (hd : isDigit lib d = false) (hdot : d ≠ '.') :
    At (l.readNumber lib).1 (pre ++ c :: r) d rest ∧ (l.readNumber lib).2 = (INT, c :: r) := by
  have hlen : (c :: r).length < l.fuel := by
    rw [h.fuel_eq]
    simp only [List.length_cons, List.length_append]
    omega
  have hw2 : (c :: r).all (isDigit lib) = true := by
    rw [List.all_eq_true] at hw ⊢
    exact fun x hx => isDigit_of_ascii lib (hw x hx)
  have h2 := At.readDigitsLoop_body lib d rest hd l.fuel (c :: r) l pre c (r ++ d :: rest) hw2
    rfl h hlen
  have hno : ¬((Lexer.readDigitsLoop lib l.fuel l).ch = '.' ∧
      isDigit lib (Lexer.readDigitsLoop lib l.fuel l).peekChar = true) := by
    rw [h2.ch]
    exact fun hh => hdot hh.1
  unfold Lexer.readNumber
  simp only []
  rw [if_neg hno]
  refine ⟨h2, ?_⟩
  simp only []
  rw [h2.input, h.position, h2.position, List.length_append, slice_mid]

end Lexer

theorem Lexes_ident (lib : StdLib) {w : Str} {d : Char} {rest : Str}
    {ts : List (TokenType × Str)} (hw : identifier lib w = true)
    (hd : identRune lib d = false) (h : Lexes lib (d :: rest) ts) :
    Lexes lib (w ++ d :: rest) ((LookupIdent w, w) :: ts) := by
  cases w with
  | nil => simp [identifier] at hw
  | cons c r =>
    simp only [identifier, Bool.and_eq_true] at hw
    have hall : (c :: r).all (identRune lib) = true := by
      simp only [List.all_cons, Bool.and_eq_true]
      exact ⟨by simp [identRune, hw.1], hw.2⟩
    refine Lexes_cons lib h (fun l pre hr => ⟨pre ++ c :: r, ?_, ?_⟩)
    · have hat : Lexer.At l pre c (r ++ d :: rest) := hr
      obtain ⟨h1, h2⟩ := hat.readIdentifier_eq lib hall hd
      rw [Lexer.NextToken_unfold, Lexer.NextTokenAux_letter lib _ l (by rw [hat.ch]; exact hw.1)]
      simp only [Token.kindLit, h2]
    · have hat : Lexer.At l pre c (r ++ d :: rest) := hr
      obtain ⟨h1, h2⟩ := hat.readIdentifier_eq lib hall hd
      rw [Lexer.NextToken_unfold, Lexer.NextTokenAux_letter lib _ l (by rw [hat.ch]; exact hw.1)]
      exact h1

theorem Lexes_int (lib : StdLib) {w : Str} {d : Char} {rest : Str}
    {ts : List (TokenType × Str)} (hw : decimal w = true)
    (hd : isDigit lib d = false) (hdot : d ≠ '.') (h : Lexes lib (d :: rest) ts) :
    Lexes lib (w ++ d :: rest) ((INT, w) :: ts) := by
  cases w with
  | nil => simp [decimal] at hw
  | cons c r =>
    have hall : (c :: r).all asciiDigit = true := hw
    have hc : asciiDigit c = true := by
      simp only [List.all_cons, Bool.and_eq_true] at hall
      exact hall.1
    refine Lexes_cons lib h (fun l pre hr => ⟨pre ++ c :: r, ?_, ?_⟩)
    · have hat : Lexer.At l pre c (r ++ d :: rest) := hr
      obtain ⟨h1, h2⟩ := hat.readNumber_eq lib hall hd hdot
      rw [Lexer.NextToken_unfold, Lexer.NextTokenAux_digit lib _ l (by rw [hat.ch]; exact hc)]
      simp only [Token.kindLit, h2]
    · have hat : Lexer.At l pre c (r ++ d :: rest) := hr
      obtain ⟨h1, h2⟩ := hat.readNumber_eq lib hall hd hdot
      rw [Lexer.NextToken_unfold, Lexer.NextTokenAux_digit lib _ l (by rw [hat.ch]; exact hc)]
      exact h1
theorem Lexes_string (lib : StdLib) {t rest : Str} {ts : List (TokenType × Str)}
    (ht : stringBody t = true) (h : Lexes lib rest ts) :
    Lexes lib ('"' :: (t ++ '"' :: rest)) ((STRING, t) :: ts) := by
  refine Lexes_cons lib h (fun l pre hr => ⟨(pre ++ '"' :: t) ++ ['"'], ?_, ?_⟩)
  · have hat : Lexer.At l pre '"' (t ++ '"' :: rest) := hr
    obtain ⟨l2, hl2, hrs⟩ := hat.readString_body t rest ht
    rw [Lexer.NextToken_unfold, Lexer.NextTokenAux_string lib _ l hat.ch, hrs]
    rfl
  · have hat : Lexer.At l pre '"' (t ++ '"' :: rest) := hr
    obtain ⟨l2, hl2, hrs⟩ := hat.readString_body t rest ht
    rw [Lexer.NextToken_unfold, Lexer.NextTokenAux_string lib _ l hat.ch, hrs]
    exact Lexer.Reading.next (show Lexer.Reading l2 _ ('"' :: rest) from hl2)

theorem stops_cases {d : Char} (h : stops d = true) :
    d = ' ' ∨ d = '\t' ∨ d = '\n' ∨ d = '\r' ∨ d = ',' ∨ d = ';' ∨ d = ':' ∨ d = '(' ∨
      d = ')' ∨ d = '{' ∨ d = '}' ∨ d = '[' ∨ d = ']' := by
  simpa [stops, blank, or_assoc] using h

/-- After a rune of `stops` no identifier, number or operator goes on. -/
theorem stops_ends (lib : StdLib) {d : Char} (h : stops d = true) :
    identRune lib d = false ∧ isDigit lib d = false ∧ d ≠ '.' ∧ d ≠ '=' ∧ d ≠ '~' ∧
      d ≠ '>' ∧ d ≠ '-' ∧ d ≠ '/' := by
  rcases stops_cases h with h | h | h | h | h | h | h | h | h | h | h | h | h <;> subst h <;>
    simp [identRune, isLetter, isDigit, unicodeIsLetter, unicodeIsDigit, latin1Letter]

/-- An infix operator that is followed by a rune of `stops` is scanned as its token. -/
theorem Lexes_infixOp (lib : StdLib) {op : TokenType × Str} (hop : op ∈ infixOps) {d : Char}
    (hd : stops d = true) {rest : Str} {ts : List (TokenType × Str)}
    (h : Lexes lib (d :: rest) ts) : Lexes lib (op.2 ++ d :: rest) (op :: ts) := by
  obtain ⟨_, _, _, h1, h2, h3, h4, h5⟩ := stops_ends lib hd
  simp only [infixOps, List.mem_cons, List.mem_singleton, List.not_mem_nil, or_false] at hop
  rcases hop with e | e | e | e | e | e | e | e | e | e | e <;> subst e
  · exact Lexes_plus lib h
  · exact Lexes_minus lib h3 h
  · exact Lexes_asterisk lib h
  · exact Lexes_slash lib h5 h
  · exact Lexes_eq lib h
  · exact Lexes_not_eq lib h
  · exact Lexes_lt lib h4 h1 h
  · exact Lexes_gt lib h1 h
  · exact Lexes_lte lib h
  · exact Lexes_gte lib h
  · exact Lexes_match_op lib h
/-! ## The parser on a token sequence -/

namespace Parser

theorem Ahead.step {lib : StdLib} {p : Parser} {t : TokenType × Str}
    {ts : List (TokenType × Str)} (h : Ahead lib p (t :: ts)) : Ahead lib (p.nextToken lib) ts := by
  obtain ⟨_, h2, h3⟩ := h
  simp only [List.tail_cons] at h2 h3
  unfold Parser.nextToken
  cases ts with
  | nil =>
    obtain ⟨e1, e2⟩ := Lexer.Tokens.after_end lib h3
    exact ⟨h2, e1, e2⟩
  | cons u ts =>
    cases ts with
    | nil =>
      obtain ⟨e1, e2⟩ := Lexer.Tokens.after_end lib h3
      exact ⟨h2, e1, e2⟩
    | cons v ts => exact ⟨h2, h3.1, h3.2⟩

theorem Ahead.steps {lib : StdLib} :
    ∀ (xs : List (TokenType × Str)) {p : Parser} {ys : List (TokenType × Str)},
      Ahead lib p (xs ++ ys) → Ahead lib (advance lib xs.length p) ys := by
  intro xs
  induction xs with
  | nil => intro p ys h; exact h
  | cons x xs ih => intro p ys h; exact ih h.step

theorem Ahead.cur {lib : StdLib} {p : Parser} {t : TokenType × Str}
    {ts : List (TokenType × Str)} (h : Ahead lib p (t :: ts)) :
    p.curToken.Typ = t.1 ∧ p.curToken.Literal = t.2 := by
  have := h.1
  simp only [List.headD_cons, Token.kindLit] at this
  exact ⟨congrArg Prod.fst this, congrArg Prod.snd this⟩

theorem Ahead.peek {lib : StdLib} {p : Parser} {t : TokenType × Str}
    {ts : List (TokenType × Str)} (h : Ahead lib p (t :: ts)) :
    p.peekToken.Typ = (ts.headD eofTok).1 := by
  have := h.2.1
  simp only [List.tail_cons, Token.kindLit] at this
  exact congrArg Prod.fst this

theorem nextToken_cur (lib : StdLib) (p : Parser) :
    (p.nextToken lib).curToken = p.peekToken := rfl

theorem nextToken_peek (lib : StdLib) (p : Parser) :
    (p.nextToken lib).peekToken = (p.l.NextToken lib).2 := rfl

theorem nextToken_l (lib : StdLib) (p : Parser) :
    (p.nextToken lib).l = (p.l.NextToken lib).1 := rfl

theorem Ahead.of_tokens {lib : StdLib} {p : Parser} {ts : List (TokenType × Str)}
    (h : Lexer.Tokens lib p.l ts) : Ahead lib ((p.nextToken lib).nextToken lib) ts := by
  unfold Parser.Ahead
  rw [nextToken_cur, nextToken_peek, nextToken_peek, nextToken_l, nextToken_l]
  cases ts with
  | nil =>
    obtain ⟨e1, e2⟩ := Lexer.Tokens.after_end lib h
    obtain ⟨e3, e4⟩ := Lexer.Tokens.after_end lib e2
    simp only [List.tail_nil, List.headD_nil]
    exact ⟨e1, e3, e4⟩
  | cons t ts =>
    unfold Lexer.Tokens at h
    cases ts with
    | nil =>
      obtain ⟨e3, e4⟩ := Lexer.Tokens.after_end lib h.2
      simp only [List.tail_nil, List.tail_cons, List.headD_nil, List.headD_cons]
      exact ⟨h.1, e3, e4⟩
    | cons u ts =>
      obtain ⟨h1, h2⟩ := h
      unfold Lexer.Tokens at h2
      simp only [List.tail_cons, List.headD_cons]
      exact ⟨h1, h2.1, h2.2⟩

theorem Ahead.of_source {lib : StdLib} {src : Str} {ts : List (TokenType × Str)}
    (h : Lexes lib src ts) : Ahead lib (Parser.New lib (Lexer.New src)) ts :=
  @Ahead.of_tokens lib { l := Lexer.New src, errors := [] } ts
    (h _ _ (Lexer.Reading.of_New src))

theorem advance_errors (lib : StdLib) : ∀ (k : Nat) (p : Parser), (advance lib k p).errors = p.errors := by
  intro k
  induction k with
  | zero => intro p; rfl
  | succ k ih => intro p; rw [Parser.advance, ih]; rfl

theorem advance_add (lib : StdLib) : ∀ (j k : Nat) (p : Parser),
    advance lib (j + k) p = advance lib k (advance lib j p) := by
  intro j
  induction j with
  | zero => intro k p; rw [Nat.zero_add]; rfl
  | succ j ih =>
    intro k p
    rw [Nat.add_right_comm, Parser.advance, ih, Parser.advance]

theorem advance_one (lib : StdLib) (p : Parser) : advance lib 1 p = p.nextToken lib := rfl

end Parser

theorem Returns.of_succ {α : Type} {f : Nat → Option α} {r : α} (n : Nat)
    (h : ∀ k, n ≤ k → f (k + 1) = some r) : Returns f r :=
  ⟨n + 1, fun m hm => by
    obtain ⟨k, rfl⟩ : ∃ k, m = k + 1 := ⟨m - 1, by omega⟩
    exact h k (by omega)⟩

theorem Returns.pure {α : Type} {f : Nat → Option α} {r : α}
    (h : ∀ k, f (k + 1) = some r) : Returns f r :=
  Returns.of_succ 0 (fun k _ => h k)
/-! ## What the parser functions return -/

namespace Parser

theorem expectPeek_of (lib : StdLib) {p : Parser} {t : TokenType} (h : p.peekToken.Typ = t) :
    p.expectPeek lib t = (p.nextToken lib, true) := by
  unfold Parser.expectPeek Parser.peekTokenIs
  rw [if_pos (by simp [h])]

theorem peekTokenIs_of (p : Parser) {t : TokenType} (h : p.peekToken.Typ = t) :
    p.peekTokenIs t = true := by
  simp [Parser.peekTokenIs, h]

theorem peekTokenIs_not (p : Parser) {t : TokenType} (h : p.peekToken.Typ ≠ t) :
    p.peekTokenIs t = false := by
  simp [Parser.peekTokenIs, h]

theorem curTokenIs_of (p : Parser) {t : TokenType} (h : p.curToken.Typ = t) :
    p.curTokenIs t = true := by
  simp [Parser.curTokenIs, h]

theorem curTokenIs_not (p : Parser) {t : TokenType} (h : p.curToken.Typ ≠ t) :
    p.curTokenIs t = false := by
  simp [Parser.curTokenIs, h]

theorem parseExpressionLoop_stop (lib : StdLib) (prec : Nat) (p : Parser) (left : Expression)
    (h : p.peekToken.Typ = SEMICOLON ∨ ¬ prec < p.peekPrecedence) :
    Returns (fun m => parseExpressionLoop lib m prec p left) (p, left) := by
  refine Returns.pure (fun k => ?_)
  show parseExpressionLoop lib (k + 1) prec p left = _
  rw [Parser.parseExpressionLoop, if_neg]
  rintro ⟨h1, h2⟩
  rcases h with h | h
  · rw [peekTokenIs_of p h] at h1; cases h1
  · exact h h2

theorem parseExpressionLoop_step (lib : StdLib) {prec : Nat} {p p1 : Parser}
    {left e : Expression} {r : Parser × Expression}
    (h1 : p.peekToken.Typ ≠ SEMICOLON) (h2 : prec < p.peekPrecedence)
    (h3 : infixParseFns p.peekToken.Typ = true)
    (hi : Returns (fun m => parseInfixExpression lib m (p.nextToken lib) left) (p1, e))
    (hl : Returns (fun m => parseExpressionLoop lib m prec p1 e) r) :
    Returns (fun m => parseExpressionLoop lib m prec p left) r := by
  obtain ⟨n1, e1⟩ := hi
  obtain ⟨n2, e2⟩ := hl
  refine Returns.of_succ (n1 + n2) (fun k hk => ?_)
  have a1 : parseInfixExpression lib k (p.nextToken lib) left = some (p1, e) := e1 k (by omega)
  have a2 : parseExpressionLoop lib k prec p1 e = some r := e2 k (by omega)
  show parseExpressionLoop lib (k + 1) prec p left = _
  rw [Parser.parseExpressionLoop, if_pos ⟨peekTokenIs_not p h1, h2⟩, if_neg (by rw [h3]; simp), a1]
  exact a2

theorem parseInfixExpression_returns (lib : StdLib) {p p1 : Parser} {left right : Expression}
    (h : Returns (fun m => parseExpression lib m p.curPrecedence (p.nextToken lib)) (p1, right)) :
    Returns (fun m => parseInfixExpression lib m p left)
      (p1, .InfixExpression p.curToken left p.curToken.Literal right) := by
  obtain ⟨n1, e1⟩ := h
  refine Returns.of_succ n1 (fun k hk => ?_)
  have a1 : parseExpression lib k p.curPrecedence (p.nextToken lib) = some (p1, right) :=
    e1 k hk
  show parseInfixExpression lib (k + 1) p left = _
  rw [Parser.parseInfixExpression, a1]

theorem parseExpression_identifier (lib : StdLib) {prec : Nat} {p : Parser}
    {r : Parser × Expression} (h : p.curToken.Typ = IDENT)
    (hl : Returns (fun m => parseExpressionLoop lib m prec p
      (.Identifier p.curToken p.curToken.Literal)) r) :
    Returns (fun m => parseExpression lib m prec p) r := by
  obtain ⟨n1, e1⟩ := hl
  refine Returns.of_succ n1 (fun k hk => ?_)
  have a1 : parseExpressionLoop lib k prec p (.Identifier p.curToken p.curToken.Literal) =
    some r := e1 k hk
  show parseExpression lib (k + 1) prec p = _
  rw [Parser.parseExpression, h]
  exact a1

theorem parseExpression_integer (lib : StdLib) {prec : Nat} {p : Parser} {v : Int}
    {r : Parser × Expression} (h : p.curToken.Typ = INT)
    (hv : ParseInt p.curToken.Literal = .ok v)
    (hl : Returns (fun m => parseExpressionLoop lib m prec p (.IntegerLiteral p.curToken v)) r) :
    Returns (fun m => parseExpression lib m prec p) r := by
  obtain ⟨n1, e1⟩ := hl
  refine Returns.of_succ n1 (fun k hk => ?_)
  have a1 : parseExpressionLoop lib k prec p (.IntegerLiteral p.curToken v) = some r := e1 k hk
  have a2 : p.parseIntegerLiteral = (p, .IntegerLiteral p.curToken v) := by
    unfold Parser.parseIntegerLiteral
    rw [hv]
  show parseExpression lib (k + 1) prec p = _
  rw [Parser.parseExpression, h]
  simp only [prefixParseFns, a2]
  exact a1

theorem parseExpression_string (lib : StdLib) {prec : Nat} {p : Parser}
    {r : Parser × Expression} (h : p.curToken.Typ = STRING)
    (hl : Returns (fun m => parseExpressionLoop lib m prec p
      (.StringLiteral p.curToken p.curToken.Literal)) r) :
    Returns (fun m => parseExpression lib m prec p) r := by
  obtain ⟨n1, e1⟩ := hl
  refine Returns.of_succ n1 (fun k hk => ?_)
  have a1 : parseExpressionLoop lib k prec p (.StringLiteral p.curToken p.curToken.Literal) =
    some r := e1 k hk
  show parseExpression lib (k + 1) prec p = _
  rw [Parser.parseExpression, h]
  exact a1

theorem parseExpression_boolean (lib : StdLib) {prec : Nat} {p : Parser}
    {r : Parser × Expression} (h : p.curToken.Typ = TRUE ∨ p.curToken.Typ = FALSE)
    (hl : Returns (fun m => parseExpressionLoop lib m prec p
      (.Boolean p.curToken (p.curTokenIs TRUE))) r) :
    Returns (fun m => parseExpression lib m prec p) r := by
  obtain ⟨n1, e1⟩ := hl
  refine Returns.of_succ n1 (fun k hk => ?_)
  have a1 : parseExpressionLoop lib k prec p (.Boolean p.curToken (p.curTokenIs TRUE)) =
    some r := e1 k hk
  show parseExpression lib (k + 1) prec p = _
  rcases h with h | h
  · rw [Parser.parseExpression, h]
    exact a1
  · rw [Parser.parseExpression, h]
    exact a1

end Parser
namespace Parser

theorem strip_of_kindLit {t : Token} {k : TokenType × Str} (h : t.kindLit = k) :
    t.strip = tokenOf k := by
  subst h
  rfl

theorem peekPrecedence_eq (p : Parser) : p.peekPrecedence = precedenceOf p.peekToken.Typ := rfl

theorem curPrecedence_eq (p : Parser) : p.curPrecedence = precedenceOf p.curToken.Typ := rfl

theorem cur_kindLit {p : Parser} {t : TokenType × Str} (h : p.curToken.kindLit = t) :
    p.curToken.Typ = t.1 ∧ p.curToken.Literal = t.2 :=
  ⟨congrArg Prod.fst h, congrArg Prod.snd h⟩

end Parser

theorem IsAtom_identifier (lib : StdLib) (a : Str) : IsAtom lib (IDENT, a) (identNode a) := by
  refine ⟨rfl, fun p hp => ⟨.Identifier p.curToken p.curToken.Literal, ?_, fun prec r hl => ?_⟩⟩
  · rw [Expression.strip, Parser.strip_of_kindLit hp, (Parser.cur_kindLit hp).2]
    rfl
  · exact Parser.parseExpression_identifier lib (Parser.cur_kindLit hp).1 hl

theorem IsAtom_integer (lib : StdLib) (w : Str) (v : Int) (hv : ParseInt w = .ok v) :
    IsAtom lib (INT, w) (.IntegerLiteral (tokenOf (INT, w)) v) := by
  refine ⟨rfl, fun p hp => ⟨.IntegerLiteral p.curToken v, ?_, fun prec r hl => ?_⟩⟩
  · rw [Expression.strip, Parser.strip_of_kindLit hp]
  · exact Parser.parseExpression_integer lib (Parser.cur_kindLit hp).1
      (by rw [(Parser.cur_kindLit hp).2]; exact hv) hl

theorem IsAtom_string (lib : StdLib) (s : Str) :
    IsAtom lib (STRING, s) (.StringLiteral (tokenOf (STRING, s)) s) := by
  refine ⟨rfl, fun p hp => ⟨.StringLiteral p.curToken p.curToken.Literal, ?_, fun prec r hl => ?_⟩⟩
  · rw [Expression.strip, Parser.strip_of_kindLit hp, (Parser.cur_kindLit hp).2]
  · exact Parser.parseExpression_string lib (Parser.cur_kindLit hp).1 hl

theorem IsAtom_true (lib : StdLib) (s : Str) :
    IsAtom lib (TRUE, s) (.Boolean (tokenOf (TRUE, s)) true) := by
  refine ⟨rfl, fun p hp => ⟨.Boolean p.curToken (p.curTokenIs TRUE), ?_, fun prec r hl => ?_⟩⟩
  · rw [Expression.strip, Parser.strip_of_kindLit hp,
      Parser.curTokenIs_of p (Parser.cur_kindLit hp).1]
  · exact Parser.parseExpression_boolean lib (Or.inl (Parser.cur_kindLit hp).1) hl

theorem IsAtom_false (lib : StdLib) (s : Str) :
    IsAtom lib (FALSE, s) (.Boolean (tokenOf (FALSE, s)) false) := by
  refine ⟨rfl, fun p hp => ⟨.Boolean p.curToken (p.curTokenIs TRUE), ?_, fun prec r hl => ?_⟩⟩
  · rw [Expression.strip, Parser.strip_of_kindLit hp,
      Parser.curTokenIs_not p (by rw [(Parser.cur_kindLit hp).1]; simp)]
  · exact Parser.parseExpression_boolean lib (Or.inr (Parser.cur_kindLit hp).1) hl

/-- An operand that is followed by a token of no higher precedence is the whole
expression. -/
theorem IsAtom.alone {lib : StdLib} {t : TokenType × Str} {E : Expression}
    (h : IsAtom lib t E) {p : Parser} {rest : List (TokenType × Str)}
    (hp : Parser.Ahead lib p (t :: rest)) (prec : Nat)
    (hstop : (rest.headD eofTok).1 = SEMICOLON ∨ ¬ prec < precedenceOf (rest.headD eofTok).1) :
    ∃ e, e.strip = E ∧ Returns (fun m => Parser.parseExpression lib m prec p) (p, e) := by
  obtain ⟨e, he, hrun⟩ := h.2 p hp.1
  refine ⟨e, he, hrun prec _ (Parser.parseExpressionLoop_stop lib prec p e ?_)⟩
  rw [Parser.peekPrecedence_eq, hp.peek]
  exact hstop

theorem infixOps_facts {op : TokenType × Str} (h : op ∈ infixOps) :
    op.1 ≠ SEMICOLON ∧ infixParseFns op.1 = true ∧ LOWEST < precedenceOf op.1 ∧
      precedences op.1 ≠ none := by
  simp only [infixOps, List.mem_cons, List.mem_singleton, List.not_mem_nil, or_false] at h
  rcases h with e | e | e | e | e | e | e | e | e | e | e <;> subst e <;> decide

theorem precedenceOf_none {k : TokenType} (h : precedences k = none) : precedenceOf k = LOWEST := by
  unfold precedenceOf
  rw [h]
section Precedence

variable {lib : StdLib}

/-- The call of `parseInfixExpression` on an operator token. -/
theorem infix_run (left : Expression) {p p1 : Parser} {op : TokenType × Str}
    {rest : List (TokenType × Str)} (hp : Parser.Ahead lib p (op :: rest)) {right : Expression}
    (h : Returns (fun m => Parser.parseExpression lib m (precedenceOf op.1) (p.nextToken lib))
      (p1, right)) :
    ∃ e, Returns (fun m => Parser.parseInfixExpression lib m p left) (p1, e) ∧
      e.strip = infixNode op left.strip right.strip := by
  refine ⟨.InfixExpression p.curToken left p.curToken.Literal right, ?_, ?_⟩
  · refine Parser.parseInfixExpression_returns lib ?_
    rw [Parser.curPrecedence_eq, hp.cur.1]
    exact h
  · rw [Expression.strip, Parser.strip_of_kindLit hp.1, hp.cur.2]
    rfl

/-- The loop of `parseExpression` takes an operator of higher precedence. -/
theorem loop_take {prec : Nat} {p p1 : Parser} {t op : TokenType × Str}
    {rest : List (TokenType × Str)} (hp : Parser.Ahead lib p (t :: op :: rest))
    (hop : op ∈ infixOps) (hprec : prec < precedenceOf op.1) {left e : Expression}
    {r : Parser × Expression}
    (hi : Returns (fun m => Parser.parseInfixExpression lib m (p.nextToken lib) left) (p1, e))
    (hl : Returns (fun m => Parser.parseExpressionLoop lib m prec p1 e) r) :
    Returns (fun m => Parser.parseExpressionLoop lib m prec p left) r := by
  obtain ⟨f1, f2, _, _⟩ := infixOps_facts hop
  have hpk : p.peekToken.Typ = op.1 := hp.peek
  exact Parser.parseExpressionLoop_step lib (by rw [hpk]; exact f1)
    (by rw [Parser.peekPrecedence_eq, hpk]; exact hprec) (by rw [hpk]; exact f2) hi hl

/-- The loop of `parseExpression` stops before a token of no higher precedence. -/
theorem loop_leave {prec : Nat} {p : Parser} {t : TokenType × Str}
    {rest : List (TokenType × Str)} (hp : Parser.Ahead lib p (t :: rest))
    (hprec : ¬ prec < precedenceOf (rest.headD eofTok).1) (left : Expression) :
    Returns (fun m => Parser.parseExpressionLoop lib m prec p left) (p, left) :=
  Parser.parseExpressionLoop_stop lib prec p left
    (Or.inr (by rw [Parser.peekPrecedence_eq, hp.peek]; exact hprec))

theorem parse_binary {t1 t2 op : TokenType × Str} {E1 E2 : Expression}
    (h1 : IsAtom lib t1 E1) (h2 : IsAtom lib t2 E2) (hop : op ∈ infixOps) :
    ParsesExpr lib [t1, op, t2] (infixNode op E1 E2) := by
  refine ⟨h1.1, fun p rest hp hrest => ?_⟩
  obtain ⟨_, _, f3, _⟩ := infixOps_facts hop
  have hlow := precedenceOf_none hrest
  have hp1 : Parser.Ahead lib (p.nextToken lib) (op :: t2 :: rest) := hp.step
  have hp2 : Parser.Ahead lib ((p.nextToken lib).nextToken lib) (t2 :: rest) := hp1.step
  obtain ⟨e1, he1, run1⟩ := h1.2 p hp.1
  obtain ⟨e2, he2, r2⟩ := h2.alone hp2 (precedenceOf op.1) (Or.inr (by rw [hlow]; omega))
  obtain ⟨e, hi, hs⟩ := infix_run e1 hp1 r2
  refine ⟨e, run1 _ _ (loop_take hp hop f3 hi (loop_leave hp2 (by rw [hlow]; omega) e)), ?_⟩
  rw [hs, he1, he2]

/-- Precedence climbing on two operators between three operands. -/
theorem parse_ternary {t1 t2 t3 op1 op2 : TokenType × Str} {E1 E2 E3 : Expression}
    (h1 : IsAtom lib t1 E1) (h2 : IsAtom lib t2 E2) (h3 : IsAtom lib t3 E3)
    (hop1 : op1 ∈ infixOps) (hop2 : op2 ∈ infixOps) :
    ParsesExpr lib [t1, op1, t2, op2, t3]
      (if precedenceOf op1.1 < precedenceOf op2.1 then infixNode op1 E1 (infixNode op2 E2 E3)
        else infixNode op2 (infixNode op1 E1 E2) E3) := by
  refine ⟨h1.1, fun p rest hp hrest => ?_⟩
  obtain ⟨_, _, f1, _⟩ := infixOps_facts hop1
  obtain ⟨_, _, f2, _⟩ := infixOps_facts hop2
  have hlow := precedenceOf_none hrest
  have hp1 : Parser.Ahead lib (p.nextToken lib) (op1 :: t2 :: op2 :: t3 :: rest) := hp.step
  have hp2 := hp1.step
  have hp3 := hp2.step
  have hp4 := hp3.step
  obtain ⟨e1, he1, run1⟩ := h1.2 p hp.1
  obtain ⟨e2, he2, run2⟩ := h2.2 _ hp2.1
  obtain ⟨e3, he3, r3⟩ := h3.alone hp4 (precedenceOf op2.1) (Or.inr (by rw [hlow]; omega))
  by_cases hc : precedenceOf op1.1 < precedenceOf op2.1
  · rw [if_pos hc]
    obtain ⟨e23, hi3, hs3⟩ := infix_run e2 hp3 r3
    have r2 := run2 _ _ (loop_take hp2 hop2 hc hi3 (loop_leave hp4 (by rw [hlow]; omega) e23))
    obtain ⟨e, hi1, hs1⟩ := infix_run e1 hp1 r2
    refine ⟨e, run1 _ _ (loop_take hp hop1 f1 hi1 (loop_leave hp4 (by rw [hlow]; omega) e)), ?_⟩
    rw [hs1, hs3, he1, he2, he3]
  · rw [if_neg hc]
    have r2 := run2 _ _ (loop_leave hp2 hc e2)
    obtain ⟨e12, hi1, hs1⟩ := infix_run e1 hp1 r2
    obtain ⟨e, hi3, hs3⟩ := infix_run e12 hp3 r3
    refine ⟨e, run1 _ _ (loop_take hp hop1 f1 hi1
      (loop_take hp2 hop2 f2 hi3 (loop_leave hp4 (by rw [hlow]; omega) e))), ?_⟩
    rw [hs3, hs1, he1, he2, he3]

theorem parse_atom {t : TokenType × Str} {E : Expression} (h : IsAtom lib t E) :
    ParsesExpr lib [t] E := by
  refine ⟨h.1, fun p rest hp hrest => ?_⟩
  have hp0 : Parser.Ahead lib p (t :: rest) := hp
  obtain ⟨e, he, r⟩ := h.alone hp0 LOWEST (Or.inr (by rw [precedenceOf_none hrest]; omega))
  exact ⟨e, r, he⟩

end Precedence
namespace Parser

theorem parseExpressionStatement_returns (lib : StdLib) {p p1 : Parser} {e : Expression}
    (h : Returns (fun m => parseExpression lib m LOWEST p) (p1, e)) :
    Returns (fun m => parseExpressionStatement lib m p)
      (if p1.peekTokenIs SEMICOLON then p1.nextToken lib else p1,
        .ExpressionStatement p.curToken e) := by
  obtain ⟨n1, e1⟩ := h
  refine Returns.of_succ n1 (fun k hk => ?_)
  have a1 : parseExpression lib k LOWEST p = some (p1, e) := e1 k hk
  show parseExpressionStatement lib (k + 1) p = _
  rw [Parser.parseExpressionStatement, a1]

theorem parseDanceStatement_returns (lib : StdLib) {p p4 : Parser} {value : Expression}
    (h1 : p.peekToken.Typ = IDENT) (h2 : (p.nextToken lib).peekToken.Typ = ASSIGN)
    (h : Returns (fun m => parseExpression lib m LOWEST
      (((p.nextToken lib).nextToken lib).nextToken lib)) (p4, value)) :
    Returns (fun m => parseDanceStatement lib m p)
      (if p4.peekTokenIs SEMICOLON then p4.nextToken lib else p4,
        .DanceStatement p.curToken
          ⟨(p.nextToken lib).curToken, (p.nextToken lib).curToken.Literal⟩ value) := by
  obtain ⟨n1, e1⟩ := h
  refine Returns.of_succ n1 (fun k hk => ?_)
  have a1 : parseExpression lib k LOWEST (((p.nextToken lib).nextToken lib).nextToken lib) =
    some (p4, value) := e1 k hk
  show parseDanceStatement lib (k + 1) p = _
  rw [Parser.parseDanceStatement]
  simp only [expectPeek_of lib h1, expectPeek_of lib h2, Bool.true_eq_false, if_false, a1]

theorem parseStartStatement_returns (lib : StdLib) {p p1 : Parser} {s : Statement}
    (h : Returns (fun m => parseStatement lib m (p.nextToken lib)) (p1, s)) :
    Returns (fun m => parseStartStatement lib m p) (p1, .StartStatement p.curToken s) := by
  obtain ⟨n1, e1⟩ := h
  refine Returns.of_succ n1 (fun k hk => ?_)
  have a1 : parseStatement lib k (p.nextToken lib) = some (p1, s) := e1 k hk
  show parseStartStatement lib (k + 1) p = _
  rw [Parser.parseStartStatement, a1]

theorem parseBlockLoop_stop (lib : StdLib) (p : Parser) (stmts : List Statement)
    (h : p.curToken.Typ = RBRACE ∨ p.curToken.Typ = EOF) :
    Returns (fun m => parseBlockLoop lib m p stmts) (p, stmts) := by
  refine Returns.pure (fun k => ?_)
  show parseBlockLoop lib (k + 1) p stmts = _
  rw [Parser.parseBlockLoop, if_neg]
  rintro ⟨h1, h2⟩
  rcases h with h | h
  · rw [curTokenIs_of p h] at h1; cases h1
  · rw [curTokenIs_of p h] at h2; cases h2

theorem parseBlockLoop_step (lib : StdLib) {p p1 : Parser} {stmts : List Statement}
    {s : Statement} {r : Parser × List Statement}
    (h1 : p.curToken.Typ ≠ RBRACE) (h2 : p.curToken.Typ ≠ EOF)
    (hs : Returns (fun m => parseStatement lib m p) (p1, s))
    (hl : Returns (fun m => parseBlockLoop lib m (p1.nextToken lib) (appendStatement stmts s)) r) :
    Returns (fun m => parseBlockLoop lib m p stmts) r := by
  obtain ⟨n1, e1⟩ := hs
  obtain ⟨n2, e2⟩ := hl
  refine Returns.of_succ (n1 + n2) (fun k hk => ?_)
  have a1 : parseStatement lib k p = some (p1, s) := e1 k (by omega)
  have a2 : parseBlockLoop lib k (p1.nextToken lib) (appendStatement stmts s) = some r :=
    e2 k (by omega)
  show parseBlockLoop lib (k + 1) p stmts = _
  rw [Parser.parseBlockLoop, if_pos ⟨curTokenIs_not p h1, curTokenIs_not p h2⟩, a1]
  exact a2

theorem parseBlockStatement_returns (lib : StdLib) {p p1 : Parser} {stmts : List Statement}
    (h : Returns (fun m => parseBlockLoop lib m (p.nextToken lib) []) (p1, stmts)) :
    Returns (fun m => parseBlockStatement lib m p) (p1, .mk p.curToken stmts) := by
  obtain ⟨n1, e1⟩ := h
  refine Returns.of_succ n1 (fun k hk => ?_)
  have a1 : parseBlockLoop lib k (p.nextToken lib) [] = some (p1, stmts) := e1 k hk
  show parseBlockStatement lib (k + 1) p = _
  rw [Parser.parseBlockStatement, a1]

theorem parseSwayStatement_returns (lib : StdLib) {p p3 p4 p5 : Parser}
    {from_ to_ : Expression} {body : BlockStatement}
    (h1 : p.peekToken.Typ = IDENT) (h2 : (p.nextToken lib).peekToken.Typ = FROM)
    (hf : Returns (fun m => parseExpression lib m LOWEST
      (((p.nextToken lib).nextToken lib).nextToken lib)) (p3, from_))
    (h3 : p3.peekToken.Typ = TO)
    (ht : Returns (fun m => parseExpression lib m LOWEST ((p3.nextToken lib).nextToken lib))
      (p4, to_))
    (h4 : p4.peekToken.Typ = LBRACE)
    (hb : Returns (fun m => parseBlockStatement lib m (p4.nextToken lib)) (p5, body)) :
    Returns (fun m => parseSwayStatement lib m p)
      (p5, .SwayStatement p.curToken
        ⟨(p.nextToken lib).curToken, (p.nextToken lib).curToken.Literal⟩ from_ to_ body) := by
  obtain ⟨n1, e1⟩ := hf
  obtain ⟨n2, e2⟩ := ht
  obtain ⟨n3, e3⟩ := hb
  refine Returns.of_succ (n1 + n2 + n3) (fun k hk => ?_)
  have a1 : parseExpression lib k LOWEST (((p.nextToken lib).nextToken lib).nextToken lib) =
    some (p3, from_) := e1 k (by omega)
  have a2 : parseExpression lib k LOWEST ((p3.nextToken lib).nextToken lib) = some (p4, to_) :=
    e2 k (by omega)
  have a3 : parseBlockStatement lib k (p4.nextToken lib) = some (p5, body) := e3 k (by omega)
  show parseSwayStatement lib (k + 1) p = _
  rw [Parser.parseSwayStatement]
  simp only [expectPeek_of lib h1, expectPeek_of lib h2, Bool.true_eq_false, if_false, a1,
    expectPeek_of lib h3, a2, expectPeek_of lib h4, a3]

theorem parseIfStatement_returns (lib : StdLib) {p p1 p2 : Parser}
    {condition : Expression} {consequence : BlockStatement}
    (hc : Returns (fun m => parseExpression lib m LOWEST (p.nextToken lib)) (p1, condition))
    (h1 : p1.peekToken.Typ = LBRACE)
    (hb : Returns (fun m => parseBlockStatement lib m (p1.nextToken lib)) (p2, consequence))
    (h2 : p2.peekToken.Typ ≠ ELSE) :
    Returns (fun m => parseIfStatement lib m p)
      (p2, .IfStatement p.curToken condition consequence none) := by
  obtain ⟨n1, e1⟩ := hc
  obtain ⟨n2, e2⟩ := hb
  refine Returns.of_succ (n1 + n2) (fun k hk => ?_)
  have a1 : parseExpression lib k LOWEST (p.nextToken lib) = some (p1, condition) :=
    e1 k (by omega)
  have a2 : parseBlockStatement lib k (p1.nextToken lib) = some (p2, consequence) :=
    e2 k (by omega)
  show parseIfStatement lib (k + 1) p = _
  rw [Parser.parseIfStatement]
  simp only [a1, expectPeek_of lib h1, Bool.true_eq_false, if_false, a2, peekTokenIs_not p2 h2,
    Bool.false_eq_true]

theorem parseIfStatement_else (lib : StdLib) {p p1 p2 p3 : Parser}
    {condition : Expression} {consequence alternative : BlockStatement}
    (hc : Returns (fun m => parseExpression lib m LOWEST (p.nextToken lib)) (p1, condition))
    (h1 : p1.peekToken.Typ = LBRACE)
    (hb : Returns (fun m => parseBlockStatement lib m (p1.nextToken lib)) (p2, consequence))
    (h2 : p2.peekToken.Typ = ELSE) (h3 : (p2.nextToken lib).peekToken.Typ = LBRACE)
    (ha : Returns (fun m => parseBlockStatement lib m ((p2.nextToken lib).nextToken lib))
      (p3, alternative)) :
    Returns (fun m => parseIfStatement lib m p)
      (p3, .IfStatement p.curToken condition consequence (some alternative)) := by
  obtain ⟨n1, e1⟩ := hc
  obtain ⟨n2, e2⟩ := hb
  obtain ⟨n3, e3⟩ := ha
  refine Returns.of_succ (n1 + n2 + n3) (fun k hk => ?_)
  have a1 : parseExpression lib k LOWEST (p.nextToken lib) = some (p1, condition) :=
    e1 k (by omega)
  have a2 : parseBlockStatement lib k (p1.nextToken lib) = some (p2, consequence) :=
    e2 k (by omega)
  have a3 : parseBlockStatement lib k ((p2.nextToken lib).nextToken lib) =
    some (p3, alternative) := e3 k (by omega)
  show parseIfStatement lib (k + 1) p = _
  rw [Parser.parseIfStatement]
  simp only [a1, expectPeek_of lib h1, Bool.true_eq_false, if_false, a2, peekTokenIs_of p2 h2,
    if_true, expectPeek_of lib h3, a3]

theorem parseStatement_dance (lib : StdLib) {p : Parser} {r : Parser × Statement}
    (h : p.curToken.Typ = DANCE) (hr : Returns (fun m => parseDanceStatement lib m p) r) :
    Returns (fun m => parseStatement lib m p) r := by
  obtain ⟨n1, e1⟩ := hr
  refine Returns.of_succ n1 (fun k hk => ?_)
  show parseStatement lib (k + 1) p = _
  rw [Parser.parseStatement, h]
  exact e1 k hk

theorem parseStatement_sway (lib : StdLib) {p : Parser} {r : Parser × Statement}
    (h : p.curToken.Typ = SWAY) (hr : Returns (fun m => parseSwayStatement lib m p) r) :
    Returns (fun m => parseStatement lib m p) r := by
  obtain ⟨n1, e1⟩ := hr
  refine Returns.of_succ n1 (fun k hk => ?_)
  show parseStatement lib (k + 1) p = _
  rw [Parser.parseStatement, h]
  exact e1 k hk

theorem parseStatement_start (lib : StdLib) {p : Parser} {r : Parser × Statement}
    (h : p.curToken.Typ = START) (hr : Returns (fun m => parseStartStatement lib m p) r) :
    Returns (fun m => parseStatement lib m p) r := by
  obtain ⟨n1, e1⟩ := hr
  refine Returns.of_succ n1 (fun k hk => ?_)
  show parseStatement lib (k + 1) p = _
  rw [Parser.parseStatement, h]
  exact e1 k hk

theorem parseStatement_if (lib : StdLib) {p : Parser} {r : Parser × Statement}
    (h : p.curToken.Typ = IF) (hr : Returns (fun m => parseIfStatement lib m p) r) :
    Returns (fun m => parseStatement lib m p) r := by
  obtain ⟨n1, e1⟩ := hr
  refine Returns.of_succ n1 (fun k hk => ?_)
  show parseStatement lib (k + 1) p = _
  rw [Parser.parseStatement, h]
  exact e1 k hk

theorem parseStatement_expression (lib : StdLib) {p : Parser} {r : Parser × Statement}
    (h : (prefixParseFns p.curToken.Typ).isSome = true)
    (hr : Returns (fun m => parseExpressionStatement lib m p) r) :
    Returns (fun m => parseStatement lib m p) r := by
  obtain ⟨n1, e1⟩ := hr
  refine Returns.of_succ n1 (fun k hk => ?_)
  have a1 : parseExpressionStatement lib k p = some r := e1 k hk
  show parseStatement lib (k + 1) p = _
  rw [Parser.parseStatement]
  generalize p.curToken.Typ = t at h
  cases t <;> first | exact a1 | (simp [prefixParseFns] at h)

theorem ParseProgramLoop_stop (lib : StdLib) (p : Parser) (stmts : List Statement)
    (h : p.curToken.Typ = EOF) :
    Returns (fun m => ParseProgramLoop lib m p stmts) (p, stmts) := by
  refine Returns.pure (fun k => ?_)
  show ParseProgramLoop lib (k + 1) p stmts = _
  rw [Parser.ParseProgramLoop, if_neg (by rw [curTokenIs_of p h]; simp)]

theorem ParseProgramLoop_step (lib : StdLib) {p p1 : Parser} {stmts : List Statement}
    {s : Statement} {r : Parser × List Statement} (h1 : p.curToken.Typ ≠ EOF)
    (hs : Returns (fun m => parseStatement lib m p) (p1, s))
    (hl : Returns (fun m => ParseProgramLoop lib m (p1.nextToken lib)
      (appendStatement stmts s)) r) :
    Returns (fun m => ParseProgramLoop lib m p stmts) r := by
  obtain ⟨n1, e1⟩ := hs
  obtain ⟨n2, e2⟩ := hl
  refine Returns.of_succ (n1 + n2) (fun k hk => ?_)
  have a1 : parseStatement lib k p = some (p1, s) := e1 k (by omega)
  have a2 : ParseProgramLoop lib k (p1.nextToken lib) (appendStatement stmts s) = some r :=
    e2 k (by omega)
  show ParseProgramLoop lib (k + 1) p stmts = _
  rw [Parser.ParseProgramLoop, if_pos (curTokenIs_not p h1), a1]
  exact a2

theorem ParseProgram_returns (lib : StdLib) {p p1 : Parser} {stmts : List Statement}
    (h : Returns (fun m => ParseProgramLoop lib m p []) (p1, stmts)) :
    Returns (fun m => ParseProgram lib m p) (p1, { Statements := stmts }) := by
  obtain ⟨n1, e1⟩ := h
  refine ⟨n1, fun m hm => ?_⟩
  have a1 : ParseProgramLoop lib m p [] = some (p1, stmts) := e1 m hm
  show ParseProgram lib m p = _
  rw [Parser.ParseProgram, a1]

end Parser
section Statements

variable {lib : StdLib}

theorem Parser.Ahead.at_last {p : Parser} :
    ∀ {ts rest : List (TokenType × Str)}, ts ≠ [] → Parser.Ahead lib p (ts ++ rest) →
      ∃ t, Parser.Ahead lib (Parser.advance lib (ts.length - 1) p) (t :: rest) := by
  intro ts rest hne hp
  have hsplit : ts = ts.dropLast ++ [ts.getLast hne] := (List.dropLast_append_getLast hne).symm
  have hlen : ts.dropLast.length = ts.length - 1 := List.length_dropLast ts
  refine ⟨ts.getLast hne, ?_⟩
  rw [← hlen]
  refine Parser.Ahead.steps ts.dropLast ?_
  have : ts.dropLast ++ (ts.getLast hne :: rest) = ts ++ rest := by
    conv_rhs => rw [hsplit]
    simp
  rw [this]
  exact hp

theorem nonempty_of_operand {ts : List (TokenType × Str)}
    (h : (prefixParseFns (ts.headD eofTok).1).isSome = true) : ts ≠ [] := by
  intro he
  subst he
  simp [eofTok, prefixParseFns] at h

theorem nonempty_of_starts {ts : List (TokenType × Str)}
    (h : startsStatement (ts.headD eofTok).1 = true) : ts ≠ [] := by
  intro he
  subst he
  simp [eofTok, startsStatement, prefixParseFns] at h

theorem starts_facts {k : TokenType} (h : startsStatement k = true) :
    k ≠ EOF ∧ k ≠ RBRACE ∧ k ≠ SEMICOLON ∧ precedences k = none := by
  cases k <;> simp [startsStatement, prefixParseFns, precedences] at h ⊢

theorem follows_facts {k : TokenType} (h : followsStatement k = true) :
    precedences k = none ∧ k ≠ SEMICOLON ∧ k ≠ ELSE := by
  cases k <;> simp [followsStatement, startsStatement, prefixParseFns, precedences] at h ⊢

theorem follows_of_starts {k : TokenType} (h : startsStatement k = true) :
    followsStatement k = true := by
  simp [followsStatement, h]

theorem operand_facts {k : TokenType} (h : (prefixParseFns k).isSome = true) :
    startsStatement k = true ∧ k ≠ DANCE ∧ k ≠ SWAY ∧ k ≠ START ∧ k ≠ SEND_KW ∧ k ≠ IF ∧
      k ≠ RPAREN ∧ k ≠ COMMA := by
  cases k <;> simp [startsStatement, prefixParseFns] at h ⊢

/-- The peek token after the last token of `ts` when `rest` follows. -/
theorem peek_after {p : Parser} {t : TokenType × Str} {rest : List (TokenType × Str)}
    (h : Parser.Ahead lib p (t :: rest)) {k : TokenType} (hk : (rest.headD eofTok).1 ≠ k) :
    p.peekTokenIs k = false :=
  Parser.peekTokenIs_not p (by rw [h.peek]; exact hk)

/-- An expression is a statement. -/
theorem ParsesStmt_expression {ts : List (TokenType × Str)} {E : Expression}
    (h : ParsesExpr lib ts E) :
    ParsesStmt lib ts (.ExpressionStatement (tokenOf (ts.headD eofTok)) E) := by
  have hne := nonempty_of_operand h.first
  refine ⟨(operand_facts h.first).1, (fun hn => by cases hn), fun p rest hp hfol => ?_⟩
  obtain ⟨hprec, hsemi, _⟩ := follows_facts hfol
  obtain ⟨e, hr, he⟩ := h.parses p rest hp hprec
  obtain ⟨t, hlast⟩ := Parser.Ahead.at_last hne hp
  obtain ⟨t0, ts1, rfl⟩ := List.exists_cons_of_ne_nil hne
  have hcur : p.curToken.kindLit = t0 := hp.1
  have hs := Parser.parseStatement_expression lib
    (by rw [(Parser.cur_kindLit hcur).1]; exact h.first)
    (Parser.parseExpressionStatement_returns lib hr)
  rw [peek_after hlast hsemi] at hs
  refine ⟨_, hs, ?_⟩
  rw [Statement.strip, he, Parser.strip_of_kindLit hcur]
  rfl

/-- The loop of `ParseProgram` on statements that follow one another up to the end of
the input. -/
theorem program_loop :
    ∀ (items : List (List (TokenType × Str) × Statement)),
      (∀ x ∈ items, ParsesStmt lib x.1 x.2) →
      ∀ (p : Parser) (acc : List Statement),
        Parser.Ahead lib p (items.map Prod.fst).flatten →
        ∃ stmts, Returns (fun m => Parser.ParseProgramLoop lib m p acc)
            (Parser.advance lib (items.map Prod.fst).flatten.length p, acc ++ stmts) ∧
          stripStatements stmts = items.map Prod.snd := by
  intro items
  induction items with
  | nil =>
    intro _ p acc hp
    refine ⟨[], ?_, rfl⟩
    rw [List.append_nil]
    exact Parser.ParseProgramLoop_stop lib p acc (congrArg Prod.fst hp.1)
  | cons x items ih =>
    intro hall p acc hp
    obtain ⟨ts, S⟩ := x
    have hx : ParsesStmt lib ts S := hall (ts, S) (List.mem_cons_self _ _)
    have hne := nonempty_of_starts hx.first
    simp only [List.map_cons, List.flatten_cons] at hp ⊢
    have hnext : followsStatement (((items.map Prod.fst).flatten).headD eofTok).1 = true := by
      cases items with
      | nil => rfl
      | cons y items1 =>
        have hy : ParsesStmt lib y.1 y.2 :=
          hall y (List.mem_cons_of_mem _ (List.mem_cons_self _ _))
        obtain ⟨u, us, hu⟩ := List.exists_cons_of_ne_nil (nonempty_of_starts hy.first)
        have hf := hy.first
        simp only [List.map_cons, List.flatten_cons, hu, List.cons_append, List.headD_cons] at hf ⊢
        exact follows_of_starts hf
    obtain ⟨s, hr, hs⟩ := hx.parses p _ hp hnext
    obtain ⟨t, hlast⟩ := Parser.Ahead.at_last hne hp
    have hsnil : s ≠ Statement.nil := by
      intro h
      rw [h] at hs
      exact hx.node hs.symm
    have happ : Parser.appendStatement acc s = acc ++ [s] := by
      cases s <;> first | rfl | exact absurd rfl hsnil
    obtain ⟨stmts, hr2, hs2⟩ := ih (fun y hy => hall y (List.mem_cons_of_mem _ hy))
      ((Parser.advance lib (ts.length - 1) p).nextToken lib) (acc ++ [s]) hlast.step
    obtain ⟨t0, ts1, rfl⟩ := List.exists_cons_of_ne_nil hne
    have hcur : p.curToken.Typ ≠ EOF := by
      rw [hp.cur.1]
      exact (starts_facts hx.first).1
    refine ⟨s :: stmts, ?_, by rw [stripStatements, hs, hs2]⟩
    have hadv : Parser.advance lib ((t0 :: ts1) ++ (items.map Prod.fst).flatten).length p =
        Parser.advance lib (items.map Prod.fst).flatten.length
          ((Parser.advance lib ((t0 :: ts1).length - 1) p).nextToken lib) := by
      rw [List.length_append, ← Parser.advance_one, ← Parser.advance_add, ← Parser.advance_add]
      congr 1
      simp only [List.length_cons]
      omega
    rw [hadv]
    have hacc : acc ++ s :: stmts = (acc ++ [s]) ++ stmts := by simp
    rw [hacc]
    exact Parser.ParseProgramLoop_step lib hcur hr (by rw [happ]; exact hr2)

end Statements

/-! ## Programs of the language, from text to tree -/

section Programs

variable {lib : StdLib}

theorem Parser.New_errors (lib : StdLib) (l : Lexer) : (Parser.New lib l).errors = [] := rfl

theorem blank_facts (lib : StdLib) {d : Char} (h : blank d = true) :
    stops d = true ∧ identRune lib d = false ∧ isDigit lib d = false ∧ d ≠ '.' := by
  have hs : stops d = true := by simp [stops, h]
  obtain ⟨h1, h2, h3, _⟩ := stops_ends lib hs
  exact ⟨hs, h1, h2, h3⟩

/-- A whole program: statements that follow one another up to the end of the text. -/
theorem program_of_statements {src : Str} (items : List (List (TokenType × Str) × Statement))
    (hall : ∀ x ∈ items, ParsesStmt lib x.1 x.2)
    (hlex : Lexes lib src (items.map Prod.fst).flatten) :
    ∃ p prog, Returns (fun m => Parser.ParseProgram lib m (Parser.New lib (Lexer.New src)))
        (p, prog) ∧ p.errors = [] ∧ stripStatements prog.Statements = items.map Prod.snd := by
  obtain ⟨stmts, hr, hs⟩ := program_loop items hall _ [] (Parser.Ahead.of_source hlex)
  refine ⟨_, _, Parser.ParseProgram_returns lib hr, ?_, ?_⟩
  · rw [Parser.advance_errors, Parser.New_errors]
  · simpa using hs

/-- The text `a op1 b op2 c` followed by a newline is parsed without a diagnostic to one
expression statement, whose shape is given by the test of `parseExpression` on the map
`precedences`. -/
theorem ternary_statement (lib : StdLib) (a b c : Str) (op1 op2 : TokenType × Str)
    (ha : identifier lib a = true ∧ LookupIdent a = IDENT)
    (hb : identifier lib b = true ∧ LookupIdent b = IDENT)
    (hc : identifier lib c = true ∧ LookupIdent c = IDENT)
    (h1 : op1 ∈ infixOps) (h2 : op2 ∈ infixOps) :
    ∃ p prog,
      Returns (fun m => Parser.ParseProgram lib m (Parser.New lib (Lexer.New
        (a ++ ' ' :: (op1.2 ++ ' ' :: (b ++ ' ' :: (op2.2 ++ ' ' :: (c ++ ['\n']))))))))
        (p, prog) ∧
      p.errors = [] ∧
      stripStatements prog.Statements =
        [.ExpressionStatement (tokenOf (IDENT, a))
          (if precedenceOf op1.1 < precedenceOf op2.1 then
            infixNode op1 (identNode a) (infixNode op2 (identNode b) (identNode c))
          else infixNode op2 (infixNode op1 (identNode a) (identNode b)) (identNode c))] := by
  obtain ⟨s1, s2, _, _⟩ := blank_facts lib (show blank ' ' = true by decide)
  obtain ⟨_, n2, _, _⟩ := blank_facts lib (show blank '\n' = true by decide)
  have hlex : Lexes lib (a ++ ' ' :: (op1.2 ++ ' ' :: (b ++ ' ' :: (op2.2 ++ ' ' :: (c ++ ['\n'])))))
      [(IDENT, a), op1, (IDENT, b), op2, (IDENT, c)] := by
    have l5 : Lexes lib (c ++ ['\n']) [(IDENT, c)] := by
      have := Lexes_ident lib hc.1 n2 (Lexes_blank lib (show blank '\n' = true by decide)
        (Lexes_nil lib))
      rwa [hc.2] at this
    have l4 := Lexes_infixOp lib h2 s1 (Lexes_blank lib (show blank ' ' = true by decide) l5)
    have l3 := Lexes_ident lib hb.1 s2 (Lexes_blank lib (show blank ' ' = true by decide) l4)
    rw [hb.2] at l3
    have l2 := Lexes_infixOp lib h1 s1 (Lexes_blank lib (show blank ' ' = true by decide) l3)
    have l1 := Lexes_ident lib ha.1 s2 (Lexes_blank lib (show blank ' ' = true by decide) l2)
    rwa [ha.2] at l1
  have hst := ParsesStmt_expression (parse_ternary (IsAtom_identifier lib a)
    (IsAtom_identifier lib b) (IsAtom_identifier lib c) h1 h2)
  obtain ⟨p, prog, hr, he, hs⟩ := program_of_statements [(_, _)]
    (by intro x hx; rw [List.mem_singleton] at hx; subst hx; exact hst)
    (by simpa using hlex)
  exact ⟨p, prog, hr, he, by simpa using hs⟩

theorem precedenceOf_level {op : TokenType × Str} (h : op ∈ infixOps) :
    precedenceOf op.1 = operatorLevel op.2 + 1 := by
  simp only [infixOps, List.mem_cons, List.mem_singleton, List.not_mem_nil, or_false] at h
  rcases h with h | h | h | h | h | h | h | h | h | h | h <;> subst h <;> decide

theorem level_lt_iff {op1 op2 : TokenType × Str} (h1 : op1 ∈ infixOps) (h2 : op2 ∈ infixOps) :
    precedenceOf op1.1 < precedenceOf op2.1 ↔ operatorLevel op1.2 < operatorLevel op2.2 := by
  rw [precedenceOf_level h1, precedenceOf_level h2]
  omega

/-- C15. For all non-keyword identifiers `a`, `b`, `c` and all infix operators `op1`,
`op2` among `+ - * / == != < > <= >= =~`: the text `a op1 b op2 c` followed by a newline
is parsed, for every fuel that is large enough, without a diagnostic to one expression
statement: `a op1 (b op2 c)` when the level of `op1` is strictly lower than that of
`op2` in the order `EQUALS < LESSGREATER < SUM < PRODUCT` of the specification, and
`(a op1 b) op2 c` otherwise (so operators of equal precedence associate to the left). -/
theorem precedence_climbing (lib : StdLib) (a b c : Str) (op1 op2 : TokenType × Str)
    (ha : identifier lib a = true ∧ LookupIdent a = IDENT)
    (hb : identifier lib b = true ∧ LookupIdent b = IDENT)
    (hc : identifier lib c = true ∧ LookupIdent c = IDENT)
    (h1 : op1 ∈ infixOps) (h2 : op2 ∈ infixOps) :
    ∃ p prog,
      Returns (fun m => Parser.ParseProgram lib m (Parser.New lib (Lexer.New
        (a ++ ' ' :: (op1.2 ++ ' ' :: (b ++ ' ' :: (op2.2 ++ ' ' :: (c ++ ['\n']))))))))
        (p, prog) ∧
      p.errors = [] ∧
      stripStatements prog.Statements =
        [.ExpressionStatement (tokenOf (IDENT, a))
          (if operatorLevel op1.2 < operatorLevel op2.2 then
            infixNode op1 (identNode a) (infixNode op2 (identNode b) (identNode c))
          else infixNode op2 (infixNode op1 (identNode a) (identNode b)) (identNode c))] := by
  obtain ⟨p, prog, hr, he, hs⟩ := ternary_statement lib a b c op1 op2 ha hb hc h1 h2
  refine ⟨p, prog, hr, he, ?_⟩
  rw [hs]
  by_cases hlt : precedenceOf op1.1 < precedenceOf op2.1
  · rw [if_pos hlt, if_pos ((level_lt_iff h1 h2).1 hlt)]
  · rw [if_neg hlt, if_neg (fun h => hlt ((level_lt_iff h1 h2).2 h))]

/-- Witness for `precedence_climbing`: the text `a + b * c`, parsed to `a + (b * c)`,
and the text `a - b + c`, parsed to `(a - b) + c`. -/
theorem precedence_climbing_witness :
    (identifier asciiLib ['a'] = true ∧ LookupIdent ['a'] = IDENT) ∧
    (identifier asciiLib ['b'] = true ∧ LookupIdent ['b'] = IDENT) ∧
    (identifier asciiLib ['c'] = true ∧ LookupIdent ['c'] = IDENT) ∧
    (PLUS, ['+']) ∈ infixOps ∧ (ASTERISK, ['*']) ∈ infixOps ∧ (MINUS, ['-']) ∈ infixOps ∧
    (∃ p prog,
      Returns (fun m => Parser.ParseProgram asciiLib m (Parser.New asciiLib (Lexer.New
        "a + b * c\n".toList))) (p, prog) ∧
      p.errors = [] ∧
      stripStatements prog.Statements =
        [.ExpressionStatement (tokenOf (IDENT, ['a']))
          (infixNode (PLUS, ['+']) (identNode ['a'])
            (infixNode (ASTERISK, ['*']) (identNode ['b']) (identNode ['c'])))]) ∧
    ∃ p prog,
      Returns (fun m => Parser.ParseProgram asciiLib m (Parser.New asciiLib (Lexer.New
        "a - b + c\n".toList))) (p, prog) ∧
      p.errors = [] ∧
      stripStatements prog.Statements =
        [.ExpressionStatement (tokenOf (IDENT, ['a']))
          (infixNode (PLUS, ['+'])
            (infixNode (MINUS, ['-']) (identNode ['a']) (identNode ['b'])) (identNode ['c']))] :=
  ⟨by decide, by decide, by decide, by decide, by decide, by decide,
    precedence_climbing asciiLib ['a'] ['b'] ['c'] (PLUS, ['+']) (ASTERISK, ['*'])
      (by decide) (by decide) (by decide) (by decide) (by decide),
    precedence_climbing asciiLib ['a'] ['b'] ['c'] (MINUS, ['-']) (PLUS, ['+'])
      (by decide) (by decide) (by decide) (by decide) (by decide)⟩

end Programs
section Dance

variable {lib : StdLib}

theorem ParseInt_plain {w : Str} (h : plainDecimal w = true) (hv : decimalValue w < 2 ^ 63) :
    ParseInt w = .ok (decimalValue w : Int) := by
  simp only [plainDecimal, Bool.and_eq_true, Bool.or_eq_true, decide_eq_true_eq] at h
  obtain ⟨hd, hz⟩ := h
  cases w with
  | nil => simp [decimal] at hd
  | cons c r =>
    have hdig : ∀ x ∈ c :: r, 0x30 ≤ x.toNat ∧ x.toNat ≤ 0x39 := by
      intro x hx
      have := (List.all_eq_true.1 hd) x hx
      simpa [asciiDigit] using this
    rw [ParseInt_digits c r hdig]
    rcases hz with hz | hz
    · injection hz with h1 h2
      subst h1 h2
      rw [ParseUint_octal [] (by simp)]
      rfl
    · have hc : c ≠ '0' := by
        intro hc
        subst hc
        simp at hz
      have hv2 : decimalValue (c :: r) < 2 ^ 64 := by omega
      rw [ParseUint_decimal c r hc hdig, if_pos hv2]
      simp only []
      rw [if_pos hv]

theorem Operand.isAtom {v : Operand} (h : v.admitted lib = true) :
    IsAtom lib v.token v.node := by
  cases v with
  | int w =>
    simp only [Operand.admitted, Bool.and_eq_true, decide_eq_true_eq] at h
    exact IsAtom_integer lib w _ (ParseInt_plain h.1 h.2)
  | true_ => exact IsAtom_true lib _
  | false_ => exact IsAtom_false lib _
  | ident a => exact IsAtom_identifier lib a
  | string t => exact IsAtom_string lib t

theorem identifier_keyword (lib : StdLib) {w : Str} (h : w ∈ reserved.map Prod.fst) :
    identifier lib w = true := by
  simp only [reserved, List.map_cons, List.map_nil, List.mem_cons, List.mem_singleton,
    List.not_mem_nil, or_false] at h
  rcases h with e | e | e | e | e | e | e | e | e | e | e | e | e | e | e | e <;> subst e <;>
    simp [identifier, identRune, isLetter, unicodeIsLetter, latin1Letter]

/-- A keyword that is followed by a rune of `stops` is scanned as its token. -/
theorem Lexes_keyword (lib : StdLib) {w : Str} {k : TokenType} (h : (w, k) ∈ reserved)
    {d : Char} (hd : stops d = true) {rest : Str} {ts : List (TokenType × Str)}
    (hl : Lexes lib (d :: rest) ts) : Lexes lib (w ++ d :: rest) ((k, w) :: ts) := by
  have hk : LookupIdent w = k := by
    unfold LookupIdent
    rw [keywords_eq_reserved, lookup_of_mem w k reserved reserved_keys_nodup h]
  have := Lexes_ident lib (identifier_keyword lib (List.mem_map.2 ⟨(w, k), h, rfl⟩))
    (stops_ends lib hd).1 hl
  rwa [hk] at this

theorem Operand.lexes {v : Operand} (h : v.admitted lib = true) {d : Char}
    (hd : stops d = true) {rest : Str} {ts : List (TokenType × Str)}
    (hl : Lexes lib (d :: rest) ts) : Lexes lib (v.text ++ d :: rest) (v.token :: ts) := by
  obtain ⟨s1, s2, s3, _⟩ := stops_ends lib hd
  cases v with
  | int w =>
    simp only [Operand.admitted, plainDecimal, Bool.and_eq_true] at h
    exact Lexes_int lib h.1.1 s2 s3 hl
  | true_ => exact Lexes_keyword lib (by decide) hd hl
  | false_ => exact Lexes_keyword lib (by decide) hd hl
  | ident a =>
    simp only [Operand.admitted, Bool.and_eq_true, decide_eq_true_eq] at h
    have := Lexes_ident lib h.1 s1 hl
    rwa [h.2] at this
  | string t =>
    have := Lexes_string lib (show stringBody t = true from h) hl
    simpa [Operand.text] using this

end Dance
section DanceStatements

variable {lib : StdLib}

/-- A `dance` statement that ends with its semicolon. -/
theorem ParsesStmt_dance_semicolon {vts : List (TokenType × Str)} {E : Expression}
    (h : ParsesExpr lib vts E) (kw n eq sc : Str) :
    ParsesStmt lib ((DANCE, kw) :: (IDENT, n) :: (ASSIGN, eq) :: (vts ++ [(SEMICOLON, sc)]))
      (.DanceStatement (tokenOf (DANCE, kw)) ⟨tokenOf (IDENT, n), n⟩ E) := by
  have hne := nonempty_of_operand h.first
  refine ⟨rfl, (fun hn => by cases hn), fun p rest hp _ => ?_⟩
  have hp0 : Parser.Ahead lib p
      ((DANCE, kw) :: (IDENT, n) :: (ASSIGN, eq) :: (vts ++ ((SEMICOLON, sc) :: rest))) := by
    simpa using hp
  have hp1 := hp0.step
  have hp2 := hp1.step
  have hp3 := hp2.step
  obtain ⟨e, hr, he⟩ := h.parses _ _ hp3 rfl
  obtain ⟨t, hlast⟩ := Parser.Ahead.at_last hne hp3
  have hd := Parser.parseStatement_dance lib hp0.cur.1
    (Parser.parseDanceStatement_returns lib hp0.peek hp1.peek hr)
  have hpk : (Parser.advance lib (vts.length - 1)
      (((p.nextToken lib).nextToken lib).nextToken lib)).peekToken.Typ = SEMICOLON := hlast.peek
  rw [Parser.peekTokenIs_of _ hpk, if_pos rfl] at hd
  refine ⟨.DanceStatement p.curToken
    ⟨(p.nextToken lib).curToken, (p.nextToken lib).curToken.Literal⟩ e, ?_, ?_⟩
  · have hadv : Parser.advance lib
        (((DANCE, kw) :: (IDENT, n) :: (ASSIGN, eq) :: (vts ++ [(SEMICOLON, sc)])).length - 1) p =
        (Parser.advance lib (vts.length - 1)
          (((p.nextToken lib).nextToken lib).nextToken lib)).nextToken lib := by
      have h3 : ((p.nextToken lib).nextToken lib).nextToken lib = Parser.advance lib 3 p := rfl
      rw [h3, ← Parser.advance_one, ← Parser.advance_add, ← Parser.advance_add]
      congr 1
      have := List.length_pos.2 hne
      simp only [List.length_cons, List.length_append, List.length_nil]
      omega
    rw [hadv]
    exact hd
  · rw [Statement.strip, he, Parser.strip_of_kindLit hp0.1, Parser.strip_of_kindLit hp1.1,
      hp1.cur.2]
    rfl

/-- A `dance` statement without a semicolon. -/
theorem ParsesStmt_dance {vts : List (TokenType × Str)} {E : Expression}
    (h : ParsesExpr lib vts E) (kw n eq : Str) :
    ParsesStmt lib ((DANCE, kw) :: (IDENT, n) :: (ASSIGN, eq) :: vts)
      (.DanceStatement (tokenOf (DANCE, kw)) ⟨tokenOf (IDENT, n), n⟩ E) := by
  have hne := nonempty_of_operand h.first
  refine ⟨rfl, (fun hn => by cases hn), fun p rest hp hfol => ?_⟩
  obtain ⟨hprec, hsemi, _⟩ := follows_facts hfol
  have hp0 : Parser.Ahead lib p ((DANCE, kw) :: (IDENT, n) :: (ASSIGN, eq) :: (vts ++ rest)) := hp
  have hp1 := hp0.step
  have hp2 := hp1.step
  have hp3 := hp2.step
  obtain ⟨e, hr, he⟩ := h.parses _ _ hp3 hprec
  obtain ⟨t, hlast⟩ := Parser.Ahead.at_last hne hp3
  have hd := Parser.parseStatement_dance lib hp0.cur.1
    (Parser.parseDanceStatement_returns lib hp0.peek hp1.peek hr)
  rw [peek_after hlast hsemi] at hd
  refine ⟨.DanceStatement p.curToken
    ⟨(p.nextToken lib).curToken, (p.nextToken lib).curToken.Literal⟩ e, ?_, ?_⟩
  · have hadv : Parser.advance lib
        (((DANCE, kw) :: (IDENT, n) :: (ASSIGN, eq) :: vts).length - 1) p =
        Parser.advance lib (vts.length - 1)
          (((p.nextToken lib).nextToken lib).nextToken lib) := by
      have h3 : ((p.nextToken lib).nextToken lib).nextToken lib = Parser.advance lib 3 p := rfl
      rw [h3, ← Parser.advance_add]
      congr 1
      have := List.length_pos.2 hne
      simp only [List.length_cons]
      omega
    rw [hadv]
    exact hd
  · rw [Statement.strip, he, Parser.strip_of_kindLit hp0.1, Parser.strip_of_kindLit hp1.1,
      hp1.cur.2]
    rfl

theorem stripStatements_length : ∀ stmts : List Statement,
    (stripStatements stmts).length = stmts.length := by
  intro stmts
  induction stmts with
  | nil => rfl
  | cons s rest ih => rw [stripStatements, List.length_cons, List.length_cons, ih]

/-- The tokens of the text `dance n = v;`. -/
theorem Lexes_danceText {n : Str} {v : Operand}
    (hn : identifier lib n = true ∧ LookupIdent n = IDENT) (hv : v.admitted lib = true)
    {rest : Str} {ts : List (TokenType × Str)} (hl : Lexes lib rest ts) :
    Lexes lib (danceText n v ++ rest)
      ((DANCE, "dance".toList) :: (IDENT, n) :: (ASSIGN, ['=']) :: v.token ::
        (SEMICOLON, [';']) :: ts) := by
  have hsp : blank ' ' = true := by decide
  obtain ⟨s1, s2, _, _⟩ := blank_facts lib hsp
  have l5 := Lexes_semicolon lib hl
  have l4 := Operand.lexes hv (show stops ';' = true by decide) l5
  have l3 := Lexes_assign lib (by simp) (by simp) (Lexes_blank lib hsp l4)
  have l2 := Lexes_ident lib hn.1 s2 (Lexes_blank lib hsp l3)
  rw [hn.2] at l2
  have l1 := Lexes_keyword lib (show ("dance".toList, DANCE) ∈ reserved by decide) s1
    (Lexes_blank lib hsp l2)
  have htxt : danceText n v ++ rest =
      "dance".toList ++ ' ' :: (n ++ ' ' :: '=' :: ' ' :: (v.text ++ ';' :: rest)) := by
    simp [danceText]
  rw [htxt]
  exact l1

end DanceStatements
section DancePrograms

variable {lib : StdLib}

theorem Lexes_dance_list (sep : Str) (hsep : sep.all blank = true) :
    ∀ items : List (Str × Operand),
      (∀ x ∈ items, (identifier lib x.1 = true ∧ LookupIdent x.1 = IDENT) ∧
        x.2.admitted lib = true) →
      Lexes lib (items.map (fun x => danceText x.1 x.2 ++ sep)).flatten
        (items.map (fun x => [(DANCE, "dance".toList), (IDENT, x.1), (ASSIGN, ['=']), x.2.token,
          (SEMICOLON, [';'])])).flatten := by
  intro items
  induction items with
  | nil => intro _; exact Lexes_nil lib
  | cons x items ih =>
    intro h
    have hx := h x (List.mem_cons_self _ _)
    have hrest := ih (fun y hy => h y (List.mem_cons_of_mem _ hy))
    have := Lexes_danceText hx.1 hx.2 (Lexes_blanks lib hrest sep hsep)
    simpa [List.append_assoc] using this

/-- C16. For every list of pairs of a non-keyword identifier `n` and a value `v` that is
a decimal integer literal without leading zeros below 2^63, `true`, `false`, a non-keyword
identifier or a double-quoted string: the statements `dance n = v;` written one after
another (with any white space `sep` after each, also none) are parsed, for every fuel
that is large enough, without a diagnostic to exactly as many statements, the i-th being
the dance statement with the name `n` and the literal node of `v`. -/
theorem dance_statements (lib : StdLib) (items : List (Str × Operand)) (sep : Str)
    (hsep : sep.all blank = true)
    (h : ∀ x ∈ items, (identifier lib x.1 = true ∧ LookupIdent x.1 = IDENT) ∧
      x.2.admitted lib = true) :
    ∃ p prog,
      Returns (fun m => Parser.ParseProgram lib m (Parser.New lib (Lexer.New
        (items.map (fun x => danceText x.1 x.2 ++ sep)).flatten))) (p, prog) ∧
      p.errors = [] ∧ prog.Statements.length = items.length ∧
      stripStatements prog.Statements = items.map (fun x => danceNode x.1 x.2.node) := by
  have hall : ∀ y ∈ items.map (fun x =>
      ([(DANCE, "dance".toList), (IDENT, x.1), (ASSIGN, ['=']), x.2.token, (SEMICOLON, [';'])],
        danceNode x.1 x.2.node)), ParsesStmt lib y.1 y.2 := by
    intro y hy
    obtain ⟨x, hx, rfl⟩ := List.mem_map.1 hy
    exact ParsesStmt_dance_semicolon (parse_atom (Operand.isAtom (h x hx).2)) _ _ _ _
  obtain ⟨p, prog, hr, he, hs⟩ := program_of_statements _ hall
    (by simpa [List.map_map, Function.comp_def] using Lexes_dance_list sep hsep items h)
  have hs2 : stripStatements prog.Statements = items.map (fun x => danceNode x.1 x.2.node) := by
    simpa [List.map_map, Function.comp_def] using hs
  refine ⟨p, prog, hr, he, ?_, hs2⟩
  rw [← stripStatements_length, hs2, List.length_map]

/-- Witness for `dance_statements`: `dance x = 5; dance y = true; dance foobar = y;
dance str = "hello world";`. -/
theorem dance_statements_witness :
    [' '].all blank = true ∧
    (∀ x ∈ [("x".toList, Operand.int "5".toList), ("y".toList, Operand.true_),
        ("foobar".toList, Operand.ident "y".toList),
        ("str".toList, Operand.string "hello world".toList)],
      (identifier asciiLib x.1 = true ∧ LookupIdent x.1 = IDENT) ∧
        x.2.admitted asciiLib = true) ∧
    ∃ p prog,
      Returns (fun m => Parser.ParseProgram asciiLib m (Parser.New asciiLib (Lexer.New
        ([("x".toList, Operand.int "5".toList), ("y".toList, Operand.true_),
          ("foobar".toList, Operand.ident "y".toList),
          ("str".toList, Operand.string "hello world".toList)].map
            (fun x => danceText x.1 x.2 ++ [' '])).flatten))) (p, prog) ∧
      p.errors = [] ∧
      prog.Statements.length =
        [("x".toList, Operand.int "5".toList), ("y".toList, Operand.true_),
          ("foobar".toList, Operand.ident "y".toList),
          ("str".toList, Operand.string "hello world".toList)].length ∧
      stripStatements prog.Statements =
        [("x".toList, Operand.int "5".toList), ("y".toList, Operand.true_),
          ("foobar".toList, Operand.ident "y".toList),
          ("str".toList, Operand.string "hello world".toList)].map
            (fun x => danceNode x.1 x.2.node) :=
  ⟨by decide, by decide,
    dance_statements asciiLib _ [' '] (by decide) (by decide)⟩

end DancePrograms
namespace Parser

theorem parseExpression_spin (lib : StdLib) {prec : Nat} {p p1 : Parser} {left : Expression}
    {r : Parser × Expression} (h : p.curToken.Typ = SPIN)
    (hs : Returns (fun m => parseSpinExpression lib m p) (p1, left))
    (hl : Returns (fun m => parseExpressionLoop lib m prec p1 left) r) :
    Returns (fun m => parseExpression lib m prec p) r := by
  obtain ⟨n1, e1⟩ := hs
  obtain ⟨n2, e2⟩ := hl
  refine Returns.of_succ (n1 + n2) (fun k hk => ?_)
  have a1 : parseSpinExpression lib k p = some (p1, left) := e1 k (by omega)
  have a2 : parseExpressionLoop lib k prec p1 left = some r := e2 k (by omega)
  show parseExpression lib (k + 1) prec p = _
  rw [Parser.parseExpression, h]
  simp only [prefixParseFns, a1]
  exact a2

theorem parseSpinExpression_returns (lib : StdLib) {p p1 p2 : Parser} {function : Expression}
    {arguments : List Expression}
    (hf : Returns (fun m => parseExpression lib m LOWEST (p.nextToken lib)) (p1, function))
    (h1 : p1.peekToken.Typ = LPAREN)
    (ha : Returns (fun m => parseExpressionList lib m RPAREN (p1.nextToken lib))
      (p2, arguments)) :
    Returns (fun m => parseSpinExpression lib m p)
      (p2, .SpinExpression p.curToken function arguments) := by
  obtain ⟨n1, e1⟩ := hf
  obtain ⟨n2, e2⟩ := ha
  refine Returns.of_succ (n1 + n2) (fun k hk => ?_)
  have a1 : parseExpression lib k LOWEST (p.nextToken lib) = some (p1, function) :=
    e1 k (by omega)
  have a2 : parseExpressionList lib k RPAREN (p1.nextToken lib) = some (p2, arguments) :=
    e2 k (by omega)
  show parseSpinExpression lib (k + 1) p = _
  rw [Parser.parseSpinExpression]
  simp only [a1, expectPeek_of lib h1, Bool.true_eq_false, if_false, a2]

theorem parseExpressionList_empty (lib : StdLib) {p : Parser} {end_ : TokenType}
    (h : p.peekToken.Typ = end_) :
    Returns (fun m => parseExpressionList lib m end_ p) (p.nextToken lib, []) := by
  refine Returns.pure (fun k => ?_)
  show parseExpressionList lib (k + 1) end_ p = _
  rw [Parser.parseExpressionList, if_pos (peekTokenIs_of p h)]

theorem parseExpressionList_returns (lib : StdLib) {p p1 p2 : Parser} {end_ : TokenType}
    {e : Expression} {list : List Expression} (h : p.peekToken.Typ ≠ end_)
    (he : Returns (fun m => parseExpression lib m LOWEST (p.nextToken lib)) (p1, e))
    (hl : Returns (fun m => parseExpressionListLoop lib m p1 [e]) (p2, list))
    (h2 : p2.peekToken.Typ = end_) :
    Returns (fun m => parseExpressionList lib m end_ p) (p2.nextToken lib, list) := by
  obtain ⟨n1, e1⟩ := he
  obtain ⟨n2, e2⟩ := hl
  refine Returns.of_succ (n1 + n2) (fun k hk => ?_)
  have a1 : parseExpression lib k LOWEST (p.nextToken lib) = some (p1, e) := e1 k (by omega)
  have a2 : parseExpressionListLoop lib k p1 [e] = some (p2, list) := e2 k (by omega)
  show parseExpressionList lib (k + 1) end_ p = _
  rw [Parser.parseExpressionList, if_neg (by rw [peekTokenIs_not p h]; simp)]
  simp only [a1, a2, expectPeek_of lib h2, Bool.true_eq_false, if_false]

theorem parseExpressionListLoop_stop (lib : StdLib) (p : Parser) (list : List Expression)
    (h : p.peekToken.Typ ≠ COMMA) :
    Returns (fun m => parseExpressionListLoop lib m p list) (p, list) := by
  refine Returns.pure (fun k => ?_)
  show parseExpressionListLoop lib (k + 1) p list = _
  rw [Parser.parseExpressionListLoop, if_neg (by rw [peekTokenIs_not p h]; simp)]

theorem parseExpressionListLoop_step (lib : StdLib) {p p1 : Parser} {list : List Expression}
    {e : Expression} {r : Parser × List Expression} (h : p.peekToken.Typ = COMMA)
    (he : Returns (fun m => parseExpression lib m LOWEST ((p.nextToken lib).nextToken lib))
      (p1, e))
    (hl : Returns (fun m => parseExpressionListLoop lib m p1 (list ++ [e])) r) :
    Returns (fun m => parseExpressionListLoop lib m p list) r := by
  obtain ⟨n1, e1⟩ := he
  obtain ⟨n2, e2⟩ := hl
  refine Returns.of_succ (n1 + n2) (fun k hk => ?_)
  have a1 : parseExpression lib k LOWEST ((p.nextToken lib).nextToken lib) = some (p1, e) :=
    e1 k (by omega)
  have a2 : parseExpressionListLoop lib k p1 (list ++ [e]) = some r := e2 k (by omega)
  show parseExpressionListLoop lib (k + 1) p list = _
  rw [Parser.parseExpressionListLoop, if_pos (peekTokenIs_of p h), a1]
  exact a2

end Parser
section Spin

variable {lib : StdLib}

theorem stripList_append : ∀ (a b : List Expression),
    stripList (a ++ b) = stripList a ++ stripList b := by
  intro a
  induction a with
  | nil => intro b; rfl
  | cons e a ih => intro b; rw [List.cons_append, stripList, stripList, ih, List.cons_append]

theorem separated_head (r : List (List (TokenType × Str) × Expression)) (rp : Str)
    (rest : List (TokenType × Str)) :
    precedences (((r.map (fun x => (COMMA, [',']) :: x.1)).flatten ++
      (RPAREN, rp) :: rest).headD eofTok).1 = none := by
  cases r with
  | nil => rfl
  | cons x r => rfl

/-- The loop of `parseExpressionList` on the arguments after the first. -/
theorem argument_loop (rp : Str) (rest : List (TokenType × Str)) :
    ∀ (args : List (List (TokenType × Str) × Expression)),
      (∀ x ∈ args, ParsesExpr lib x.1 x.2) →
      ∀ (p : Parser) (t : TokenType × Str) (acc : List Expression),
        Parser.Ahead lib p (t :: ((args.map (fun x => (COMMA, [',']) :: x.1)).flatten ++
          (RPAREN, rp) :: rest)) →
        ∃ list, Returns (fun m => Parser.parseExpressionListLoop lib m p acc)
            (Parser.advance lib (args.map (fun x => (COMMA, [',']) :: x.1)).flatten.length p,
              acc ++ list) ∧
          stripList list = args.map Prod.snd ∧
          ∃ u, Parser.Ahead lib
            (Parser.advance lib (args.map (fun x => (COMMA, [',']) :: x.1)).flatten.length p)
            (u :: (RPAREN, rp) :: rest) := by
  intro args
  induction args with
  | nil =>
    intro _ p t acc hp
    refine ⟨[], ?_, rfl, t, hp⟩
    rw [List.append_nil]
    exact Parser.parseExpressionListLoop_stop lib p acc (by rw [hp.peek]; simp)
  | cons x args ih =>
    intro hall p t acc hp
    have hx := hall x (List.mem_cons_self _ _)
    have hne := nonempty_of_operand hx.first
    simp only [List.map_cons, List.flatten_cons, List.cons_append, List.append_assoc] at hp ⊢
    have hp1 := hp.step
    have hp2 := hp1.step
    obtain ⟨e, hr, he⟩ := hx.parses _ _ hp2 (separated_head args rp rest)
    obtain ⟨t', hlast⟩ := Parser.Ahead.at_last hne hp2
    obtain ⟨list, hr2, hs2, u, hu⟩ := ih (fun y hy => hall y (List.mem_cons_of_mem _ hy))
      _ t' (acc ++ [e]) hlast
    have hadv : Parser.advance lib
        ((x.1 ++ (args.map (fun x => (COMMA, [',']) :: x.1)).flatten).length + 1) p =
        Parser.advance lib (args.map (fun x => (COMMA, [',']) :: x.1)).flatten.length
          (Parser.advance lib (x.1.length - 1) ((p.nextToken lib).nextToken lib)) := by
      have h2 : (p.nextToken lib).nextToken lib = Parser.advance lib 2 p := rfl
      rw [h2, ← Parser.advance_add, ← Parser.advance_add]
      congr 1
      have := List.length_pos.2 hne
      simp only [List.length_append]
      omega
    refine ⟨e :: list, ?_, by rw [stripList, he, hs2], u, ?_⟩
    · rw [List.length_cons, hadv]
      have hacc : acc ++ e :: list = (acc ++ [e]) ++ list := by simp
      rw [hacc]
      exact Parser.parseExpressionListLoop_step lib hp.peek hr hr2
    · rw [List.length_cons, hadv]
      exact hu

/-- A call `spin f(e_1, ..., e_n)`. -/
theorem ParsesExpr_spin (kw f lp rp : Str) (args : List (List (TokenType × Str) × Expression))
    (hall : ∀ x ∈ args, ParsesExpr lib x.1 x.2) :
    ParsesExpr lib ((SPIN, kw) :: (IDENT, f) :: (LPAREN, lp) ::
        (commaSep (args.map Prod.fst) ++ [(RPAREN, rp)]))
      (.SpinExpression (tokenOf (SPIN, kw)) (identNode f) (args.map Prod.snd)) := by
  refine ⟨rfl, fun p rest hp hrest => ?_⟩
  have hp0 : Parser.Ahead lib p ((SPIN, kw) :: (IDENT, f) :: (LPAREN, lp) ::
      (commaSep (args.map Prod.fst) ++ (RPAREN, rp) :: rest)) := by
    simpa using hp
  have hp1 := hp0.step
  have hp2 := hp1.step
  obtain ⟨ef, hef, hrf⟩ := (IsAtom_identifier lib f).alone hp1 LOWEST (Or.inr (by
    simp [precedenceOf, precedences]))
  have hlow := precedenceOf_none hrest
  cases args with
  | nil =>
    simp only [List.map_nil, commaSep, List.nil_append] at hp0 hp1 hp2 ⊢
    have hl := @Parser.parseExpressionList_empty lib _ RPAREN hp2.peek
    have hp3 := hp2.step
    have hs := Parser.parseSpinExpression_returns lib hrf hp1.peek hl
    refine ⟨_, Parser.parseExpression_spin lib hp0.cur.1 hs
      (loop_leave hp3 (by rw [hlow]; omega) _), ?_⟩
    rw [Expression.strip, hef, Parser.strip_of_kindLit hp0.1]
    rfl
  | cons x args =>
    have hx := hall x (List.mem_cons_self _ _)
    have hne := nonempty_of_operand hx.first
    simp only [List.map_cons, commaSep, List.append_assoc] at hp0 hp1 hp2 ⊢
    have hp3 := hp2.step
    obtain ⟨e, hr, he⟩ := hx.parses _ _ hp3 (by
      have := separated_head args rp rest
      simpa [List.map_map, Function.comp_def] using this)
    obtain ⟨t', hlast⟩ := Parser.Ahead.at_last hne hp3
    obtain ⟨list, hr2, hs2, u, hu⟩ := argument_loop rp rest args
      (fun y hy => hall y (List.mem_cons_of_mem _ hy)) _ t' [e] (by
        simpa [List.map_map, Function.comp_def] using hlast)
    have hfirst : ((p.nextToken lib).nextToken lib).peekToken.Typ ≠ RPAREN := by
      obtain ⟨t0, ts0, h0⟩ := List.exists_cons_of_ne_nil hne
      have hf := hx.first
      rw [h0] at hp2 hf
      rw [hp2.peek]
      exact (operand_facts hf).2.2.2.2.2.2.1
    have hl := Parser.parseExpressionList_returns lib hfirst hr hr2 hu.peek
    have hs := Parser.parseSpinExpression_returns lib hrf hp1.peek hl
    have hadv : Parser.advance lib (((SPIN, kw) :: (IDENT, f) :: (LPAREN, lp) ::
        (x.1 ++ ((List.map (fun y => (COMMA, [',']) :: y) (List.map Prod.fst args)).flatten ++
          [(RPAREN, rp)]))).length - 1) p =
        (Parser.advance lib (List.map (fun x => (COMMA, [',']) :: x.1) args).flatten.length
          (Parser.advance lib (x.1.length - 1)
            (((p.nextToken lib).nextToken lib).nextToken lib))).nextToken lib := by
      have h3 : ((p.nextToken lib).nextToken lib).nextToken lib = Parser.advance lib 3 p := rfl
      rw [h3, ← Parser.advance_one, ← Parser.advance_add, ← Parser.advance_add,
        ← Parser.advance_add]
      congr 1
      have := List.length_pos.2 hne
      simp only [List.length_cons, List.length_append, List.length_nil, List.map_map,
        Function.comp_def]
      have key : ∀ a b : Nat, 0 < a →
          a + (b + (0 + 1)) + 1 + 1 + 1 - 1 = 3 + (a - 1 + (b + 1)) := by
        intro a b ha
        omega
      exact key _ _ this
    refine ⟨.SpinExpression p.curToken ef ([e] ++ list), ?_, ?_⟩
    · rw [hadv]
      exact Parser.parseExpression_spin lib hp0.cur.1 hs
        (loop_leave hu.step (by rw [hlow]; omega) _)
    · rw [Expression.strip, hef, Parser.strip_of_kindLit hp0.1, stripList_append, hs2]
      simp only [stripList, he]
      rfl

end Spin
section SpinPrograms

variable {lib : StdLib}

/-- An expression statement that ends with its semicolon. -/
theorem ParsesStmt_expression_semicolon {ts : List (TokenType × Str)} {E : Expression}
    (h : ParsesExpr lib ts E) (sc : Str) :
    ParsesStmt lib (ts ++ [(SEMICOLON, sc)])
      (.ExpressionStatement (tokenOf (ts.headD eofTok)) E) := by
  have hne := nonempty_of_operand h.first
  obtain ⟨t0, ts1, hts⟩ := List.exists_cons_of_ne_nil hne
  refine ⟨by rw [hts]; rw [hts] at h; exact (operand_facts h.first).1, (fun hn => by cases hn),
    fun p rest hp _ => ?_⟩
  have hp0 : Parser.Ahead lib p (ts ++ ((SEMICOLON, sc) :: rest)) := by simpa using hp
  obtain ⟨e, hr, he⟩ := h.parses p _ hp0 rfl
  obtain ⟨t, hlast⟩ := Parser.Ahead.at_last hne hp0
  have hcur : p.curToken.kindLit = ts.headD eofTok := by
    have := hp0.1
    rw [hts] at this ⊢
    exact this
  have hs := Parser.parseStatement_expression lib
    (by rw [(Parser.cur_kindLit hcur).1]; exact h.first)
    (Parser.parseExpressionStatement_returns lib hr)
  have hpk : (Parser.advance lib (ts.length - 1) p).peekToken.Typ = SEMICOLON := hlast.peek
  rw [Parser.peekTokenIs_of _ hpk, if_pos rfl] at hs
  refine ⟨.ExpressionStatement p.curToken e, ?_, ?_⟩
  · have hadv : Parser.advance lib ((ts ++ [(SEMICOLON, sc)]).length - 1) p =
        (Parser.advance lib (ts.length - 1) p).nextToken lib := by
      rw [← Parser.advance_one, ← Parser.advance_add]
      congr 1
      have := List.length_pos.2 hne
      simp only [List.length_append, List.length_cons, List.length_nil]
      omega
    rw [hadv]
    exact hs
  · rw [Statement.strip, he, Parser.strip_of_kindLit hcur]

theorem LexesIn_nil (lib : StdLib) : LexesIn lib [] [] :=
  fun _ _ _ _ h => h

/-- The tokens of the arguments after the first. -/
theorem Lexes_separated {d : Char} (hd : stops d = true) {rest : Str}
    {ts' : List (TokenType × Str)} (hl : Lexes lib (d :: rest) ts') :
    ∀ items : List (Str × List (TokenType × Str) × Expression),
      (∀ i ∈ items, LexesIn lib i.1 i.2.1) →
      Lexes lib ((items.map (fun i => ',' :: ' ' :: i.1)).flatten ++ d :: rest)
        ((items.map (fun i => (COMMA, [',']) :: i.2.1)).flatten ++ ts') ∧
      ∃ d' rest', stops d' = true ∧
        (items.map (fun i => ',' :: ' ' :: i.1)).flatten ++ d :: rest = d' :: rest' := by
  intro items
  induction items with
  | nil => intro _; exact ⟨hl, d, rest, hd, rfl⟩
  | cons i items ih =>
    intro h
    obtain ⟨hrest, d', rest', hd', he⟩ := ih (fun j hj => h j (List.mem_cons_of_mem _ hj))
    have hi := h i (List.mem_cons_self _ _)
    refine ⟨?_, ',', ' ' :: (i.1 ++ ((items.map (fun i => ',' :: ' ' :: i.1)).flatten ++
      d :: rest)), by decide, by simp⟩
    rw [he] at hrest
    have := Lexes_comma lib (Lexes_blank lib (show blank ' ' = true by decide)
      (hi d' rest' _ hd' hrest))
    rw [← he] at this
    simpa [List.append_assoc] using this

/-- The tokens of a list of arguments. -/
theorem LexesIn_commaText (items : List (Str × List (TokenType × Str) × Expression))
    (h : ∀ i ∈ items, LexesIn lib i.1 i.2.1) :
    LexesIn lib (commaText (items.map (fun i => i.1)))
      (commaSep (items.map (fun i => i.2.1))) := by
  intro d rest ts' hd hl
  cases items with
  | nil => exact hl
  | cons i items =>
    obtain ⟨hrest, d', rest', hd', he⟩ := Lexes_separated hd hl items
      (fun j hj => h j (List.mem_cons_of_mem _ hj))
    have hi := h i (List.mem_cons_self _ _)
    rw [he] at hrest
    have := hi d' rest' _ hd' hrest
    rw [← he] at this
    simpa [commaText, commaSep, List.map_map, Function.comp_def, List.append_assoc] using this

/-- The tokens of the text `spin f(e_1, ..., e_n)`. -/
theorem LexesIn_spinText {f : Str} (hf : identifier lib f = true ∧ LookupIdent f = IDENT)
    (items : List (Str × List (TokenType × Str) × Expression))
    (h : ∀ i ∈ items, LexesIn lib i.1 i.2.1) {rest : Str} {ts' : List (TokenType × Str)}
    (hl : Lexes lib rest ts') :
    Lexes lib (spinText f (items.map (fun i => i.1)) ++ rest)
      ((SPIN, "spin".toList) :: (IDENT, f) :: (LPAREN, ['(']) ::
        (commaSep (items.map (fun i => i.2.1)) ++ (RPAREN, [')']) :: ts')) := by
  have hsp : blank ' ' = true := by decide
  obtain ⟨s1, _, _, _⟩ := blank_facts lib hsp
  have l4 := LexesIn_commaText items h ')' rest _ (by decide) (Lexes_rparen lib hl)
  have l3 := Lexes_lparen lib l4
  have l2 := Lexes_ident lib hf.1 (stops_ends lib (show stops '(' = true by decide)).1 l3
  rw [hf.2] at l2
  have l1 := Lexes_keyword lib (show ("spin".toList, SPIN) ∈ reserved by decide) s1
    (Lexes_blank lib hsp l2)
  have htxt : spinText f (items.map (fun i => i.1)) ++ rest =
      "spin".toList ++ ' ' :: (f ++ '(' :: (commaText (items.map (fun i => i.1)) ++ ')' :: rest)) := by
    simp [spinText]
  rw [htxt]
  exact l1

/-- Token sequences for a list of well-formed expression texts. -/
theorem ExprText.items : ∀ args : List (Str × Expression),
    (∀ x ∈ args, ExprText lib x.1 x.2) →
    ∃ items : List (Str × List (TokenType × Str) × Expression),
      items.map (fun i => i.1) = args.map Prod.fst ∧
      items.map (fun i => i.2.2) = args.map Prod.snd ∧
      ∀ i ∈ items, LexesIn lib i.1 i.2.1 ∧ ParsesExpr lib i.2.1 i.2.2 := by
  intro args
  induction args with
  | nil => intro _; exact ⟨[], rfl, rfl, fun i hi => by cases hi⟩
  | cons x args ih =>
    intro h
    obtain ⟨items, h1, h2, h3⟩ := ih (fun y hy => h y (List.mem_cons_of_mem _ hy))
    obtain ⟨ts, hl, hp⟩ := h x (List.mem_cons_self _ _)
    refine ⟨(x.1, ts, x.2) :: items, by simp [h1], by simp [h2], ?_⟩
    intro i hi
    rcases List.mem_cons.1 hi with rfl | hi
    · exact ⟨hl, hp⟩
    · exact h3 i hi

/-- C17. For every non-keyword identifier `f` and every list of well-formed argument
expressions `e_1 .. e_n` with the parses `E_1 .. E_n` (also the empty list): the text
`spin f(e_1, ..., e_n);` is parsed, for every fuel that is large enough, without a
diagnostic to a single expression statement that holds the spin expression with the
callee `f` and exactly the arguments `E_1 .. E_n` in order. -/
theorem spin_call_statement (lib : StdLib) (f : Str)
    (hf : identifier lib f = true ∧ LookupIdent f = IDENT) (args : List (Str × Expression))
    (h : ∀ x ∈ args, ExprText lib x.1 x.2) :
    ∃ p prog,
      Returns (fun m => Parser.ParseProgram lib m (Parser.New lib (Lexer.New
        (spinText f (args.map Prod.fst) ++ [';'])))) (p, prog) ∧
      p.errors = [] ∧
      stripStatements prog.Statements =
        [.ExpressionStatement (tokenOf (SPIN, "spin".toList)) (spinNode f (args.map Prod.snd))] := by
  obtain ⟨items, h1, h2, h3⟩ := ExprText.items args h
  have hlex := LexesIn_spinText hf items (fun i hi => (h3 i hi).1)
    (Lexes_semicolon lib (Lexes_nil lib))
  have hpe := ParsesExpr_spin "spin".toList f ['('] [')']
    (items.map (fun i => (i.2.1, i.2.2)))
    (by
      intro y hy
      obtain ⟨i, hi, rfl⟩ := List.mem_map.1 hy
      exact (h3 i hi).2)
  have hst := ParsesStmt_expression_semicolon hpe [';']
  obtain ⟨p, prog, hr, he, hs⟩ := program_of_statements [(_, _)]
    (by intro x hx; rw [List.mem_singleton] at hx; subst hx; exact hst)
    (by
      rw [h1] at hlex
      simpa [List.map_map, Function.comp_def] using hlex)
  refine ⟨p, prog, hr, he, ?_⟩
  have hs' := hs
  simp only [List.map_cons, List.map_nil, List.map_map, Function.comp_def, List.headD_cons]
    at hs'
  rw [hs', ← h2]
  rfl

end SpinPrograms
section ExpressionTexts

variable {lib : StdLib}

/-- An admitted operand is a well-formed expression. -/
theorem ExprText_operand {v : Operand} (h : v.admitted lib = true) :
    ExprText lib v.text v.node :=
  ⟨[v.token], fun _ _ _ hd hl => Operand.lexes h hd hl, parse_atom (Operand.isAtom h)⟩

/-- Two admitted operands around an infix operator are a well-formed expression. -/
theorem ExprText_binary {v1 v2 : Operand} (h1 : v1.admitted lib = true)
    (h2 : v2.admitted lib = true) {op : TokenType × Str} (hop : op ∈ infixOps) :
    ExprText lib (v1.text ++ ' ' :: (op.2 ++ ' ' :: v2.text))
      (infixNode op v1.node v2.node) := by
  refine ⟨[v1.token, op, v2.token], fun d rest ts' hd hl => ?_,
    parse_binary (Operand.isAtom h1) (Operand.isAtom h2) hop⟩
  have hsp : blank ' ' = true := by decide
  have l3 := Operand.lexes h2 hd hl
  have l2 := Lexes_infixOp lib hop (blank_facts lib hsp).1 (Lexes_blank lib hsp l3)
  have l1 := Operand.lexes h1 (blank_facts lib hsp).1 (Lexes_blank lib hsp l2)
  simpa [List.append_assoc] using l1

/-- Witness for `spin_call_statement`: the text `spin print(1, 2 * 3, 4 + 5);`. -/
theorem spin_call_statement_witness :
    (identifier asciiLib "print".toList = true ∧ LookupIdent "print".toList = IDENT) ∧
    (∀ x ∈ [((Operand.int ['1']).text, (Operand.int ['1']).node),
        ((Operand.int ['2']).text ++ ' ' :: (['*'] ++ ' ' :: (Operand.int ['3']).text),
          infixNode (ASTERISK, ['*']) (Operand.int ['2']).node (Operand.int ['3']).node),
        ((Operand.int ['4']).text ++ ' ' :: (['+'] ++ ' ' :: (Operand.int ['5']).text),
          infixNode (PLUS, ['+']) (Operand.int ['4']).node (Operand.int ['5']).node)],
      ExprText asciiLib x.1 x.2) ∧
    ∃ p prog,
      Returns (fun m => Parser.ParseProgram asciiLib m (Parser.New asciiLib (Lexer.New
        (spinText "print".toList
          ([((Operand.int ['1']).text, (Operand.int ['1']).node),
            ((Operand.int ['2']).text ++ ' ' :: (['*'] ++ ' ' :: (Operand.int ['3']).text),
              infixNode (ASTERISK, ['*']) (Operand.int ['2']).node (Operand.int ['3']).node),
            ((Operand.int ['4']).text ++ ' ' :: (['+'] ++ ' ' :: (Operand.int ['5']).text),
              infixNode (PLUS, ['+']) (Operand.int ['4']).node
                (Operand.int ['5']).node)].map Prod.fst) ++ [';'])))) (p, prog) ∧
      p.errors = [] ∧
      stripStatements prog.Statements =
        [.ExpressionStatement (tokenOf (SPIN, "spin".toList)) (spinNode "print".toList
          ([((Operand.int ['1']).text, (Operand.int ['1']).node),
            ((Operand.int ['2']).text ++ ' ' :: (['*'] ++ ' ' :: (Operand.int ['3']).text),
              infixNode (ASTERISK, ['*']) (Operand.int ['2']).node (Operand.int ['3']).node),
            ((Operand.int ['4']).text ++ ' ' :: (['+'] ++ ' ' :: (Operand.int ['5']).text),
              infixNode (PLUS, ['+']) (Operand.int ['4']).node
                (Operand.int ['5']).node)].map Prod.snd))] :=
  have hargs : ∀ x ∈ [((Operand.int ['1']).text, (Operand.int ['1']).node),
        ((Operand.int ['2']).text ++ ' ' :: (['*'] ++ ' ' :: (Operand.int ['3']).text),
          infixNode (ASTERISK, ['*']) (Operand.int ['2']).node (Operand.int ['3']).node),
        ((Operand.int ['4']).text ++ ' ' :: (['+'] ++ ' ' :: (Operand.int ['5']).text),
          infixNode (PLUS, ['+']) (Operand.int ['4']).node (Operand.int ['5']).node)],
      ExprText asciiLib x.1 x.2 := by
    intro x hx
    simp only [List.mem_cons, List.mem_singleton, List.not_mem_nil, or_false] at hx
    rcases hx with rfl | rfl | rfl
    · exact @ExprText_operand asciiLib (.int ['1']) (by decide)
    · exact @ExprText_binary asciiLib (.int ['2']) (.int ['3']) (by decide) (by decide)
        (ASTERISK, ['*']) (by decide)
    · exact @ExprText_binary asciiLib (.int ['4']) (.int ['5']) (by decide) (by decide)
        (PLUS, ['+']) (by decide)
  ⟨by decide, hargs, spin_call_statement asciiLib "print".toList (by decide) _ hargs⟩

end ExpressionTexts

/-! ## Blocks, `sway` and `if` -/

section Blocks

variable {lib : StdLib}

/-- The loop of `parseBlockStatement` on statements that follow one another up to the
closing brace. -/
theorem block_loop (rb : Str) (rest : List (TokenType × Str)) :
    ∀ (items : List (List (TokenType × Str) × Statement)),
      (∀ x ∈ items, ParsesStmt lib x.1 x.2) →
      ∀ (p : Parser) (acc : List Statement),
        Parser.Ahead lib p ((items.map Prod.fst).flatten ++ (RBRACE, rb) :: rest) →
        ∃ stmts, Returns (fun m => Parser.parseBlockLoop lib m p acc)
            (Parser.advance lib (items.map Prod.fst).flatten.length p, acc ++ stmts) ∧
          stripStatements stmts = items.map Prod.snd := by
  intro items
  induction items with
  | nil =>
    intro _ p acc hp
    refine ⟨[], ?_, rfl⟩
    rw [List.append_nil]
    exact Parser.parseBlockLoop_stop lib p acc (Or.inl (congrArg Prod.fst hp.1))
  | cons x items ih =>
    intro hall p acc hp
    obtain ⟨ts, S⟩ := x
    have hx : ParsesStmt lib ts S := hall (ts, S) (List.mem_cons_self _ _)
    have hne := nonempty_of_starts hx.first
    simp only [List.map_cons, List.flatten_cons, List.append_assoc] at hp ⊢
    have hnext : followsStatement (((items.map Prod.fst).flatten ++
        (RBRACE, rb) :: rest).headD eofTok).1 = true := by
      cases items with
      | nil => rfl
      | cons y items1 =>
        have hy : ParsesStmt lib y.1 y.2 :=
          hall y (List.mem_cons_of_mem _ (List.mem_cons_self _ _))
        obtain ⟨u, us, hu⟩ := List.exists_cons_of_ne_nil (nonempty_of_starts hy.first)
        have hf := hy.first
        simp only [List.map_cons, List.flatten_cons, hu, List.cons_append, List.headD_cons] at hf ⊢
        exact follows_of_starts hf
    obtain ⟨s, hr, hs⟩ := hx.parses p _ hp hnext
    obtain ⟨t, hlast⟩ := Parser.Ahead.at_last hne hp
    have hsnil : s ≠ Statement.nil := by
      intro h
      rw [h] at hs
      exact hx.node hs.symm
    have happ : Parser.appendStatement acc s = acc ++ [s] := by
      cases s <;> first | rfl | exact absurd rfl hsnil
    obtain ⟨stmts, hr2, hs2⟩ := ih (fun y hy => hall y (List.mem_cons_of_mem _ hy))
      ((Parser.advance lib (ts.length - 1) p).nextToken lib) (acc ++ [s]) hlast.step
    obtain ⟨t0, ts1, rfl⟩ := List.exists_cons_of_ne_nil hne
    have hcur : p.curToken.Typ ≠ RBRACE ∧ p.curToken.Typ ≠ EOF := by
      rw [hp.cur.1]
      exact ⟨(starts_facts hx.first).2.1, (starts_facts hx.first).1⟩
    refine ⟨s :: stmts, ?_, by rw [stripStatements, hs, hs2]⟩
    have hadv : Parser.advance lib ((t0 :: ts1) ++ (items.map Prod.fst).flatten).length p =
        Parser.advance lib (items.map Prod.fst).flatten.length
          ((Parser.advance lib ((t0 :: ts1).length - 1) p).nextToken lib) := by
      rw [List.length_append, ← Parser.advance_one, ← Parser.advance_add, ← Parser.advance_add]
      congr 1
      simp only [List.length_cons]
      omega
    rw [hadv]
    have hacc : acc ++ s :: stmts = (acc ++ [s]) ++ stmts := by simp
    rw [hacc]
    exact Parser.parseBlockLoop_step lib hcur.1 hcur.2 hr (by rw [happ]; exact hr2)

/-- A block `{ s_1 ... s_k }`: the parser ends on the closing brace. -/
theorem block_run (lb rb : Str) (items : List (List (TokenType × Str) × Statement))
    (hall : ∀ x ∈ items, ParsesStmt lib x.1 x.2) {p : Parser} {rest : List (TokenType × Str)}
    (hp : Parser.Ahead lib p ((LBRACE, lb) :: ((items.map Prod.fst).flatten ++
      (RBRACE, rb) :: rest))) :
    ∃ b, Returns (fun m => Parser.parseBlockStatement lib m p)
        (Parser.advance lib ((items.map Prod.fst).flatten.length + 1) p, b) ∧
      (∃ stmts, b = .mk p.curToken stmts ∧ stripStatements stmts = items.map Prod.snd) ∧
      Parser.Ahead lib (Parser.advance lib ((items.map Prod.fst).flatten.length + 1) p)
        ((RBRACE, rb) :: rest) := by
  obtain ⟨stmts, hr, hs⟩ := block_loop rb rest items hall _ [] hp.step
  have hadv : Parser.advance lib ((items.map Prod.fst).flatten.length + 1) p =
      Parser.advance lib (items.map Prod.fst).flatten.length (p.nextToken lib) := by
    rw [Nat.add_comm, Parser.advance_add]
    rfl
  rw [hadv]
  refine ⟨.mk p.curToken stmts, Parser.parseBlockStatement_returns lib (by simpa using hr),
    ⟨stmts, rfl, hs⟩, ?_⟩
  exact Parser.Ahead.steps _ hp.step

end Blocks
section SwayIf

variable {lib : StdLib}

theorem Parser.advance_advance (lib : StdLib) (j k : Nat) (p : Parser) :
    Parser.advance lib k (Parser.advance lib j p) = Parser.advance lib (j + k) p :=
  (Parser.advance_add lib j k p).symm

theorem Parser.nextToken_advance (lib : StdLib) (j : Nat) (p : Parser) :
    (Parser.advance lib j p).nextToken lib = Parser.advance lib (j + 1) p := by
  rw [← Parser.advance_one, Parser.advance_advance]

/-- A `sway` statement. -/
theorem ParsesStmt_sway (kw v fr to_ lb rb : Str) {fts tts : List (TokenType × Str)}
    {F T : Expression} (hf : ParsesExpr lib fts F) (ht : ParsesExpr lib tts T)
    (items : List (List (TokenType × Str) × Statement))
    (hall : ∀ x ∈ items, ParsesStmt lib x.1 x.2) :
    ParsesStmt lib ((SWAY, kw) :: (IDENT, v) :: (FROM, fr) :: (fts ++ (TO, to_) ::
        (tts ++ (LBRACE, lb) :: ((items.map Prod.fst).flatten ++ [(RBRACE, rb)]))))
      (.SwayStatement (tokenOf (SWAY, kw)) ⟨tokenOf (IDENT, v), v⟩ F T
        (.mk (tokenOf (LBRACE, lb)) (items.map Prod.snd))) := by
  have hnf := nonempty_of_operand hf.first
  have hnt := nonempty_of_operand ht.first
  refine ⟨rfl, (fun hn => by cases hn), fun p rest hp _ => ?_⟩
  have hp0 : Parser.Ahead lib p ((SWAY, kw) :: (IDENT, v) :: (FROM, fr) :: (fts ++ (TO, to_) ::
      (tts ++ (LBRACE, lb) :: ((items.map Prod.fst).flatten ++ (RBRACE, rb) :: rest)))) := by
    simpa using hp
  have hp1 := hp0.step
  have hp2 := hp1.step
  have hp3 := hp2.step
  obtain ⟨eF, hrF, heF⟩ := hf.parses _ _ hp3 rfl
  obtain ⟨t1, hl1⟩ := Parser.Ahead.at_last hnf hp3
  have hp5 := hl1.step.step
  obtain ⟨eT, hrT, heT⟩ := ht.parses _ _ hp5 rfl
  obtain ⟨t2, hl2⟩ := Parser.Ahead.at_last hnt hp5
  obtain ⟨b, hrB, ⟨stmts, hb, hs⟩, hend⟩ := block_run lb rb items hall hl2.step
  have hrun := Parser.parseStatement_sway lib hp0.cur.1
    (Parser.parseSwayStatement_returns lib hp0.peek hp1.peek hrF hl1.peek hrT hl2.peek hrB)
  refine ⟨.SwayStatement p.curToken
    ⟨(p.nextToken lib).curToken, (p.nextToken lib).curToken.Literal⟩ eF eT b, ?_, ?_⟩
  rotate_left
  · rw [hb, Statement.strip, heF, heT, hs, Parser.strip_of_kindLit hp0.1,
      Parser.strip_of_kindLit hp1.1, Parser.strip_of_kindLit hl2.step.1, hp1.cur.2]
    rfl
  · have h3 : ((p.nextToken lib).nextToken lib).nextToken lib = Parser.advance lib 3 p := rfl
    rw [h3] at hrun
    simp only [Parser.nextToken_advance, Parser.advance_advance] at hrun
    have hlen : ((SWAY, kw) :: (IDENT, v) :: (FROM, fr) :: (fts ++ (TO, to_) ::
        (tts ++ (LBRACE, lb) :: ((items.map Prod.fst).flatten ++ [(RBRACE, rb)])))).length - 1 =
        3 + (fts.length - 1) + 1 + 1 + (tts.length - 1) + 1 +
          ((items.map Prod.fst).flatten.length + 1) := by
      have k1 := List.length_pos.2 hnf
      have k2 := List.length_pos.2 hnt
      simp only [List.length_cons, List.length_append, List.length_nil]
      omega
    rw [hlen]
    exact hrun

/-- An `if` statement without `else`. -/
theorem ParsesStmt_if (kw lb rb : Str) {cts : List (TokenType × Str)} {C : Expression}
    (hc : ParsesExpr lib cts C) (items : List (List (TokenType × Str) × Statement))
    (hall : ∀ x ∈ items, ParsesStmt lib x.1 x.2) :
    ParsesStmt lib ((IF, kw) :: (cts ++ (LBRACE, lb) ::
        ((items.map Prod.fst).flatten ++ [(RBRACE, rb)])))
      (.IfStatement (tokenOf (IF, kw)) C (.mk (tokenOf (LBRACE, lb)) (items.map Prod.snd))
        none) := by
  have hnc := nonempty_of_operand hc.first
  refine ⟨rfl, (fun hn => by cases hn), fun p rest hp hfol => ?_⟩
  have hp0 : Parser.Ahead lib p ((IF, kw) :: (cts ++ (LBRACE, lb) ::
      ((items.map Prod.fst).flatten ++ (RBRACE, rb) :: rest))) := by
    simpa using hp
  have hp1 := hp0.step
  obtain ⟨eC, hrC, heC⟩ := hc.parses _ _ hp1 rfl
  obtain ⟨t1, hl1⟩ := Parser.Ahead.at_last hnc hp1
  obtain ⟨b, hrB, ⟨stmts, hb, hs⟩, hend⟩ := block_run lb rb items hall hl1.step
  have hne : (Parser.advance lib ((items.map Prod.fst).flatten.length + 1)
      ((Parser.advance lib (cts.length - 1) (p.nextToken lib)).nextToken lib)).peekToken.Typ ≠
      ELSE := by
    rw [hend.peek]
    exact (follows_facts hfol).2.2
  have hrun := Parser.parseStatement_if lib hp0.cur.1
    (Parser.parseIfStatement_returns lib hrC hl1.peek hrB hne)
  refine ⟨.IfStatement p.curToken eC b none, ?_, ?_⟩
  rotate_left
  · rw [hb, Statement.strip, heC, hs, Parser.strip_of_kindLit hp0.1,
      Parser.strip_of_kindLit hl1.step.1]
    rfl
  · have h1 : p.nextToken lib = Parser.advance lib 1 p := rfl
    rw [h1] at hrun
    simp only [Parser.nextToken_advance, Parser.advance_advance] at hrun
    have hlen : ((IF, kw) :: (cts ++ (LBRACE, lb) ::
        ((items.map Prod.fst).flatten ++ [(RBRACE, rb)]))).length - 1 =
        1 + (cts.length - 1) + 1 + ((items.map Prod.fst).flatten.length + 1) := by
      have k1 := List.length_pos.2 hnc
      simp only [List.length_cons, List.length_append, List.length_nil]
      omega
    rw [hlen]
    exact hrun

/-- An `if` statement with `else`. -/
theorem ParsesStmt_if_else (kw lb rb el lb2 rb2 : Str) {cts : List (TokenType × Str)}
    {C : Expression} (hc : ParsesExpr lib cts C)
    (items alt : List (List (TokenType × Str) × Statement))
    (hall : ∀ x ∈ items, ParsesStmt lib x.1 x.2) (halt : ∀ x ∈ alt, ParsesStmt lib x.1 x.2) :
    ParsesStmt lib ((IF, kw) :: (cts ++ (LBRACE, lb) ::
        ((items.map Prod.fst).flatten ++ (RBRACE, rb) :: (ELSE, el) :: (LBRACE, lb2) ::
          ((alt.map Prod.fst).flatten ++ [(RBRACE, rb2)]))))
      (.IfStatement (tokenOf (IF, kw)) C (.mk (tokenOf (LBRACE, lb)) (items.map Prod.snd))
        (some (.mk (tokenOf (LBRACE, lb2)) (alt.map Prod.snd)))) := by
  have hnc := nonempty_of_operand hc.first
  refine ⟨rfl, (fun hn => by cases hn), fun p rest hp _ => ?_⟩
  have hp0 : Parser.Ahead lib p ((IF, kw) :: (cts ++ (LBRACE, lb) ::
      ((items.map Prod.fst).flatten ++ (RBRACE, rb) :: (ELSE, el) :: (LBRACE, lb2) ::
        ((alt.map Prod.fst).flatten ++ (RBRACE, rb2) :: rest)))) := by
    simpa using hp
  have hp1 := hp0.step
  obtain ⟨eC, hrC, heC⟩ := hc.parses _ _ hp1 rfl
  obtain ⟨t1, hl1⟩ := Parser.Ahead.at_last hnc hp1
  obtain ⟨b, hrB, ⟨stmts, hb, hs⟩, hend⟩ := block_run lb rb items hall hl1.step
  have hel := hend.step
  obtain ⟨b2, hrB2, ⟨stmts2, hb2, hs2⟩, _⟩ := block_run lb2 rb2 alt halt hel.step
  have hrun := Parser.parseStatement_if lib hp0.cur.1
    (Parser.parseIfStatement_else lib hrC hl1.peek hrB hend.peek hel.peek hrB2)
  refine ⟨.IfStatement p.curToken eC b (some b2), ?_, ?_⟩
  rotate_left
  · rw [hb, hb2, Statement.strip, heC, hs, hs2, Parser.strip_of_kindLit hp0.1,
      Parser.strip_of_kindLit hl1.step.1, Parser.strip_of_kindLit hel.step.1]
    rfl
  · have h1 : p.nextToken lib = Parser.advance lib 1 p := rfl
    rw [h1] at hrun
    simp only [Parser.nextToken_advance, Parser.advance_advance] at hrun
    have hlen : ((IF, kw) :: (cts ++ (LBRACE, lb) ::
        ((items.map Prod.fst).flatten ++ (RBRACE, rb) :: (ELSE, el) :: (LBRACE, lb2) ::
          ((alt.map Prod.fst).flatten ++ [(RBRACE, rb2)])))).length - 1 =
        1 + (cts.length - 1) + 1 + ((items.map Prod.fst).flatten.length + 1) + 1 + 1 +
          ((alt.map Prod.fst).flatten.length + 1) := by
      have k1 := List.length_pos.2 hnc
      simp only [List.length_cons, List.length_append, List.length_nil]
      omega
    rw [hlen]
    exact hrun

end SwayIf
section BlockTexts

variable {lib : StdLib}

/-- Token sequences for a list of well-formed statement texts. -/
theorem StmtText.sequences : ∀ body : List (Str × Statement),
    (∀ x ∈ body, StmtText lib x.1 x.2) →
    ∃ items : List (Str × List (TokenType × Str) × Statement),
      items.map (fun i => i.1) = body.map Prod.fst ∧
      items.map (fun i => i.2.2) = body.map Prod.snd ∧
      ∀ i ∈ items, LexesIn lib i.1 i.2.1 ∧ ParsesStmt lib i.2.1 i.2.2 := by
  intro body
  induction body with
  | nil => intro _; exact ⟨[], rfl, rfl, fun i hi => by cases hi⟩
  | cons x body ih =>
    intro h
    obtain ⟨items, h1, h2, h3⟩ := ih (fun y hy => h y (List.mem_cons_of_mem _ hy))
    obtain ⟨ts, hl, hp⟩ := h x (List.mem_cons_self _ _)
    refine ⟨(x.1, ts, x.2) :: items, by simp [h1], by simp [h2], ?_⟩
    intro i hi
    rcases List.mem_cons.1 hi with rfl | hi
    · exact ⟨hl, hp⟩
    · exact h3 i hi

/-- The tokens of the statements of a block and of its closing brace. -/
theorem Lexes_block_body {sep : Str} (hne : sep ≠ []) (hsep : sep.all blank = true)
    {rest : Str} {ts' : List (TokenType × Str)} (hl : Lexes lib rest ts') :
    ∀ items : List (Str × List (TokenType × Str) × Statement),
      (∀ i ∈ items, LexesIn lib i.1 i.2.1) →
      Lexes lib ((items.map (fun i => sep ++ i.1)).flatten ++ (sep ++ '}' :: rest))
        ((items.map (fun i => i.2.1)).flatten ++ (RBRACE, ['}']) :: ts') := by
  obtain ⟨c, sep', rfl⟩ := List.exists_cons_of_ne_nil hne
  have hc : blank c = true := by
    simp only [List.all_cons, Bool.and_eq_true] at hsep
    exact hsep.1
  intro items
  induction items with
  | nil =>
    intro _
    exact Lexes_blanks lib (Lexes_rbrace lib hl) _ hsep
  | cons i items ih =>
    intro h
    have hrest := ih (fun j hj => h j (List.mem_cons_of_mem _ hj))
    have hi := h i (List.mem_cons_self _ _)
    have htail : ∃ rest', (items.map (fun i => (c :: sep') ++ i.1)).flatten ++
        ((c :: sep') ++ '}' :: rest) = c :: rest' := by
      cases items with
      | nil => exact ⟨_, rfl⟩
      | cons j items1 => exact ⟨_, rfl⟩
    obtain ⟨rest', he⟩ := htail
    rw [he] at hrest
    have := Lexes_blanks lib (hi c rest' _ (blank_facts lib hc).1 hrest) _ hsep
    rw [← he] at this
    simpa [List.append_assoc] using this

/-- The tokens of a block. -/
theorem Lexes_blockText {sep : Str} (hne : sep ≠ []) (hsep : sep.all blank = true)
    (items : List (Str × List (TokenType × Str) × Statement))
    (h : ∀ i ∈ items, LexesIn lib i.1 i.2.1) {rest : Str} {ts' : List (TokenType × Str)}
    (hl : Lexes lib rest ts') :
    Lexes lib (blockText sep (items.map (fun i => i.1)) ++ rest)
      ((LBRACE, ['{']) :: ((items.map (fun i => i.2.1)).flatten ++ (RBRACE, ['}']) :: ts')) := by
  have := Lexes_lbrace lib (Lexes_block_body hne hsep hl items h)
  simpa [blockText, List.map_map, Function.comp_def, List.append_assoc] using this

theorem plain_admitted {a : Str} (ha : plainDecimal a = true ∧ decimalValue a < 2 ^ 63) :
    (Operand.int a).admitted lib = true := by
  simp only [Operand.admitted, ha.1, Bool.true_and, decide_eq_true_eq]
  exact ha.2

/-- C18. For every non-keyword identifier `v`, all decimal integer literals `a` and `b`
without leading zeros below 2^63, and every body of well-formed statements with the
parses `S_1 .. S_k` (each statement and the closing brace after the white space `sep`,
which is not empty): the text `sway v from a to b` followed by the block is parsed, for
every fuel that is large enough, without a diagnostic to exactly one statement, the sway
statement with the variable `v`, the bounds `a` and `b` as integer literals and the
block of exactly `S_1 .. S_k` in order. -/
theorem sway_statement (lib : StdLib) (v a b sep : Str)
    (hv : identifier lib v = true ∧ LookupIdent v = IDENT)
    (ha : plainDecimal a = true ∧ decimalValue a < 2 ^ 63)
    (hb : plainDecimal b = true ∧ decimalValue b < 2 ^ 63)
    (hsep : sep ≠ [] ∧ sep.all blank = true) (body : List (Str × Statement))
    (hbody : ∀ x ∈ body, StmtText lib x.1 x.2) :
    ∃ p prog,
      Returns (fun m => Parser.ParseProgram lib m (Parser.New lib (Lexer.New
        (swayText sep v a b (body.map Prod.fst))))) (p, prog) ∧
      p.errors = [] ∧
      stripStatements prog.Statements =
        [.SwayStatement (tokenOf (SWAY, "sway".toList)) ⟨tokenOf (IDENT, v), v⟩
          (Operand.int a).node (Operand.int b).node (blockNode (body.map Prod.snd))] := by
  obtain ⟨items, h1, h2, h3⟩ := StmtText.sequences body hbody
  have hsp : blank ' ' = true := by decide
  obtain ⟨s1, s2, _, _⟩ := blank_facts lib hsp
  have hlex : Lexes lib (swayText sep v a b (body.map Prod.fst))
      ((SWAY, "sway".toList) :: (IDENT, v) :: (FROM, "from".toList) :: ([(INT, a)] ++
        (TO, "to".toList) :: ([(INT, b)] ++ (LBRACE, ['{']) ::
          ((items.map (fun i => i.2.1)).flatten ++ [(RBRACE, ['}'])])))) := by
    have l7 := Lexes_blockText hsep.1 hsep.2 items (fun i hi => (h3 i hi).1) (Lexes_nil lib)
    have l6 := Operand.lexes (plain_admitted hb) s1 (Lexes_blank lib hsp l7)
    have l5 := Lexes_keyword lib (show ("to".toList, TO) ∈ reserved by decide) s1
      (Lexes_blank lib hsp l6)
    have l4 := Operand.lexes (plain_admitted ha) s1 (Lexes_blank lib hsp l5)
    have l3 := Lexes_keyword lib (show ("from".toList, FROM) ∈ reserved by decide) s1
      (Lexes_blank lib hsp l4)
    have l2 := Lexes_ident lib hv.1 s2 (Lexes_blank lib hsp l3)
    rw [hv.2] at l2
    have l1 := Lexes_keyword lib (show ("sway".toList, SWAY) ∈ reserved by decide) s1
      (Lexes_blank lib hsp l2)
    rw [h1] at l1
    simpa [swayText, Operand.text, Operand.token, List.append_assoc] using l1
  have hst := ParsesStmt_sway "sway".toList v "from".toList "to".toList ['{'] ['}']
    (parse_atom (Operand.isAtom (@plain_admitted lib a ha)))
    (parse_atom (Operand.isAtom (@plain_admitted lib b hb)))
    (items.map (fun i => (i.2.1, i.2.2)))
    (by
      intro y hy
      obtain ⟨i, hi, rfl⟩ := List.mem_map.1 hy
      exact (h3 i hi).2)
  obtain ⟨p, prog, hr, he, hs⟩ := program_of_statements [(_, _)]
    (by intro x hx; rw [List.mem_singleton] at hx; subst hx; exact hst)
    (by simpa [List.map_map, Function.comp_def, Operand.token] using hlex)
  refine ⟨p, prog, hr, he, ?_⟩
  have hs' := hs
  simp only [List.map_cons, List.map_nil, List.map_map, Function.comp_def] at hs'
  rw [hs', ← h2]
  rfl

end BlockTexts
section StatementTexts

variable {lib : StdLib}

/-- A call `spin f(e_1, ..., e_n)` is a well-formed statement. -/
theorem StmtText_spin {f : Str} (hf : identifier lib f = true ∧ LookupIdent f = IDENT)
    (args : List (Str × Expression)) (h : ∀ x ∈ args, ExprText lib x.1 x.2) :
    StmtText lib (spinText f (args.map Prod.fst))
      (.ExpressionStatement (tokenOf (SPIN, "spin".toList)) (spinNode f (args.map Prod.snd))) := by
  obtain ⟨items, h1, h2, h3⟩ := ExprText.items args h
  have hpe := ParsesExpr_spin "spin".toList f ['('] [')']
    (items.map (fun i => (i.2.1, i.2.2)))
    (by
      intro y hy
      obtain ⟨i, hi, rfl⟩ := List.mem_map.1 hy
      exact (h3 i hi).2)
  have hst := ParsesStmt_expression hpe
  simp only [List.map_map, Function.comp_def, List.headD_cons] at hst
  rw [h2] at hst
  refine ⟨_, fun d rest ts' _ hl => ?_, hst⟩
  have := LexesIn_spinText hf items (fun i hi => (h3 i hi).1) hl
  rw [h1] at this
  simpa [List.map_map, Function.comp_def, List.append_assoc] using this

/-- A line `dance n = v` is a well-formed statement. -/
theorem StmtText_danceLine {n : Str} {v : Operand}
    (hn : identifier lib n = true ∧ LookupIdent n = IDENT) (hv : v.admitted lib = true) :
    StmtText lib (danceLine n v) (danceNode n v.node) := by
  refine ⟨[(DANCE, "dance".toList), (IDENT, n), (ASSIGN, ['=']), v.token],
    fun d rest ts' hd hl => ?_,
    ParsesStmt_dance (parse_atom (Operand.isAtom hv)) _ _ _⟩
  have hsp : blank ' ' = true := by decide
  obtain ⟨s1, s2, _, _⟩ := blank_facts lib hsp
  have l4 := Operand.lexes hv hd hl
  have l3 := Lexes_assign lib (by simp) (by simp) (Lexes_blank lib hsp l4)
  have l2 := Lexes_ident lib hn.1 s2 (Lexes_blank lib hsp l3)
  rw [hn.2] at l2
  have l1 := Lexes_keyword lib (show ("dance".toList, DANCE) ∈ reserved by decide) s1
    (Lexes_blank lib hsp l2)
  simpa [danceLine, List.append_assoc] using l1

/-- C19. For every well-formed condition expression `c` with the parse `C` and all
blocks of well-formed statements with the parses `S_1 .. S_j` and `T_1 .. T_k` (each
statement and each closing brace after the white space `sep`, which is not empty): the
text `if c`, block, `else`, block is parsed, for every fuel that is large enough, without
a diagnostic to exactly one if statement with the condition `C`, the consequence
`S_1 .. S_j` and the alternative `T_1 .. T_k`, which is not nil; and the text `if c`,
block, without `else`, is parsed to the if statement whose alternative is nil. -/
theorem if_statement (lib : StdLib) (c sep : Str) (C : Expression) (hc : ExprText lib c C)
    (hsep : sep ≠ [] ∧ sep.all blank = true) (thn els : List (Str × Statement))
    (hthn : ∀ x ∈ thn, StmtText lib x.1 x.2) (hels : ∀ x ∈ els, StmtText lib x.1 x.2) :
    (∃ p prog,
      Returns (fun m => Parser.ParseProgram lib m (Parser.New lib (Lexer.New
        (ifElseText sep c (thn.map Prod.fst) (els.map Prod.fst))))) (p, prog) ∧
      p.errors = [] ∧
      stripStatements prog.Statements =
        [.IfStatement (tokenOf (IF, "if".toList)) C (blockNode (thn.map Prod.snd))
          (some (blockNode (els.map Prod.snd)))]) ∧
    (∃ p prog,
      Returns (fun m => Parser.ParseProgram lib m (Parser.New lib (Lexer.New
        (ifText sep c (thn.map Prod.fst))))) (p, prog) ∧
      p.errors = [] ∧
      stripStatements prog.Statements =
        [.IfStatement (tokenOf (IF, "if".toList)) C (blockNode (thn.map Prod.snd)) none]) := by
  obtain ⟨cts, hcl, hcp⟩ := hc
  obtain ⟨items, h1, h2, h3⟩ := StmtText.sequences thn hthn
  obtain ⟨alt, a1, a2, a3⟩ := StmtText.sequences els hels
  have hsp : blank ' ' = true := by decide
  obtain ⟨s1, s2, _, _⟩ := blank_facts lib hsp
  have hall : ∀ y ∈ items.map (fun i => (i.2.1, i.2.2)), ParsesStmt lib y.1 y.2 := by
    intro y hy
    obtain ⟨i, hi, rfl⟩ := List.mem_map.1 hy
    exact (h3 i hi).2
  have halt : ∀ y ∈ alt.map (fun i => (i.2.1, i.2.2)), ParsesStmt lib y.1 y.2 := by
    intro y hy
    obtain ⟨i, hi, rfl⟩ := List.mem_map.1 hy
    exact (a3 i hi).2
  constructor
  · have hlex : Lexes lib (ifElseText sep c (thn.map Prod.fst) (els.map Prod.fst))
        ((IF, "if".toList) :: (cts ++ (LBRACE, ['{']) ::
          ((items.map (fun i => i.2.1)).flatten ++ (RBRACE, ['}']) :: (ELSE, "else".toList) ::
            (LBRACE, ['{']) :: ((alt.map (fun i => i.2.1)).flatten ++ [(RBRACE, ['}'])])))) := by
      have l5 := Lexes_blockText hsep.1 hsep.2 alt (fun i hi => (a3 i hi).1) (Lexes_nil lib)
      have l4 := Lexes_keyword lib (show ("else".toList, ELSE) ∈ reserved by decide) s1
        (Lexes_blank lib hsp l5)
      have l3 := Lexes_blockText hsep.1 hsep.2 items (fun i hi => (h3 i hi).1)
        (Lexes_blank lib hsp l4)
      have l2 := hcl ' ' _ _ s1 (Lexes_blank lib hsp l3)
      have l1 := Lexes_keyword lib (show ("if".toList, IF) ∈ reserved by decide) s1
        (Lexes_blank lib hsp l2)
      rw [h1, a1] at l1
      simpa [ifElseText, List.append_assoc] using l1
    have hst := ParsesStmt_if_else "if".toList ['{'] ['}'] "else".toList ['{'] ['}'] hcp
      _ _ hall halt
    obtain ⟨p, prog, hr, he, hs⟩ := program_of_statements [(_, _)]
      (by intro x hx; rw [List.mem_singleton] at hx; subst hx; exact hst)
      (by simpa [List.map_map, Function.comp_def] using hlex)
    refine ⟨p, prog, hr, he, ?_⟩
    have hs' := hs
    simp only [List.map_cons, List.map_nil, List.map_map, Function.comp_def] at hs'
    rw [hs', ← h2, ← a2]
    rfl
  · have hlex : Lexes lib (ifText sep c (thn.map Prod.fst))
        ((IF, "if".toList) :: (cts ++ (LBRACE, ['{']) ::
          ((items.map (fun i => i.2.1)).flatten ++ [(RBRACE, ['}'])]))) := by
      have l3 := Lexes_blockText hsep.1 hsep.2 items (fun i hi => (h3 i hi).1) (Lexes_nil lib)
      have l2 := hcl ' ' _ _ s1 (Lexes_blank lib hsp l3)
      have l1 := Lexes_keyword lib (show ("if".toList, IF) ∈ reserved by decide) s1
        (Lexes_blank lib hsp l2)
      rw [h1] at l1
      simpa [ifText, List.append_assoc] using l1
    have hst := ParsesStmt_if "if".toList ['{'] ['}'] hcp _ hall
    obtain ⟨p, prog, hr, he, hs⟩ := program_of_statements [(_, _)]
      (by intro x hx; rw [List.mem_singleton] at hx; subst hx; exact hst)
      (by simpa [List.map_map, Function.comp_def] using hlex)
    refine ⟨p, prog, hr, he, ?_⟩
    have hs' := hs
    simp only [List.map_cons, List.map_nil, List.map_map, Function.comp_def] at hs'
    rw [hs', ← h2]
    rfl

end StatementTexts
section Examples

theorem exampleBody_wellFormed : ∀ x ∈ exampleBody, StmtText asciiLib x.1 x.2 := by
  intro x hx
  simp only [exampleBody, List.mem_singleton] at hx
  subst hx
  refine StmtText_spin (by decide) exampleArgs ?_
  intro y hy
  simp only [exampleArgs, List.mem_singleton] at hy
  subst hy
  exact @ExprText_operand asciiLib (.ident ['i']) (by decide)

theorem exampleThen_wellFormed : ∀ x ∈ exampleThen, StmtText asciiLib x.1 x.2 := by
  intro x hx
  simp only [exampleThen, List.mem_singleton] at hx
  subst hx
  exact @StmtText_danceLine asciiLib ['z'] (.ident ['x']) (by decide) (by decide)

theorem exampleElse_wellFormed : ∀ x ∈ exampleElse, StmtText asciiLib x.1 x.2 := by
  intro x hx
  simp only [exampleElse, List.mem_singleton] at hx
  subst hx
  exact @StmtText_danceLine asciiLib ['z'] (.ident ['y']) (by decide) (by decide)

/-- Witness for `sway_statement`: the text `sway i from 0 to 10`, then a block with the
statement `spin print(i)` on a line of its own. -/
theorem sway_statement_witness :
    (identifier asciiLib ['i'] = true ∧ LookupIdent ['i'] = IDENT) ∧
    (plainDecimal ['0'] = true ∧ decimalValue ['0'] < 2 ^ 63) ∧
    (plainDecimal ['1', '0'] = true ∧ decimalValue ['1', '0'] < 2 ^ 63) ∧
    ("\n    ".toList ≠ [] ∧ "\n    ".toList.all blank = true) ∧
    (∀ x ∈ exampleBody, StmtText asciiLib x.1 x.2) ∧
    ∃ p prog,
      Returns (fun m => Parser.ParseProgram asciiLib m (Parser.New asciiLib (Lexer.New
        (swayText "\n    ".toList ['i'] ['0'] ['1', '0'] (exampleBody.map Prod.fst)))))
        (p, prog) ∧
      p.errors = [] ∧
      stripStatements prog.Statements =
        [.SwayStatement (tokenOf (SWAY, "sway".toList)) ⟨tokenOf (IDENT, ['i']), ['i']⟩
          (Operand.int ['0']).node (Operand.int ['1', '0']).node
          (blockNode (exampleBody.map Prod.snd))] :=
  ⟨by decide, by decide, by decide, by decide, exampleBody_wellFormed,
    sway_statement asciiLib ['i'] ['0'] ['1', '0'] "\n    ".toList (by decide) (by decide)
      (by decide) (by decide) exampleBody exampleBody_wellFormed⟩

/-- Witness for `if_statement`: the condition `x < y` with the blocks `dance z = x` and
`dance z = y`. -/
theorem if_statement_witness :
    ExprText asciiLib ((Operand.ident ['x']).text ++ ' ' :: (['<'] ++ ' ' ::
        (Operand.ident ['y']).text))
      (infixNode (TokenType.LT, ['<']) (Operand.ident ['x']).node (Operand.ident ['y']).node) ∧
    ("\n    ".toList ≠ [] ∧ "\n    ".toList.all blank = true) ∧
    (∀ x ∈ exampleThen, StmtText asciiLib x.1 x.2) ∧
    (∀ x ∈ exampleElse, StmtText asciiLib x.1 x.2) ∧
    ((∃ p prog,
      Returns (fun m => Parser.ParseProgram asciiLib m (Parser.New asciiLib (Lexer.New
        (ifElseText "\n    ".toList ((Operand.ident ['x']).text ++ ' ' :: (['<'] ++ ' ' ::
          (Operand.ident ['y']).text)) (exampleThen.map Prod.fst)
          (exampleElse.map Prod.fst))))) (p, prog) ∧
      p.errors = [] ∧
      stripStatements prog.Statements =
        [.IfStatement (tokenOf (IF, "if".toList))
          (infixNode (TokenType.LT, ['<']) (Operand.ident ['x']).node
            (Operand.ident ['y']).node)
          (blockNode (exampleThen.map Prod.snd))
          (some (blockNode (exampleElse.map Prod.snd)))]) ∧
    (∃ p prog,
      Returns (fun m => Parser.ParseProgram asciiLib m (Parser.New asciiLib (Lexer.New
        (ifText "\n    ".toList ((Operand.ident ['x']).text ++ ' ' :: (['<'] ++ ' ' ::
          (Operand.ident ['y']).text)) (exampleThen.map Prod.fst))))) (p, prog) ∧
      p.errors = [] ∧
      stripStatements prog.Statements =
        [.IfStatement (tokenOf (IF, "if".toList))
          (infixNode (TokenType.LT, ['<']) (Operand.ident ['x']).node
            (Operand.ident ['y']).node)
          (blockNode (exampleThen.map Prod.snd)) none])) :=
  have hc := @ExprText_binary asciiLib (.ident ['x']) (.ident ['y']) (by decide) (by decide)
    (TokenType.LT, ['<']) (by decide)
  ⟨hc, by decide, exampleThen_wellFormed, exampleElse_wellFormed,
    if_statement asciiLib _ "\n    ".toList _ hc (by decide) exampleThen exampleElse
      exampleThen_wellFormed exampleElse_wellFormed⟩

end Examples
/-! ## `match` expressions -/

namespace Parser

theorem parseExpression_flow (lib : StdLib) {prec : Nat} {p p1 : Parser} {left : Expression}
    {r : Parser × Expression} (h : p.curToken.Typ = FLOW)
    (hs : Returns (fun m => parseFlowExpression lib m p) (p1, left))
    (hl : Returns (fun m => parseExpressionLoop lib m prec p1 left) r) :
    Returns (fun m => parseExpression lib m prec p) r := by
  obtain ⟨n1, e1⟩ := hs
  obtain ⟨n2, e2⟩ := hl
  refine Returns.of_succ (n1 + n2) (fun k hk => ?_)
  have a1 : parseFlowExpression lib k p = some (p1, left) := e1 k (by omega)
  have a2 : parseExpressionLoop lib k prec p1 left = some r := e2 k (by omega)
  show parseExpression lib (k + 1) prec p = _
  rw [Parser.parseExpression, h]
  simp only [prefixParseFns, a1]
  exact a2

theorem parseExpression_match (lib : StdLib) {prec : Nat} {p p1 : Parser} {left : Expression}
    {r : Parser × Expression} (h : p.curToken.Typ = MATCH)
    (hs : Returns (fun m => parseMatchExpression lib m p) (p1, left))
    (hl : Returns (fun m => parseExpressionLoop lib m prec p1 left) r) :
    Returns (fun m => parseExpression lib m prec p) r := by
  obtain ⟨n1, e1⟩ := hs
  obtain ⟨n2, e2⟩ := hl
  refine Returns.of_succ (n1 + n2) (fun k hk => ?_)
  have a1 : parseMatchExpression lib k p = some (p1, left) := e1 k (by omega)
  have a2 : parseExpressionLoop lib k prec p1 left = some r := e2 k (by omega)
  show parseExpression lib (k + 1) prec p = _
  rw [Parser.parseExpression, h]
  simp only [prefixParseFns, a1]
  exact a2

theorem parseFlowExpression_returns (lib : StdLib) {p p1 : Parser} {channelType : Expression}
    (h : Returns (fun m => parseExpression lib m LOWEST (p.nextToken lib)) (p1, channelType)) :
    Returns (fun m => parseFlowExpression lib m p)
      (p1, .FlowExpression p.curToken channelType) := by
  obtain ⟨n1, e1⟩ := h
  refine Returns.of_succ n1 (fun k hk => ?_)
  have a1 : parseExpression lib k LOWEST (p.nextToken lib) = some (p1, channelType) := e1 k hk
  show parseFlowExpression lib (k + 1) p = _
  rw [Parser.parseFlowExpression, a1]

theorem parseMatchExpression_returns (lib : StdLib) {p p1 p2 : Parser} {expression : Expression}
    {cases : List WhenCase}
    (he : Returns (fun m => parseExpression lib m LOWEST (p.nextToken lib)) (p1, expression))
    (h1 : p1.peekToken.Typ = LBRACE)
    (hl : Returns (fun m => parseMatchLoop lib m ((p1.nextToken lib).nextToken lib) [])
      (p2, cases)) :
    Returns (fun m => parseMatchExpression lib m p)
      (p2, .MatchExpression p.curToken expression cases) := by
  obtain ⟨n1, e1⟩ := he
  obtain ⟨n2, e2⟩ := hl
  refine Returns.of_succ (n1 + n2) (fun k hk => ?_)
  have a1 : parseExpression lib k LOWEST (p.nextToken lib) = some (p1, expression) :=
    e1 k (by omega)
  have a2 : parseMatchLoop lib k ((p1.nextToken lib).nextToken lib) [] = some (p2, cases) :=
    e2 k (by omega)
  show parseMatchExpression lib (k + 1) p = _
  rw [Parser.parseMatchExpression]
  simp only [a1, expectPeek_of lib h1, Bool.true_eq_false, if_false, a2]

theorem parseMatchLoop_stop (lib : StdLib) (p : Parser) (cases : List WhenCase)
    (h : p.curToken.Typ = RBRACE ∨ p.curToken.Typ = EOF) :
    Returns (fun m => parseMatchLoop lib m p cases) (p, cases) := by
  refine Returns.pure (fun k => ?_)
  show parseMatchLoop lib (k + 1) p cases = _
  rw [Parser.parseMatchLoop, if_neg]
  rintro ⟨h1, h2⟩
  rcases h with h | h
  · rw [curTokenIs_of p h] at h1; cases h1
  · rw [curTokenIs_of p h] at h2; cases h2

theorem parseMatchLoop_when (lib : StdLib) {p p1 : Parser} {cases : List WhenCase}
    {whenCase : Option WhenCase} {r : Parser × List WhenCase} (h : p.curToken.Typ = WHEN)
    (hw : Returns (fun m => parseWhenCase lib m p) (p1, whenCase))
    (hl : Returns (fun m => parseMatchLoop lib m (p1.nextToken lib)
      (appendCase cases whenCase)) r) :
    Returns (fun m => parseMatchLoop lib m p cases) r := by
  obtain ⟨n1, e1⟩ := hw
  obtain ⟨n2, e2⟩ := hl
  refine Returns.of_succ (n1 + n2) (fun k hk => ?_)
  have a1 : parseWhenCase lib k p = some (p1, whenCase) := e1 k (by omega)
  have a2 : parseMatchLoop lib k (p1.nextToken lib) (appendCase cases whenCase) = some r :=
    e2 k (by omega)
  show parseMatchLoop lib (k + 1) p cases = _
  rw [Parser.parseMatchLoop, if_pos ⟨curTokenIs_not p (by rw [h]; simp),
    curTokenIs_not p (by rw [h]; simp)⟩, if_pos (curTokenIs_of p h), a1]
  exact a2

theorem parseMatchLoop_skip (lib : StdLib) {p : Parser} {cases : List WhenCase}
    {r : Parser × List WhenCase} (h1 : p.curToken.Typ ≠ RBRACE) (h2 : p.curToken.Typ ≠ EOF)
    (h3 : p.curToken.Typ ≠ WHEN)
    (hl : Returns (fun m => parseMatchLoop lib m (p.nextToken lib) cases) r) :
    Returns (fun m => parseMatchLoop lib m p cases) r := by
  obtain ⟨n2, e2⟩ := hl
  refine Returns.of_succ n2 (fun k hk => ?_)
  have a2 : parseMatchLoop lib k (p.nextToken lib) cases = some r := e2 k hk
  show parseMatchLoop lib (k + 1) p cases = _
  rw [Parser.parseMatchLoop, if_pos ⟨curTokenIs_not p h1, curTokenIs_not p h2⟩,
    if_neg (by rw [curTokenIs_not p h3]; simp)]
  exact a2

theorem parseWhenCase_returns (lib : StdLib) {p p1 p2 : Parser}
    {pattern consequence : Expression}
    (hp : Returns (fun m => parsePattern lib m (p.nextToken lib)) (p1, pattern))
    (h1 : p1.peekToken.Typ = COLON)
    (hc : Returns (fun m => parseExpression lib m LOWEST ((p1.nextToken lib).nextToken lib))
      (p2, consequence)) :
    Returns (fun m => parseWhenCase lib m p)
      (p2, some (.mk p.curToken pattern consequence)) := by
  obtain ⟨n1, e1⟩ := hp
  obtain ⟨n2, e2⟩ := hc
  refine Returns.of_succ (n1 + n2) (fun k hk => ?_)
  have a1 : parsePattern lib k (p.nextToken lib) = some (p1, pattern) := e1 k (by omega)
  have a2 : parseExpression lib k LOWEST ((p1.nextToken lib).nextToken lib) =
    some (p2, consequence) := e2 k (by omega)
  show parseWhenCase lib (k + 1) p = _
  rw [Parser.parseWhenCase]
  simp only [a1, expectPeek_of lib h1, Bool.true_eq_false, if_false, a2]

theorem parsePattern_returns (lib : StdLib) {p p1 p2 : Parser} {pattern : Expression}
    (hp : Returns (fun m => parseExpression lib m CALL p) (p1, pattern))
    (h1 : p1.peekToken.Typ = LPAREN)
    (hl : Returns (fun m => parsePatternLoop lib m (p1.nextToken lib)) p2) :
    Returns (fun m => parsePattern lib m p) (p2, pattern) := by
  obtain ⟨n1, e1⟩ := hp
  obtain ⟨n2, e2⟩ := hl
  refine Returns.of_succ (n1 + n2) (fun k hk => ?_)
  have a1 : parseExpression lib k CALL p = some (p1, pattern) := e1 k (by omega)
  have a2 : parsePatternLoop lib k (p1.nextToken lib) = some p2 := e2 k (by omega)
  show parsePattern lib (k + 1) p = _
  rw [Parser.parsePattern]
  simp only [a1, peekTokenIs_of p1 h1, if_true, a2]

theorem parsePatternLoop_stop (lib : StdLib) (p : Parser)
    (h : p.curToken.Typ = RPAREN ∨ p.curToken.Typ = EOF) :
    Returns (fun m => parsePatternLoop lib m p) p := by
  refine Returns.pure (fun k => ?_)
  show parsePatternLoop lib (k + 1) p = _
  rw [Parser.parsePatternLoop, if_neg]
  rintro ⟨h1, h2⟩
  rcases h with h | h
  · rw [curTokenIs_of p h] at h1; cases h1
  · rw [curTokenIs_of p h] at h2; cases h2

theorem parsePatternLoop_step (lib : StdLib) {p p2 : Parser}
    (h1 : p.curToken.Typ ≠ RPAREN) (h2 : p.curToken.Typ ≠ EOF)
    (hl : Returns (fun m => parsePatternLoop lib m (p.nextToken lib)) p2) :
    Returns (fun m => parsePatternLoop lib m p) p2 := by
  obtain ⟨n2, e2⟩ := hl
  refine Returns.of_succ n2 (fun k hk => ?_)
  have a2 : parsePatternLoop lib k (p.nextToken lib) = some p2 := e2 k hk
  show parsePatternLoop lib (k + 1) p = _
  rw [Parser.parsePatternLoop, if_pos ⟨curTokenIs_not p h1, curTokenIs_not p h2⟩]
  exact a2

end Parser
section Match

variable {lib : StdLib}

/-- The loop of `parsePattern` skips the tokens before the closing parenthesis. -/
theorem pattern_skip (rp : Str) (rest : List (TokenType × Str)) :
    ∀ (ts : List (TokenType × Str)), (∀ t ∈ ts, t.1 ≠ RPAREN ∧ t.1 ≠ EOF) →
      ∀ p : Parser, Parser.Ahead lib p (ts ++ (RPAREN, rp) :: rest) →
        Returns (fun m => Parser.parsePatternLoop lib m p) (Parser.advance lib ts.length p) := by
  intro ts
  induction ts with
  | nil =>
    intro _ p hp
    exact Parser.parsePatternLoop_stop lib p (Or.inl hp.cur.1)
  | cons t ts ih =>
    intro h p hp
    have ht := h t (List.mem_cons_self _ _)
    have hp0 : Parser.Ahead lib p (t :: (ts ++ (RPAREN, rp) :: rest)) := hp
    have hc : p.curToken.Typ = t.1 := hp0.cur.1
    exact Parser.parsePatternLoop_step lib (by rw [hc]; exact ht.1) (by rw [hc]; exact ht.2)
      (ih (fun u hu => h u (List.mem_cons_of_mem _ hu)) _ hp0.step)

/-- The loop of `parseMatchExpression` skips tokens that neither start a case nor end
the cases. -/
theorem match_skip (rest : List (TokenType × Str)) :
    ∀ (ts : List (TokenType × Str)), (∀ t ∈ ts, t.1 ≠ RBRACE ∧ t.1 ≠ EOF ∧ t.1 ≠ WHEN) →
      ∀ (p : Parser) (acc : List WhenCase) (r : Parser × List WhenCase),
        Parser.Ahead lib p (ts ++ rest) →
        Returns (fun m => Parser.parseMatchLoop lib m (Parser.advance lib ts.length p) acc) r →
        Returns (fun m => Parser.parseMatchLoop lib m p acc) r := by
  intro ts
  induction ts with
  | nil =>
    intro _ p acc r _ hr
    exact hr
  | cons t ts ih =>
    intro h p acc r hp hr
    have ht := h t (List.mem_cons_self _ _)
    have hp0 : Parser.Ahead lib p (t :: (ts ++ rest)) := hp
    have hc : p.curToken.Typ = t.1 := hp0.cur.1
    exact Parser.parseMatchLoop_skip lib (by rw [hc]; exact ht.1) (by rw [hc]; exact ht.2.1)
      (by rw [hc]; exact ht.2.2)
      (ih (fun u hu => h u (List.mem_cons_of_mem _ hu)) _ acc r hp0.step hr)

/-- The tokens of an argument list of identifiers are identifiers and commas. -/
theorem argTokens_kinds (args : List Str) :
    ∀ t ∈ argTokens args, t.1 = IDENT ∨ t.1 = COMMA := by
  intro t ht
  cases args with
  | nil => cases ht
  | cons a args =>
    simp only [argTokens, commaSep, List.map_cons, List.map_map, List.singleton_append,
      List.mem_cons, List.mem_flatten, List.mem_map, Function.comp_apply] at ht
    rcases ht with rfl | ⟨l, ⟨b, _, rfl⟩, hl⟩
    · exact Or.inl rfl
    · simp only [List.mem_cons, List.mem_singleton, List.not_mem_nil, or_false] at hl
      rcases hl with rfl | rfl
      · exact Or.inr rfl
      · exact Or.inl rfl

end Match
section MatchCases

variable {lib : StdLib}

/-- One case in the loop of `parseMatchExpression`: `parseWhenCase` ends on the name
after `flow`, and the loop skips the argument list that follows it. -/
theorem match_case (c : MatchCase) {p : Parser} {R : List (TokenType × Str)}
    (hp : Parser.Ahead lib p (c.tokens ++ R)) (acc : List WhenCase) :
    ∃ w, stripCases [w] = [c.node] ∧ ∀ r : Parser × List WhenCase,
      (Returns (fun m => Parser.parseMatchLoop lib m
          (Parser.advance lib c.tokens.length p) (acc ++ [w])) r →
        Returns (fun m => Parser.parseMatchLoop lib m p acc) r) := by
  have hA : ∀ t ∈ argTokens c.args, t.1 = IDENT ∨ t.1 = COMMA := argTokens_kinds c.args
  have hp0 : Parser.Ahead lib p ((WHEN, "when".toList) :: (IDENT, c.pattern) ::
      (LPAREN, ['(']) :: (argTokens c.args ++ (RPAREN, [')']) :: (COLON, [':']) ::
        (FLOW, "flow".toList) :: (IDENT, c.target) :: (LPAREN, ['(']) ::
          (argTokens c.args ++ (RPAREN, [')']) :: R))) := by
    simpa [MatchCase.tokens] using hp
  have hp1 := hp0.step
  have hp2 := hp1.step
  obtain ⟨e1, he1, hr1⟩ := (IsAtom_identifier lib c.pattern).alone hp1 CALL
    (Or.inr (show ¬ CALL < precedenceOf LPAREN by decide))
  have hskip := pattern_skip [')'] _ ((LPAREN, ['(']) :: argTokens c.args)
    (fun t ht => by
      rcases List.mem_cons.1 ht with rfl | ht
      · exact ⟨by decide, by decide⟩
      · rcases hA t ht with h | h <;> rw [h] <;> exact ⟨by decide, by decide⟩)
    _ hp2
  have hp3 := Parser.Ahead.steps ((LPAREN, ['(']) :: argTokens c.args) hp2
  have hpat := Parser.parsePattern_returns lib hr1 hp1.peek hskip
  have hp5 := hp3.step.step
  have hp6 := hp5.step
  obtain ⟨e2, he2, hr2⟩ := (IsAtom_identifier lib c.target).alone hp6 LOWEST
    (Or.inr (show ¬ LOWEST < precedenceOf LPAREN by decide))
  have hflow := Parser.parseExpression_flow lib hp5.cur.1
    (Parser.parseFlowExpression_returns lib hr2)
    (loop_leave hp6 (show ¬ LOWEST < precedenceOf LPAREN by decide) _)
  have hwhen := Parser.parseWhenCase_returns lib hpat hp3.peek hflow
  have hp7 := hp6.step
  refine ⟨.mk p.curToken e1 (.FlowExpression (((Parser.advance lib
    ((LPAREN, ['(']) :: argTokens c.args).length
    ((p.nextToken lib).nextToken lib)).nextToken lib).nextToken lib).curToken e2), ?_,
    fun r hrest => Parser.parseMatchLoop_when lib hp0.cur.1 hwhen
    (match_skip R ((LPAREN, ['(']) :: (argTokens c.args ++ [(RPAREN, [')'])]))
      (fun t ht => by
        rcases List.mem_cons.1 ht with rfl | ht
        · exact ⟨by decide, by decide, by decide⟩
        · rcases List.mem_append.1 ht with ht | ht
          · rcases hA t ht with h | h <;> rw [h] <;> exact ⟨by decide, by decide, by decide⟩
          · rw [List.mem_singleton.1 ht]; exact ⟨by decide, by decide, by decide⟩)
      _ _ r (by simpa using hp7) ?_)⟩
  · rw [stripCases, Expression.strip, he1, he2, Parser.strip_of_kindLit hp0.1,
      Parser.strip_of_kindLit hp5.1]
    rfl
  · have hadv : Parser.advance lib
        ((LPAREN, ['(']) :: (argTokens c.args ++ [(RPAREN, [')'])])).length
        (((((Parser.advance lib ((LPAREN, ['(']) :: argTokens c.args).length
          ((p.nextToken lib).nextToken lib)).nextToken lib).nextToken lib).nextToken lib).nextToken
            lib) = Parser.advance lib c.tokens.length p := by
      have h2 : (p.nextToken lib).nextToken lib = Parser.advance lib 2 p := rfl
      rw [h2]
      simp only [Parser.nextToken_advance, Parser.advance_advance]
      congr 1
      simp only [MatchCase.tokens, List.length_cons, List.length_append, List.length_nil]
      omega
    rw [hadv]
    exact hrest

end MatchCases
section MatchExpressions

variable {lib : StdLib}

theorem stripCases_cons (w : WhenCase) (cs : List WhenCase) :
    stripCases (w :: cs) = stripCases [w] ++ stripCases cs := by
  cases w
  simp [stripCases]

/-- The loop of `parseMatchExpression` on cases that follow one another up to the
closing brace. -/
theorem match_loop (rb : Str) (rest : List (TokenType × Str)) :
    ∀ (cases : List MatchCase) (p : Parser) (acc : List WhenCase),
      Parser.Ahead lib p ((cases.map MatchCase.tokens).flatten ++ (RBRACE, rb) :: rest) →
      ∃ cs, Returns (fun m => Parser.parseMatchLoop lib m p acc)
          (Parser.advance lib (cases.map MatchCase.tokens).flatten.length p, acc ++ cs) ∧
        stripCases cs = cases.map MatchCase.node := by
  intro cases
  induction cases with
  | nil =>
    intro p acc hp
    refine ⟨[], ?_, rfl⟩
    rw [List.append_nil]
    exact Parser.parseMatchLoop_stop lib p acc (Or.inl hp.cur.1)
  | cons c cases ih =>
    intro p acc hp
    simp only [List.map_cons, List.flatten_cons, List.append_assoc] at hp ⊢
    have hR := Parser.Ahead.steps c.tokens hp
    have hadv : Parser.advance lib (c.tokens ++ (cases.map MatchCase.tokens).flatten).length p =
        Parser.advance lib (cases.map MatchCase.tokens).flatten.length
          (Parser.advance lib c.tokens.length p) := by
      rw [Parser.advance_advance, List.length_append]
    rw [hadv]
    obtain ⟨w, hw, hstep⟩ := match_case c hp acc
    obtain ⟨cs, hr, hs⟩ := ih (Parser.advance lib c.tokens.length p) (acc ++ [w]) hR
    refine ⟨w :: cs, hstep _ ?_, ?_⟩
    · have hacc : acc ++ w :: cs = (acc ++ [w]) ++ cs := by simp
      rw [hacc]
      exact hr
    · rw [stripCases_cons, hw, hs]
      rfl

/-- The expression `match s` with its cases between braces. -/
theorem ParsesExpr_match (kw s lb rb : Str) (cases : List MatchCase) :
    ParsesExpr lib ((MATCH, kw) :: (IDENT, s) :: (LBRACE, lb) ::
        ((cases.map MatchCase.tokens).flatten ++ [(RBRACE, rb)]))
      (.MatchExpression (tokenOf (MATCH, kw)) (identNode s) (cases.map MatchCase.node)) := by
  refine ⟨rfl, fun p rest hp hrest => ?_⟩
  have hp0 : Parser.Ahead lib p ((MATCH, kw) :: (IDENT, s) :: (LBRACE, lb) ::
      ((cases.map MatchCase.tokens).flatten ++ (RBRACE, rb) :: rest)) := by
    simpa using hp
  have hp1 := hp0.step
  have hp3 := hp1.step.step
  obtain ⟨e, he, hr⟩ := (IsAtom_identifier lib s).alone hp1 LOWEST
    (Or.inr (show ¬ LOWEST < precedenceOf LBRACE by decide))
  obtain ⟨cs, hl, hs⟩ := match_loop rb rest cases _ [] hp3
  have hend := Parser.Ahead.steps (cases.map MatchCase.tokens).flatten hp3
  have hm := Parser.parseMatchExpression_returns lib hr hp1.peek hl
  have hrun := Parser.parseExpression_match lib hp0.cur.1 hm
    (loop_leave hend (show ¬ LOWEST < precedenceOf (rest.headD eofTok).1 by
      rw [precedenceOf_none hrest]; exact Nat.lt_irrefl _) _)
  refine ⟨.MatchExpression p.curToken e ([] ++ cs), ?_, ?_⟩
  · have hadv : Parser.advance lib (((MATCH, kw) :: (IDENT, s) :: (LBRACE, lb) ::
        ((cases.map MatchCase.tokens).flatten ++ [(RBRACE, rb)])).length - 1) p =
        Parser.advance lib (cases.map MatchCase.tokens).flatten.length
          (((p.nextToken lib).nextToken lib).nextToken lib) := by
      have h3 : ((p.nextToken lib).nextToken lib).nextToken lib = Parser.advance lib 3 p := rfl
      rw [h3, Parser.advance_advance]
      congr 1
      simp only [List.length_cons, List.length_append, List.length_nil]
      omega
    rw [hadv]
    exact hrun
  · rw [List.nil_append, Expression.strip, he, hs, Parser.strip_of_kindLit hp0.1]
    rfl

/-- The tokens of the text of a case. -/
theorem Lexes_case {c : MatchCase} (hc : c.admitted lib = true) {rest : Str}
    {ts : List (TokenType × Str)} (hl : Lexes lib rest ts) :
    Lexes lib (c.text ++ rest) (c.tokens ++ ts) := by
  simp only [MatchCase.admitted, Bool.and_eq_true, List.all_eq_true] at hc
  obtain ⟨⟨hP, hf⟩, hargs⟩ := hc
  have hsp : blank ' ' = true := by decide
  obtain ⟨s1, _, _, _⟩ := blank_facts lib hsp
  have hitems : ∀ i ∈ c.args.map (fun a => (a, [(IDENT, a)], identNode a)),
      LexesIn lib i.1 i.2.1 := by
    intro i hi
    obtain ⟨a, ha, rfl⟩ := List.mem_map.1 hi
    intro d rest' ts' hd hl'
    exact @Operand.lexes lib (.ident a) (hargs a ha) d hd rest' ts' hl'
  have hargsL := LexesIn_commaText _ hitems
  have e1 : (c.args.map (fun a => (a, [(IDENT, a)], identNode a))).map (fun i => i.1) =
      c.args := by
    simp [List.map_map, Function.comp_def]
  have e2 : commaSep ((c.args.map (fun a => (a, [(IDENT, a)], identNode a))).map
      (fun i => i.2.1)) = argTokens c.args := by
    simp [argTokens, List.map_map, Function.comp_def]
  rw [e1, e2] at hargsL
  have l9 := hargsL ')' rest _ (by decide) (Lexes_rparen lib hl)
  have l8 := Lexes_lparen lib l9
  have l7 := @Operand.lexes lib (.ident c.target) hf '(' (by decide) _ _ l8
  have l6 := Lexes_keyword lib (show ("flow".toList, FLOW) ∈ reserved by decide) s1
    (Lexes_blank lib hsp l7)
  have l5 := Lexes_colon lib (Lexes_blank lib hsp l6)
  have l4 := hargsL ')' _ _ (by decide) (Lexes_rparen lib l5)
  have l3 := Lexes_lparen lib l4
  have l2 := @Operand.lexes lib (.ident c.pattern) hP '(' (by decide) _ _ l3
  have l1 := Lexes_keyword lib (show ("when".toList, WHEN) ∈ reserved by decide) s1
    (Lexes_blank lib hsp l2)
  simpa [MatchCase.text, MatchCase.tokens, Operand.text, Operand.token, List.append_assoc]
    using l1

/-- The tokens of the cases of a `match` and of its closing brace. -/
theorem Lexes_cases {sep : Str} (hsep : sep.all blank = true) {rest : Str}
    {ts' : List (TokenType × Str)} (hl : Lexes lib rest ts') :
    ∀ cases : List MatchCase, (∀ c ∈ cases, c.admitted lib = true) →
      Lexes lib ((cases.map (fun c => sep ++ c.text)).flatten ++ (sep ++ '}' :: rest))
        ((cases.map MatchCase.tokens).flatten ++ (RBRACE, ['}']) :: ts') := by
  intro cases
  induction cases with
  | nil =>
    intro _
    exact Lexes_blanks lib (Lexes_rbrace lib hl) _ hsep
  | cons c cases ih =>
    intro h
    have hrest := ih (fun j hj => h j (List.mem_cons_of_mem _ hj))
    have := Lexes_blanks lib (Lexes_case (h c (List.mem_cons_self _ _)) hrest) _ hsep
    simpa [List.append_assoc] using this

/-- C20. For all non-keyword identifiers `r` and `s` and every list of `k` cases, `k`
from 0 on, written `when P_i(args_i): flow f_i(args_i)`, where `P_i`, `f_i` and the
arguments, separated by commas and possibly none, are non-keyword identifiers: the text
`dance r = match s` followed by the cases between braces (each case and the closing brace
after the white space `sep`) is parsed, for every fuel that is large enough, without a
diagnostic to exactly one statement, the `dance` statement for `r` whose value is the
match expression on the identifier `s` with exactly the `k` cases in source order, the
`i`-th with the pattern `Ident(P_i)` and the consequence `FlowExpr(Ident(f_i))`. -/
theorem match_statement (lib : StdLib) (r s sep : Str)
    (hr : identifier lib r = true ∧ LookupIdent r = IDENT)
    (hs : identifier lib s = true ∧ LookupIdent s = IDENT)
    (hsep : sep.all blank = true) (cases : List MatchCase)
    (hcases : ∀ c ∈ cases, c.admitted lib = true) :
    ∃ p prog,
      Returns (fun m => Parser.ParseProgram lib m (Parser.New lib (Lexer.New
        (matchText sep r s cases)))) (p, prog) ∧
      p.errors = [] ∧
      stripStatements prog.Statements =
        [danceNode r (matchNode s (cases.map MatchCase.node))] := by
  have hsp : blank ' ' = true := by decide
  obtain ⟨s1, s2, _, _⟩ := blank_facts lib hsp
  have hlex : Lexes lib (matchText sep r s cases)
      ((DANCE, "dance".toList) :: (IDENT, r) :: (ASSIGN, ['=']) :: (MATCH, "match".toList) ::
        (IDENT, s) :: (LBRACE, ['{']) ::
          ((cases.map MatchCase.tokens).flatten ++ [(RBRACE, ['}'])])) := by
    have l6 := Lexes_lbrace lib (Lexes_cases hsep (Lexes_nil lib) cases hcases)
    have l5 := Lexes_ident lib hs.1 s2 (Lexes_blank lib hsp l6)
    rw [hs.2] at l5
    have l4 := Lexes_keyword lib (show ("match".toList, MATCH) ∈ reserved by decide) s1
      (Lexes_blank lib hsp l5)
    have l3 := Lexes_assign lib (by simp) (by simp) (Lexes_blank lib hsp l4)
    have l2 := Lexes_ident lib hr.1 s2 (Lexes_blank lib hsp l3)
    rw [hr.2] at l2
    have l1 := Lexes_keyword lib (show ("dance".toList, DANCE) ∈ reserved by decide) s1
      (Lexes_blank lib hsp l2)
    simpa [matchText, blockText, List.map_map, Function.comp_def, List.append_assoc] using l1
  have hst := @ParsesStmt_dance lib _ _ (ParsesExpr_match "match".toList s ['{'] ['}'] cases)
    "dance".toList r ['=']
  obtain ⟨p, prog, hrun, he, hstrip⟩ := program_of_statements [(_, _)]
    (by intro x hx; rw [List.mem_singleton] at hx; subst hx; exact hst)
    (by simpa using hlex)
  exact ⟨p, prog, hrun, he, hstrip⟩

end MatchExpressions

section MatchExample

/-- Witness for `match_statement`: the text `dance result = match item` with the cases
`when Note(n): flow process_note(n)` and `when Rest(): flow handle_rest()`, each on a line
of its own. -/
theorem match_statement_witness :
    (identifier asciiLib "result".toList = true ∧ LookupIdent "result".toList = IDENT) ∧
    (identifier asciiLib "item".toList = true ∧ LookupIdent "item".toList = IDENT) ∧
    "\n    ".toList.all blank = true ∧
    (∀ c ∈ exampleCases, c.admitted asciiLib = true) ∧
    ∃ p prog,
      Returns (fun m => Parser.ParseProgram asciiLib m (Parser.New asciiLib (Lexer.New
        (matchText "\n    ".toList "result".toList "item".toList exampleCases)))) (p, prog) ∧
      p.errors = [] ∧
      stripStatements prog.Statements =
        [danceNode "result".toList (matchNode "item".toList
          (exampleCases.map MatchCase.node))] :=
  ⟨by decide, by decide, by decide, by decide,
    match_statement asciiLib "result".toList "item".toList "\n    ".toList (by decide)
      (by decide) (by decide) exampleCases (by decide)⟩

end MatchExample

/-! ## The text of an expression -/

section ExpressionText

open CodeGenerator

variable {lib : StdLib}

/-- An expression with the text `s` at the indentation of `g` is emitted by `g` as `s`. -/
theorem emitExpression_run {d : Nat} {e : Expression} {s : Str}
    (h : emitExpression lib d e = some s) (g : CodeGenerator) (hg : g.indent = d) :
    generateExpression lib e g = .ok (g.write s) := by
  unfold emitExpression at h
  cases hrun : generateExpression lib e { indent := d } with
  | ok g0 =>
    rw [hrun] at h
    injection h with h
    obtain ⟨s', e1, k⟩ := generateExpression_lockstep lib e _ _ hrun
    have : s' = s := by
      rw [← h, e1]
      simp [write]
    rw [← this]
    exact k g hg
  | error g0 msg => rw [hrun] at h; cases h
  | panic => rw [hrun] at h; cases h

/-- The text of the arguments of a call from the index `i` on. -/
theorem generateArguments_run {d : Nat} :
    ∀ (args : List (Expression × Str)), (∀ x ∈ args, emitExpression lib d x.1 = some x.2) →
      ∀ (i : Nat) (g : CodeGenerator), g.indent = d →
        generateArguments lib (args.map Prod.fst) i g =
          .ok (g.write (if i > 0 then (args.map (fun x => ',' :: ' ' :: x.2)).flatten
            else commaText (args.map Prod.snd))) := by
  intro args
  induction args with
  | nil =>
    intro _ i g _
    rw [List.map_nil, generateArguments]
    simp [commaText]
  | cons x args ih =>
    intro h i g hg
    have hx := h x (List.mem_cons_self _ _)
    have hrest := ih (fun y hy => h y (List.mem_cons_of_mem _ hy))
    rw [List.map_cons, generateArguments]
    by_cases hi : i > 0
    · rw [if_pos hi, emitExpression_run hx _ (by simpa using hg)]
      simp only [Res.bind]
      rw [hrest (i + 1) _ (by simpa using hg), if_pos (Nat.succ_pos i), if_pos hi]
      simp
    · rw [if_neg hi, emitExpression_run hx _ hg]
      simp only [Res.bind]
      rw [hrest (i + 1) _ (by simpa using hg), if_pos (Nat.succ_pos i), if_neg hi]
      simp [commaText, Function.comp_def]

/-- C26. For every infix node whose operands are emitted successfully at an indentation,
with the texts `L` and `R`: the node is emitted successfully at that indentation, and
its text is exactly `(`, `L`, a space, the operator, a space, `R` and `)`; the node has
one pair of parentheses of its own, whatever its operands are. -/
theorem infix_parenthesized (lib : StdLib) (d : Nat) (tok : Token) (left right : Expression)
    (operator L R : Str) (hl : emitExpression lib d left = some L)
    (hr : emitExpression lib d right = some R) :
    emitExpression lib d (.InfixExpression tok left operator right) =
      some ("(".toList ++ L ++ " ".toList ++ operator ++ " ".toList ++ R ++ ")".toList) := by
  unfold emitExpression
  rw [generateExpression, emitExpression_run hl _ rfl]
  simp only [Res.bind]
  rw [emitExpression_run hr _ rfl]
  simp [write]

/-- Witness for `infix_parenthesized`: the node for `(a + 1) * b`, whose left operand is
an infix node itself. -/
theorem infix_parenthesized_witness :
    emitExpression asciiLib 0
      (.InfixExpression {} (.Identifier {} ['a']) ['+'] (.IntegerLiteral {} 1)) =
      some "(a + 1)".toList ∧
    emitExpression asciiLib 0 (.Identifier {} ['b']) = some "b".toList ∧
    emitExpression asciiLib 0
      (.InfixExpression {}
        (.InfixExpression {} (.Identifier {} ['a']) ['+'] (.IntegerLiteral {} 1)) ['*']
        (.Identifier {} ['b'])) =
      some ("(".toList ++ "(a + 1)".toList ++ " ".toList ++ ['*'] ++ " ".toList ++ "b".toList ++
        ")".toList) :=
  ⟨by decide, by decide,
    infix_parenthesized asciiLib 0 {} _ _ ['*'] _ _ (by decide) (by decide)⟩

/-- C27. For every spin expression whose arguments `e_1 .. e_n`, `n` from 0 on, are
emitted successfully at an indentation, with the texts `t_1 .. t_n`: when the callee is
the identifier `print` or `println`, the text of the expression is `fmt.Println(`, the
texts of the arguments separated by a comma and a space, and `)`; for every other callee
that is emitted successfully, with the text `F`, it is `F`, `(`, the texts of the
arguments separated by a comma and a space, and `)`. -/
theorem spin_emission (lib : StdLib) (d : Nat) (tok : Token) (function : Expression)
    (args : List (Expression × Str)) (hargs : ∀ x ∈ args, emitExpression lib d x.1 = some x.2) :
    (isPrintName function = true →
      emitExpression lib d (.SpinExpression tok function (args.map Prod.fst)) =
        some ("fmt.Println(".toList ++ commaText (args.map Prod.snd) ++ ")".toList)) ∧
    (isPrintName function = false → ∀ F, emitExpression lib d function = some F →
      emitExpression lib d (.SpinExpression tok function (args.map Prod.fst)) =
        some (F ++ "(".toList ++ commaText (args.map Prod.snd) ++ ")".toList)) := by
  have hrun : ∀ g : CodeGenerator, generateSpinExpression function
      (generateExpression lib function) (generateArguments lib (args.map Prod.fst) 0) g =
      if isPrintName function = true then
        (generateArguments lib (args.map Prod.fst) 0 (g.write "fmt.Println(".toList)).bind
          fun g1 => .ok (g1.write ")".toList)
      else
        (generateExpression lib function g).bind fun g1 =>
          (generateArguments lib (args.map Prod.fst) 0 (g1.write "(".toList)).bind
            fun g2 => .ok (g2.write ")".toList) := by
    intro g
    cases function <;> rfl
  constructor
  · intro hp
    unfold emitExpression
    rw [generateExpression, hrun, if_pos hp, generateArguments_run args hargs 0 _ rfl]
    simp [Res.bind, write]
  · intro hp F hF
    unfold emitExpression
    rw [generateExpression, hrun, if_neg (by rw [hp]; simp), emitExpression_run hF _ rfl]
    simp only [Res.bind]
    rw [generateArguments_run args hargs 0 _ rfl]
    simp [write]

end ExpressionText
/-! ## The text of a statement -/

namespace CodeGenerator

theorem write_eq_put (g : CodeGenerator) (s : Str) :
    g.write s = g.put s g.scopeStack g.indent := rfl

theorem put_put (g : CodeGenerator) (s1 s2 : Str) (ss1 ss2 : List (List Str)) (i1 i2 : Nat) :
    (g.put s1 ss1 i1).put s2 ss2 i2 = g.put (s1 ++ s2) ss2 i2 := by
  simp [put]

theorem Uniform.from_lockstep {run : CodeGenerator → Res} (h : Lockstep run) : Uniform run := by
  intro b b' hb
  obtain ⟨s, e1, k⟩ := h b b' hb
  refine ⟨s, b.scopeStack, b.indent, by rw [e1]; rfl, fun g hi hs => ?_⟩
  rw [k g hi, write_eq_put, hi, hs]

theorem Uniform.chain {r1 r2 : CodeGenerator → Res} (h1 : Uniform r1) (h2 : Uniform r2) :
    Uniform (fun g => (r1 g).bind r2) := by
  intro b b' h
  obtain ⟨b1, hb1, hb2⟩ := Res.bind_eq_ok h
  obtain ⟨s1, ss1, i1, e1, k1⟩ := h1 b b1 hb1
  obtain ⟨s2, ss2, i2, e2, k2⟩ := h2 b1 b' hb2
  refine ⟨s1 ++ s2, ss2, i2, by rw [e2, e1, put_put], fun g hi hs => ?_⟩
  show (r1 g).bind r2 = _
  rw [k1 g hi hs]
  show r2 (g.put s1 ss1 i1) = _
  rw [k2 (g.put s1 ss1 i1) (by rw [e1]; rfl) (by rw [e1]; rfl), put_put]

/-- A step that does not fail, before a piece of emission. -/
theorem Uniform.after {f : CodeGenerator → CodeGenerator} {r : CodeGenerator → Res}
    (hf : Uniform (fun g => .ok (f g))) (hr : Uniform r) : Uniform (fun g => r (f g)) :=
  Uniform.chain hf hr

theorem uniform_write (s : Str) : Uniform (fun g => .ok (g.write s)) :=
  Uniform.from_lockstep (Lockstep.ok_write s)

/-- A step that does not fail and that changes the state uniformly. -/
theorem Uniform.pure_step {f : CodeGenerator → CodeGenerator}
    (F : Nat → List (List Str) → Str × List (List Str) × Nat)
    (hf : ∀ g : CodeGenerator,
      f g = g.put (F g.indent g.scopeStack).1 (F g.indent g.scopeStack).2.1
        (F g.indent g.scopeStack).2.2) :
    Uniform (fun g => .ok (f g)) := by
  intro b b' h
  injection h with h
  refine ⟨_, _, _, by rw [← h, hf b], fun g hi hs => ?_⟩
  show Res.ok (f g) = _
  rw [hf g, hi, hs]

theorem uniform_dance (name : Str) :
    Uniform (fun g : CodeGenerator => .ok
      (if g.writeIndent.isVarDeclared name then
        (g.writeIndent.write name).write " = ".toList
      else ((g.writeIndent.write name).write " := ".toList).declareVar name)) := by
  refine Uniform.pure_step (fun i ss =>
    match ss with
    | [] => (List.replicate i '\t' ++ name ++ " := ".toList, [], i)
    | top :: rest =>
      if name ∈ top then (List.replicate i '\t' ++ name ++ " = ".toList, top :: rest, i)
      else (List.replicate i '\t' ++ name ++ " := ".toList, (name :: top) :: rest, i))
    (fun g => ?_)
  cases hb : g.scopeStack with
  | nil => simp [write, writeIndent, put, declareVar, isVarDeclared, hb]
  | cons top rest =>
    by_cases hd : name ∈ top
    · simp [write, writeIndent, put, declareVar, isVarDeclared, hb, hd]
    · simp [write, writeIndent, put, declareVar, isVarDeclared, hb, hd]

theorem generateDanceStatement_uniform (lib : StdLib) (name : Identifier) (value : Expression) :
    Uniform (generateDanceStatement lib name value) :=
  Uniform.chain (Uniform.after (uniform_dance name.Value)
    (Uniform.from_lockstep (generateExpression_lockstep lib value))) (uniform_write _)

theorem uniform_enter (t : Str) :
    Uniform (fun g : CodeGenerator => .ok (((g.writeIndent.write t).pushScope).incIndent)) := by
  refine Uniform.pure_step (fun i ss =>
    (List.replicate i '\t' ++ t,
      (match ss with
      | [] => [[]]
      | top :: rest => top :: top :: rest), i + 1)) (fun g => ?_)
  cases hb : g.scopeStack <;> simp [write, writeIndent, put, pushScope, incIndent, hb]

theorem uniform_leave (t : Str) :
    Uniform (fun g : CodeGenerator => .ok (((g.decIndent.popScope).writeIndent).write t)) := by
  refine Uniform.pure_step (fun i ss => (List.replicate (i - 1) '\t' ++ t, ss.tail, i - 1))
    (fun g => ?_)
  cases hb : g.scopeStack <;> simp [write, writeIndent, put, popScope, decIndent, hb]

theorem generateStartStatement_uniform {statement : CodeGenerator → Res}
    (h : Uniform statement) : Uniform (generateStartStatement statement) :=
  Uniform.chain (Uniform.after (uniform_enter _) h) (uniform_leave _)

end CodeGenerator
namespace CodeGenerator

theorem uniform_writeIndent : Uniform (fun g : CodeGenerator => .ok g.writeIndent) :=
  Uniform.pure_step (fun i ss => (List.replicate i '\t', ss, i)) (fun _ => rfl)

theorem generateExpressionStatement_uniform (lib : StdLib) (expression : Expression) :
    Uniform (generateExpressionStatement lib expression) :=
  Uniform.chain (Uniform.after uniform_writeIndent
    (Uniform.from_lockstep (generateExpression_lockstep lib expression))) (uniform_write _)

theorem generateSendStatement_uniform (lib : StdLib) (channel value : Expression) :
    Uniform (generateSendStatement lib channel value) :=
  Uniform.chain (Uniform.after uniform_writeIndent
    (Uniform.from_lockstep (generateExpression_lockstep lib channel)))
    (Uniform.chain (Uniform.after (uniform_write _)
      (Uniform.from_lockstep (generateExpression_lockstep lib value))) (uniform_write _))

theorem uniform_for (v : Str) :
    Uniform (fun g : CodeGenerator => .ok
      (((g.writeIndent.write "for ".toList).write v).write " := ".toList)) :=
  Uniform.pure_step (fun i ss => (List.replicate i '\t' ++ "for ".toList ++ v ++ " := ".toList, ss, i))
    (fun g => by simp [write, writeIndent, put])

theorem uniform_to (v : Str) :
    Uniform (fun g : CodeGenerator => .ok
      (((g.write "; ".toList).write v).write " <= ".toList)) :=
  Uniform.pure_step (fun i ss => ("; ".toList ++ v ++ " <= ".toList, ss, i))
    (fun g => by simp [write, put])

theorem uniform_body (v : Str) :
    Uniform (fun g : CodeGenerator => .ok
      ((((((g.write "; ".toList).write v).write "++ \x7b\n".toList).pushScope).declareVar
        v).incIndent)) := by
  refine Uniform.pure_step (fun i ss =>
    ("; ".toList ++ v ++ "++ \x7b\n".toList,
      (match ss with
      | [] => [[v]]
      | top :: rest => (v :: top) :: top :: rest), i + 1)) (fun g => ?_)
  cases hb : g.scopeStack <;> simp [write, put, pushScope, declareVar, incIndent, hb]

theorem generateSwayStatement_uniform (lib : StdLib) (variable_ : Identifier)
    (from_ to_ : Expression) {body : CodeGenerator → Res} (h : Uniform body) :
    Uniform (generateSwayStatement lib variable_ from_ to_ body) :=
  Uniform.chain (Uniform.after (uniform_for _)
      (Uniform.from_lockstep (generateExpression_lockstep lib from_)))
    (Uniform.chain (Uniform.after (uniform_to _)
        (Uniform.from_lockstep (generateExpression_lockstep lib to_)))
      (Uniform.chain (Uniform.after (uniform_body _) h) (uniform_leave _)))

theorem uniform_if : Uniform (fun g : CodeGenerator => .ok (g.writeIndent.write "if ".toList)) :=
  Uniform.pure_step (fun i ss => (List.replicate i '\t' ++ "if ".toList, ss, i))
    (fun g => by simp [write, writeIndent, put])

theorem uniform_block (t : Str) :
    Uniform (fun g : CodeGenerator => .ok (((g.write t).pushScope).incIndent)) := by
  refine Uniform.pure_step (fun i ss =>
    (t, (match ss with
      | [] => [[]]
      | top :: rest => top :: top :: rest), i + 1)) (fun g => ?_)
  cases hb : g.scopeStack <;> simp [write, put, pushScope, incIndent, hb]

theorem uniform_close :
    Uniform (fun g : CodeGenerator => .ok
      ((((g.decIndent.popScope).writeIndent).write "\x7d".toList).write "\n".toList)) :=
  @Uniform.after (fun g => ((g.decIndent.popScope).writeIndent).write "\x7d".toList)
    (fun g => .ok (g.write "\n".toList)) (uniform_leave _) (uniform_write _)

theorem generateIfStatement_uniform (lib : StdLib) (condition : Expression)
    {consequence : CodeGenerator → Res} (hc : Uniform consequence) :
    ∀ alternative : Option (CodeGenerator → Res),
      (∀ alt, alternative = some alt → Uniform alt) →
      Uniform (generateIfStatement lib condition consequence alternative)
  | none, _ =>
    Uniform.chain (Uniform.after uniform_if
        (Uniform.from_lockstep (generateExpression_lockstep lib condition)))
      (Uniform.chain (Uniform.after (uniform_block _) hc)
        uniform_close)
  | some alt, ha =>
    Uniform.chain (Uniform.after uniform_if
        (Uniform.from_lockstep (generateExpression_lockstep lib condition)))
      (Uniform.chain (Uniform.after (uniform_block _) hc)
        (Uniform.after (uniform_leave _)
          (Uniform.chain (Uniform.after (uniform_block _) (ha alt rfl)) uniform_close)))

mutual

theorem generateStatement_uniform (lib : StdLib) :
    ∀ s : Statement, Uniform (generateStatement lib s)
  | .DanceStatement tok name value => by
    have : generateStatement lib (.DanceStatement tok name value) =
        generateDanceStatement lib name value := by
      funext g; rw [generateStatement]
    rw [this]; exact generateDanceStatement_uniform lib name value
  | .nilDanceStatement => by
    intro g g' hrun; rw [generateStatement] at hrun; cases hrun
  | .ExpressionStatement tok expression => by
    have : generateStatement lib (.ExpressionStatement tok expression) =
        generateExpressionStatement lib expression := by
      funext g; rw [generateStatement]
    rw [this]; exact generateExpressionStatement_uniform lib expression
  | .SwayStatement tok variable_ from_ to_ (.mk btok stmts) => by
    have : generateStatement lib (.SwayStatement tok variable_ from_ to_ (.mk btok stmts)) =
        generateSwayStatement lib variable_ from_ to_ (generateStatements lib stmts) := by
      funext g; rw [generateStatement]
    rw [this]
    exact generateSwayStatement_uniform lib variable_ from_ to_
      (generateStatements_uniform lib stmts)
  | .nilSwayStatement => by
    intro g g' hrun; rw [generateStatement] at hrun; cases hrun
  | .StartStatement tok statement => by
    have : generateStatement lib (.StartStatement tok statement) =
        generateStartStatement (generateStatement lib statement) := by
      funext g; rw [generateStatement]
    rw [this]; exact generateStartStatement_uniform (generateStatement_uniform lib statement)
  | .SendStatement tok channel value => by
    have : generateStatement lib (.SendStatement tok channel value) =
        generateSendStatement lib channel value := by
      funext g; rw [generateStatement]
    rw [this]; exact generateSendStatement_uniform lib channel value
  | .nilSendStatement => by
    intro g g' hrun; rw [generateStatement] at hrun; cases hrun
  | .IfStatement tok condition (.mk btok stmts) none => by
    have : generateStatement lib (.IfStatement tok condition (.mk btok stmts) none) =
        generateIfStatement lib condition (generateStatements lib stmts) none := by
      funext g; rw [generateStatement]
    rw [this]
    exact generateIfStatement_uniform lib condition (generateStatements_uniform lib stmts) none
      (fun alt h => by cases h)
  | .IfStatement tok condition (.mk btok stmts) (some (.mk atok alt)) => by
    have : generateStatement lib
        (.IfStatement tok condition (.mk btok stmts) (some (.mk atok alt))) =
        generateIfStatement lib condition (generateStatements lib stmts)
          (some (generateStatements lib alt)) := by
      funext g; rw [generateStatement]
    rw [this]
    exact generateIfStatement_uniform lib condition (generateStatements_uniform lib stmts) _
      (fun a h => by
        injection h with h
        rw [← h]
        exact generateStatements_uniform lib alt)
  | .nilIfStatement => by
    intro g g' hrun; rw [generateStatement] at hrun; cases hrun
  | .Block b => by
    intro g g' hrun; rw [generateStatement] at hrun; cases hrun
  | .nil => by
    intro g g' hrun; rw [generateStatement] at hrun; cases hrun

theorem generateStatements_uniform (lib : StdLib) :
    ∀ stmts : List Statement, Uniform (generateStatements lib stmts)
  | [] => by
    have : generateStatements lib [] = fun g => .ok g := by
      funext g; rw [generateStatements]
    rw [this]; exact Uniform.from_lockstep Lockstep.id
  | s :: rest => by
    have : generateStatements lib (s :: rest) =
        fun g => (generateStatement lib s g).bind fun g1 => generateStatements lib rest g1 := by
      funext g; rw [generateStatements]
    rw [this]
    exact Uniform.chain (generateStatement_uniform lib s) (generateStatements_uniform lib rest)

end

/-- What a successful run of a piece of emission wrote is its text at the indentation
and with the scope stack of the state in which it started. -/
theorem Uniform.text {run : CodeGenerator → Res} (h : Uniform run) {g g' : CodeGenerator}
    (hrun : run g = .ok g') :
    ∃ B g0, run { indent := g.indent, scopeStack := g.scopeStack } = .ok g0 ∧ g0.output = B ∧
      g'.output = g.output ++ B := by
  obtain ⟨s, ss, i, e, k⟩ := h g g' hrun
  refine ⟨s, _, k { indent := g.indent, scopeStack := g.scopeStack } rfl rfl, ?_, ?_⟩
  · simp [put]
  · rw [e]; rfl

theorem emitStatements_of_run {lib : StdLib} {stmts : List Statement} {g g' : CodeGenerator}
    (hrun : generateStatements lib stmts g = .ok g') :
    ∃ B, emitStatements lib g.indent g.scopeStack stmts = some B ∧
      g'.output = g.output ++ B := by
  obtain ⟨B, g0, h0, hB, ho⟩ := (generateStatements_uniform lib stmts).text hrun
  refine ⟨B, ?_, ho⟩
  unfold emitStatements
  simp only [h0, hB]

theorem emitStatement_of_run {lib : StdLib} {s : Statement} {g g' : CodeGenerator}
    (hrun : generateStatement lib s g = .ok g') :
    ∃ B, emitStatement lib g.indent g.scopeStack s = some B ∧ g'.output = g.output ++ B := by
  obtain ⟨B, g0, h0, hB, ho⟩ := (generateStatement_uniform lib s).text hrun
  refine ⟨B, ?_, ho⟩
  unfold emitStatement
  simp only [h0, hB]

end CodeGenerator
section StatementText

open CodeGenerator

variable {lib : StdLib}

/-- A successful run of the loop over a statement list keeps the indentation. -/
theorem generateStatements_indent {stmts : List Statement} {g g' : CodeGenerator}
    (hrun : generateStatements lib stmts g = .ok g') (hs : g.scopeStack ≠ []) :
    g'.indent = g.indent := by
  obtain ⟨top, rest, e⟩ := List.exists_cons_of_ne_nil hs
  exact (generateStatements_scoped lib stmts g g' top rest hrun e).1

theorem generateStatement_indent {s : Statement} {g g' : CodeGenerator}
    (hrun : generateStatement lib s g = .ok g') (hs : g.scopeStack ≠ []) :
    g'.indent = g.indent := by
  obtain ⟨top, rest, e⟩ := List.exists_cons_of_ne_nil hs
  exact (generateStatement_scoped lib s g g' top rest hrun e).1

theorem pushScope_ne_nil (g : CodeGenerator) : g.pushScope.scopeStack ≠ [] := by
  cases h : g.scopeStack <;> simp [pushScope, h]

theorem declareVar_ne_nil {g : CodeGenerator} (h : g.scopeStack ≠ []) (v : Str) :
    (g.declareVar v).scopeStack ≠ [] := by
  cases hs : g.scopeStack with
  | nil => exact absurd hs h
  | cons top rest => simp [declareVar, hs]

theorem pushScope_congr {x y : CodeGenerator} (h : x.scopeStack = y.scopeStack) :
    x.pushScope.scopeStack = y.pushScope.scopeStack := by
  cases hs : y.scopeStack <;> simp [pushScope, h, hs]

theorem declareVar_congr {x y : CodeGenerator} (h : x.scopeStack = y.scopeStack) (v : Str) :
    (x.declareVar v).scopeStack = (y.declareVar v).scopeStack := by
  cases hs : y.scopeStack <;> simp [declareVar, h, hs]

/-- The state in which a block is emitted, after a text. -/
theorem block_entry (x : CodeGenerator) (t : Str) :
    (((x.write t).pushScope).incIndent).indent = x.indent + 1 ∧
    (((x.write t).pushScope).incIndent).scopeStack = x.pushScope.scopeStack ∧
    (((x.write t).pushScope).incIndent).output = x.output ++ t := by
  cases hs : x.scopeStack <;> simp [write, pushScope, incIndent, hs]

/-- The state in which the body of a sway statement is emitted. -/
theorem sway_entry (x : CodeGenerator) (t v : Str) :
    ((((x.write t).pushScope).declareVar v).incIndent).indent = x.indent + 1 ∧
    ((((x.write t).pushScope).declareVar v).incIndent).scopeStack =
      (x.pushScope.declareVar v).scopeStack ∧
    ((((x.write t).pushScope).declareVar v).incIndent).output = x.output ++ t := by
  cases hs : x.scopeStack <;> simp [write, pushScope, declareVar, incIndent, hs]

/-- The state after a block: the closing text is written at the indentation before the
block. -/
theorem block_exit (exit : CodeGenerator) (close : Str) :
    (((exit.decIndent.popScope).writeIndent).write close).output =
      exit.output ++ (List.replicate (exit.indent - 1) '\t' ++ close) ∧
    (((exit.decIndent.popScope).writeIndent).write close).indent = exit.indent - 1 ∧
    (((exit.decIndent.popScope).writeIndent).write close).scopeStack = exit.scopeStack.tail := by
  cases hs : exit.scopeStack <;> simp [write, writeIndent, popScope, decIndent, hs]

/-- C28. When a sway statement with the variable `v`, the bounds `from` and `to` and
the body `body` is emitted successfully by a generator whose indentation is `d`: the
bounds have texts `F` and `T` at the indentation `d`, the statements of the body,
emitted in order at the indentation `d + 1` in a new scope in which `v` is declared,
have a text `B`, and what the statement appends to the output is exactly `d` tabs,
`for v := F; v <= T; v++`, an opening brace and a newline, then `B`, then `d` tabs, a
closing brace and a newline. -/
theorem sway_emission (lib : StdLib) (g g' : CodeGenerator) (tok : Token) (v : Identifier)
    (from_ to_ : Expression) (btok : Token) (body : List Statement)
    (h : generateStatement lib (.SwayStatement tok v from_ to_ (.mk btok body)) g = .ok g') :
    ∃ F T B, emitExpression lib g.indent from_ = some F ∧
      emitExpression lib g.indent to_ = some T ∧
      emitStatements lib (g.indent + 1) (g.pushScope.declareVar v.Value).scopeStack body =
        some B ∧
      g'.output = g.output ++ (List.replicate g.indent '\t' ++ "for ".toList ++ v.Value ++
        " := ".toList ++ F ++ "; ".toList ++ v.Value ++ " <= ".toList ++ T ++ "; ".toList ++
        v.Value ++ "++ \x7b\n".toList ++ B ++ List.replicate g.indent '\t' ++
        "\x7d\n".toList) := by
  rw [generateStatement, generateSwayStatement] at h
  obtain ⟨g1, h1, ha⟩ := Res.bind_eq_ok h
  obtain ⟨g2, h2, hb⟩ := Res.bind_eq_ok ha
  obtain ⟨g3, h3, hc⟩ := Res.bind_eq_ok hb
  injection hc with hfin
  obtain ⟨F, e1, hF⟩ := generateExpression_ok h1
  obtain ⟨T, e2, hT⟩ := generateExpression_ok h2
  have a1 : g1.indent = g.indent ∧ g1.scopeStack = g.scopeStack ∧
      g1.output = g.output ++ (List.replicate g.indent '\t' ++ "for ".toList ++ v.Value ++
        " := ".toList ++ F) := by
    rw [e1]
    simp [write, writeIndent]
  have a2 : g2.indent = g.indent ∧ g2.scopeStack = g.scopeStack ∧
      g2.output = g1.output ++ ("; ".toList ++ v.Value ++ " <= ".toList ++ T) := by
    rw [e2]
    simp [write, a1.1, a1.2.1]
  simp only [write_write] at h3
  obtain ⟨i1, i2, i3⟩ := sway_entry g2 ("; ".toList ++ v.Value ++ "++ \x7b\n".toList) v.Value
  obtain ⟨B, hB, ho⟩ := emitStatements_of_run h3
  have hi := generateStatements_indent h3
    (declareVar_ne_nil (pushScope_ne_nil _) v.Value)
  rw [i1, i2] at hB
  rw [i3] at ho
  rw [i1] at hi
  have hsc : (g2.pushScope.declareVar v.Value).scopeStack =
      (g.pushScope.declareVar v.Value).scopeStack :=
    declareVar_congr (pushScope_congr a2.2.1) _
  refine ⟨F, T, B, by simpa [writeIndent] using hF, ?_, ?_, ?_⟩
  · simpa [write, a1.1] using hT
  · rw [← hsc, ← a2.1]
    exact hB
  · rw [← hfin, (block_exit g3 _).1, ho, hi, a2.2.2, a1.2.2, a2.1]
    simp

end StatementText
section BlockTextsEmitted

open CodeGenerator

variable {lib : StdLib}

/-- C29. When a start statement with the inner statement `inner` is emitted
successfully by a generator whose indentation is `d`: the inner statement, emitted at
the indentation `d + 1` in a new scope, has a text `B`, and what the statement appends
to the output is exactly `d` tabs, `go func()`, an opening brace and a newline, then
`B`, then `d` tabs, a closing brace, `()` and a newline: the inner statement is the body
of an anonymous function that is launched as a goroutine at once. -/
theorem start_emission (lib : StdLib) (g g' : CodeGenerator) (tok : Token) (inner : Statement)
    (h : generateStatement lib (.StartStatement tok inner) g = .ok g') :
    ∃ B, emitStatement lib (g.indent + 1) g.pushScope.scopeStack inner = some B ∧
      g'.output = g.output ++ (List.replicate g.indent '\t' ++ "go func() \x7b\n".toList ++ B ++
        List.replicate g.indent '\t' ++ "\x7d()\n".toList) := by
  rw [generateStatement, generateStartStatement] at h
  obtain ⟨g1, h1, ha⟩ := Res.bind_eq_ok h
  injection ha with hfin
  rw [writeIndent_eq, write_write] at h1
  obtain ⟨i1, i2, i3⟩ := block_entry g (List.replicate g.indent '\t' ++ "go func() \x7b\n".toList)
  obtain ⟨B, hB, ho⟩ := emitStatement_of_run h1
  have hi := generateStatement_indent h1 (by rw [i2]; exact pushScope_ne_nil g)
  rw [i1, i2] at hB
  rw [i3] at ho
  rw [i1] at hi
  refine ⟨B, hB, ?_⟩
  rw [← hfin, (block_exit g1 _).1, ho, hi]
  simp

/-- The text of an if statement at the indentation `d`: the texts `C` of the
condition and `Th` of the consequence and, when there is an alternative, its text. -/
theorem if_text_shape (g g' : CodeGenerator) (condition : Expression)
    (consequence : CodeGenerator → Res) (alternative : Option (CodeGenerator → Res))
    (h : generateIfStatement lib condition consequence alternative g = .ok g') :
    ∃ C g2 g2', emitExpression lib g.indent condition = some C ∧
      consequence g2 = .ok g2' ∧ g2.indent = g.indent + 1 ∧
      g2.scopeStack = g.pushScope.scopeStack ∧
      g2.output = g.output ++ (List.replicate g.indent '\t' ++ "if ".toList ++ C ++
        " \x7b\n".toList) ∧
      match alternative with
      | none =>
        g' = ((((g2'.decIndent.popScope).writeIndent).write "\x7d".toList).write "\n".toList)
      | some alt =>
        ∃ g4, alt ((((((g2'.decIndent.popScope).writeIndent).write "\x7d".toList).write
            " else \x7b\n".toList).pushScope).incIndent) = .ok g4 ∧
          g' = ((((g4.decIndent.popScope).writeIndent).write "\x7d".toList).write
            "\n".toList) := by
  unfold CodeGenerator.generateIfStatement at h
  obtain ⟨g1, h1, ha⟩ := Res.bind_eq_ok h
  obtain ⟨g2', h2, hb⟩ := Res.bind_eq_ok ha
  obtain ⟨C, e1, hC⟩ := generateExpression_ok h1
  have a1 : g1.indent = g.indent ∧ g1.scopeStack = g.scopeStack ∧
      g1.output = g.output ++ (List.replicate g.indent '\t' ++ "if ".toList ++ C) := by
    rw [e1]
    simp [write, writeIndent]
  obtain ⟨i1, i2, i3⟩ := block_entry g1 " \x7b\n".toList
  refine ⟨C, _, g2', by simpa [writeIndent] using hC, h2, by rw [i1, a1.1],
    by rw [i2]; exact pushScope_congr a1.2.1, by rw [i3, a1.2.2]; simp, ?_⟩
  cases alternative with
  | none =>
    simp only [] at hb ⊢
    injection hb with hfin
    exact hfin.symm
  | some alt =>
    simp only [] at hb ⊢
    obtain ⟨g4, h4, hc⟩ := Res.bind_eq_ok hb
    injection hc with hfin
    exact ⟨g4, h4, hfin.symm⟩

theorem tail_pushScope (g : CodeGenerator) : g.pushScope.scopeStack.tail = g.scopeStack := by
  cases hs : g.scopeStack <;> simp [pushScope, hs]

/-- C30. When an if statement with the condition `cond`, the consequence `thn` and the
alternative `alt`, which may be nil, is emitted successfully by a generator whose
indentation is `d`: the condition has a text `C` at
the indentation `d`, the statements of the consequence, emitted in order at the
indentation `d + 1` in a new scope, have a text `Th`, and what the statement appends to
the output is exactly `d` tabs, `if C`, an opening brace and a newline, `Th`, `d` tabs and
a closing brace, then, when the alternative is nil, a newline, and when the
alternative is a block, ` else`, an opening brace and a newline, the text of the
statements of that block at the indentation `d + 1` in a new scope, `d` tabs, a closing
brace and a newline. -/
theorem if_emission (lib : StdLib) (g g' : CodeGenerator) (tok : Token) (cond : Expression)
    (btok : Token) (thn : List Statement) (alt : Option BlockStatement)
    (h : generateStatement lib (.IfStatement tok cond (.mk btok thn) alt) g = .ok g') :
    ∃ C Th, emitExpression lib g.indent cond = some C ∧
      emitStatements lib (g.indent + 1) g.pushScope.scopeStack thn = some Th ∧
      match alt with
      | none =>
        g'.output = g.output ++ (List.replicate g.indent '\t' ++ "if ".toList ++ C ++
          " \x7b\n".toList ++ Th ++ List.replicate g.indent '\t' ++ "\x7d".toList ++
          "\n".toList)
      | some (.mk _ els) =>
        ∃ El, emitStatements lib (g.indent + 1) g.pushScope.scopeStack els = some El ∧
          g'.output = g.output ++ (List.replicate g.indent '\t' ++ "if ".toList ++ C ++
            " \x7b\n".toList ++ Th ++ List.replicate g.indent '\t' ++ "\x7d".toList ++
            " else \x7b\n".toList ++ El ++ List.replicate g.indent '\t' ++ "\x7d".toList ++
            "\n".toList) := by
  cases alt with
  | none =>
    rw [generateStatement] at h
    obtain ⟨C, g2, g2', hC, h2, i1, i2, i3, hfin⟩ := if_text_shape g g' cond _ none h
    simp only [] at hfin ⊢
    obtain ⟨Th, hT, ho⟩ := emitStatements_of_run h2
    have hi := generateStatements_indent h2 (by rw [i2]; exact pushScope_ne_nil g)
    rw [i1, i2] at hT
    rw [i3] at ho
    rw [i1] at hi
    refine ⟨C, Th, hC, hT, ?_⟩
    rw [hfin, write_output, (block_exit g2' _).1, ho, hi]
    simp
  | some b =>
    obtain ⟨atok, els⟩ := b
    rw [generateStatement] at h
    obtain ⟨C, g2, g2', hC, h2, i1, i2, i3, hfin⟩ := if_text_shape g g' cond _ (some _) h
    simp only [] at hfin ⊢
    obtain ⟨g4, h4, hfin⟩ := hfin
    obtain ⟨Th, hT, ho⟩ := emitStatements_of_run h2
    have hi := generateStatements_indent h2 (by rw [i2]; exact pushScope_ne_nil g)
    obtain ⟨top, rest, e2⟩ := List.exists_cons_of_ne_nil
      (show g2.scopeStack ≠ [] by rw [i2]; exact pushScope_ne_nil g)
    have hsc := (generateStatements_scoped lib thn g2 g2' top rest h2 e2).2.2
    rw [i1, i2] at hT
    rw [i3] at ho
    rw [i1] at hi
    obtain ⟨x1, x2, x3⟩ := block_exit g2' "\x7d".toList
    obtain ⟨j1, j2, j3⟩ := block_entry
      (((g2'.decIndent.popScope).writeIndent).write "\x7d".toList) " else \x7b\n".toList
    obtain ⟨El, hE, ho4⟩ := emitStatements_of_run h4
    have hi4 := generateStatements_indent h4 (by rw [j2]; exact pushScope_ne_nil _)
    have hrest : g.scopeStack = rest := by
      have := tail_pushScope g
      rw [← i2, e2] at this
      exact this.symm
    rw [j1, j2, x2, hi] at hE
    rw [j3, x1] at ho4
    rw [j1, x2, hi] at hi4
    have hsc2 : (((g2'.decIndent.popScope).writeIndent).write "\x7d".toList).pushScope.scopeStack =
        g.pushScope.scopeStack := by
      refine pushScope_congr ?_
      rw [x3, hsc, hrest]
      rfl
    rw [hsc2] at hE
    refine ⟨C, Th, hC, hT, El, by simpa using hE, ?_⟩
    rw [hfin, write_output, (block_exit g4 _).1, ho4, hi4, ho, hi]
    simp

end BlockTextsEmitted
/-! ## The text of a program -/

namespace CodeGenerator

theorem addImport_fmt (g : CodeGenerator)
    (h : g.imports = [] ∨ g.imports = ["fmt".toList]) :
    ∃ I, g.addImport "fmt".toList = { g with imports := I } ∧
      (I = [] ∨ I = ["fmt".toList]) := by
  rcases h with h | h
  · exact ⟨["fmt".toList], by simp [addImport, h], Or.inr rfl⟩
  · refine ⟨["fmt".toList], ?_, Or.inr rfl⟩
    rw [addImport, if_pos (by rw [h]; exact List.mem_singleton.2 rfl), ← h]

mutual

/-- The first pass changes the import set only, and the only import is `fmt`. -/
theorem collectImports_imports :
    ∀ (s : Statement) (g g' : CodeGenerator), collectImports s g = some g' →
      (g.imports = [] ∨ g.imports = ["fmt".toList]) →
      ∃ I, g' = { g with imports := I } ∧ (I = [] ∨ I = ["fmt".toList])
  | .DanceStatement tok name value, g, g', h, hi => by
    rw [collectImports] at h
    injection h with h
    exact ⟨g.imports, h.symm, hi⟩
  | .ExpressionStatement tok expression, g, g', h, hi => by
    rw [collectImports] at h
    split_ifs at h
    · injection h with h
      rw [← h]
      exact addImport_fmt g hi
    · injection h with h
      exact ⟨g.imports, h.symm, hi⟩
  | .SwayStatement tok variable_ from_ to_ (.mk btok stmts), g, g', h, hi => by
    rw [collectImports] at h
    exact collectImportsFromBlock_imports stmts g g' h hi
  | .StartStatement tok statement, g, g', h, hi => by
    rw [collectImports] at h
    exact collectImports_imports statement g g' h hi
  | .SendStatement tok channel value, g, g', h, hi => by
    rw [collectImports] at h
    injection h with h
    exact ⟨g.imports, h.symm, hi⟩
  | .IfStatement tok condition (.mk btok stmts) none, g, g', h, hi => by
    rw [collectImports] at h
    exact collectImportsFromBlock_imports stmts g g' h hi
  | .IfStatement tok condition (.mk btok stmts) (some (.mk atok alt)), g, g', h, hi => by
    rw [collectImports] at h
    cases h1 : collectImportsFromBlock stmts g with
    | none => rw [h1] at h; cases h
    | some g1 =>
      rw [h1] at h
      obtain ⟨I1, e1, k1⟩ := collectImportsFromBlock_imports stmts g g1 h1 hi
      obtain ⟨I2, e2, k2⟩ := collectImportsFromBlock_imports alt g1 g' h (by rw [e1]; exact k1)
      exact ⟨I2, by rw [e2, e1], k2⟩
  | .nil, g, g', h, hi => by
    rw [collectImports] at h
    injection h with h
    exact ⟨g.imports, h.symm, hi⟩
  | .nilDanceStatement, g, g', h, hi => by
    rw [collectImports] at h
    injection h with h
    exact ⟨g.imports, h.symm, hi⟩
  | .nilSwayStatement, g, g', h, hi => by rw [collectImports] at h; cases h
  | .nilSendStatement, g, g', h, hi => by
    rw [collectImports] at h
    injection h with h
    exact ⟨g.imports, h.symm, hi⟩
  | .nilIfStatement, g, g', h, hi => by rw [collectImports] at h; cases h
  | .Block b, g, g', h, hi => by
    rw [collectImports] at h
    injection h with h
    exact ⟨g.imports, h.symm, hi⟩

theorem collectImportsFromBlock_imports :
    ∀ (stmts : List Statement) (g g' : CodeGenerator),
      collectImportsFromBlock stmts g = some g' →
      (g.imports = [] ∨ g.imports = ["fmt".toList]) →
      ∃ I, g' = { g with imports := I } ∧ (I = [] ∨ I = ["fmt".toList])
  | [], g, g', h, hi => by
    rw [collectImportsFromBlock] at h
    injection h with h
    exact ⟨g.imports, h.symm, hi⟩
  | s :: rest, g, g', h, hi => by
    rw [collectImportsFromBlock] at h
    cases h1 : collectImports s g with
    | none => rw [h1] at h; cases h
    | some g1 =>
      rw [h1] at h
      obtain ⟨I1, e1, k1⟩ := collectImports_imports s g g1 h1 hi
      obtain ⟨I2, e2, k2⟩ := collectImportsFromBlock_imports rest g1 g' h (by rw [e1]; exact k1)
      exact ⟨I2, by rw [e2, e1], k2⟩

end

end CodeGenerator

section ProgramText

open CodeGenerator

/-- C25. When `Generate` on a new generator returns nil as its error for a program:
the first pass leaves an import set that is empty or holds `fmt` alone, the top-level
statements, emitted in order at the indentation 1 in the scope of a new generator, have
a text `B`, and the text returned is exactly `package main` and an empty line, then
the import block `import (`, a tab and `"fmt"`, `)` and an empty line when the import set
is not empty and nothing when it is empty, then `func main()` with an opening brace and a
newline, then `B`, then a closing brace and a newline. For the empty program the text
returned is `package main`, an empty line, `func main()` with an opening brace, a
newline, a closing brace and a newline. -/
theorem generate_text (lib : StdLib) (program : Program) (g : CodeGenerator)
    (h : Generate lib CodeGenerator.New program = .ok g) :
    (∃ I B, collectImportsFromBlock program.Statements
        (CodeGenerator.New.write "package main\n\n".toList) =
        some { CodeGenerator.New.write "package main\n\n".toList with imports := I } ∧
      (I = [] ∨ I = ["fmt".toList]) ∧
      emitStatements lib 1 [[]] program.Statements = some B ∧
      g.output = "package main\n\n".toList ++
        (if I = [] then [] else "import (\n\t\"fmt\"\n)\n\n".toList) ++
        "func main() \x7b\n".toList ++ B ++ "\x7d\n".toList) ∧
    ∃ g0, Generate lib CodeGenerator.New { Statements := [] } = .ok g0 ∧
      g0.output = "package main\n\nfunc main() \x7b\n\x7d\n".toList := by
  refine ⟨?_, _, rfl, rfl⟩
  unfold CodeGenerator.Generate at h
  cases h2 : collectImportsFromBlock program.Statements
      (CodeGenerator.New.write "package main\n\n".toList) with
  | none => simp only [h2] at h; cases h
  | some g2 =>
    simp only [h2] at h
    obtain ⟨I, e2, hI⟩ := collectImportsFromBlock_imports _ _ _ h2 (Or.inl rfl)
    obtain ⟨g4, h4, hfin⟩ := Res.bind_eq_ok h
    injection hfin with hfin
    obtain ⟨B, hB, ho⟩ := emitStatements_of_run h4
    refine ⟨I, B, by rw [e2], hI, ?_, ?_⟩
    · rcases hI with hI | hI <;> subst hI <;> subst e2 <;> exact hB
    · rw [← hfin]
      rcases hI with hI | hI <;> subst hI <;> subst e2 <;>
        simp [ho, write, decIndent, incIndent, writeImports, writeLine, writeIndent,
          CodeGenerator.New, pushScope]

end ProgramText
section EmissionExamples

open CodeGenerator

/-- Witness for `spin_emission`: the calls `spin print(x, 1)` and `spin f(x, 1)`. -/
theorem spin_emission_witness :
    (∀ x ∈ [(Expression.Identifier {} ['x'], ['x']), (Expression.IntegerLiteral {} 1, ['1'])],
      emitExpression asciiLib 0 x.1 = some x.2) ∧
    emitExpression asciiLib 0 (.SpinExpression {} (.Identifier {} "print".toList)
        ([(Expression.Identifier {} ['x'], ['x']),
          (Expression.IntegerLiteral {} 1, ['1'])].map Prod.fst)) =
      some ("fmt.Println(".toList ++ commaText ([(Expression.Identifier {} ['x'], ['x']),
        (Expression.IntegerLiteral {} 1, ['1'])].map Prod.snd) ++ ")".toList) ∧
    emitExpression asciiLib 0 (.SpinExpression {} (.Identifier {} ['f'])
        ([(Expression.Identifier {} ['x'], ['x']),
          (Expression.IntegerLiteral {} 1, ['1'])].map Prod.fst)) =
      some (['f'] ++ "(".toList ++ commaText ([(Expression.Identifier {} ['x'], ['x']),
        (Expression.IntegerLiteral {} 1, ['1'])].map Prod.snd) ++ ")".toList) :=
  have hargs : ∀ x ∈ [(Expression.Identifier {} ['x'], ['x']),
      (Expression.IntegerLiteral {} 1, ['1'])], emitExpression asciiLib 0 x.1 = some x.2 := by
    intro x hx
    simp only [List.mem_cons, List.mem_singleton, List.not_mem_nil, or_false] at hx
    rcases hx with rfl | rfl <;> rfl
  ⟨hargs, (spin_emission asciiLib 0 {} (.Identifier {} "print".toList) _ hargs).1 rfl,
    (spin_emission asciiLib 0 {} (.Identifier {} ['f']) _ hargs).2 rfl ['f'] rfl⟩

/-- Witness for `sway_emission`: `sway i from 0 to 10` with the body `spin print(i)`,
emitted at the indentation 1. -/
theorem sway_emission_witness :
    generateStatement asciiLib (exampleSway 10) { indent := 1, scopeStack := [[]] } =
      .ok { indent := 1, scopeStack := [[]],
            output := "\tfor i := 0; i <= 10; i++ \x7b\n\t\tfmt.Println(i)\n\t\x7d\n".toList } ∧
    ∃ F T B, emitExpression asciiLib 1 (.IntegerLiteral {} 0) = some F ∧
      emitExpression asciiLib 1 (.IntegerLiteral {} 10) = some T ∧
      emitStatements asciiLib (1 + 1) [[['i']], []] [printCall (.Identifier {} ['i'])] = some B ∧
      "\tfor i := 0; i <= 10; i++ \x7b\n\t\tfmt.Println(i)\n\t\x7d\n".toList =
        [] ++ (List.replicate 1 '\t' ++ "for ".toList ++ ['i'] ++ " := ".toList ++ F ++
          "; ".toList ++ ['i'] ++ " <= ".toList ++ T ++ "; ".toList ++ ['i'] ++
          "++ \x7b\n".toList ++ B ++ List.replicate 1 '\t' ++ "\x7d\n".toList) :=
  ⟨by decide,
    sway_emission asciiLib { indent := 1, scopeStack := [[]] }
      { indent := 1, scopeStack := [[]],
        output := "\tfor i := 0; i <= 10; i++ \x7b\n\t\tfmt.Println(i)\n\t\x7d\n".toList }
      {} ⟨{}, ['i']⟩ (.IntegerLiteral {} 0) (.IntegerLiteral {} 10) {}
      [printCall (.Identifier {} ['i'])] (by decide)⟩

/-- Witness for `start_emission`: `start` on `sway i from 0 to 3` with the body
`spin print(i)`, emitted at the indentation 1. -/
theorem start_emission_witness :
    generateStatement asciiLib (.StartStatement {} (exampleSway 3))
        { indent := 1, scopeStack := [[]] } =
      .ok { indent := 1, scopeStack := [[]],
            output := ("\tgo func() \x7b\n\t\tfor i := 0; i <= 3; i++ \x7b\n" ++
              "\t\t\tfmt.Println(i)\n\t\t\x7d\n\t\x7d()\n").toList } ∧
    ∃ B, emitStatement asciiLib (1 + 1) [[], []] (exampleSway 3) = some B ∧
      ("\tgo func() \x7b\n\t\tfor i := 0; i <= 3; i++ \x7b\n" ++
          "\t\t\tfmt.Println(i)\n\t\t\x7d\n\t\x7d()\n").toList =
        [] ++ (List.replicate 1 '\t' ++ "go func() \x7b\n".toList ++ B ++
          List.replicate 1 '\t' ++ "\x7d()\n".toList) :=
  ⟨by decide,
    start_emission asciiLib { indent := 1, scopeStack := [[]] }
      { indent := 1, scopeStack := [[]],
        output := ("\tgo func() \x7b\n\t\tfor i := 0; i <= 3; i++ \x7b\n" ++
          "\t\t\tfmt.Println(i)\n\t\t\x7d\n\t\x7d()\n").toList }
      {} (exampleSway 3) (by decide)⟩

/-- Witness for `if_emission`: `if x < y` with the consequence `spin print(x)`, with
the alternative `spin print(y)` and without an alternative, emitted at the
indentation 1. -/
theorem if_emission_witness :
    (generateStatement asciiLib
        (.IfStatement {} (.InfixExpression {} (.Identifier {} ['x']) ['<'] (.Identifier {} ['y']))
          (.mk {} [printCall (.Identifier {} ['x'])])
          (some (.mk {} [printCall (.Identifier {} ['y'])])))
        { indent := 1, scopeStack := [[]] } =
      .ok { indent := 1, scopeStack := [[]],
            output := ("\tif (x < y) \x7b\n\t\tfmt.Println(x)\n\t\x7d else \x7b\n" ++
              "\t\tfmt.Println(y)\n\t\x7d\n").toList } ∧
    ∃ C Th, emitExpression asciiLib 1
        (.InfixExpression {} (.Identifier {} ['x']) ['<'] (.Identifier {} ['y'])) = some C ∧
      emitStatements asciiLib (1 + 1) [[], []] [printCall (.Identifier {} ['x'])] = some Th ∧
      ∃ El, emitStatements asciiLib (1 + 1) [[], []] [printCall (.Identifier {} ['y'])] =
          some El ∧
        ("\tif (x < y) \x7b\n\t\tfmt.Println(x)\n\t\x7d else \x7b\n" ++
            "\t\tfmt.Println(y)\n\t\x7d\n").toList =
          [] ++ (List.replicate 1 '\t' ++ "if ".toList ++ C ++ " \x7b\n".toList ++ Th ++
            List.replicate 1 '\t' ++ "\x7d".toList ++ " else \x7b\n".toList ++ El ++
            List.replicate 1 '\t' ++ "\x7d".toList ++ "\n".toList)) ∧
    (generateStatement asciiLib
        (.IfStatement {} (.InfixExpression {} (.Identifier {} ['x']) ['<'] (.Identifier {} ['y']))
          (.mk {} [printCall (.Identifier {} ['x'])]) none)
        { indent := 1, scopeStack := [[]] } =
      .ok { indent := 1, scopeStack := [[]],
            output := "\tif (x < y) \x7b\n\t\tfmt.Println(x)\n\t\x7d\n".toList } ∧
    ∃ C Th, emitExpression asciiLib 1
        (.InfixExpression {} (.Identifier {} ['x']) ['<'] (.Identifier {} ['y'])) = some C ∧
      emitStatements asciiLib (1 + 1) [[], []] [printCall (.Identifier {} ['x'])] = some Th ∧
      "\tif (x < y) \x7b\n\t\tfmt.Println(x)\n\t\x7d\n".toList =
        [] ++ (List.replicate 1 '\t' ++ "if ".toList ++ C ++ " \x7b\n".toList ++ Th ++
          List.replicate 1 '\t' ++ "\x7d".toList ++ "\n".toList)) :=
  ⟨⟨by decide,
      if_emission asciiLib { indent := 1, scopeStack := [[]] }
        { indent := 1, scopeStack := [[]],
          output := ("\tif (x < y) \x7b\n\t\tfmt.Println(x)\n\t\x7d else \x7b\n" ++
            "\t\tfmt.Println(y)\n\t\x7d\n").toList }
        {} (.InfixExpression {} (.Identifier {} ['x']) ['<'] (.Identifier {} ['y'])) {}
        [printCall (.Identifier {} ['x'])] (some (.mk {} [printCall (.Identifier {} ['y'])]))
        (by decide)⟩,
    ⟨by decide,
      if_emission asciiLib { indent := 1, scopeStack := [[]] }
        { indent := 1, scopeStack := [[]],
          output := "\tif (x < y) \x7b\n\t\tfmt.Println(x)\n\t\x7d\n".toList }
        {} (.InfixExpression {} (.Identifier {} ['x']) ['<'] (.Identifier {} ['y'])) {}
        [printCall (.Identifier {} ['x'])] none (by decide)⟩⟩

/-- Witness for `generate_text`: the program `dance x = 5`, `dance y = 10`,
`spin print(x + y)`. -/
theorem generate_text_witness :
    Generate asciiLib CodeGenerator.New exampleProgram =
      .ok { scopeStack := [[['y'], ['x']]], imports := ["fmt".toList],
            output := ("package main\n\nimport (\n\t\"fmt\"\n)\n\nfunc main() \x7b\n" ++
              "\tx := 5\n\ty := 10\n\tfmt.Println((x + y))\n\x7d\n").toList } ∧
    ((∃ I B, collectImportsFromBlock exampleProgram.Statements
          (CodeGenerator.New.write "package main\n\n".toList) =
          some { CodeGenerator.New.write "package main\n\n".toList with imports := I } ∧
        (I = [] ∨ I = ["fmt".toList]) ∧
        emitStatements asciiLib 1 [[]] exampleProgram.Statements = some B ∧
        ("package main\n\nimport (\n\t\"fmt\"\n)\n\nfunc main() \x7b\n" ++
            "\tx := 5\n\ty := 10\n\tfmt.Println((x + y))\n\x7d\n").toList =
          "package main\n\n".toList ++
          (if I = [] then [] else "import (\n\t\"fmt\"\n)\n\n".toList) ++
          "func main() \x7b\n".toList ++ B ++ "\x7d\n".toList) ∧
      ∃ g0, Generate asciiLib CodeGenerator.New { Statements := [] } = .ok g0 ∧
        g0.output = "package main\n\nfunc main() \x7b\n\x7d\n".toList) :=
  ⟨by decide,
    generate_text asciiLib exampleProgram
      { scopeStack := [[['y'], ['x']]], imports := ["fmt".toList],
        output := ("package main\n\nimport (\n\t\"fmt\"\n)\n\nfunc main() \x7b\n" ++
          "\tx := 5\n\ty := 10\n\tfmt.Println((x + y))\n\x7d\n").toList }
      (by decide)⟩

end EmissionExamples

/-! ## Every call of the scanner reads on -/

namespace Lexer

theorem readChar_left (l : Lexer) : l.readChar.left ≤ l.left - 1 := by
  unfold Lexer.readChar Lexer.left
  dsimp only
  split_ifs <;> simp_all <;> omega

theorem Reads.left_le {a b : Lexer} (h : Reads a b) : b.left ≤ a.left := by
  obtain ⟨k, hk⟩ := h
  subst hk
  induction k generalizing a with
  | zero => exact Nat.le_refl _
  | succ k ih =>
    rw [Function.iterate_succ_apply]
    exact Nat.le_trans ih (Nat.le_trans (readChar_left a) (Nat.sub_le _ _))

/-- The state `b` is reached from `a` by at least one call of `readChar`. -/
theorem Reads.left_lt {a b : Lexer} (h : Reads a.readChar b) : b.left ≤ a.left - 1 :=
  Nat.le_trans h.left_le (readChar_left a)

theorem Reads.after_readString (l : Lexer) : Reads l.readChar l.readString.1 := by
  unfold Lexer.readString
  dsimp only
  split_ifs
  · exact (Reads.of_readStringLoop _ _).append (Reads.one _)
  · exact Reads.of_readStringLoop _ _

theorem Reads.after_readIdentifier (lib : StdLib) (l : Lexer)
    (h : isLetter lib l.ch = true) : Reads l.readChar (l.readIdentifier lib).1 := by
  unfold Lexer.readIdentifier Lexer.fuel
  dsimp only
  rw [Lexer.readIdentifierLoop, if_pos (Or.inl h)]
  exact Reads.of_readIdentifierLoop lib _ _

theorem Reads.after_readNumber (lib : StdLib) (l : Lexer)
    (h : isDigit lib l.ch = true) : Reads l.readChar (l.readNumber lib).1 := by
  have h1 : Reads l.readChar (readDigitsLoop lib l.fuel l) := by
    unfold Lexer.fuel
    rw [Lexer.readDigitsLoop, if_pos h]
    exact Reads.of_readDigitsLoop lib _ _
  unfold Lexer.readNumber
  dsimp only
  split_ifs
  · exact (h1.append (Reads.one _)).append (Reads.of_readDigitsLoop lib _ _)
  · exact h1

end Lexer
namespace Lexer

/-- A call of `NextToken` reads at least one rune, or sees the end-of-input marker. -/
theorem NextTokenAux_left (lib : StdLib) :
    ∀ (n : Nat) (l : Lexer), l.input.length - l.readPosition < n →
      (NextTokenAux lib n l).1.left ≤ l.left - 1 := by
  intro n
  induction n with
  | zero => intro l h; omega
  | succ n ih =>
    intro l hn
    have hws : l.skipWhitespace.left ≤ l.left := (Reads.of_skipWhitespaceLoop _ l).left_le
    obtain ⟨w1, w2⟩ := skipWhitespaceLoop_frame l.fuel l
    have w1' : l.skipWhitespace.input = l.input := w1
    have w2' : l.readPosition ≤ l.skipWhitespace.readPosition := w2
    refine Nat.le_trans ?_ (Nat.sub_le_sub_right hws 1)
    rw [Lexer.NextTokenAux]
    dsimp only
    generalize l.skipWhitespace = a at w1' w2' ⊢
    have hlen : a.input.length = l.input.length := by rw [w1']
    by_cases hc1 : a.ch = '='
    · rw [if_pos hc1]
      by_cases hp1 : a.peekChar = '='
      · rw [if_pos hp1]; exact Reads.left_lt (Reads.one _)
      rw [if_neg hp1]
      by_cases hp2 : a.peekChar = '~'
      · rw [if_pos hp2]; exact Reads.left_lt (Reads.one _)
      rw [if_neg hp2]
      exact Reads.left_lt (Reads.here _)
    rw [if_neg hc1]
    by_cases hc2 : a.ch = '+'
    · rw [if_pos hc2]; exact Reads.left_lt (Reads.here _)
    rw [if_neg hc2]
    by_cases hc3 : a.ch = '-'
    · rw [if_pos hc3]
      by_cases hp1 : a.peekChar = '>'
      · rw [if_pos hp1]; exact Reads.left_lt (Reads.one _)
      rw [if_neg hp1]
      exact Reads.left_lt (Reads.here _)
    rw [if_neg hc3]
    by_cases hc4 : a.ch = '!'
    · rw [if_pos hc4]
      by_cases hp1 : a.peekChar = '='
      · rw [if_pos hp1]; exact Reads.left_lt (Reads.one _)
      rw [if_neg hp1]
      exact Reads.left_lt (Reads.here _)
    rw [if_neg hc4]
    by_cases hc5 : a.ch = '/'
    · rw [if_pos hc5]
      by_cases hp1 : a.peekChar = '/'
      · rw [if_pos hp1]
        obtain ⟨c1, c2, c3⟩ := skipComment_advances hc5 hp1
        exact Nat.le_trans (ih a.skipComment (by rw [c1]; omega))
          (Nat.sub_le_sub_right (Reads.of_skipComment a).left_le 1)
      rw [if_neg hp1]
      exact Reads.left_lt (Reads.here _)
    rw [if_neg hc5]
    by_cases hc6 : a.ch = '*'
    · rw [if_pos hc6]; exact Reads.left_lt (Reads.here _)
    rw [if_neg hc6]
    by_cases hc7 : a.ch = '<'
    · rw [if_pos hc7]
      by_cases hp1 : a.peekChar = '-'
      · rw [if_pos hp1]; exact Reads.left_lt (Reads.one _)
      rw [if_neg hp1]
      by_cases hp2 : a.peekChar = '='
      · rw [if_pos hp2]; exact Reads.left_lt (Reads.one _)
      rw [if_neg hp2]
      exact Reads.left_lt (Reads.here _)
    rw [if_neg hc7]
    by_cases hc8 : a.ch = '>'
    · rw [if_pos hc8]
      by_cases hp1 : a.peekChar = '='
      · rw [if_pos hp1]; exact Reads.left_lt (Reads.one _)
      rw [if_neg hp1]
      exact Reads.left_lt (Reads.here _)
    rw [if_neg hc8]
    by_cases hc9 : a.ch = ','
    · rw [if_pos hc9]; exact Reads.left_lt (Reads.here _)
    rw [if_neg hc9]
    by_cases hc10 : a.ch = ';'
    · rw [if_pos hc10]; exact Reads.left_lt (Reads.here _)
    rw [if_neg hc10]
    by_cases hc11 : a.ch = ':'
    · rw [if_pos hc11]; exact Reads.left_lt (Reads.here _)
    rw [if_neg hc11]
    by_cases hc12 : a.ch = '('
    · rw [if_pos hc12]; exact Reads.left_lt (Reads.here _)
    rw [if_neg hc12]
    by_cases hc13 : a.ch = ')'
    · rw [if_pos hc13]; exact Reads.left_lt (Reads.here _)
    rw [if_neg hc13]
    by_cases hc14 : a.ch = '{'
    · rw [if_pos hc14]; exact Reads.left_lt (Reads.here _)
    rw [if_neg hc14]
    by_cases hc15 : a.ch = '}'
    · rw [if_pos hc15]; exact Reads.left_lt (Reads.here _)
    rw [if_neg hc15]
    by_cases hc16 : a.ch = '['
    · rw [if_pos hc16]; exact Reads.left_lt (Reads.here _)
    rw [if_neg hc16]
    by_cases hc17 : a.ch = ']'
    · rw [if_pos hc17]; exact Reads.left_lt (Reads.here _)
    rw [if_neg hc17]
    by_cases hq : a.ch = '"'
    · rw [if_pos hq]
      exact Reads.left_lt (Reads.after_readString a)
    rw [if_neg hq]
    by_cases hz : a.ch = NUL
    · rw [if_pos hz]
      exact Reads.left_lt (Reads.here _)
    rw [if_neg hz]
    by_cases hl : isLetter lib a.ch = true
    · rw [if_pos hl]
      exact Reads.left_lt (Reads.after_readIdentifier lib a hl)
    rw [if_neg hl]
    by_cases hd : isDigit lib a.ch = true
    · rw [if_pos hd]
      exact Reads.left_lt (Reads.after_readNumber lib a hd)
    rw [if_neg hd]
    exact Reads.left_lt (Reads.here _)

theorem NextToken_left (lib : StdLib) (l : Lexer) : (NextToken lib l).1.left ≤ l.left - 1 :=
  NextTokenAux_left lib _ l (by unfold Lexer.fuel; omega)

/-- With nothing left, `NextToken` returns the end-of-input token. -/
theorem NextToken_at_end (lib : StdLib) (l : Lexer) (h : l.left = 0) :
    (NextToken lib l).2.Typ = EOF := by
  have hz : l.ch = NUL := by
    unfold Lexer.left at h
    by_contra hne
    rw [if_neg hne] at h
    omega
  unfold Lexer.NextToken Lexer.fuel
  rw [NextTokenAux_eof lib _ l hz]

end Lexer

/-! ## What the parser has left -/

namespace Parser

theorem nextToken_left_le (lib : StdLib) (p : Parser) : (p.nextToken lib).left ≤ p.left := by
  have h1 := Lexer.NextToken_left lib p.l
  have h2 := Lexer.NextToken_at_end lib p.l
  unfold Parser.left Parser.nextToken
  dsimp only
  by_cases hz : p.l.left = 0
  · rw [h2 hz]
    simp only [if_true]
    split_ifs <;> omega
  · split_ifs <;> omega

theorem nextToken_left_lt (lib : StdLib) (p : Parser)
    (h : p.curToken.Typ ≠ EOF ∨ p.peekToken.Typ ≠ EOF) : (p.nextToken lib).left < p.left := by
  have h1 := Lexer.NextToken_left lib p.l
  have h2 := Lexer.NextToken_at_end lib p.l
  unfold Parser.left Parser.nextToken
  dsimp only
  by_cases hz : p.l.left = 0
  · rw [h2 hz]
    simp only [if_true]
    split_ifs <;> first | omega | (exfalso; rcases h with h | h <;> contradiction)
  · split_ifs <;> first | omega | (exfalso; rcases h with h | h <;> contradiction)

theorem peekError_left (p : Parser) (t : TokenType) : (p.peekError t).left = p.left := rfl

theorem noPrefixParseFnError_left (p : Parser) (t : TokenType) :
    (p.noPrefixParseFnError t).left = p.left := rfl

theorem expectPeek_left (lib : StdLib) (p : Parser) (t : TokenType) :
    (p.expectPeek lib t).1.left ≤ p.left := by
  unfold Parser.expectPeek
  split_ifs
  · exact nextToken_left_le lib p
  · exact Nat.le_refl _

end Parser
/-! ## Every function of the parser returns -/

namespace Parser

variable {lib : StdLib}

theorem parseIntegerLiteral_left (p : Parser) : p.parseIntegerLiteral.1.left = p.left := by
  unfold Parser.parseIntegerLiteral
  split <;> rfl

theorem parseFloatLiteral_left (lib : StdLib) (p : Parser) :
    (p.parseFloatLiteral lib).1.left = p.left := by
  unfold Parser.parseFloatLiteral
  split <;> rfl

theorem semicolon_left (lib : StdLib) (p : Parser) :
    (if p.peekTokenIs SEMICOLON then p.nextToken lib else p).left ≤ p.left := by
  split_ifs
  · exact nextToken_left_le lib p
  · exact Nat.le_refl _

theorem expectPeek_not (lib : StdLib) {p : Parser} {t : TokenType} (h : p.peekToken.Typ ≠ t) :
    p.expectPeek lib t = (p.peekError t, false) := by
  unfold Parser.expectPeek
  rw [if_neg (by rw [peekTokenIs_not p h]; simp)]

/-- After a call of `nextToken` the parser has less left, or its current token is the
end-of-input token. -/
theorem after_next (lib : StdLib) {p1 p : Parser} (h : p1.left ≤ p.left) :
    (p1.nextToken lib).left < p.left ∨ (p1.nextToken lib).curToken.Typ = EOF := by
  by_cases hc : p1.curToken.Typ ≠ EOF ∨ p1.peekToken.Typ ≠ EOF
  · exact Or.inl (Nat.lt_of_lt_of_le (nextToken_left_lt lib p1 hc) h)
  · right
    have hp : p1.peekToken.Typ = EOF := by
      by_contra hne
      exact hc (Or.inr hne)
    exact hp

theorem parseInfixExpression_halts {p : Parser} {left : Expression}
    (hcur : p.curToken.Typ ≠ EOF)
    (hE : ∀ (prec : Nat) (q : Parser), q.left < p.left →
      Halts (fun m => parseExpression lib m prec q) q) :
    Halts (fun m => parseInfixExpression lib m p left) p := by
  have hq := nextToken_left_lt lib p (Or.inl hcur)
  obtain ⟨⟨p1, right⟩, h1, b1⟩ := hE p.curPrecedence (p.nextToken lib) hq
  exact ⟨_, parseInfixExpression_returns lib h1, Nat.le_trans b1 (Nat.le_of_lt hq)⟩

theorem parseGroupedExpression_halts {p : Parser} (hcur : p.curToken.Typ ≠ EOF)
    (hE : ∀ (prec : Nat) (q : Parser), q.left < p.left →
      Halts (fun m => parseExpression lib m prec q) q) :
    Halts (fun m => parseGroupedExpression lib m p) p := by
  have hq := nextToken_left_lt lib p (Or.inl hcur)
  obtain ⟨⟨p1, exp⟩, ⟨n1, e1⟩, b1⟩ := hE LOWEST (p.nextToken lib) hq
  have b1' : p1.left ≤ p.left := Nat.le_trans b1 (Nat.le_of_lt hq)
  by_cases hpk : p1.peekToken.Typ = RPAREN
  · refine ⟨(p1.nextToken lib, exp), Returns.of_succ n1 (fun k hk => ?_),
      Nat.le_trans (nextToken_left_le lib p1) b1'⟩
    have a1 : parseExpression lib k LOWEST (p.nextToken lib) = some (p1, exp) := e1 k hk
    show parseGroupedExpression lib (k + 1) p = _
    rw [Parser.parseGroupedExpression, a1]
    simp only [expectPeek_of lib hpk, Bool.true_eq_false, if_false]
  · refine ⟨(p1.peekError RPAREN, .nil), Returns.of_succ n1 (fun k hk => ?_), b1'⟩
    have a1 : parseExpression lib k LOWEST (p.nextToken lib) = some (p1, exp) := e1 k hk
    show parseGroupedExpression lib (k + 1) p = _
    rw [Parser.parseGroupedExpression, a1]
    simp only [expectPeek_not lib hpk, if_true]

theorem parseFlowExpression_halts {p : Parser} (hcur : p.curToken.Typ ≠ EOF)
    (hE : ∀ (prec : Nat) (q : Parser), q.left < p.left →
      Halts (fun m => parseExpression lib m prec q) q) :
    Halts (fun m => parseFlowExpression lib m p) p := by
  have hq := nextToken_left_lt lib p (Or.inl hcur)
  obtain ⟨⟨p1, e⟩, h1, b1⟩ := hE LOWEST (p.nextToken lib) hq
  exact ⟨_, parseFlowExpression_returns lib h1, Nat.le_trans b1 (Nat.le_of_lt hq)⟩

theorem parseSpinExpression_halts {p : Parser} (hcur : p.curToken.Typ ≠ EOF)
    (hE : ∀ (prec : Nat) (q : Parser), q.left < p.left →
      Halts (fun m => parseExpression lib m prec q) q)
    (hL : ∀ (end_ : TokenType) (q : Parser), q.left < p.left →
      Halts (fun m => parseExpressionList lib m end_ q) q) :
    Halts (fun m => parseSpinExpression lib m p) p := by
  have hq := nextToken_left_lt lib p (Or.inl hcur)
  obtain ⟨⟨p1, function⟩, h1, b1⟩ := hE LOWEST (p.nextToken lib) hq
  have b1' : p1.left < p.left := Nat.lt_of_le_of_lt b1 hq
  by_cases hpk : p1.peekToken.Typ = LPAREN
  · have b2' : (p1.nextToken lib).left < p.left :=
      Nat.lt_of_le_of_lt (nextToken_left_le lib p1) b1'
    obtain ⟨⟨p2, arguments⟩, h2, b2⟩ := hL RPAREN (p1.nextToken lib) b2'
    exact ⟨_, parseSpinExpression_returns lib h1 hpk h2, Nat.le_trans b2 (Nat.le_of_lt b2')⟩
  · obtain ⟨n1, e1⟩ := h1
    refine ⟨(p1.peekError LPAREN, .nil), Returns.of_succ n1 (fun k hk => ?_), Nat.le_of_lt b1'⟩
    have a1 : parseExpression lib k LOWEST (p.nextToken lib) = some (p1, function) := e1 k hk
    show parseSpinExpression lib (k + 1) p = _
    rw [Parser.parseSpinExpression, a1]
    simp only [expectPeek_not lib hpk, if_true]

theorem parseMatchExpression_halts {p : Parser} (hcur : p.curToken.Typ ≠ EOF)
    (hE : ∀ (prec : Nat) (q : Parser), q.left < p.left →
      Halts (fun m => parseExpression lib m prec q) q)
    (hM : ∀ (q : Parser) (cases : List WhenCase), q.left < p.left →
      Halts (fun m => parseMatchLoop lib m q cases) q) :
    Halts (fun m => parseMatchExpression lib m p) p := by
  have hq := nextToken_left_lt lib p (Or.inl hcur)
  obtain ⟨⟨p1, expression⟩, h1, b1⟩ := hE LOWEST (p.nextToken lib) hq
  have b1' : p1.left < p.left := Nat.lt_of_le_of_lt b1 hq
  by_cases hpk : p1.peekToken.Typ = LBRACE
  · have b2' : ((p1.nextToken lib).nextToken lib).left < p.left :=
      Nat.lt_of_le_of_lt (Nat.le_trans (nextToken_left_le lib _) (nextToken_left_le lib p1)) b1'
    obtain ⟨⟨p2, cases⟩, h2, b2⟩ := hM ((p1.nextToken lib).nextToken lib) [] b2'
    exact ⟨_, parseMatchExpression_returns lib h1 hpk h2, Nat.le_trans b2 (Nat.le_of_lt b2')⟩
  · obtain ⟨n1, e1⟩ := h1
    refine ⟨(p1.peekError LBRACE, .nil), Returns.of_succ n1 (fun k hk => ?_), Nat.le_of_lt b1'⟩
    have a1 : parseExpression lib k LOWEST (p.nextToken lib) = some (p1, expression) := e1 k hk
    show parseMatchExpression lib (k + 1) p = _
    rw [Parser.parseMatchExpression, a1]
    simp only [expectPeek_not lib hpk, if_true]

theorem parseExpressionLoop_none (lib : StdLib) (prec : Nat) (p : Parser) (left : Expression)
    (h : infixParseFns p.peekToken.Typ = false) :
    Returns (fun m => parseExpressionLoop lib m prec p left) (p, left) := by
  refine Returns.pure (fun k => ?_)
  show parseExpressionLoop lib (k + 1) prec p left = _
  rw [Parser.parseExpressionLoop]
  split_ifs <;> rfl

theorem parseExpressionLoop_halts {prec : Nat} {p : Parser} {left : Expression}
    (hI : ∀ (q : Parser) (l : Expression), q.left < p.left → q.curToken.Typ ≠ EOF →
      Halts (fun m => parseInfixExpression lib m q l) q)
    (hL : ∀ (q : Parser) (l : Expression), q.left < p.left →
      Halts (fun m => parseExpressionLoop lib m prec q l) q) :
    Halts (fun m => parseExpressionLoop lib m prec p left) p := by
  by_cases hstop : p.peekToken.Typ = SEMICOLON ∨ ¬ prec < p.peekPrecedence
  · exact ⟨_, parseExpressionLoop_stop lib prec p left hstop, Nat.le_refl _⟩
  have h1 : p.peekToken.Typ ≠ SEMICOLON := fun h => hstop (Or.inl h)
  have h2 : prec < p.peekPrecedence := by
    by_contra h
    exact hstop (Or.inr h)
  cases h3 : infixParseFns p.peekToken.Typ with
  | false => exact ⟨_, parseExpressionLoop_none lib prec p left h3, Nat.le_refl _⟩
  | true =>
    have hpk : p.peekToken.Typ ≠ EOF := by
      intro h
      rw [h] at h3
      cases h3
    have hq := nextToken_left_lt lib p (Or.inr hpk)
    obtain ⟨⟨p1, e⟩, r1, b1⟩ := hI (p.nextToken lib) left hq hpk
    have b1' : p1.left < p.left := Nat.lt_of_le_of_lt b1 hq
    obtain ⟨r, r2, b2⟩ := hL p1 e b1'
    exact ⟨r, parseExpressionLoop_step lib h1 h2 h3 r1 r2, Nat.le_trans b2 (Nat.le_of_lt b1')⟩

end Parser
namespace Parser

variable {lib : StdLib}

theorem parseExpression_halts {prec : Nat} {p : Parser}
    (hG : p.curToken.Typ ≠ EOF → Halts (fun m => parseGroupedExpression lib m p) p)
    (hS : p.curToken.Typ ≠ EOF → Halts (fun m => parseSpinExpression lib m p) p)
    (hF : p.curToken.Typ ≠ EOF → Halts (fun m => parseFlowExpression lib m p) p)
    (hM : p.curToken.Typ ≠ EOF → Halts (fun m => parseMatchExpression lib m p) p)
    (hL : ∀ (q : Parser) (l : Expression), q.left ≤ p.left →
      Halts (fun m => parseExpressionLoop lib m prec q l) q) :
    Halts (fun m => parseExpression lib m prec p) p := by
  cases h : prefixParseFns p.curToken.Typ with
  | none =>
    refine ⟨(p.noPrefixParseFnError p.curToken.Typ, .nil), Returns.pure (fun k => ?_),
      Nat.le_refl _⟩
    show parseExpression lib (k + 1) prec p = _
    rw [Parser.parseExpression, h]
  | some fn =>
    have hcur : p.curToken.Typ ≠ EOF := by
      intro hc
      rw [hc] at h
      cases h
    have simple : ∀ r0 : Parser × Expression, r0.1.left = p.left →
        (∀ k, parseExpression lib (k + 1) prec p = parseExpressionLoop lib k prec r0.1 r0.2) →
        Halts (fun m => parseExpression lib m prec p) p := by
      intro r0 hr0 heq
      obtain ⟨r, ⟨n1, e1⟩, b⟩ := hL r0.1 r0.2 (Nat.le_of_eq hr0)
      refine ⟨r, Returns.of_succ n1 (fun k hk => ?_), Nat.le_trans b (Nat.le_of_eq hr0)⟩
      show parseExpression lib (k + 1) prec p = _
      rw [heq k]
      exact e1 k hk
    have nested : ∀ f : Nat → Parser → Option (Parser × Expression),
        Halts (fun m => f m p) p →
        (∀ k, parseExpression lib (k + 1) prec p =
          match f k p with
          | none => none
          | some (p1, leftExp) => parseExpressionLoop lib k prec p1 leftExp) →
        Halts (fun m => parseExpression lib m prec p) p := by
      intro f hf heq
      obtain ⟨⟨p1, e⟩, ⟨n1, e1⟩, b1⟩ := hf
      obtain ⟨r, ⟨n2, e2⟩, b2⟩ := hL p1 e b1
      refine ⟨r, Returns.of_succ (n1 + n2) (fun k hk => ?_), Nat.le_trans b2 b1⟩
      have a1 : f k p = some (p1, e) := e1 k (by omega)
      show parseExpression lib (k + 1) prec p = _
      rw [heq k, a1]
      exact e2 k (by omega)
    cases fn with
    | parseIdentifier =>
      exact simple p.parseIdentifier rfl (fun k => by rw [Parser.parseExpression, h])
    | parseIntegerLiteral =>
      exact simple p.parseIntegerLiteral (parseIntegerLiteral_left p)
        (fun k => by rw [Parser.parseExpression, h])
    | parseFloatLiteral =>
      exact simple (p.parseFloatLiteral lib) (parseFloatLiteral_left lib p)
        (fun k => by rw [Parser.parseExpression, h])
    | parseStringLiteral =>
      exact simple p.parseStringLiteral rfl (fun k => by rw [Parser.parseExpression, h])
    | parseBoolean =>
      exact simple p.parseBoolean rfl (fun k => by rw [Parser.parseExpression, h])
    | parseGroupedExpression =>
      exact nested (parseGroupedExpression lib) (hG hcur)
        (fun k => by rw [Parser.parseExpression, h])
    | parseSpinExpression =>
      exact nested (parseSpinExpression lib) (hS hcur)
        (fun k => by rw [Parser.parseExpression, h])
    | parseFlowExpression =>
      exact nested (parseFlowExpression lib) (hF hcur)
        (fun k => by rw [Parser.parseExpression, h])
    | parseMatchExpression =>
      exact nested (parseMatchExpression lib) (hM hcur)
        (fun k => by rw [Parser.parseExpression, h])

theorem parseExpressionListLoop_halts {p : Parser} {list : List Expression}
    (hE : ∀ q : Parser, q.left < p.left → Halts (fun m => parseExpression lib m LOWEST q) q)
    (hL : ∀ (q : Parser) (l : List Expression), q.left < p.left →
      Halts (fun m => parseExpressionListLoop lib m q l) q) :
    Halts (fun m => parseExpressionListLoop lib m p list) p := by
  by_cases hpk : p.peekToken.Typ = COMMA
  · have h1 : (p.nextToken lib).curToken.Typ ≠ EOF := by
      show p.peekToken.Typ ≠ EOF
      rw [hpk]
      decide
    have hq : ((p.nextToken lib).nextToken lib).left < p.left :=
      Nat.lt_of_lt_of_le (nextToken_left_lt lib _ (Or.inl h1)) (nextToken_left_le lib p)
    obtain ⟨⟨p1, e⟩, r1, b1⟩ := hE _ hq
    have b1' : p1.left < p.left := Nat.lt_of_le_of_lt b1 hq
    obtain ⟨r, r2, b2⟩ := hL p1 (list ++ [e]) b1'
    exact ⟨r, parseExpressionListLoop_step lib hpk r1 r2, Nat.le_trans b2 (Nat.le_of_lt b1')⟩
  · exact ⟨_, parseExpressionListLoop_stop lib p list hpk, Nat.le_refl _⟩

theorem parseExpressionList_halts {end_ : TokenType} {p : Parser}
    (hE : ∀ q : Parser, q.left ≤ p.left → Halts (fun m => parseExpression lib m LOWEST q) q)
    (hL : ∀ (q : Parser) (l : List Expression), q.left ≤ p.left →
      Halts (fun m => parseExpressionListLoop lib m q l) q) :
    Halts (fun m => parseExpressionList lib m end_ p) p := by
  by_cases hpk : p.peekToken.Typ = end_
  · refine ⟨(p.nextToken lib, []), Returns.pure (fun k => ?_), nextToken_left_le lib p⟩
    show parseExpressionList lib (k + 1) end_ p = _
    rw [Parser.parseExpressionList, if_pos (peekTokenIs_of p hpk)]
  · have hq := nextToken_left_le lib p
    obtain ⟨⟨p1, e⟩, ⟨n1, e1⟩, b1⟩ := hE _ hq
    have b1' : p1.left ≤ p.left := Nat.le_trans b1 hq
    obtain ⟨⟨p2, list⟩, ⟨n2, e2⟩, b2⟩ := hL p1 [e] b1'
    have b2' : p2.left ≤ p.left := Nat.le_trans b2 b1'
    by_cases hpk2 : p2.peekToken.Typ = end_
    · refine ⟨(p2.nextToken lib, list), Returns.of_succ (n1 + n2) (fun k hk => ?_),
        Nat.le_trans (nextToken_left_le lib p2) b2'⟩
      have a1 : parseExpression lib k LOWEST (p.nextToken lib) = some (p1, e) :=
        e1 k (by omega)
      have a2 : parseExpressionListLoop lib k p1 [e] = some (p2, list) := e2 k (by omega)
      show parseExpressionList lib (k + 1) end_ p = _
      rw [Parser.parseExpressionList, if_neg (by rw [peekTokenIs_not p hpk]; simp), a1]
      simp only [a2, expectPeek_of lib hpk2, Bool.true_eq_false, if_false]
    · refine ⟨(p2.peekError end_, []), Returns.of_succ (n1 + n2) (fun k hk => ?_), b2'⟩
      have a1 : parseExpression lib k LOWEST (p.nextToken lib) = some (p1, e) :=
        e1 k (by omega)
      have a2 : parseExpressionListLoop lib k p1 [e] = some (p2, list) := e2 k (by omega)
      show parseExpressionList lib (k + 1) end_ p = _
      rw [Parser.parseExpressionList, if_neg (by rw [peekTokenIs_not p hpk]; simp), a1]
      simp only [a2, expectPeek_not lib hpk2, if_true]

/-- The loop of `parsePattern` returns. -/
theorem parsePatternLoop_halts (lib : StdLib) :
    ∀ (k : Nat) (p : Parser), p.left ≤ k →
      ∃ p2, Returns (fun m => parsePatternLoop lib m p) p2 ∧ p2.left ≤ p.left := by
  intro k
  induction k with
  | zero =>
    intro p hp
    have hc : p.curToken.Typ = EOF := by
      by_contra hne
      unfold Parser.left at hp
      rw [if_neg hne] at hp
      omega
    exact ⟨p, parsePatternLoop_stop lib p (Or.inr hc), Nat.le_refl _⟩
  | succ k ih =>
    intro p hp
    by_cases hstop : p.curToken.Typ = RPAREN ∨ p.curToken.Typ = EOF
    · exact ⟨p, parsePatternLoop_stop lib p hstop, Nat.le_refl _⟩
    · have h1 : p.curToken.Typ ≠ RPAREN := fun h => hstop (Or.inl h)
      have h2 : p.curToken.Typ ≠ EOF := fun h => hstop (Or.inr h)
      have hq := nextToken_left_lt lib p (Or.inl h2)
      obtain ⟨p2, r2, b2⟩ := ih (p.nextToken lib) (by omega)
      exact ⟨p2, parsePatternLoop_step lib h1 h2 r2, Nat.le_trans b2 (Nat.le_of_lt hq)⟩

theorem parsePattern_halts {p : Parser}
    (hE : Halts (fun m => parseExpression lib m CALL p) p) :
    Halts (fun m => parsePattern lib m p) p := by
  obtain ⟨⟨p1, pattern⟩, r1, b1⟩ := hE
  by_cases hpk : p1.peekToken.Typ = LPAREN
  · obtain ⟨p2, r2, b2⟩ := parsePatternLoop_halts lib _ (p1.nextToken lib) (Nat.le_refl _)
    exact ⟨_, parsePattern_returns lib r1 hpk r2,
      Nat.le_trans b2 (Nat.le_trans (nextToken_left_le lib p1) b1)⟩
  · obtain ⟨n1, e1⟩ := r1
    refine ⟨(p1, pattern), Returns.of_succ n1 (fun k hk => ?_), b1⟩
    have a1 : parseExpression lib k CALL p = some (p1, pattern) := e1 k hk
    show parsePattern lib (k + 1) p = _
    rw [Parser.parsePattern, a1]
    simp only [peekTokenIs_not p1 hpk, Bool.false_eq_true, if_false]

theorem parseWhenCase_halts {p : Parser}
    (hP : ∀ q : Parser, q.left ≤ p.left → Halts (fun m => parsePattern lib m q) q)
    (hE : ∀ q : Parser, q.left ≤ p.left → Halts (fun m => parseExpression lib m LOWEST q) q) :
    Halts (fun m => parseWhenCase lib m p) p := by
  have hq := nextToken_left_le lib p
  obtain ⟨⟨p1, pattern⟩, r1, b1⟩ := hP _ hq
  have b1' : p1.left ≤ p.left := Nat.le_trans b1 hq
  by_cases hpk : p1.peekToken.Typ = COLON
  · have hq2 : ((p1.nextToken lib).nextToken lib).left ≤ p.left :=
      Nat.le_trans (nextToken_left_le lib _) (Nat.le_trans (nextToken_left_le lib p1) b1')
    obtain ⟨⟨p2, consequence⟩, r2, b2⟩ := hE _ hq2
    exact ⟨_, parseWhenCase_returns lib r1 hpk r2, Nat.le_trans b2 hq2⟩
  · obtain ⟨n1, e1⟩ := r1
    refine ⟨(p1.peekError COLON, none), Returns.of_succ n1 (fun k hk => ?_), b1'⟩
    have a1 : parsePattern lib k (p.nextToken lib) = some (p1, pattern) := e1 k hk
    show parseWhenCase lib (k + 1) p = _
    rw [Parser.parseWhenCase, a1]
    simp only [expectPeek_not lib hpk, if_true]

theorem parseMatchLoop_halts {p : Parser} {cases : List WhenCase}
    (hW : Halts (fun m => parseWhenCase lib m p) p)
    (hL : ∀ (q : Parser) (c : List WhenCase), q.left < p.left →
      Halts (fun m => parseMatchLoop lib m q c) q) :
    Halts (fun m => parseMatchLoop lib m p cases) p := by
  by_cases hstop : p.curToken.Typ = RBRACE ∨ p.curToken.Typ = EOF
  · exact ⟨_, parseMatchLoop_stop lib p cases hstop, Nat.le_refl _⟩
  have h1 : p.curToken.Typ ≠ RBRACE := fun h => hstop (Or.inl h)
  have h2 : p.curToken.Typ ≠ EOF := fun h => hstop (Or.inr h)
  by_cases hw : p.curToken.Typ = WHEN
  · obtain ⟨⟨p1, whenCase⟩, r1, b1⟩ := hW
    rcases after_next lib b1 with hlt | heof
    · obtain ⟨r, r2, b2⟩ := hL (p1.nextToken lib) (appendCase cases whenCase) hlt
      exact ⟨r, parseMatchLoop_when lib hw r1 r2, Nat.le_trans b2 (Nat.le_of_lt hlt)⟩
    · exact ⟨_, parseMatchLoop_when lib hw r1
        (parseMatchLoop_stop lib _ _ (Or.inr heof)),
        Nat.le_trans (nextToken_left_le lib p1) b1⟩
  · have hq := nextToken_left_lt lib p (Or.inl h2)
    obtain ⟨r, r2, b2⟩ := hL (p.nextToken lib) cases hq
    exact ⟨r, parseMatchLoop_skip lib h1 h2 hw r2, Nat.le_trans b2 (Nat.le_of_lt hq)⟩

end Parser
namespace Parser

variable {lib : StdLib}

theorem parseSendStatement_returns (lib : StdLib) {p p1 p2 : Parser} {channel value : Expression}
    (hc : Returns (fun m => parseExpression lib m LOWEST (p.nextToken lib)) (p1, channel))
    (h1 : p1.peekToken.Typ = SEND)
    (hv : Returns (fun m => parseExpression lib m LOWEST ((p1.nextToken lib).nextToken lib))
      (p2, value)) :
    Returns (fun m => parseSendStatement lib m p)
      (if p2.peekTokenIs SEMICOLON then p2.nextToken lib else p2,
        .SendStatement p.curToken channel value) := by
  obtain ⟨n1, e1⟩ := hc
  obtain ⟨n2, e2⟩ := hv
  refine Returns.of_succ (n1 + n2) (fun k hk => ?_)
  have a1 : parseExpression lib k LOWEST (p.nextToken lib) = some (p1, channel) :=
    e1 k (by omega)
  have a2 : parseExpression lib k LOWEST ((p1.nextToken lib).nextToken lib) =
    some (p2, value) := e2 k (by omega)
  show parseSendStatement lib (k + 1) p = _
  rw [Parser.parseSendStatement, a1]
  simp only [expectPeek_of lib h1, Bool.true_eq_false, if_false, a2]

theorem parseStatement_send (lib : StdLib) {p : Parser} {r : Parser × Statement}
    (h : p.curToken.Typ = SEND_KW) (hr : Returns (fun m => parseSendStatement lib m p) r) :
    Returns (fun m => parseStatement lib m p) r := by
  obtain ⟨n1, e1⟩ := hr
  refine Returns.of_succ n1 (fun k hk => ?_)
  show parseStatement lib (k + 1) p = _
  rw [Parser.parseStatement, h]
  exact e1 k hk

theorem parseStatement_other (lib : StdLib) {p : Parser} {r : Parser × Statement}
    (h1 : p.curToken.Typ ≠ DANCE) (h2 : p.curToken.Typ ≠ SWAY) (h3 : p.curToken.Typ ≠ START)
    (h4 : p.curToken.Typ ≠ SEND_KW) (h5 : p.curToken.Typ ≠ IF)
    (hr : Returns (fun m => parseExpressionStatement lib m p) r) :
    Returns (fun m => parseStatement lib m p) r := by
  obtain ⟨n1, e1⟩ := hr
  refine Returns.of_succ n1 (fun k hk => ?_)
  have a1 : parseExpressionStatement lib k p = some r := e1 k hk
  show parseStatement lib (k + 1) p = _
  rw [Parser.parseStatement]
  generalize p.curToken.Typ = t at h1 h2 h3 h4 h5
  cases t <;>
    first
      | exact a1
      | exact (h1 rfl).elim
      | exact (h2 rfl).elim
      | exact (h3 rfl).elim
      | exact (h4 rfl).elim
      | exact (h5 rfl).elim

theorem parseExpressionStatement_halts {p : Parser}
    (hE : Halts (fun m => parseExpression lib m LOWEST p) p) :
    Halts (fun m => parseExpressionStatement lib m p) p := by
  obtain ⟨⟨p1, e⟩, r1, b1⟩ := hE
  exact ⟨_, parseExpressionStatement_returns lib r1, Nat.le_trans (semicolon_left lib p1) b1⟩

theorem parseDanceStatement_halts {p : Parser}
    (hE : ∀ q : Parser, q.left ≤ p.left → Halts (fun m => parseExpression lib m LOWEST q) q) :
    Halts (fun m => parseDanceStatement lib m p) p := by
  by_cases h1 : p.peekToken.Typ = IDENT
  · by_cases h2 : (p.nextToken lib).peekToken.Typ = ASSIGN
    · have hq : (((p.nextToken lib).nextToken lib).nextToken lib).left ≤ p.left :=
        Nat.le_trans (nextToken_left_le lib _)
          (Nat.le_trans (nextToken_left_le lib _) (nextToken_left_le lib p))
      obtain ⟨⟨p4, value⟩, r1, b1⟩ := hE _ hq
      exact ⟨_, parseDanceStatement_returns lib h1 h2 r1,
        Nat.le_trans (semicolon_left lib p4) (Nat.le_trans b1 hq)⟩
    · refine ⟨((p.nextToken lib).peekError ASSIGN, .nilDanceStatement),
        Returns.pure (fun k => ?_), nextToken_left_le lib p⟩
      show parseDanceStatement lib (k + 1) p = _
      rw [Parser.parseDanceStatement]
      simp only [expectPeek_of lib h1, expectPeek_not lib h2, Bool.true_eq_false, if_false,
        if_true]
  · refine ⟨(p.peekError IDENT, .nilDanceStatement), Returns.pure (fun k => ?_), Nat.le_refl _⟩
    show parseDanceStatement lib (k + 1) p = _
    rw [Parser.parseDanceStatement]
    simp only [expectPeek_not lib h1, if_true]

theorem parseSendStatement_halts {p : Parser}
    (hE : ∀ q : Parser, q.left ≤ p.left → Halts (fun m => parseExpression lib m LOWEST q) q) :
    Halts (fun m => parseSendStatement lib m p) p := by
  have hq := nextToken_left_le lib p
  obtain ⟨⟨p1, channel⟩, r1, b1⟩ := hE _ hq
  have b1' : p1.left ≤ p.left := Nat.le_trans b1 hq
  by_cases h1 : p1.peekToken.Typ = SEND
  · have hq2 : ((p1.nextToken lib).nextToken lib).left ≤ p.left :=
      Nat.le_trans (nextToken_left_le lib _) (Nat.le_trans (nextToken_left_le lib p1) b1')
    obtain ⟨⟨p2, value⟩, r2, b2⟩ := hE _ hq2
    exact ⟨_, parseSendStatement_returns lib r1 h1 r2,
      Nat.le_trans (semicolon_left lib p2) (Nat.le_trans b2 hq2)⟩
  · obtain ⟨n1, e1⟩ := r1
    refine ⟨(p1.peekError SEND, .nilSendStatement), Returns.of_succ n1 (fun k hk => ?_), b1'⟩
    have a1 : parseExpression lib k LOWEST (p.nextToken lib) = some (p1, channel) := e1 k hk
    show parseSendStatement lib (k + 1) p = _
    rw [Parser.parseSendStatement, a1]
    simp only [expectPeek_not lib h1, if_true]

theorem parseStartStatement_halts {p : Parser} (hcur : p.curToken.Typ ≠ EOF)
    (hS : ∀ q : Parser, q.left < p.left → Halts (fun m => parseStatement lib m q) q) :
    Halts (fun m => parseStartStatement lib m p) p := by
  have hq := nextToken_left_lt lib p (Or.inl hcur)
  obtain ⟨⟨p1, s⟩, r1, b1⟩ := hS _ hq
  exact ⟨_, parseStartStatement_returns lib r1, Nat.le_trans b1 (Nat.le_of_lt hq)⟩

theorem parseSwayStatement_halts {p : Parser} (hcur : p.curToken.Typ ≠ EOF)
    (hE : ∀ q : Parser, q.left ≤ p.left → Halts (fun m => parseExpression lib m LOWEST q) q)
    (hB : ∀ q : Parser, q.left < p.left → Halts (fun m => parseBlockStatement lib m q) q) :
    Halts (fun m => parseSwayStatement lib m p) p := by
  have hq := nextToken_left_lt lib p (Or.inl hcur)
  by_cases h1 : p.peekToken.Typ = IDENT
  · by_cases h2 : (p.nextToken lib).peekToken.Typ = FROM
    · have hq3 : (((p.nextToken lib).nextToken lib).nextToken lib).left < p.left :=
        Nat.lt_of_le_of_lt (Nat.le_trans (nextToken_left_le lib _) (nextToken_left_le lib _)) hq
      obtain ⟨⟨p3, from_⟩, ⟨n1, e1⟩, b1⟩ := hE _ (Nat.le_of_lt hq3)
      have b1' : p3.left < p.left := Nat.lt_of_le_of_lt b1 hq3
      by_cases h3 : p3.peekToken.Typ = TO
      · have hq4 : ((p3.nextToken lib).nextToken lib).left < p.left :=
          Nat.lt_of_le_of_lt
            (Nat.le_trans (nextToken_left_le lib _) (nextToken_left_le lib p3)) b1'
        obtain ⟨⟨p4, to_⟩, ⟨n2, e2⟩, b2⟩ := hE _ (Nat.le_of_lt hq4)
        have b2' : p4.left < p.left := Nat.lt_of_le_of_lt b2 hq4
        by_cases h4 : p4.peekToken.Typ = LBRACE
        · have hq5 : (p4.nextToken lib).left < p.left :=
            Nat.lt_of_le_of_lt (nextToken_left_le lib p4) b2'
          obtain ⟨⟨p5, body⟩, r3, b3⟩ := hB _ hq5
          exact ⟨_, parseSwayStatement_returns lib h1 h2 ⟨n1, e1⟩ h3 ⟨n2, e2⟩ h4 r3,
            Nat.le_trans b3 (Nat.le_of_lt hq5)⟩
        · refine ⟨(p4.peekError LBRACE, .nilSwayStatement),
            Returns.of_succ (n1 + n2) (fun k hk => ?_), Nat.le_of_lt b2'⟩
          have a1 : parseExpression lib k LOWEST
              (((p.nextToken lib).nextToken lib).nextToken lib) = some (p3, from_) :=
            e1 k (by omega)
          have a2 : parseExpression lib k LOWEST ((p3.nextToken lib).nextToken lib) =
              some (p4, to_) := e2 k (by omega)
          show parseSwayStatement lib (k + 1) p = _
          rw [Parser.parseSwayStatement]
          simp only [expectPeek_of lib h1, expectPeek_of lib h2, expectPeek_of lib h3,
            expectPeek_not lib h4, Bool.true_eq_false, if_false, if_true, a1, a2]
      · refine ⟨(p3.peekError TO, .nilSwayStatement),
          Returns.of_succ n1 (fun k hk => ?_), Nat.le_of_lt b1'⟩
        have a1 : parseExpression lib k LOWEST
            (((p.nextToken lib).nextToken lib).nextToken lib) = some (p3, from_) := e1 k hk
        show parseSwayStatement lib (k + 1) p = _
        rw [Parser.parseSwayStatement]
        simp only [expectPeek_of lib h1, expectPeek_of lib h2, expectPeek_not lib h3,
          Bool.true_eq_false, if_false, if_true, a1]
    · refine ⟨((p.nextToken lib).peekError FROM, .nilSwayStatement),
        Returns.pure (fun k => ?_), nextToken_left_le lib p⟩
      show parseSwayStatement lib (k + 1) p = _
      rw [Parser.parseSwayStatement]
      simp only [expectPeek_of lib h1, expectPeek_not lib h2, Bool.true_eq_false, if_false,
        if_true]
  · refine ⟨(p.peekError IDENT, .nilSwayStatement), Returns.pure (fun k => ?_), Nat.le_refl _⟩
    show parseSwayStatement lib (k + 1) p = _
    rw [Parser.parseSwayStatement]
    simp only [expectPeek_not lib h1, if_true]

theorem parseIfStatement_halts {p : Parser} (hcur : p.curToken.Typ ≠ EOF)
    (hE : ∀ q : Parser, q.left ≤ p.left → Halts (fun m => parseExpression lib m LOWEST q) q)
    (hB : ∀ q : Parser, q.left < p.left → Halts (fun m => parseBlockStatement lib m q) q) :
    Halts (fun m => parseIfStatement lib m p) p := by
  have hq := nextToken_left_lt lib p (Or.inl hcur)
  obtain ⟨⟨p1, condition⟩, ⟨n1, e1⟩, b1⟩ := hE _ (Nat.le_of_lt hq)
  have b1' : p1.left < p.left := Nat.lt_of_le_of_lt b1 hq
  by_cases h1 : p1.peekToken.Typ = LBRACE
  · have hq2 : (p1.nextToken lib).left < p.left :=
      Nat.lt_of_le_of_lt (nextToken_left_le lib p1) b1'
    obtain ⟨⟨p2, consequence⟩, ⟨n2, e2⟩, b2⟩ := hB _ hq2
    have b2' : p2.left < p.left := Nat.lt_of_le_of_lt b2 hq2
    by_cases h2 : p2.peekToken.Typ = ELSE
    · by_cases h3 : (p2.nextToken lib).peekToken.Typ = LBRACE
      · have hq3 : ((p2.nextToken lib).nextToken lib).left < p.left :=
          Nat.lt_of_le_of_lt
            (Nat.le_trans (nextToken_left_le lib _) (nextToken_left_le lib p2)) b2'
        obtain ⟨⟨p3, alternative⟩, r3, b3⟩ := hB _ hq3
        exact ⟨_, parseIfStatement_else lib ⟨n1, e1⟩ h1 ⟨n2, e2⟩ h2 h3 r3,
          Nat.le_trans b3 (Nat.le_of_lt hq3)⟩
      · refine ⟨((p2.nextToken lib).peekError LBRACE, .nilIfStatement),
          Returns.of_succ (n1 + n2) (fun k hk => ?_),
          Nat.le_trans (nextToken_left_le lib p2) (Nat.le_of_lt b2')⟩
        have a1 : parseExpression lib k LOWEST (p.nextToken lib) = some (p1, condition) :=
          e1 k (by omega)
        have a2 : parseBlockStatement lib k (p1.nextToken lib) = some (p2, consequence) :=
          e2 k (by omega)
        show parseIfStatement lib (k + 1) p = _
        rw [Parser.parseIfStatement, a1]
        simp only [expectPeek_of lib h1, expectPeek_not lib h3, Bool.true_eq_false, if_false,
          if_true, a2, peekTokenIs_of p2 h2]
    · exact ⟨_, parseIfStatement_returns lib ⟨n1, e1⟩ h1 ⟨n2, e2⟩ h2, Nat.le_of_lt b2'⟩
  · refine ⟨(p1.peekError LBRACE, .nilIfStatement), Returns.of_succ n1 (fun k hk => ?_),
      Nat.le_of_lt b1'⟩
    have a1 : parseExpression lib k LOWEST (p.nextToken lib) = some (p1, condition) := e1 k hk
    show parseIfStatement lib (k + 1) p = _
    rw [Parser.parseIfStatement, a1]
    simp only [expectPeek_not lib h1, if_true]

theorem parseStatement_halts {p : Parser}
    (hE : ∀ q : Parser, q.left ≤ p.left → Halts (fun m => parseExpression lib m LOWEST q) q)
    (hB : ∀ q : Parser, q.left < p.left → Halts (fun m => parseBlockStatement lib m q) q)
    (hS : ∀ q : Parser, q.left < p.left → Halts (fun m => parseStatement lib m q) q) :
    Halts (fun m => parseStatement lib m p) p := by
  by_cases h1 : p.curToken.Typ = DANCE
  · obtain ⟨r, hr, b⟩ := @parseDanceStatement_halts lib p hE
    exact ⟨r, parseStatement_dance lib h1 hr, b⟩
  by_cases h2 : p.curToken.Typ = SWAY
  · obtain ⟨r, hr, b⟩ := @parseSwayStatement_halts lib p (by rw [h2]; decide) hE hB
    exact ⟨r, parseStatement_sway lib h2 hr, b⟩
  by_cases h3 : p.curToken.Typ = START
  · obtain ⟨r, hr, b⟩ := @parseStartStatement_halts lib p (by rw [h3]; decide) hS
    exact ⟨r, parseStatement_start lib h3 hr, b⟩
  by_cases h4 : p.curToken.Typ = SEND_KW
  · obtain ⟨r, hr, b⟩ := @parseSendStatement_halts lib p hE
    exact ⟨r, parseStatement_send lib h4 hr, b⟩
  by_cases h5 : p.curToken.Typ = IF
  · obtain ⟨r, hr, b⟩ := @parseIfStatement_halts lib p (by rw [h5]; decide) hE hB
    exact ⟨r, parseStatement_if lib h5 hr, b⟩
  obtain ⟨r, hr, b⟩ := @parseExpressionStatement_halts lib p (hE p (Nat.le_refl _))
  exact ⟨r, parseStatement_other lib h1 h2 h3 h4 h5 hr, b⟩

theorem parseBlockLoop_halts {p : Parser} {stmts : List Statement}
    (hS : Halts (fun m => parseStatement lib m p) p)
    (hL : ∀ (q : Parser) (s : List Statement), q.left < p.left →
      Halts (fun m => parseBlockLoop lib m q s) q) :
    Halts (fun m => parseBlockLoop lib m p stmts) p := by
  by_cases hstop : p.curToken.Typ = RBRACE ∨ p.curToken.Typ = EOF
  · exact ⟨_, parseBlockLoop_stop lib p stmts hstop, Nat.le_refl _⟩
  have h1 : p.curToken.Typ ≠ RBRACE := fun h => hstop (Or.inl h)
  have h2 : p.curToken.Typ ≠ EOF := fun h => hstop (Or.inr h)
  obtain ⟨⟨p1, s⟩, r1, b1⟩ := hS
  rcases after_next lib b1 with hlt | heof
  · obtain ⟨r, r2, b2⟩ := hL (p1.nextToken lib) (appendStatement stmts s) hlt
    exact ⟨r, parseBlockLoop_step lib h1 h2 r1 r2, Nat.le_trans b2 (Nat.le_of_lt hlt)⟩
  · exact ⟨_, parseBlockLoop_step lib h1 h2 r1 (parseBlockLoop_stop lib _ _ (Or.inr heof)),
      Nat.le_trans (nextToken_left_le lib p1) b1⟩

theorem parseBlockStatement_halts {p : Parser}
    (hL : ∀ (q : Parser) (s : List Statement), q.left ≤ p.left →
      Halts (fun m => parseBlockLoop lib m q s) q) :
    Halts (fun m => parseBlockStatement lib m p) p := by
  obtain ⟨⟨p1, stmts⟩, r1, b1⟩ := hL (p.nextToken lib) [] (nextToken_left_le lib p)
  exact ⟨_, parseBlockStatement_returns lib r1, Nat.le_trans b1 (nextToken_left_le lib p)⟩

end Parser
namespace Parser

theorem ends_zero (lib : StdLib) : Ends lib 0 :=
  ⟨fun _ _ h => absurd h (Nat.not_lt_zero _), fun _ _ _ h => absurd h (Nat.not_lt_zero _),
    fun _ _ h => absurd h (Nat.not_lt_zero _), fun _ _ h => absurd h (Nat.not_lt_zero _),
    fun _ _ h => absurd h (Nat.not_lt_zero _), fun _ h => absurd h (Nat.not_lt_zero _),
    fun _ _ h => absurd h (Nat.not_lt_zero _), fun _ h => absurd h (Nat.not_lt_zero _)⟩

theorem ends_succ (lib : StdLib) {k : Nat} (ih : Ends lib k) : Ends lib (k + 1) := by
  have hI : ∀ (q : Parser) (l : Expression), q.left ≤ k → q.curToken.Typ ≠ EOF →
      Halts (fun m => parseInfixExpression lib m q l) q :=
    fun q l hq hc => parseInfixExpression_halts hc
      (fun prec q' h' => ih.parseExpression prec q' (by omega))
  have hEL : ∀ (prec : Nat) (q : Parser) (l : Expression), q.left ≤ k →
      Halts (fun m => parseExpressionLoop lib m prec q l) q :=
    fun prec q l hq => parseExpressionLoop_halts
      (fun q' l' h' hc => hI q' l' (by omega) hc)
      (fun q' l' h' => ih.parseExpressionLoop prec q' l' (by omega))
  have hE : ∀ (prec : Nat) (q : Parser), q.left ≤ k →
      Halts (fun m => parseExpression lib m prec q) q :=
    fun prec q hq => parseExpression_halts
      (fun hc => parseGroupedExpression_halts hc
        (fun prec' q' h' => ih.parseExpression prec' q' (by omega)))
      (fun hc => parseSpinExpression_halts hc
        (fun prec' q' h' => ih.parseExpression prec' q' (by omega))
        (fun e q' h' => ih.parseExpressionList e q' (by omega)))
      (fun hc => parseFlowExpression_halts hc
        (fun prec' q' h' => ih.parseExpression prec' q' (by omega)))
      (fun hc => parseMatchExpression_halts hc
        (fun prec' q' h' => ih.parseExpression prec' q' (by omega))
        (fun q' c h' => ih.parseMatchLoop q' c (by omega)))
      (fun q' l h' => hEL prec q' l (by omega))
  have hLL : ∀ (q : Parser) (l : List Expression), q.left ≤ k →
      Halts (fun m => parseExpressionListLoop lib m q l) q :=
    fun q l hq => parseExpressionListLoop_halts
      (fun q' h' => ih.parseExpression LOWEST q' (by omega))
      (fun q' l' h' => ih.parseExpressionListLoop q' l' (by omega))
  have hLi : ∀ (e : TokenType) (q : Parser), q.left ≤ k →
      Halts (fun m => parseExpressionList lib m e q) q :=
    fun e q hq => parseExpressionList_halts
      (fun q' h' => hE LOWEST q' (by omega)) (fun q' l h' => hLL q' l (by omega))
  have hP : ∀ q : Parser, q.left ≤ k → Halts (fun m => parsePattern lib m q) q :=
    fun q hq => parsePattern_halts (hE CALL q hq)
  have hW : ∀ q : Parser, q.left ≤ k → Halts (fun m => parseWhenCase lib m q) q :=
    fun q hq => parseWhenCase_halts
      (fun q' h' => hP q' (by omega)) (fun q' h' => hE LOWEST q' (by omega))
  have hML : ∀ (q : Parser) (c : List WhenCase), q.left ≤ k →
      Halts (fun m => parseMatchLoop lib m q c) q :=
    fun q c hq => parseMatchLoop_halts (hW q hq)
      (fun q' c' h' => ih.parseMatchLoop q' c' (by omega))
  have hS : ∀ q : Parser, q.left ≤ k → Halts (fun m => parseStatement lib m q) q :=
    fun q hq => parseStatement_halts
      (fun q' h' => hE LOWEST q' (by omega))
      (fun q' h' => ih.parseBlockStatement q' (by omega))
      (fun q' h' => ih.parseStatement q' (by omega))
  have hBL : ∀ (q : Parser) (s : List Statement), q.left ≤ k →
      Halts (fun m => parseBlockLoop lib m q s) q :=
    fun q s hq => parseBlockLoop_halts (hS q hq)
      (fun q' s' h' => ih.parseBlockLoop q' s' (by omega))
  have hB : ∀ q : Parser, q.left ≤ k → Halts (fun m => parseBlockStatement lib m q) q :=
    fun q hq => parseBlockStatement_halts (fun q' s h' => hBL q' s (by omega))
  exact ⟨fun prec q h => hE prec q (by omega), fun prec q l h => hEL prec q l (by omega),
    fun e q h => hLi e q (by omega), fun q l h => hLL q l (by omega),
    fun q c h => hML q c (by omega), fun q h => hS q (by omega),
    fun q s h => hBL q s (by omega), fun q h => hB q (by omega)⟩

theorem ends_all (lib : StdLib) : ∀ k, Ends lib k := by
  intro k
  induction k with
  | zero => exact ends_zero lib
  | succ k ih => exact ends_succ lib ih

theorem parseStatement_total (lib : StdLib) (p : Parser) :
    Halts (fun m => parseStatement lib m p) p :=
  (ends_all lib (p.left + 1)).parseStatement p (Nat.lt_succ_self _)

theorem parseExpression_total (lib : StdLib) (prec : Nat) (p : Parser) :
    Halts (fun m => parseExpression lib m prec p) p :=
  (ends_all lib (p.left + 1)).parseExpression prec p (Nat.lt_succ_self _)

theorem ParseProgramLoop_halts (lib : StdLib) :
    ∀ (k : Nat) (p : Parser) (stmts : List Statement), p.left ≤ k →
      ∃ r, Returns (fun m => ParseProgramLoop lib m p stmts) r ∧ r.1.curToken.Typ = EOF := by
  intro k
  induction k with
  | zero =>
    intro p stmts hk
    by_cases hc : p.curToken.Typ = EOF
    · exact ⟨_, ParseProgramLoop_stop lib p stmts hc, hc⟩
    · obtain ⟨⟨p1, s⟩, r1, b1⟩ := parseStatement_total lib p
      have b2 : p1.left ≤ p.left := b1
      rcases after_next lib b2 with hlt | heof
      · omega
      · exact ⟨_, ParseProgramLoop_step lib hc r1 (ParseProgramLoop_stop lib _ _ heof), heof⟩
  | succ k ih =>
    intro p stmts hk
    by_cases hc : p.curToken.Typ = EOF
    · exact ⟨_, ParseProgramLoop_stop lib p stmts hc, hc⟩
    · obtain ⟨⟨p1, s⟩, r1, b1⟩ := parseStatement_total lib p
      have b2 : p1.left ≤ p.left := b1
      rcases after_next lib b2 with hlt | heof
      · obtain ⟨r, r2, hr⟩ := ih (p1.nextToken lib) (appendStatement stmts s) (by omega)
        exact ⟨r, ParseProgramLoop_step lib hc r1 r2, hr⟩
      · exact ⟨_, ParseProgramLoop_step lib hc r1 (ParseProgramLoop_stop lib _ _ heof), heof⟩

theorem ParseProgram_halts (lib : StdLib) (p : Parser) :
    ∃ p1 program, Returns (fun m => ParseProgram lib m p) (p1, program) ∧
      p1.curToken.Typ = EOF := by
  obtain ⟨⟨p1, stmts⟩, r, h⟩ := ParseProgramLoop_halts lib p.left p [] (Nat.le_refl _)
  exact ⟨p1, { Statements := stmts }, ParseProgram_returns lib r, h⟩

end Parser

/-- C24. `ParseProgram` is total: for every input string there is an amount of fuel from
which the parser over `lexer.New(input)` returns a program together with its final state
(which holds the error list), whatever larger amount is given, and on return the current
token of the parser is `EOF`. -/
theorem parse_program_total (lib : StdLib) (input : Str) :
    ∃ (p : Parser) (program : Program),
      Returns (fun m => Parser.ParseProgram lib m (Parser.New lib (Lexer.New input)))
        (p, program) ∧
      p.curToken.Typ = EOF :=
  Parser.ParseProgram_halts lib _
section Keywords

open Parser

theorem Parser.parseExpression_noPrefix (lib : StdLib) (prec : Nat) {p : Parser}
    (h : prefixParseFns p.curToken.Typ = none) :
    Returns (fun m => parseExpression lib m prec p)
      (p.noPrefixParseFnError p.curToken.Typ, .nil) := by
  refine Returns.pure (fun k => ?_)
  show parseExpression lib (k + 1) prec p = _
  rw [Parser.parseExpression, h]

theorem Parser.ParseProgramLoop_grows (lib : StdLib) {p : Parser} {stmts : List Statement}
    {r : Parser × List Statement}
    (h : Returns (fun m => ParseProgramLoop lib m p stmts) r) : Grows p r.1 := by
  obtain ⟨n, e⟩ := h
  exact (ParseProgramLoop_inv lib n p stmts r.1 r.2 (e n (Nat.le_refl _))).1

/-- C22. For every input whose first token is the keyword `return` or `function`,
`ParseProgram` returns, for every fuel that is large enough, and leaves an error list
that is not empty and whose first entry is `no prefix parse function for return found`,
respectively `no prefix parse function for function found`. -/
theorem keyword_without_production (lib : StdLib) (input : Str)
    (h : (Lexer.NextToken lib (Lexer.New input)).2.Typ = RETURN ∨
      (Lexer.NextToken lib (Lexer.New input)).2.Typ = FUNCTION) :
    ∃ (p : Parser) (program : Program),
      Returns (fun m => Parser.ParseProgram lib m (Parser.New lib (Lexer.New input)))
        (p, program) ∧
      p.errors.head? = some
        (if (Lexer.NextToken lib (Lexer.New input)).2.Typ = RETURN
          then "no prefix parse function for return found".toList
          else "no prefix parse function for function found".toList) := by
  have hcur : (Parser.New lib (Lexer.New input)).curToken =
      (Lexer.NextToken lib (Lexer.New input)).2 := rfl
  generalize hp0 : Parser.New lib (Lexer.New input) = p0 at hcur
  have herr : p0.errors = [] := by rw [← hp0]; rfl
  rw [← hcur] at h ⊢
  have hk : prefixParseFns p0.curToken.Typ = none := by
    rcases h with h | h <;> rw [h] <;> rfl
  have h1 : p0.curToken.Typ ≠ DANCE := by rcases h with h | h <;> rw [h] <;> decide
  have h2 : p0.curToken.Typ ≠ SWAY := by rcases h with h | h <;> rw [h] <;> decide
  have h3 : p0.curToken.Typ ≠ START := by rcases h with h | h <;> rw [h] <;> decide
  have h4 : p0.curToken.Typ ≠ SEND_KW := by rcases h with h | h <;> rw [h] <;> decide
  have h5 : p0.curToken.Typ ≠ IF := by rcases h with h | h <;> rw [h] <;> decide
  have h6 : p0.curToken.Typ ≠ EOF := by rcases h with h | h <;> rw [h] <;> decide
  have rs := parseStatement_other lib h1 h2 h3 h4 h5
    (parseExpressionStatement_returns lib (parseExpression_noPrefix lib LOWEST hk))
  obtain ⟨⟨p1, stmts⟩, rl, -⟩ := ParseProgramLoop_halts lib _ _
    (appendStatement [] (.ExpressionStatement p0.curToken .nil)) (Nat.le_refl _)
  obtain ⟨new, hnew⟩ := ParseProgramLoop_grows lib rl
  refine ⟨p1, { Statements := stmts },
    ParseProgram_returns lib (ParseProgramLoop_step lib h6 rs rl), ?_⟩
  have he : p1.errors = ("no prefix parse function for ".toList ++ p0.curToken.Typ.String ++
      " found".toList) :: new := by
    have hn : p1.errors = _ := hnew
    rw [hn, nextToken_errors]
    have hs : (if (p0.noPrefixParseFnError p0.curToken.Typ).peekTokenIs SEMICOLON
        then (p0.noPrefixParseFnError p0.curToken.Typ).nextToken lib
        else p0.noPrefixParseFnError p0.curToken.Typ).errors =
        (p0.noPrefixParseFnError p0.curToken.Typ).errors := by
      split_ifs
      · exact nextToken_errors lib _
      · rfl
    rw [hs, Parser.noPrefixParseFnError, herr]
    rfl
  rw [he, List.head?_cons]
  rcases h with h | h <;> rw [h] <;> rfl

/-- Witness for `keyword_without_production`: the input `return 1`. -/
theorem keyword_without_production_witness :
    ((Lexer.NextToken asciiLib (Lexer.New "return 1".toList)).2.Typ = RETURN ∨
      (Lexer.NextToken asciiLib (Lexer.New "return 1".toList)).2.Typ = FUNCTION) ∧
    ∃ (p : Parser) (program : Program),
      Returns (fun m => Parser.ParseProgram asciiLib m
        (Parser.New asciiLib (Lexer.New "return 1".toList))) (p, program) ∧
      p.errors.head? = some
        (if (Lexer.NextToken asciiLib (Lexer.New "return 1".toList)).2.Typ = RETURN
          then "no prefix parse function for return found".toList
          else "no prefix parse function for function found".toList) :=
  ⟨Or.inl (by decide), keyword_without_production asciiLib "return 1".toList (Or.inl (by decide))⟩

end Keywords
section Recovery

open Parser

variable {lib : StdLib}

theorem Parser.parseDanceStatement_noIdent (lib : StdLib) {p : Parser}
    (h : p.peekToken.Typ ≠ IDENT) :
    Returns (fun m => parseDanceStatement lib m p) (p.peekError IDENT, .nilDanceStatement) := by
  refine Returns.pure (fun k => ?_)
  show parseDanceStatement lib (k + 1) p = _
  rw [Parser.parseDanceStatement]
  simp only [expectPeek_not lib h, if_true]

/-- The tokens of the text `dance = 1`, a newline, a statement and a newline. -/
theorem Lexes_malformed_dance {d : Str} {ts : List (TokenType × Str)}
    (hl : LexesIn lib d ts) :
    Lexes lib ("dance = 1\n".toList ++ (d ++ ['\n']))
      ((DANCE, "dance".toList) :: (ASSIGN, ['=']) :: (INT, ['1']) :: ts) := by
  have hsp : blank ' ' = true := by decide
  have hnl : blank '\n' = true := by decide
  obtain ⟨s1, _, _, _⟩ := blank_facts lib hsp
  obtain ⟨n1, _, _, _⟩ := blank_facts lib hnl
  have l5 := hl '\n' [] [] n1 (Lexes_blank lib hnl (Lexes_nil lib))
  have l4 := Lexes_blank lib hnl l5
  have l3 := Operand.lexes (@plain_admitted lib ['1'] ⟨by decide, by decide⟩) n1 l4
  have l2 := Lexes_assign lib (by simp) (by simp) (Lexes_blank lib hsp l3)
  have l1 := Lexes_keyword lib (show ("dance".toList, DANCE) ∈ reserved by decide) s1
    (Lexes_blank lib hsp l2)
  simpa [Operand.text, Operand.token, List.append_assoc] using l1

/-- C23. Collect and continue: for every well-formed dance statement `d` with the parse
`D`, the text `dance = 1`, a newline, `d` and a newline is parsed, for every fuel that is
large enough, with `expected next token to be IDENT, got = instead` as the first
diagnostic (the only other one is `no prefix parse function for = found`), and the
parser goes on to the end of the text: the null dance statement is followed by the
expression statements for `=` and `1`, and the last statement of the program is `D`. -/
theorem collect_and_continue (lib : StdLib) (d : Str) (tok : Token) (name : Identifier)
    (value : Expression) (hd : StmtText lib d (.DanceStatement tok name value)) :
    ∃ (p : Parser) (program : Program),
      Returns (fun m => Parser.ParseProgram lib m (Parser.New lib (Lexer.New
        ("dance = 1\n".toList ++ (d ++ ['\n']))))) (p, program) ∧
      p.errors = ["expected next token to be IDENT, got = instead".toList,
        "no prefix parse function for = found".toList] ∧
      stripStatements program.Statements =
        [.nilDanceStatement, .ExpressionStatement (tokenOf (ASSIGN, ['='])) .nil,
          .ExpressionStatement (tokenOf (INT, ['1'])) (Operand.int ['1']).node,
          .DanceStatement tok name value] := by
  obtain ⟨ts, hl, hp⟩ := hd
  have hp0 := Parser.Ahead.of_source (Lexes_malformed_dance hl)
  generalize hq : Parser.New lib (Lexer.New ("dance = 1\n".toList ++ (d ++ ['\n']))) = p0
    at hp0
  have herr : p0.errors = [] := by rw [← hq]; rfl
  -- the malformed line: `dance` without a name
  have hpk : p0.peekToken.Typ = ASSIGN := hp0.peek
  have hs1 := parseStatement_dance lib hp0.cur.1
    (parseDanceStatement_noIdent lib (show p0.peekToken.Typ ≠ IDENT by rw [hpk]; decide))
  have hpe : Parser.Ahead lib (p0.peekError IDENT)
      ((DANCE, "dance".toList) :: (ASSIGN, ['=']) :: (INT, ['1']) :: ts) := hp0
  have hp1 := hpe.step
  -- the token `=` at statement position
  have hc1 : ((p0.peekError IDENT).nextToken lib).curToken.Typ = ASSIGN := hp1.cur.1
  have hs2 := parseStatement_other lib
    (show ((p0.peekError IDENT).nextToken lib).curToken.Typ ≠ DANCE by rw [hc1]; decide)
    (show ((p0.peekError IDENT).nextToken lib).curToken.Typ ≠ SWAY by rw [hc1]; decide)
    (show ((p0.peekError IDENT).nextToken lib).curToken.Typ ≠ START by rw [hc1]; decide)
    (show ((p0.peekError IDENT).nextToken lib).curToken.Typ ≠ SEND_KW by rw [hc1]; decide)
    (show ((p0.peekError IDENT).nextToken lib).curToken.Typ ≠ IF by rw [hc1]; decide)
    (parseExpressionStatement_returns lib (parseExpression_noPrefix lib LOWEST
      (show prefixParseFns ((p0.peekError IDENT).nextToken lib).curToken.Typ = none by
        rw [hc1]; rfl)))
  have hpn : Parser.Ahead lib (((p0.peekError IDENT).nextToken lib).noPrefixParseFnError
      ((p0.peekError IDENT).nextToken lib).curToken.Typ)
      ((ASSIGN, ['=']) :: (INT, ['1']) :: ts) := hp1
  rw [peek_after hpn (show (((INT, ['1']) :: ts).headD eofTok).1 ≠ SEMICOLON from
    (show INT ≠ SEMICOLON by decide))]
    at hs2
  simp only [Bool.false_eq_true, if_false] at hs2
  have hp2 := hpn.step
  -- the statements `1` and `d`
  have h1 : ParsesStmt lib [(INT, ['1'])]
      (.ExpressionStatement (tokenOf (INT, ['1'])) (Operand.int ['1']).node) :=
    ParsesStmt_expression (parse_atom (Operand.isAtom
      (@plain_admitted lib ['1'] ⟨by decide, by decide⟩)))
  obtain ⟨stmts, hr3, hs3⟩ := @program_loop lib
    [([(INT, ['1'])], .ExpressionStatement (tokenOf (INT, ['1'])) (Operand.int ['1']).node),
      (ts, .DanceStatement tok name value)]
    (by
      intro x hx
      rcases List.mem_cons.1 hx with rfl | hx
      · exact h1
      · rw [List.mem_singleton] at hx
        subst hx
        exact hp)
    _ [.nilDanceStatement,
      .ExpressionStatement ((p0.peekError IDENT).nextToken lib).curToken .nil]
    (by simpa using hp2)
  refine ⟨_, _, ParseProgram_returns lib (ParseProgramLoop_step lib
    (show p0.curToken.Typ ≠ EOF by rw [hp0.cur.1]; decide) hs1
    (ParseProgramLoop_step lib
      (show ((p0.peekError IDENT).nextToken lib).curToken.Typ ≠ EOF by rw [hc1]; decide)
      hs2 hr3)), ?_, ?_⟩
  · rw [advance_errors, nextToken_errors]
    show ((p0.peekError IDENT).nextToken lib).errors ++ _ = _
    rw [nextToken_errors]
    show (p0.errors ++ _) ++ _ = _
    rw [herr, hpk, hc1]
    rfl
  · show stripStatements (Statement.nilDanceStatement ::
      Statement.ExpressionStatement ((p0.peekError IDENT).nextToken lib).curToken .nil ::
        stmts) = _
    rw [stripStatements, stripStatements, hs3, Statement.strip, Statement.strip,
      strip_of_kindLit hp1.1]
    rfl

/-- Witness for `collect_and_continue`: the statement `dance x = 5`. -/
theorem collect_and_continue_witness :
    StmtText asciiLib (danceLine ['x'] (.int ['5']))
      (.DanceStatement (tokenOf (DANCE, "dance".toList)) ⟨tokenOf (IDENT, ['x']), ['x']⟩
        (Operand.int ['5']).node) ∧
    ∃ (p : Parser) (program : Program),
      Returns (fun m => Parser.ParseProgram asciiLib m (Parser.New asciiLib (Lexer.New
        ("dance = 1\n".toList ++ (danceLine ['x'] (.int ['5']) ++ ['\n']))))) (p, program) ∧
      p.errors = ["expected next token to be IDENT, got = instead".toList,
        "no prefix parse function for = found".toList] ∧
      stripStatements program.Statements =
        [.nilDanceStatement, .ExpressionStatement (tokenOf (ASSIGN, ['='])) .nil,
          .ExpressionStatement (tokenOf (INT, ['1'])) (Operand.int ['1']).node,
          .DanceStatement (tokenOf (DANCE, "dance".toList)) ⟨tokenOf (IDENT, ['x']), ['x']⟩
            (Operand.int ['5']).node] :=
  have hd := @StmtText_danceLine asciiLib ['x'] (.int ['5']) (by decide) (by decide)
  ⟨hd, collect_and_continue asciiLib _ _ _ _ hd⟩

end Recovery
section Terminators

open Parser

variable {lib : StdLib}

/-- A `send` statement without a semicolon. -/
theorem ParsesStmt_send {cts vts : List (TokenType × Str)} {C V : Expression}
    (hc : ParsesExpr lib cts C) (hv : ParsesExpr lib vts V) (kw ar : Str) :
    ParsesStmt lib ((SEND_KW, kw) :: (cts ++ (SEND, ar) :: vts))
      (.SendStatement (tokenOf (SEND_KW, kw)) C V) := by
  have hnc := nonempty_of_operand hc.first
  have hnv := nonempty_of_operand hv.first
  refine ⟨rfl, (fun hn => by cases hn), fun p rest hp hfol => ?_⟩
  obtain ⟨hprec, hsemi, _⟩ := follows_facts hfol
  have hp0 : Parser.Ahead lib p ((SEND_KW, kw) :: (cts ++ ((SEND, ar) :: (vts ++ rest)))) := by
    simpa using hp
  have hp1 := hp0.step
  obtain ⟨c, hrc, hce⟩ := hc.parses _ _ hp1 rfl
  obtain ⟨t, hlast⟩ := Parser.Ahead.at_last hnc hp1
  have hp3 := hlast.step.step
  obtain ⟨v, hrv, hve⟩ := hv.parses _ _ hp3 hprec
  obtain ⟨t2, hlast2⟩ := Parser.Ahead.at_last hnv hp3
  have hs := parseStatement_send lib hp0.cur.1
    (parseSendStatement_returns lib hrc hlast.peek hrv)
  rw [peek_after hlast2 hsemi] at hs
  refine ⟨.SendStatement p.curToken c v, ?_, ?_⟩
  · have hadv : Parser.advance lib
        (((SEND_KW, kw) :: (cts ++ (SEND, ar) :: vts)).length - 1) p =
        Parser.advance lib (vts.length - 1)
          (((Parser.advance lib (cts.length - 1) (p.nextToken lib)).nextToken lib).nextToken
            lib) := by
      have h1 : p.nextToken lib = Parser.advance lib 1 p := rfl
      have h2 : ∀ q : Parser, (q.nextToken lib).nextToken lib = Parser.advance lib 2 q :=
        fun _ => rfl
      rw [h2, h1, ← Parser.advance_add, ← Parser.advance_add, ← Parser.advance_add]
      congr 1
      have := List.length_pos.2 hnc
      have := List.length_pos.2 hnv
      simp only [List.length_cons, List.length_append]
      omega
    rw [hadv]
    exact hs
  · rw [Statement.strip, hce, hve, Parser.strip_of_kindLit hp0.1]
    rfl

/-- A `send` statement with a semicolon. -/
theorem ParsesStmt_send_semicolon {cts vts : List (TokenType × Str)} {C V : Expression}
    (hc : ParsesExpr lib cts C) (hv : ParsesExpr lib vts V) (kw ar sc : Str) :
    ParsesStmt lib ((SEND_KW, kw) :: (cts ++ (SEND, ar) :: (vts ++ [(SEMICOLON, sc)])))
      (.SendStatement (tokenOf (SEND_KW, kw)) C V) := by
  have hnc := nonempty_of_operand hc.first
  have hnv := nonempty_of_operand hv.first
  refine ⟨rfl, (fun hn => by cases hn), fun p rest hp _ => ?_⟩
  have hp0 : Parser.Ahead lib p ((SEND_KW, kw) :: (cts ++ ((SEND, ar) ::
      (vts ++ ((SEMICOLON, sc) :: rest))))) := by
    simpa using hp
  have hp1 := hp0.step
  obtain ⟨c, hrc, hce⟩ := hc.parses _ _ hp1 rfl
  obtain ⟨t, hlast⟩ := Parser.Ahead.at_last hnc hp1
  have hp3 := hlast.step.step
  obtain ⟨v, hrv, hve⟩ := hv.parses _ _ hp3 rfl
  obtain ⟨t2, hlast2⟩ := Parser.Ahead.at_last hnv hp3
  have hs := parseStatement_send lib hp0.cur.1
    (parseSendStatement_returns lib hrc hlast.peek hrv)
  have hpk : (Parser.advance lib (vts.length - 1)
      (((Parser.advance lib (cts.length - 1) (p.nextToken lib)).nextToken lib).nextToken
        lib)).peekToken.Typ = SEMICOLON := hlast2.peek
  rw [Parser.peekTokenIs_of _ hpk, if_pos rfl] at hs
  refine ⟨.SendStatement p.curToken c v, ?_, ?_⟩
  · have hadv : Parser.advance lib
        (((SEND_KW, kw) :: (cts ++ (SEND, ar) :: (vts ++ [(SEMICOLON, sc)]))).length - 1) p =
        (Parser.advance lib (vts.length - 1)
          (((Parser.advance lib (cts.length - 1) (p.nextToken lib)).nextToken lib).nextToken
            lib)).nextToken lib := by
      have h1 : p.nextToken lib = Parser.advance lib 1 p := rfl
      have h2 : ∀ q : Parser, (q.nextToken lib).nextToken lib = Parser.advance lib 2 q :=
        fun _ => rfl
      rw [h2, h1, ← Parser.advance_one, ← Parser.advance_add, ← Parser.advance_add,
        ← Parser.advance_add, ← Parser.advance_add]
      congr 1
      have := List.length_pos.2 hnc
      have := List.length_pos.2 hnv
      simp only [List.length_cons, List.length_append, List.length_nil]
      omega
    rw [hadv]
    exact hs
  · rw [Statement.strip, hce, hve, Parser.strip_of_kindLit hp0.1]
    rfl

/-- A `start` statement before a statement. -/
theorem ParsesStmt_start {ts : List (TokenType × Str)} {S : Statement}
    (h : ParsesStmt lib ts S) (kw : Str) :
    ParsesStmt lib ((START, kw) :: ts) (.StartStatement (tokenOf (START, kw)) S) := by
  have hne := nonempty_of_starts h.first
  refine ⟨rfl, (fun hn => by cases hn), fun p rest hp hfol => ?_⟩
  have hp0 : Parser.Ahead lib p ((START, kw) :: (ts ++ rest)) := hp
  obtain ⟨s, hr, hs⟩ := h.parses _ _ hp0.step hfol
  refine ⟨.StartStatement p.curToken s, ?_, ?_⟩
  · have hadv : Parser.advance lib (((START, kw) :: ts).length - 1) p =
        Parser.advance lib (ts.length - 1) (p.nextToken lib) := by
      have h1 : p.nextToken lib = Parser.advance lib 1 p := rfl
      rw [h1, ← Parser.advance_add]
      congr 1
      have := List.length_pos.2 hne
      simp only [List.length_cons]
      omega
    rw [hadv]
    exact parseStatement_start lib hp0.cur.1 (parseStartStatement_returns lib hr)
  · rw [Statement.strip, hs, Parser.strip_of_kindLit hp0.1]
    rfl

/-- The tokens of a well-formed simple statement are parsed to its node, with and
without a semicolon after them. -/
theorem SimpleStatement.parses : ∀ s : SimpleStatement, s.wellFormed lib →
    ParsesStmt lib s.tokens s.node ∧ ParsesStmt lib (s.tokens ++ [(SEMICOLON, [';'])]) s.node := by
  intro s
  induction s with
  | dance n v =>
    intro h
    exact ⟨ParsesStmt_dance h.2.2 _ _ _, ParsesStmt_dance_semicolon h.2.2 _ _ _ _⟩
  | send c v =>
    intro h
    refine ⟨ParsesStmt_send h.1.2 h.2.2 _ _, ?_⟩
    have := ParsesStmt_send_semicolon h.1.2 h.2.2 "send".toList ['<', '-'] [';']
    simpa [SimpleStatement.tokens, SimpleStatement.node] using this
  | expression e =>
    intro h
    exact ⟨ParsesStmt_expression h.2, ParsesStmt_expression_semicolon h.2 _⟩
  | start s ih =>
    intro h
    obtain ⟨h1, h2⟩ := ih h
    exact ⟨ParsesStmt_start h1 _, ParsesStmt_start h2 _⟩

/-- The text of a well-formed simple statement is scanned into its tokens. -/
theorem SimpleStatement.scans : ∀ s : SimpleStatement, s.wellFormed lib →
    LexesIn lib s.text s.tokens := by
  have hsp : blank ' ' = true := by decide
  obtain ⟨s1, s2, _, _⟩ := blank_facts lib hsp
  intro s
  induction s with
  | dance n v =>
    intro h d rest ts' hd hl
    have l4 := h.2.1 d rest ts' hd hl
    have l3 := Lexes_assign lib (by simp) (by simp) (Lexes_blank lib hsp l4)
    have l2 := Lexes_ident lib h.1.1 s2 (Lexes_blank lib hsp l3)
    rw [h.1.2] at l2
    have l1 := Lexes_keyword lib (show ("dance".toList, DANCE) ∈ reserved by decide) s1
      (Lexes_blank lib hsp l2)
    simpa [SimpleStatement.text, SimpleStatement.tokens, List.append_assoc] using l1
  | send c v =>
    intro h d rest ts' hd hl
    have l4 := h.2.1 d rest ts' hd hl
    have l3 := Lexes_send lib (Lexes_blank lib hsp l4)
    have l2 := h.1.1 ' ' _ _ s1 (Lexes_blank lib hsp l3)
    have l1 := Lexes_keyword lib (show ("send".toList, SEND_KW) ∈ reserved by decide) s1
      (Lexes_blank lib hsp l2)
    simpa [SimpleStatement.text, SimpleStatement.tokens, List.append_assoc] using l1
  | expression e =>
    intro h
    exact h.1
  | start s ih =>
    intro h d rest ts' hd hl
    have l2 := ih h d rest ts' hd hl
    have l1 := Lexes_keyword lib (show ("start".toList, START) ∈ reserved by decide) s1
      (Lexes_blank lib hsp l2)
    simpa [SimpleStatement.text, SimpleStatement.tokens, List.append_assoc] using l1

/-- C21 (amended). An optional `;` is accepted after each top-level dance, send or
expression statement, and after a `start` before one of these: for every such
well-formed statement `s`, the text of `s` followed by `;` and the text of `s` followed by
a newline are both parsed, for every fuel that is large enough, with an empty error list
to the same statement list, the node of `s` alone (up to the positions of the tokens). -/
theorem semicolon_after_simple_statement (lib : StdLib) (s : SimpleStatement)
    (h : s.wellFormed lib) :
    (∃ (p : Parser) (program : Program),
      Returns (fun m => Parser.ParseProgram lib m (Parser.New lib (Lexer.New
        (s.text ++ [';'])))) (p, program) ∧
      p.errors = [] ∧ stripStatements program.Statements = [s.node]) ∧
    (∃ (p : Parser) (program : Program),
      Returns (fun m => Parser.ParseProgram lib m (Parser.New lib (Lexer.New
        (s.text ++ ['\n'])))) (p, program) ∧
      p.errors = [] ∧ stripStatements program.Statements = [s.node]) := by
  have hl := SimpleStatement.scans s h
  obtain ⟨h1, h2⟩ := SimpleStatement.parses s h
  have hnl : blank '\n' = true := by decide
  constructor
  · have l1 := hl ';' [] _ (by decide) (Lexes_semicolon lib (Lexes_nil lib))
    exact program_of_statements [(s.tokens ++ [(SEMICOLON, [';'])], s.node)]
      (by intro x hx; rw [List.mem_singleton] at hx; subst hx; exact h2)
      (by simpa using l1)
  · have l1 := hl '\n' [] _ (blank_facts lib hnl).1 (Lexes_blank lib hnl (Lexes_nil lib))
    exact program_of_statements [(s.tokens, s.node)]
      (by intro x hx; rw [List.mem_singleton] at hx; subst hx; exact h1)
      (by simpa using l1)

end Terminators
section TerminatorExamples

open Parser

theorem Operand.piece_wellFormed {lib : StdLib} {v : Operand} (h : v.admitted lib = true) :
    v.piece.wellFormed lib :=
  ⟨fun _ _ _ hd hl => Operand.lexes h hd hl, parse_atom (Operand.isAtom h)⟩

theorem exampleSimple_wellFormed : exampleSimple.wellFormed asciiLib :=
  ⟨@Operand.piece_wellFormed asciiLib (.ident ['c']) (by decide),
    @Operand.piece_wellFormed asciiLib (.int ['1']) (by decide)⟩

/-- Witness for `semicolon_after_simple_statement`: the statement `start send c <- 1`. -/
theorem semicolon_after_simple_statement_witness :
    exampleSimple.wellFormed asciiLib ∧
    (∃ (p : Parser) (program : Program),
      Returns (fun m => Parser.ParseProgram asciiLib m (Parser.New asciiLib (Lexer.New
        (exampleSimple.text ++ [';'])))) (p, program) ∧
      p.errors = [] ∧ stripStatements program.Statements = [exampleSimple.node]) ∧
    (∃ (p : Parser) (program : Program),
      Returns (fun m => Parser.ParseProgram asciiLib m (Parser.New asciiLib (Lexer.New
        (exampleSimple.text ++ ['\n'])))) (p, program) ∧
      p.errors = [] ∧ stripStatements program.Statements = [exampleSimple.node]) :=
  ⟨exampleSimple_wellFormed,
    semicolon_after_simple_statement asciiLib exampleSimple exampleSimple_wellFormed⟩

/-- C21 fails as stated. The statement `if x {}` followed by a newline is parsed without
a diagnostic to one statement; followed by `;` it is parsed with the diagnostic
`no prefix parse function for ; found` to two statements, the second an expression
statement on the token `;` whose expression is nil: `parseIfStatement` does not look for
a semicolon. The same holds of the statement `sway i from 0 to 1 {}`. -/
theorem semicolon_after_block :
    (ParseProgram asciiLib 40 (Parser.New asciiLib (Lexer.New "if x \x7b\x7d\n".toList))).map
        (fun r => (r.1.errors, stripStatements r.2.Statements)) =
      some ([], [.IfStatement (tokenOf (IF, "if".toList)) (identNode ['x']) (blockNode [])
        none]) ∧
    (ParseProgram asciiLib 40 (Parser.New asciiLib (Lexer.New "if x \x7b\x7d;".toList))).map
        (fun r => (r.1.errors, stripStatements r.2.Statements)) =
      some (["no prefix parse function for ; found".toList],
        [.IfStatement (tokenOf (IF, "if".toList)) (identNode ['x']) (blockNode []) none,
          .ExpressionStatement (tokenOf (SEMICOLON, [';'])) .nil]) ∧
    (ParseProgram asciiLib 40
        (Parser.New asciiLib (Lexer.New "sway i from 0 to 1 \x7b\x7d\n".toList))).map
        (fun r => (r.1.errors, stripStatements r.2.Statements)) =
      some ([], [.SwayStatement (tokenOf (SWAY, "sway".toList)) ⟨tokenOf (IDENT, ['i']), ['i']⟩
        (Operand.int ['0']).node (Operand.int ['1']).node (blockNode [])]) ∧
    (ParseProgram asciiLib 40
        (Parser.New asciiLib (Lexer.New "sway i from 0 to 1 \x7b\x7d;".toList))).map
        (fun r => (r.1.errors, stripStatements r.2.Statements)) =
      some (["no prefix parse function for ; found".toList],
        [.SwayStatement (tokenOf (SWAY, "sway".toList)) ⟨tokenOf (IDENT, ['i']), ['i']⟩
          (Operand.int ['0']).node (Operand.int ['1']).node (blockNode []),
          .ExpressionStatement (tokenOf (SEMICOLON, [';'])) .nil]) := by
  refine ⟨rfl, rfl, rfl, rfl⟩

end TerminatorExamples

section FailingInputs

open Parser CodeGenerator

/-- C38 (evaluation at the failing input). On the input `dance = 5` the call of
`expectPeek(IDENT)` fails and `parseDanceStatement` returns a nil `*ast.DanceStatement`;
`parseStatement` returns it as an `ast.Statement`, which is not the nil interface, so the
guard `stmt != nil` of `ParseProgram` lets it through: the first element of
`Program.Statements` is the nil dance statement (here and when a newline follows). The
guard of `parseBlockStatement` does the same in the block of `if x` around `dance = 5`,
and `Generate` on such a program dereferences the nil pointer. -/
theorem failed_dance_statement_is_kept :
    (ParseProgram asciiLib 40 (Parser.New asciiLib (Lexer.New "dance = 5".toList))).map
        (fun r => (r.1.errors, stripStatements r.2.Statements)) =
      some (["expected next token to be IDENT, got = instead".toList,
          "no prefix parse function for = found".toList,
          "could not parse \"\" as integer".toList],
        [.nilDanceStatement, .ExpressionStatement (tokenOf (ASSIGN, ['='])) .nil,
          .ExpressionStatement (tokenOf (INT, [])) .nil]) ∧
    (ParseProgram asciiLib 40 (Parser.New asciiLib (Lexer.New "dance = 5\n".toList))).map
        (fun r => (r.1.errors, stripStatements r.2.Statements)) =
      some (["expected next token to be IDENT, got = instead".toList,
          "no prefix parse function for = found".toList],
        [.nilDanceStatement, .ExpressionStatement (tokenOf (ASSIGN, ['='])) .nil,
          .ExpressionStatement (tokenOf (INT, ['5'])) (Operand.int ['5']).node]) ∧
    (ParseProgram asciiLib 40
        (Parser.New asciiLib (Lexer.New "if x \x7b dance = 5 \x7d\n".toList))).map
        (fun r => stripStatements r.2.Statements) =
      some [.IfStatement (tokenOf (IF, "if".toList)) (identNode ['x'])
        (blockNode [.nilDanceStatement, .ExpressionStatement (tokenOf (ASSIGN, ['='])) .nil,
          .ExpressionStatement (tokenOf (INT, ['5'])) (Operand.int ['5']).node]) none] ∧
    (ParseProgram asciiLib 40 (Parser.New asciiLib (Lexer.New "dance = 5\n".toList))).map
        (fun r => Generate asciiLib CodeGenerator.New r.2) = some .panic :=
  ⟨rfl, rfl, rfl, rfl⟩

/-- C35 (evaluation at the failing input). On the input `dance c = flow channel<int>`
and a newline, `parseFlowExpression` parses the channel type with
`parseExpression(LOWEST)`, which takes `<` and `>` as infix operators: the channel type of
the flow expression is the infix expression `(channel < int) > nil`, not the identifier
`channel`, and the diagnostic `no prefix parse function for EOF found` is appended. On
this tree `Generate` does not take the branch for the identifier `channel`, which the
comment of `generateFlowExpression` describes for `flow channel<int>`: it returns the
error for a nil expression. -/
theorem flow_channel_type_takes_the_brackets :
    (ParseProgram asciiLib 40
        (Parser.New asciiLib (Lexer.New "dance c = flow channel<int>\n".toList))).map
        (fun r => (r.1.errors, stripStatements r.2.Statements)) =
      some (["no prefix parse function for EOF found".toList],
        [danceNode ['c'] (.FlowExpression (tokenOf (FLOW, "flow".toList))
          (infixNode (TokenType.GT, ['>'])
            (infixNode (TokenType.LT, ['<']) (identNode "channel".toList)
              (identNode "int".toList))
            .nil))]) ∧
    (ParseProgram asciiLib 40
        (Parser.New asciiLib (Lexer.New "dance c = flow channel<int>\n".toList))).map
        (fun r => match Generate asciiLib CodeGenerator.New r.2 with
          | .error _ msg => some msg
          | _ => none) =
      some (some "unknown expression type: <nil>".toList) :=
  ⟨rfl, rfl⟩

end FailingInputs

section MatchEmission

open CodeGenerator

variable {lib : StdLib}

/-- The loop over the cases writes one clause for each case, in order. -/
theorem generateCases_text : ∀ (cases : List WhenCase) (g g' : CodeGenerator),
    generateCases lib cases g = .ok g' →
    ∃ cs : List (Str × Str), List.Forall₂ (WhenCase.emits lib g.indent) cases cs ∧
      g' = g.write (cs.map (clauseText g.indent)).flatten
  | [], g, g', h => by
    rw [generateCases] at h
    injection h with h
    exact ⟨[], List.Forall₂.nil, by rw [← h]; simp⟩
  | .mk tok pattern consequence :: rest, g, g', h => by
    rw [generateCases] at h
    obtain ⟨g1, h1, h2⟩ := Res.bind_eq_ok h
    unfold generateWhenCase at h1
    obtain ⟨a1, ha, hb⟩ := Res.bind_eq_ok h1
    obtain ⟨a2, hc, hd⟩ := Res.bind_eq_ok hb
    injection hd with hd
    obtain ⟨P, eP, tP⟩ := generateExpression_ok ha
    obtain ⟨C, eC, tC⟩ := generateExpression_ok hc
    obtain ⟨cs, hcs, e2⟩ := generateCases_text rest g1 g' h2
    have hi1 : g1.indent = g.indent := by
      rw [← hd, eC, eP]
      simp [write, writeIndent, incIndent, decIndent]
    rw [hi1] at hcs e2
    refine ⟨(P, C) :: cs, List.Forall₂.cons ⟨?_, ?_⟩ hcs, ?_⟩
    · simpa [write, writeIndent] using tP
    · have : (((a1.write ":\n".toList).incIndent.writeIndent).write "return ".toList).indent =
          g.indent + 1 := by
        rw [eP]
        simp [write, writeIndent, incIndent]
      rw [this] at tC
      exact tC
    · rw [e2, ← hd, eC, eP]
      simp [write, writeIndent, incIndent, decIndent, clauseText, List.append_assoc]

/-- The loop over the cases returns nil when every pattern and consequence has a
text. -/
theorem generateCases_run : ∀ (cases : List WhenCase) (cs : List (Str × Str))
    (g : CodeGenerator), List.Forall₂ (WhenCase.emits lib g.indent) cases cs →
    generateCases lib cases g = .ok (g.write (cs.map (clauseText g.indent)).flatten)
  | [], _, g, h => by
    cases h
    rw [generateCases]
    simp
  | .mk tok pattern consequence :: rest, _, g, h => by
    cases h with
    | cons h1 h2 =>
      rename_i c cs
      obtain ⟨hp, hc⟩ := h1
      rw [generateCases]
      unfold generateWhenCase
      rw [emitExpression_run hp _ (by simp [write, writeIndent])]
      simp only [Res.bind]
      rw [emitExpression_run hc _ (by simp [write, writeIndent, incIndent])]
      simp only [Res.bind]
      have hi : (((((((g.writeIndent.write "case ".toList).write c.1).write
          ":\n".toList).incIndent.writeIndent).write "return ".toList).write c.2).write
            "\n".toList).decIndent.indent = g.indent := by
        simp [write, writeIndent, incIndent, decIndent]
      have := generateCases_run rest cs _ (by rw [hi]; exact h2)
      rw [this, hi]
      simp [write, writeIndent, incIndent, decIndent, clauseText, List.append_assoc]

/-- C31. When `generateExpression` returns nil on a match expression with the cases
`w_1 .. w_k`: the scrutinee has a text `S` one level deeper than the current
indentation, every case has texts for its pattern (at that level) and its consequence
(one level deeper still), and the text written is `func() interface{} {`, then on the
next line `switch S {`, then for each case in order the lines `case P_i:` and
`return C_i`, then the closing brace of the switch, the line `return nil` and `}()` at
the current indentation. With no case the emission returns nil whenever the scrutinee
has a text, and the body is the empty switch followed by `return nil`. -/
theorem match_emission (lib : StdLib) (g g' : CodeGenerator) (tok : Token)
    (scrutinee : Expression) (cases : List WhenCase)
    (h : generateExpression lib (.MatchExpression tok scrutinee cases) g = .ok g') :
    (∃ (S : Str) (cs : List (Str × Str)),
      emitExpression lib (g.indent + 1) scrutinee = some S ∧
      List.Forall₂ (WhenCase.emits lib (g.indent + 1)) cases cs ∧
      g'.output = g.output ++ matchEmitted g.indent S cs) ∧
    (∀ (S : Str) (cs : List (Str × Str)), emitExpression lib (g.indent + 1) scrutinee = some S →
      List.Forall₂ (WhenCase.emits lib (g.indent + 1)) cases cs →
      generateExpression lib (.MatchExpression tok scrutinee cases) g =
        .ok (g.write (matchEmitted g.indent S cs))) ∧
    ∀ S, emitExpression lib (g.indent + 1) scrutinee = some S →
      generateExpression lib (.MatchExpression tok scrutinee []) g =
        .ok (g.write (matchEmitted g.indent S [])) := by
  refine ⟨?_, ?_, ?_⟩
  · rw [generateExpression] at h
    unfold generateMatchExpression at h
    obtain ⟨g1, h1, h2⟩ := Res.bind_eq_ok h
    obtain ⟨g2, h3, h4⟩ := Res.bind_eq_ok h2
    injection h4 with h4
    obtain ⟨S, eS, tS⟩ := generateExpression_ok h1
    obtain ⟨cs, hcs, e2⟩ := generateCases_text _ _ _ h3
    have hi : (g1.write " \x7b\n".toList).indent = g.indent + 1 := by
      rw [eS]
      simp [write, writeIndent, incIndent]
    rw [hi] at hcs e2
    refine ⟨S, cs, ?_, hcs, ?_⟩
    · simpa [write, writeIndent, incIndent] using tS
    · rw [← h4, e2, eS]
      simp [write, writeIndent, incIndent, decIndent, matchEmitted, List.append_assoc]
  · intro S cs hS hcs
    rw [generateExpression]
    unfold generateMatchExpression
    rw [emitExpression_run hS _ (by simp [write, writeIndent, incIndent])]
    simp only [Res.bind]
    have hi : (((((g.write "func() interface\x7b\x7d \x7b\n".toList).incIndent.writeIndent).write
        "switch ".toList).write S).write " \x7b\n".toList).indent = g.indent + 1 := by
      simp [write, writeIndent, incIndent]
    rw [generateCases_run cases cs _ (by rw [hi]; exact hcs), hi]
    simp [write, writeIndent, incIndent, decIndent, matchEmitted, List.append_assoc]
  · intro S hS
    rw [generateExpression]
    unfold generateMatchExpression
    rw [emitExpression_run hS _ (by simp [write, writeIndent, incIndent])]
    simp only [Res.bind, generateCases]
    simp [write, writeIndent, incIndent, decIndent, matchEmitted, List.append_assoc]

/-- Witness for `match_emission`: `match x` with the case `when y: 1`. -/
theorem match_emission_witness :
    generateExpression asciiLib (.MatchExpression {} (.Identifier {} ['x'])
        [.mk {} (.Identifier {} ['y']) (.IntegerLiteral {} 1)]) {} =
      .ok { output := ("func() interface\x7b\x7d \x7b\n\tswitch x \x7b\n\tcase y:\n\t\treturn 1" ++
        "\n\t\x7d\n\treturn nil\n\x7d()").toList } ∧
    ((∃ (S : Str) (cs : List (Str × Str)),
      emitExpression asciiLib (({} : CodeGenerator).indent + 1) (.Identifier {} ['x']) = some S ∧
      List.Forall₂ (WhenCase.emits asciiLib (({} : CodeGenerator).indent + 1))
        [.mk {} (.Identifier {} ['y']) (.IntegerLiteral {} 1)] cs ∧
      ({ output := ("func() interface\x7b\x7d \x7b\n\tswitch x \x7b\n\tcase y:\n\t\treturn 1" ++
        "\n\t\x7d\n\treturn nil\n\x7d()").toList } : CodeGenerator).output =
        ({} : CodeGenerator).output ++ matchEmitted ({} : CodeGenerator).indent S cs) ∧
    (∀ (S : Str) (cs : List (Str × Str)),
      emitExpression asciiLib (({} : CodeGenerator).indent + 1) (.Identifier {} ['x']) = some S →
      List.Forall₂ (WhenCase.emits asciiLib (({} : CodeGenerator).indent + 1))
        [.mk {} (.Identifier {} ['y']) (.IntegerLiteral {} 1)] cs →
      generateExpression asciiLib (.MatchExpression {} (.Identifier {} ['x'])
          [.mk {} (.Identifier {} ['y']) (.IntegerLiteral {} 1)]) {} =
        .ok (({} : CodeGenerator).write (matchEmitted ({} : CodeGenerator).indent S cs))) ∧
    ∀ S, emitExpression asciiLib (({} : CodeGenerator).indent + 1) (.Identifier {} ['x']) =
        some S →
      generateExpression asciiLib (.MatchExpression {} (.Identifier {} ['x']) []) {} =
        .ok (({} : CodeGenerator).write (matchEmitted ({} : CodeGenerator).indent S []))) :=
  ⟨by decide, match_emission asciiLib {} _ {} _ _ (by decide)⟩

end MatchEmission

/-! ## Newlines in the text of an expression -/

theorem digitChar_ne_newline (d : Nat) : Nat.digitChar d ≠ '\n' := by
  by_cases h : d < 16
  · interval_cases d <;> decide
  · have h16 : 16 ≤ d := Nat.le_of_not_lt h
    have hstar : Nat.digitChar d = '*' := by
      unfold Nat.digitChar
      repeat (rw [if_neg (by omega)])
    rw [hstar]
    decide

theorem toDigitsCore_no_newline (b : Nat) : ∀ (fuel n : Nat) (ds : List Char),
    '\n' ∉ ds → '\n' ∉ Nat.toDigitsCore b fuel n ds := by
  intro fuel
  induction fuel with
  | zero => intro n ds h; simpa [Nat.toDigitsCore] using h
  | succ fuel ih =>
    intro n ds h
    have hd : '\n' ∉ Nat.digitChar (n % b) :: ds := by
      intro hm
      rcases List.mem_cons.1 hm with h1 | h1
      · exact digitChar_ne_newline _ h1.symm
      · exact h h1
    rw [Nat.toDigitsCore]
    split_ifs
    · exact hd
    · exact ih _ _ hd

theorem formatInt_no_newline (v : Int) : '\n' ∉ formatInt v := by
  unfold formatInt Nat.toDigits
  split_ifs
  · intro hm
    rcases List.mem_cons.1 hm with h1 | h1
    · revert h1; decide
    · exact toDigitsCore_no_newline _ _ _ _ (List.not_mem_nil _) h1
  · exact toDigitsCore_no_newline _ _ _ _ (List.not_mem_nil _)

namespace CodeGenerator

theorem Plain.ok_plain {s : Str} (h : '\n' ∉ s) : Plain (fun g => .ok (g.write s)) := by
  intro g g' hr
  injection hr with hr
  exact ⟨s, hr.symm, h⟩

theorem Plain.ok_id : Plain (fun g => .ok g) := by
  intro g g' hr
  injection hr with hr
  exact ⟨[], by rw [← hr]; simp, List.not_mem_nil _⟩

theorem Plain.seq_plain {r1 r2 : CodeGenerator → Res} (h1 : Plain r1) (h2 : Plain r2) :
    Plain (fun g => (r1 g).bind r2) := by
  intro g g' hr
  obtain ⟨g1, e1, e2⟩ := Res.bind_eq_ok hr
  obtain ⟨s1, w1, n1⟩ := h1 g g1 e1
  obtain ⟨s2, w2, n2⟩ := h2 g1 g' e2
  refine ⟨s1 ++ s2, by rw [w2, w1, write_write], ?_⟩
  intro hm
  rcases List.mem_append.1 hm with h | h
  · exact n1 h
  · exact n2 h

theorem Plain.pre_plain {s : Str} (hs : '\n' ∉ s) {r : CodeGenerator → Res} (h : Plain r) :
    Plain (fun g => r (g.write s)) := by
  intro g g' hr
  obtain ⟨s1, w1, n1⟩ := h _ g' hr
  refine ⟨s ++ s1, by rw [w1, write_write], ?_⟩
  intro hm
  rcases List.mem_append.1 hm with h | h
  · exact hs h
  · exact n1 h

mutual

theorem generateExpression_plain (lib : StdLib) :
    ∀ e : Expression, e.oneLine lib = true → Plain (generateExpression lib e)
  | .Identifier tok value, hl => by
    have : generateExpression lib (.Identifier tok value) = fun g => .ok (g.write value) := by
      funext g; rw [generateExpression]
    rw [this]
    exact Plain.ok_plain (by simpa [Expression.oneLine] using hl)
  | .IntegerLiteral tok value, _ => by
    have : generateExpression lib (.IntegerLiteral tok value) =
        fun g => .ok (g.write (formatInt value)) := by
      funext g; rw [generateExpression]
    rw [this]
    exact Plain.ok_plain (formatInt_no_newline value)
  | .FloatLiteral tok value, hl => by
    have : generateExpression lib (.FloatLiteral tok value) =
        fun g => .ok (g.write (lib.formatFloat value)) := by
      funext g; rw [generateExpression]
    rw [this]
    exact Plain.ok_plain (by simpa [Expression.oneLine] using hl)
  | .StringLiteral tok value, hl => by
    have : generateExpression lib (.StringLiteral tok value) =
        fun g => .ok (g.write ('"' :: value ++ ['"'])) := by
      funext g; rw [generateExpression]
    rw [this]
    have hv : '\n' ∉ value := by simpa [Expression.oneLine] using hl
    refine Plain.ok_plain ?_
    intro hm
    simp only [List.cons_append, List.mem_cons, List.mem_append, List.mem_singleton,
      List.not_mem_nil, or_false] at hm
    rcases hm with h | h | h
    · revert h; decide
    · exact hv h
    · revert h; decide
  | .Boolean tok value, _ => by
    have : generateExpression lib (.Boolean tok value) =
        fun g => .ok (g.write (if value then "true".toList else "false".toList)) := by
      funext g; rw [generateExpression]
    rw [this]
    refine Plain.ok_plain ?_
    cases value <;> decide
  | .InfixExpression tok left operator right, hl => by
    have : generateExpression lib (.InfixExpression tok left operator right) =
        fun g => (generateExpression lib left (g.write "(".toList)).bind fun g1 =>
          (generateExpression lib right
            (g1.write (" ".toList ++ operator ++ " ".toList))).bind fun g2 =>
              .ok (g2.write ")".toList) := by
      funext g; rw [generateExpression]
    rw [this]
    simp only [Expression.oneLine, Bool.and_eq_true, decide_eq_true_eq] at hl
    obtain ⟨⟨h1, h2⟩, h3⟩ := hl
    have hop : '\n' ∉ " ".toList ++ operator ++ " ".toList := by
      intro hm
      simp only [List.mem_append] at hm
      rcases hm with (h | h) | h
      · revert h; decide
      · exact h2 h
      · revert h; decide
    exact Plain.seq_plain (Plain.pre_plain (by decide) (generateExpression_plain lib left h1))
      (Plain.seq_plain (Plain.pre_plain hop (generateExpression_plain lib right h3))
        (Plain.ok_plain (by decide)))
  | .SpinExpression tok function arguments, hl => by
    have : generateExpression lib (.SpinExpression tok function arguments) =
        generateSpinExpression function (generateExpression lib function)
          (generateArguments lib arguments 0) := by
      funext g; rw [generateExpression]
    rw [this]
    simp only [Expression.oneLine, Bool.and_eq_true] at hl
    have hf := generateExpression_plain lib function hl.1
    have ha := generateArguments_plain lib arguments 0 hl.2
    unfold generateSpinExpression
    dsimp only
    split_ifs
    · exact Plain.seq_plain (Plain.pre_plain (by decide) ha) (Plain.ok_plain (by decide))
    · exact Plain.seq_plain hf
        (Plain.seq_plain (Plain.pre_plain (by decide) ha) (Plain.ok_plain (by decide)))
  | .FlowExpression tok channelType, hl => by
    have : generateExpression lib (.FlowExpression tok channelType) =
        generateFlowExpression channelType (generateExpression lib channelType) := by
      funext g; rw [generateExpression]
    rw [this]
    simp only [Expression.oneLine] at hl
    have hc := generateExpression_plain lib channelType hl
    unfold generateFlowExpression
    dsimp only
    split_ifs
    · have := @Plain.ok_plain ("make(chan ".toList ++ "interface\x7b\x7d)".toList) (by decide)
      simpa [write_write] using this
    · exact Plain.seq_plain (Plain.pre_plain (by decide) hc) (Plain.ok_plain (by decide))
  | .MatchExpression tok expression cases, hl => by
    simp [Expression.oneLine] at hl
  | .nil, _ => by
    intro b b' h
    rw [generateExpression] at h
    cases h

theorem generateArguments_plain (lib : StdLib) :
    ∀ (arguments : List Expression) (i : Nat), oneLineList lib arguments = true →
      Plain (generateArguments lib arguments i)
  | [], i, _ => by
    have : generateArguments lib [] i = fun g => .ok g := by
      funext g; rw [generateArguments]
    rw [this]; exact Plain.ok_id
  | arg :: rest, i, hl => by
    have : generateArguments lib (arg :: rest) i =
        fun g => (generateExpression lib arg
          (if i > 0 then g.write ", ".toList else g)).bind fun g1 =>
            generateArguments lib rest (i + 1) g1 := by
      funext g; rw [generateArguments]
    rw [this]
    simp only [oneLineList, Bool.and_eq_true] at hl
    have ha := generateExpression_plain lib arg hl.1
    have hr := generateArguments_plain lib rest (i + 1) hl.2
    by_cases hi : i > 0
    · simp only [hi, if_true]
      exact Plain.seq_plain (Plain.pre_plain (by decide) ha) hr
    · simp only [hi, if_false]
      exact Plain.seq_plain ha hr

end

end CodeGenerator

section OneLine

open CodeGenerator

/-- C32 (amended). Expressions other than match expressions do not emit newlines: for
every expression that holds no match expression and no newline in an identifier, a
string literal, an operator or a formatted float, when `generateExpression` returns nil
the text that it has written holds no newline. -/
theorem expression_on_one_line (lib : StdLib) (e : Expression) (g g' : CodeGenerator)
    (hl : e.oneLine lib = true) (h : generateExpression lib e g = .ok g') :
    ∃ s, emitExpression lib g.indent e = some s ∧ g'.output = g.output ++ s ∧ '\n' ∉ s := by
  obtain ⟨s, e1, hn⟩ := generateExpression_plain lib e hl g g' h
  obtain ⟨s', e2, he⟩ := generateExpression_ok h
  have : s' = s := by
    have := congrArg CodeGenerator.output (e1.symm.trans e2)
    simpa [write] using this.symm
  subst this
  exact ⟨s', he, by rw [e1]; rfl, hn⟩

/-- Witness for `expression_on_one_line`: the call `spin f(x + 1, "a")`. -/
theorem expression_on_one_line_witness :
    (Expression.SpinExpression {} (.Identifier {} ['f'])
      [.InfixExpression {} (.Identifier {} ['x']) ['+'] (.IntegerLiteral {} 1),
        .StringLiteral {} ['a']]).oneLine asciiLib = true ∧
    generateExpression asciiLib (Expression.SpinExpression {} (.Identifier {} ['f'])
      [.InfixExpression {} (.Identifier {} ['x']) ['+'] (.IntegerLiteral {} 1),
        .StringLiteral {} ['a']]) {} = .ok { output := "f((x + 1), \"a\")".toList } ∧
    ∃ s, emitExpression asciiLib ({} : CodeGenerator).indent
        (Expression.SpinExpression {} (.Identifier {} ['f'])
          [.InfixExpression {} (.Identifier {} ['x']) ['+'] (.IntegerLiteral {} 1),
            .StringLiteral {} ['a']]) = some s ∧
      ({ output := "f((x + 1), \"a\")".toList } : CodeGenerator).output =
        ({} : CodeGenerator).output ++ s ∧ '\n' ∉ s :=
  ⟨by decide, by decide, expression_on_one_line asciiLib _ {} _ (by decide) (by decide)⟩

/-- C32 fails as stated. The match expression `match x` without cases is emitted over
five lines, and the string literal whose text is `a`, a newline and `b` is written with
its newline (the lexer does not end a string at a newline: the source text of that
literal is parsed to it). -/
theorem expression_with_newlines :
    emitExpression asciiLib 0 (.MatchExpression {} (.Identifier {} ['x']) []) =
      some "func() interface\x7b\x7d \x7b\n\tswitch x \x7b\n\t\x7d\n\treturn nil\n\x7d()".toList ∧
    '\n' ∈ "func() interface\x7b\x7d \x7b\n\tswitch x \x7b\n\t\x7d\n\treturn nil\n\x7d()".toList ∧
    emitExpression asciiLib 0 (.StringLiteral {} "a\nb".toList) = some "\"a\nb\"".toList ∧
    '\n' ∈ "\"a\nb\"".toList ∧
    (Parser.ParseProgram asciiLib 40
        (Parser.New asciiLib (Lexer.New "\"a\nb\"\n".toList))).map
        (fun r => (r.1.errors, stripStatements r.2.Statements)) =
      some ([], [.ExpressionStatement (tokenOf (STRING, "a\nb".toList))
        (.StringLiteral (tokenOf (STRING, "a\nb".toList)) "a\nb".toList)]) :=
  ⟨by decide, by decide, by decide, by decide, rfl⟩

end OneLine

/-! ## The state of the generator after `Generate` -/

namespace CodeGenerator

theorem Level.of_ok {f : CodeGenerator → CodeGenerator}
    (hf : ∀ g, (f g).scopeStack.length = g.scopeStack.length) : Level (fun g => .ok (f g)) :=
  fun g => hf g

theorem Level.of_error (msg : Str) : Level (fun g => .error g msg) :=
  fun _ => Nat.le_refl _

theorem Level.of_panic : Level (fun _ => .panic) :=
  fun _ => trivial

theorem Level.bind_level {r1 r2 : CodeGenerator → Res} (h1 : Level r1) (h2 : Level r2) :
    Level (fun g => (r1 g).bind r2) := by
  intro g
  have a := h1 g
  show match (r1 g).bind r2 with
    | .ok g' => g'.scopeStack.length = g.scopeStack.length
    | .error g' _ => g.scopeStack.length ≤ g'.scopeStack.length
    | .panic => True
  cases hr : r1 g with
  | ok g1 =>
    rw [hr] at a
    have b := h2 g1
    simp only [Res.bind]
    cases hr2 : r2 g1 with
    | ok g2 =>
      rw [hr2] at b
      exact b.trans a
    | error g2 msg =>
      rw [hr2] at b
      have a' : g1.scopeStack.length = g.scopeStack.length := a
      have b' : g1.scopeStack.length ≤ g2.scopeStack.length := b
      show g.scopeStack.length ≤ g2.scopeStack.length
      omega
    | panic => trivial
  | error g1 msg =>
    rw [hr] at a
    exact a
  | panic => trivial

theorem Level.before (f : CodeGenerator → CodeGenerator)
    (hf : ∀ g, (f g).scopeStack.length = g.scopeStack.length) {r : CodeGenerator → Res}
    (h : Level r) : Level (fun g => r (f g)) := by
  intro g
  have a := h (f g)
  show match r (f g) with
    | .ok g' => g'.scopeStack.length = g.scopeStack.length
    | .error g' _ => g.scopeStack.length ≤ g'.scopeStack.length
    | .panic => True
  cases hr : r (f g) with
  | ok g1 => rw [hr] at a; exact a.trans (hf g)
  | error g1 msg => rw [hr] at a; rw [← hf g]; exact a
  | panic => trivial

/-- A block: the scope that is pushed before a body is popped after it when the body
returns nil, and stays when the body returns an error. -/
theorem Level.block {enter leave : CodeGenerator → CodeGenerator}
    (he : ∀ g, (enter g).scopeStack.length = g.scopeStack.length + 1)
    (hl : ∀ g, (leave g).scopeStack.length = g.scopeStack.length - 1)
    {body : CodeGenerator → Res} (h : Level body) :
    Level (fun g => (body (enter g)).bind fun g1 => .ok (leave g1)) := by
  intro g
  have a := h (enter g)
  show match (body (enter g)).bind (fun g1 => .ok (leave g1)) with
    | .ok g' => g'.scopeStack.length = g.scopeStack.length
    | .error g' _ => g.scopeStack.length ≤ g'.scopeStack.length
    | .panic => True
  cases hr : body (enter g) with
  | ok g1 =>
    rw [hr] at a
    have a' : g1.scopeStack.length = (enter g).scopeStack.length := a
    show (leave g1).scopeStack.length = g.scopeStack.length
    rw [hl, a', he]
    omega
  | error g1 msg =>
    rw [hr] at a
    have a' : (enter g).scopeStack.length ≤ g1.scopeStack.length := a
    show g.scopeStack.length ≤ g1.scopeStack.length
    rw [he] at a'
    omega
  | panic => trivial

theorem pushScope_length (g : CodeGenerator) :
    g.pushScope.scopeStack.length = g.scopeStack.length + 1 := by
  unfold pushScope
  cases h : g.scopeStack <;> simp

theorem popScope_length (g : CodeGenerator) :
    g.popScope.scopeStack.length = g.scopeStack.length - 1 := by
  unfold popScope
  cases h : g.scopeStack <;> simp [h]

theorem declareVar_length (g : CodeGenerator) (name : Str) :
    (g.declareVar name).scopeStack.length = g.scopeStack.length := by
  unfold declareVar
  cases h : g.scopeStack <;> simp [h]

mutual

theorem generateExpression_level (lib : StdLib) :
    ∀ e : Expression, Level (generateExpression lib e)
  | .Identifier tok value => by
    have : generateExpression lib (.Identifier tok value) = fun g => .ok (g.write value) := by
      funext g; rw [generateExpression]
    rw [this]; exact Level.of_ok (fun _ => rfl)
  | .IntegerLiteral tok value => by
    have : generateExpression lib (.IntegerLiteral tok value) =
        fun g => .ok (g.write (formatInt value)) := by
      funext g; rw [generateExpression]
    rw [this]; exact Level.of_ok (fun _ => rfl)
  | .FloatLiteral tok value => by
    have : generateExpression lib (.FloatLiteral tok value) =
        fun g => .ok (g.write (lib.formatFloat value)) := by
      funext g; rw [generateExpression]
    rw [this]; exact Level.of_ok (fun _ => rfl)
  | .StringLiteral tok value => by
    have : generateExpression lib (.StringLiteral tok value) =
        fun g => .ok (g.write ('"' :: value ++ ['"'])) := by
      funext g; rw [generateExpression]
    rw [this]; exact Level.of_ok (fun _ => rfl)
  | .Boolean tok value => by
    have : generateExpression lib (.Boolean tok value) =
        fun g => .ok (g.write (if value then "true".toList else "false".toList)) := by
      funext g; rw [generateExpression]
    rw [this]; exact Level.of_ok (fun _ => rfl)
  | .InfixExpression tok left operator right => by
    have : generateExpression lib (.InfixExpression tok left operator right) =
        fun g => (generateExpression lib left (g.write "(".toList)).bind fun g1 =>
          (generateExpression lib right
            (g1.write (" ".toList ++ operator ++ " ".toList))).bind fun g2 =>
              .ok (g2.write ")".toList) := by
      funext g; rw [generateExpression]
    rw [this]
    exact Level.bind_level (Level.before (fun g => g.write "(".toList) (fun _ => rfl)
        (generateExpression_level lib left))
      (Level.bind_level (Level.before (fun g => g.write (" ".toList ++ operator ++ " ".toList))
          (fun _ => rfl) (generateExpression_level lib right))
        (Level.of_ok (fun _ => rfl)))
  | .SpinExpression tok function arguments => by
    have : generateExpression lib (.SpinExpression tok function arguments) =
        generateSpinExpression function (generateExpression lib function)
          (generateArguments lib arguments 0) := by
      funext g; rw [generateExpression]
    rw [this]
    have hf := generateExpression_level lib function
    have ha := generateArguments_level lib arguments 0
    unfold generateSpinExpression
    dsimp only
    split_ifs
    · exact Level.bind_level (Level.before (fun g => g.write "fmt.Println(".toList)
        (fun _ => rfl) ha) (Level.of_ok (fun _ => rfl))
    · exact Level.bind_level hf
        (Level.bind_level (Level.before (fun g => g.write "(".toList) (fun _ => rfl) ha)
          (Level.of_ok (fun _ => rfl)))
  | .FlowExpression tok channelType => by
    have : generateExpression lib (.FlowExpression tok channelType) =
        generateFlowExpression channelType (generateExpression lib channelType) := by
      funext g; rw [generateExpression]
    rw [this]
    have hc := generateExpression_level lib channelType
    unfold generateFlowExpression
    dsimp only
    split_ifs
    · exact Level.of_ok (fun _ => rfl)
    · exact Level.bind_level (Level.before (fun g => g.write "make(".toList) (fun _ => rfl) hc)
        (Level.of_ok (fun _ => rfl))
  | .MatchExpression tok expression cases => by
    have : generateExpression lib (.MatchExpression tok expression cases) =
        generateMatchExpression (generateExpression lib expression)
          (generateCases lib cases) := by
      funext g; rw [generateExpression]
    rw [this]
    unfold generateMatchExpression
    exact Level.bind_level
      (Level.before (fun g => ((g.write "func() interface\x7b\x7d \x7b\n".toList).incIndent.writeIndent).write
        "switch ".toList) (fun _ => rfl) (generateExpression_level lib expression))
      (Level.bind_level (Level.before (fun g => g.write " \x7b\n".toList) (fun _ => rfl)
        (generateCases_level lib cases)) (Level.of_ok (fun _ => rfl)))
  | .nil => by
    have : generateExpression lib .nil =
        fun g => .error g "unknown expression type: <nil>".toList := by
      funext g; rw [generateExpression]
    rw [this]; exact Level.of_error _

theorem generateArguments_level (lib : StdLib) :
    ∀ (arguments : List Expression) (i : Nat), Level (generateArguments lib arguments i)
  | [], i => by
    have : generateArguments lib [] i = fun g => .ok g := by
      funext g; rw [generateArguments]
    rw [this]; exact Level.of_ok (fun _ => rfl)
  | arg :: rest, i => by
    have : generateArguments lib (arg :: rest) i =
        fun g => (generateExpression lib arg
          (if i > 0 then g.write ", ".toList else g)).bind fun g1 =>
            generateArguments lib rest (i + 1) g1 := by
      funext g; rw [generateArguments]
    rw [this]
    have ha := generateExpression_level lib arg
    have hr := generateArguments_level lib rest (i + 1)
    by_cases hi : i > 0
    · simp only [hi, if_true]
      exact Level.bind_level (Level.before (fun g => g.write ", ".toList) (fun _ => rfl) ha) hr
    · simp only [hi, if_false]
      exact Level.bind_level ha hr

theorem generateCases_level (lib : StdLib) :
    ∀ cases : List WhenCase, Level (generateCases lib cases)
  | [] => by
    have : generateCases lib [] = fun g => .ok g := by
      funext g; rw [generateCases]
    rw [this]; exact Level.of_ok (fun _ => rfl)
  | .mk tok pattern consequence :: rest => by
    have : generateCases lib (.mk tok pattern consequence :: rest) =
        fun g => (generateWhenCase (generateExpression lib pattern)
          (generateExpression lib consequence) g).bind fun g1 =>
            generateCases lib rest g1 := by
      funext g; rw [generateCases]
    rw [this]
    refine Level.bind_level ?_ (generateCases_level lib rest)
    unfold generateWhenCase
    exact Level.bind_level
      (Level.before (fun g => g.writeIndent.write "case ".toList) (fun _ => rfl)
        (generateExpression_level lib pattern))
      (Level.bind_level
        (Level.before (fun g => ((g.write ":\n".toList).incIndent.writeIndent).write
          "return ".toList) (fun _ => rfl) (generateExpression_level lib consequence))
        (Level.of_ok (fun _ => rfl)))

end

mutual

theorem generateStatement_level (lib : StdLib) :
    ∀ s : Statement, Level (generateStatement lib s)
  | .DanceStatement tok name value => by
    have : generateStatement lib (.DanceStatement tok name value) =
        generateDanceStatement lib name value := by
      funext g; rw [generateStatement]
    rw [this]
    unfold generateDanceStatement
    dsimp only
    refine Level.bind_level (Level.before
      (fun g => if g.writeIndent.isVarDeclared name.Value then
          (g.writeIndent.write name.Value).write " = ".toList
        else ((g.writeIndent.write name.Value).write " := ".toList).declareVar name.Value) ?_
      (generateExpression_level lib value)) (Level.of_ok (fun _ => rfl))
    intro g
    dsimp only
    split_ifs
    · rfl
    · exact declareVar_length _ _
  | .nilDanceStatement => by
    have : generateStatement lib .nilDanceStatement = fun _ => .panic := by
      funext g; rw [generateStatement]
    rw [this]; exact Level.of_panic
  | .ExpressionStatement tok expression => by
    have : generateStatement lib (.ExpressionStatement tok expression) =
        generateExpressionStatement lib expression := by
      funext g; rw [generateStatement]
    rw [this]
    unfold generateExpressionStatement
    exact Level.bind_level (Level.before (fun g => g.writeIndent) (fun _ => rfl)
      (generateExpression_level lib expression)) (Level.of_ok (fun _ => rfl))
  | .SwayStatement tok variable_ from_ to_ (.mk btok stmts) => by
    have : generateStatement lib (.SwayStatement tok variable_ from_ to_ (.mk btok stmts)) =
        generateSwayStatement lib variable_ from_ to_ (generateStatements lib stmts) := by
      funext g; rw [generateStatement]
    rw [this]
    unfold generateSwayStatement
    refine Level.bind_level
      (Level.before (fun g => ((g.writeIndent.write "for ".toList).write variable_.Value).write
        " := ".toList) (fun _ => rfl) (generateExpression_level lib from_))
      (Level.bind_level
        (Level.before (fun g => ((g.write "; ".toList).write variable_.Value).write
          " <= ".toList) (fun _ => rfl) (generateExpression_level lib to_)) ?_)
    exact @Level.block
      (fun g2 => (((((g2.write "; ".toList).write variable_.Value).write
          "++ \x7b\n".toList).pushScope).declareVar variable_.Value).incIndent)
      (fun g3 => ((g3.decIndent.popScope).writeIndent).write "\x7d\n".toList)
      (fun g => by
        show ((((g.write "; ".toList).write variable_.Value).write
          "++ \x7b\n".toList).pushScope.declareVar variable_.Value).scopeStack.length = _
        rw [declareVar_length, pushScope_length]
        rfl)
      (fun g => by
        show (g.decIndent.popScope).scopeStack.length = _
        rw [popScope_length]
        rfl)
      _ (generateStatements_level lib stmts)
  | .nilSwayStatement => by
    have : generateStatement lib .nilSwayStatement = fun _ => .panic := by
      funext g; rw [generateStatement]
    rw [this]; exact Level.of_panic
  | .StartStatement tok statement => by
    have : generateStatement lib (.StartStatement tok statement) =
        generateStartStatement (generateStatement lib statement) := by
      funext g; rw [generateStatement]
    rw [this]
    unfold generateStartStatement
    exact @Level.block
      (fun g => ((g.writeIndent.write "go func() \x7b\n".toList).pushScope).incIndent)
      (fun g1 => ((g1.decIndent.popScope).writeIndent).write "\x7d()\n".toList)
      (fun g => by
        show (g.writeIndent.write "go func() \x7b\n".toList).pushScope.scopeStack.length = _
        rw [pushScope_length]
        rfl)
      (fun g => by
        show (g.decIndent.popScope).scopeStack.length = _
        rw [popScope_length]
        rfl)
      _ (generateStatement_level lib statement)
  | .SendStatement tok channel value => by
    have : generateStatement lib (.SendStatement tok channel value) =
        generateSendStatement lib channel value := by
      funext g; rw [generateStatement]
    rw [this]
    unfold generateSendStatement
    exact Level.bind_level (Level.before (fun g => g.writeIndent) (fun _ => rfl)
        (generateExpression_level lib channel))
      (Level.bind_level (Level.before (fun g => g.write " <- ".toList) (fun _ => rfl)
        (generateExpression_level lib value)) (Level.of_ok (fun _ => rfl)))
  | .nilSendStatement => by
    have : generateStatement lib .nilSendStatement = fun _ => .panic := by
      funext g; rw [generateStatement]
    rw [this]; exact Level.of_panic
  | .IfStatement tok condition (.mk btok stmts) none => by
    have : generateStatement lib (.IfStatement tok condition (.mk btok stmts) none) =
        generateIfStatement lib condition (generateStatements lib stmts) none := by
      funext g; rw [generateStatement]
    rw [this]
    unfold generateIfStatement
    dsimp only
    refine Level.bind_level (Level.before (fun g => g.writeIndent.write "if ".toList)
      (fun _ => rfl) (generateExpression_level lib condition)) ?_
    exact @Level.block
      (fun g1 => ((g1.write " \x7b\n".toList).pushScope).incIndent)
      (fun g2 => (((g2.decIndent.popScope).writeIndent).write "\x7d".toList).write "\n".toList)
      (fun g => by
        show (g.write " \x7b\n".toList).pushScope.scopeStack.length = _
        rw [pushScope_length]
        rfl)
      (fun g => by
        show (g.decIndent.popScope).scopeStack.length = _
        rw [popScope_length]
        rfl)
      _ (generateStatements_level lib stmts)
  | .IfStatement tok condition (.mk btok stmts) (some (.mk atok alt)) => by
    have : generateStatement lib
        (.IfStatement tok condition (.mk btok stmts) (some (.mk atok alt))) =
        generateIfStatement lib condition (generateStatements lib stmts)
          (some (generateStatements lib alt)) := by
      funext g; rw [generateStatement]
    rw [this]
    unfold generateIfStatement
    dsimp only
    refine Level.bind_level (Level.before (fun g => g.writeIndent.write "if ".toList)
      (fun _ => rfl) (generateExpression_level lib condition)) ?_
    have h1 := @Level.block
      (fun g1 => ((g1.write " \x7b\n".toList).pushScope).incIndent)
      (fun g2 => ((g2.decIndent.popScope).writeIndent).write "\x7d".toList)
      (fun g => by
        show (g.write " \x7b\n".toList).pushScope.scopeStack.length = _
        rw [pushScope_length]
        rfl)
      (fun g => by
        show (g.decIndent.popScope).scopeStack.length = _
        rw [popScope_length]
        rfl)
      _ (generateStatements_level lib stmts)
    have h2 := @Level.block
      (fun g3 => ((g3.write " else \x7b\n".toList).pushScope).incIndent)
      (fun g4 => (((g4.decIndent.popScope).writeIndent).write "\x7d".toList).write "\n".toList)
      (fun g => by
        show (g.write " else \x7b\n".toList).pushScope.scopeStack.length = _
        rw [pushScope_length]
        rfl)
      (fun g => by
        show (g.decIndent.popScope).scopeStack.length = _
        rw [popScope_length]
        rfl)
      _ (generateStatements_level lib alt)
    have h3 := Level.bind_level h1 h2
    intro g
    have a := h3 g
    have e : (generateStatements lib stmts ((g.write " \x7b\n".toList).pushScope).incIndent).bind
        (fun g2 => (generateStatements lib alt
          ((((g2.decIndent.popScope).writeIndent).write "\x7d".toList).write
            " else \x7b\n".toList).pushScope.incIndent).bind fun g4 =>
          .ok ((((g4.decIndent.popScope).writeIndent).write "\x7d".toList).write "\n".toList)) =
        ((generateStatements lib stmts ((g.write " \x7b\n".toList).pushScope).incIndent).bind
          fun g1 => .ok (((g1.decIndent.popScope).writeIndent).write "\x7d".toList)).bind
          fun g => (generateStatements lib alt
            ((g.write " else \x7b\n".toList).pushScope).incIndent).bind fun g1 =>
              .ok ((((g1.decIndent.popScope).writeIndent).write "\x7d".toList).write
                "\n".toList) := by
      cases generateStatements lib stmts ((g.write " \x7b\n".toList).pushScope).incIndent <;> rfl
    show match (generateStatements lib stmts
        ((g.write " \x7b\n".toList).pushScope).incIndent).bind _ with
      | .ok g' => g'.scopeStack.length = g.scopeStack.length
      | .error g' _ => g.scopeStack.length ≤ g'.scopeStack.length
      | .panic => True
    rw [e]
    exact a
  | .nilIfStatement => by
    have : generateStatement lib .nilIfStatement = fun _ => .panic := by
      funext g; rw [generateStatement]
    rw [this]; exact Level.of_panic
  | .Block b => by
    have : generateStatement lib (.Block b) =
        fun g => .error g "unknown statement type: *ast.BlockStatement".toList := by
      funext g; rw [generateStatement]
    rw [this]; exact Level.of_error _
  | .nil => by
    have : generateStatement lib .nil =
        fun g => .error g "unknown statement type: <nil>".toList := by
      funext g; rw [generateStatement]
    rw [this]; exact Level.of_error _

theorem generateStatements_level (lib : StdLib) :
    ∀ stmts : List Statement, Level (generateStatements lib stmts)
  | [] => by
    have : generateStatements lib [] = fun g => .ok g := by
      funext g; rw [generateStatements]
    rw [this]; exact Level.of_ok (fun _ => rfl)
  | s :: rest => by
    have : generateStatements lib (s :: rest) =
        fun g => (generateStatement lib s g).bind fun g1 => generateStatements lib rest g1 := by
      funext g; rw [generateStatements]
    rw [this]
    exact Level.bind_level (generateStatement_level lib s) (generateStatements_level lib rest)

end

theorem collect_scopeStack {stmts : List Statement} {g g' : CodeGenerator}
    (h : collectImportsFromBlock stmts g = some g')
    (hi : g.imports = [] ∨ g.imports = ["fmt".toList]) :
    g'.scopeStack = g.scopeStack ∧ g'.output = g.output ∧ g'.indent = g.indent ∧
      (g'.imports = [] ∨ g'.imports = ["fmt".toList]) := by
  obtain ⟨I, e, hI⟩ := collectImportsFromBlock_imports stmts g g' h hi
  rw [e]
  exact ⟨rfl, rfl, rfl, hI⟩

theorem writeImports_frame : ∀ (I : List Str) (g : CodeGenerator),
    (writeImports I g).scopeStack = g.scopeStack ∧ (writeImports I g).imports = g.imports ∧
      ∃ t, (writeImports I g).output = g.output ++ t := by
  intro I
  induction I with
  | nil => intro g; exact ⟨rfl, rfl, [], by simp [writeImports]⟩
  | cons imp rest ih =>
    intro g
    obtain ⟨h1, h2, t, h3⟩ := ih (g.writeLine ('"' :: imp ++ ['"']))
    rw [writeImports]
    refine ⟨h1, h2, ?_⟩
    rw [h3]
    exact ⟨_, by simp [writeLine, writeIndent, List.append_assoc]; rfl⟩

end CodeGenerator

section AfterGenerate

open CodeGenerator

/-- What `Generate` leaves in the generator: it appends to the output, starting with the
package clause, the import set stays empty or `fmt` alone, and the scope stack is as deep
as before when it returns nil and not less deep when it returns an error. -/
theorem CodeGenerator.Generate_frame (lib : StdLib) (program : Program) (g : CodeGenerator)
    (hi : g.imports = [] ∨ g.imports = ["fmt".toList]) :
    match Generate lib g program with
    | .ok g' => (∃ t, g'.output = g.output ++ ("package main\n\n".toList ++ t)) ∧
        (g'.imports = [] ∨ g'.imports = ["fmt".toList]) ∧
        g'.scopeStack.length = g.scopeStack.length
    | .error g' _ => g.scopeStack.length ≤ g'.scopeStack.length
    | .panic => True := by
  unfold CodeGenerator.Generate
  dsimp only
  cases h2 : collectImportsFromBlock program.Statements (g.write "package main\n\n".toList) with
  | none => trivial
  | some g2 =>
    obtain ⟨hs, ho, -, hI⟩ := collect_scopeStack h2 hi
    dsimp only
    generalize hg3 : (if g2.imports.length > 0 then
        (((writeImports g2.imports (g2.write "import (\n".toList).incIndent).decIndent).write
          ")\n\n".toList) else g2) = g3
    have f3 : g3.scopeStack = g2.scopeStack ∧ g3.imports = g2.imports ∧
        ∃ t, g3.output = g2.output ++ t := by
      rw [← hg3]
      split_ifs
      · obtain ⟨a, b, t, c⟩ := writeImports_frame g2.imports
          (g2.write "import (\n".toList).incIndent
        refine ⟨a, b, "import (\n".toList ++ t ++ ")\n\n".toList, ?_⟩
        show (writeImports g2.imports (g2.write "import (\n".toList).incIndent).output ++ _ = _
        rw [c]
        simp [write, incIndent, List.append_assoc]
      · exact ⟨rfl, rfl, [], by simp⟩
    obtain ⟨f3s, f3i, t3, f3o⟩ := f3
    have lv := generateStatements_level lib program.Statements
      ((g3.write "func main() \x7b\n".toList).incIndent)
    cases h4 : generateStatements lib program.Statements
        ((g3.write "func main() \x7b\n".toList).incIndent) with
    | ok g4 =>
      rw [h4] at lv
      obtain ⟨s, ss, i, e4, -⟩ := generateStatements_uniform lib program.Statements _ _ h4
      have lv' : g4.scopeStack.length =
          ((g3.write "func main() \x7b\n".toList).incIndent).scopeStack.length := lv
      refine ⟨⟨t3 ++ ("func main() \x7b\n".toList ++ (s ++ "\x7d\n".toList)), ?_⟩, ?_, ?_⟩
      · show (g4.decIndent.write "\x7d\n".toList).output = _
        rw [e4]
        show (g3.output ++ _ ++ s) ++ _ = _
        rw [f3o, ho]
        simp [write, List.append_assoc]
      · show g4.imports = [] ∨ g4.imports = ["fmt".toList]
        rw [e4]
        show g3.imports = [] ∨ g3.imports = ["fmt".toList]
        rw [f3i]
        exact hI
      · show g4.scopeStack.length = g.scopeStack.length
        rw [lv']
        show g3.scopeStack.length = g.scopeStack.length
        rw [f3s, hs]
        rfl
    | error g4 msg =>
      rw [h4] at lv
      have lv' : ((g3.write "func main() \x7b\n".toList).incIndent).scopeStack.length ≤
          g4.scopeStack.length := lv
      show g.scopeStack.length ≤ g4.scopeStack.length
      have : ((g3.write "func main() \x7b\n".toList).incIndent).scopeStack.length =
          g.scopeStack.length := by
        show g3.scopeStack.length = g.scopeStack.length
        rw [f3s, hs]
        rfl
      omega
    | panic => trivial

/-- C34 (amended). Scope discipline on the exit path without error: for every program,
when `Generate` on a generator created by `New` returns nil as its error, the scope
stack has the same depth as before the call. When it returns an error, the depth is
not smaller than before the call (the scopes pushed on the way to the rejected node are
not popped). -/
theorem scope_depth_after_generate (lib : StdLib) (program : Program) (g : CodeGenerator) :
    (Generate lib CodeGenerator.New program = .ok g →
      g.scopeStack.length = CodeGenerator.New.scopeStack.length) ∧
    (∀ msg, Generate lib CodeGenerator.New program = .error g msg →
      CodeGenerator.New.scopeStack.length ≤ g.scopeStack.length) := by
  have h := Generate_frame lib program CodeGenerator.New (Or.inl rfl)
  constructor
  · intro hr
    rw [hr] at h
    exact h.2.2
  · intro msg hr
    rw [hr] at h
    exact h

/-- Witness for `scope_depth_after_generate`: the program `dance x = 5`, on which
`Generate` returns nil; the program `sway i from 0 to 1 { dance x = 5 }`, on which
`Generate` pushes and pops the scope of the body and returns nil; and the program with a
block statement in the body of a sway statement, on which `Generate` returns an error
and leaves the scope of the body pushed. -/
theorem scope_depth_after_generate_witness :
    Generate asciiLib CodeGenerator.New danceProgram = .ok danceGenerated ∧
    danceGenerated.scopeStack.length = CodeGenerator.New.scopeStack.length ∧
    Generate asciiLib CodeGenerator.New loopProgram = .ok loopGenerated ∧
    loopGenerated.scopeStack.length = CodeGenerator.New.scopeStack.length ∧
    Generate asciiLib CodeGenerator.New rejectedProgram =
      .error rejectedGenerated "unknown statement type: *ast.BlockStatement".toList ∧
    CodeGenerator.New.scopeStack.length ≤ rejectedGenerated.scopeStack.length :=
  ⟨by decide, (scope_depth_after_generate asciiLib danceProgram _).1 (by decide),
    by decide, (scope_depth_after_generate asciiLib loopProgram _).1 (by decide),
    by decide, (scope_depth_after_generate asciiLib rejectedProgram rejectedGenerated).2
      "unknown statement type: *ast.BlockStatement".toList (by decide)⟩

/-- C34 fails as stated. On the program whose sway statement has a block statement in
its body, `Generate` on a generator created by `New` returns the error
`unknown statement type: *ast.BlockStatement` and leaves a scope stack of depth 2, while
the depth was 1 before the call: the `return err` in the loop over the body skips
`popScope`. -/
theorem scope_left_pushed_on_error :
    (match Generate asciiLib CodeGenerator.New rejectedProgram with
      | .error g msg => some (msg, g.scopeStack.length)
      | _ => none) = some ("unknown statement type: *ast.BlockStatement".toList, 2) ∧
    CodeGenerator.New.scopeStack.length = 1 :=
  ⟨by decide, by decide⟩

/-- C33 (amended). A generator is good for one call: for every program, when
`Generate` on a generator created by `New` returns nil, the import set that it leaves is
empty or holds `fmt` alone (so the order of the range over it does not matter), and
when `Generate` is called on the same generator again and returns nil, the text that it
returns is the text of the first call followed by a second translation that starts
with the package clause again; the two texts differ. -/
theorem second_call_appends (lib : StdLib) (program : Program) (g1 g2 : CodeGenerator)
    (h1 : Generate lib CodeGenerator.New program = .ok g1)
    (h2 : Generate lib g1 program = .ok g2) :
    (g1.imports = [] ∨ g1.imports = ["fmt".toList]) ∧
    (∃ t, g2.output = g1.output ++ ("package main\n\n".toList ++ t)) ∧
    g2.output ≠ g1.output := by
  have f1 := Generate_frame lib program CodeGenerator.New (Or.inl rfl)
  rw [h1] at f1
  have f2 := Generate_frame lib program g1 f1.2.1
  rw [h2] at f2
  obtain ⟨t, ht⟩ := f2.1
  refine ⟨f1.2.1, ⟨t, ht⟩, ?_⟩
  intro he
  have := congrArg List.length (ht.symm.trans he)
  simp at this

/-- Witness for `second_call_appends`: the program `dance x = 5`. -/
theorem second_call_appends_witness :
    Generate asciiLib CodeGenerator.New danceProgram = .ok danceGenerated ∧
    Generate asciiLib danceGenerated danceProgram = .ok danceGeneratedTwice ∧
    (danceGenerated.imports = [] ∨ danceGenerated.imports = ["fmt".toList]) ∧
    (∃ t, danceGeneratedTwice.output =
      danceGenerated.output ++ ("package main\n\n".toList ++ t)) ∧
    danceGeneratedTwice.output ≠ danceGenerated.output :=
  ⟨by decide, by decide,
    second_call_appends asciiLib danceProgram _ _ (by decide) (by decide)⟩

/-- C33 fails as stated. On the program `dance x = 5`, the first call of `Generate` on a
generator created by `New` returns the translation with `x := 5`, and a second call on
the same generator returns that text followed by a translation with `x = 5`: the
output buffer and the scope stack are carried over. On the empty program the second
call returns the text of the first twice. -/
theorem second_call_differs :
    (match Generate asciiLib CodeGenerator.New danceProgram with
      | .ok g1 =>
        (match Generate asciiLib g1 danceProgram with
          | .ok g2 => some (g1.output, g2.output)
          | _ => none)
      | _ => none) =
      some ("package main\n\nfunc main() \x7b\n\tx := 5\n\x7d\n".toList,
        ("package main\n\nfunc main() \x7b\n\tx := 5\n\x7d\n" ++
          "package main\n\nfunc main() \x7b\n\tx = 5\n\x7d\n").toList) ∧
    (match Generate asciiLib CodeGenerator.New { Statements := [] } with
      | .ok g1 =>
        (match Generate asciiLib g1 { Statements := [] } with
          | .ok g2 => some (g1.output, g2.output)
          | _ => none)
      | _ => none) =
      some ("package main\n\nfunc main() \x7b\n\x7d\n".toList,
        ("package main\n\nfunc main() \x7b\n\x7d\n" ++
          "package main\n\nfunc main() \x7b\n\x7d\n").toList) :=
  ⟨by decide, by decide⟩

end AfterGenerate

section OpenBlocks

open Parser

variable {lib : StdLib}

end OpenBlocks

section OpenBlockExamples

open Parser

end OpenBlockExamples

/-! ## The decimal digits that `%d` writes -/

theorem digitChar_decimal {k : Nat} (h : k < 10) :
    asciiDigit (Nat.digitChar k) = true ∧ (Nat.digitChar k).toNat - 0x30 = k ∧
      (0 < k → Nat.digitChar k ≠ '0') := by
  interval_cases k <;> decide

theorem digitsValue_shift (ds : Str) : ∀ acc : Nat,
    digitsValue 10 acc ds = acc * 10 ^ ds.length + digitsValue 10 0 ds := by
  induction ds with
  | nil => intro acc; simp [digitsValue]
  | cons c rest ih =>
    intro acc
    have h1 : digitsValue 10 acc (c :: rest) =
        digitsValue 10 (acc * 10 + (c.toNat - 0x30)) rest := rfl
    have h2 : digitsValue 10 0 (c :: rest) =
        digitsValue 10 (0 * 10 + (c.toNat - 0x30)) rest := rfl
    rw [h1, h2, ih (acc * 10 + (c.toNat - 0x30)), ih (0 * 10 + (c.toNat - 0x30)),
      List.length_cons, Nat.pow_succ]
    ring

theorem toDigitsCore_decimal : ∀ (fuel n : Nat) (ds : Str), n < fuel →
    ds.all asciiDigit = true →
    (Nat.toDigitsCore 10 fuel n ds).all asciiDigit = true ∧
      Nat.toDigitsCore 10 fuel n ds ≠ [] ∧
      digitsValue 10 0 (Nat.toDigitsCore 10 fuel n ds) =
        n * 10 ^ ds.length + digitsValue 10 0 ds ∧
      (0 < n → (Nat.toDigitsCore 10 fuel n ds).head? ≠ some '0') := by
  intro fuel
  induction fuel with
  | zero => intro n ds h; omega
  | succ fuel ih =>
    intro n ds hn hds
    have hm : n % 10 < 10 := Nat.mod_lt _ (by decide)
    obtain ⟨d1, d2, d3⟩ := digitChar_decimal hm
    have hall : (Nat.digitChar (n % 10) :: ds).all asciiDigit = true := by
      rw [List.all_cons, d1, hds]
      rfl
    have hval : digitsValue 10 0 (Nat.digitChar (n % 10) :: ds) =
        (n % 10) * 10 ^ ds.length + digitsValue 10 0 ds := by
      have h2 : digitsValue 10 0 (Nat.digitChar (n % 10) :: ds) =
          digitsValue 10 (0 * 10 + ((Nat.digitChar (n % 10)).toNat - 0x30)) ds := rfl
      rw [h2, d2, digitsValue_shift]
      simp
    rw [Nat.toDigitsCore]
    split_ifs with hz
    · have hlt : n < 10 := by
        by_contra hge
        have : 1 ≤ n / 10 := Nat.div_pos (Nat.le_of_not_lt hge) (by decide)
        omega
      have hmod : n % 10 = n := Nat.mod_eq_of_lt hlt
      refine ⟨hall, List.cons_ne_nil _ _, ?_, ?_⟩
      · rw [hval, hmod]
      · intro hpos
        rw [List.head?_cons]
        intro he
        injection he with he
        exact d3 (by rw [hmod]; exact hpos) he
    · have hlt : n / 10 < fuel := by
        have : n / 10 < n := Nat.div_lt_self (by omega) (by decide)
        omega
      obtain ⟨a1, a2, a3, a4⟩ := ih (n / 10) (Nat.digitChar (n % 10) :: ds) hlt hall
      refine ⟨a1, a2, ?_, fun _ => a4 (Nat.pos_of_ne_zero hz)⟩
      rw [a3, hval, List.length_cons, Nat.pow_succ]
      have := Nat.div_add_mod n 10
      calc n / 10 * (10 ^ ds.length * 10) + (n % 10 * 10 ^ ds.length + digitsValue 10 0 ds)
          = (10 * (n / 10) + n % 10) * 10 ^ ds.length + digitsValue 10 0 ds := by ring
        _ = n * 10 ^ ds.length + digitsValue 10 0 ds := by rw [this]

/-- The digits that `%d` writes for a natural number are a decimal literal without a
leading zero, and their value is the number. -/
theorem toDigits_decimal (n : Nat) :
    plainDecimal (Nat.toDigits 10 n) = true ∧ decimalValue (Nat.toDigits 10 n) = n := by
  obtain ⟨a1, a2, a3, a4⟩ := toDigitsCore_decimal (n + 1) n [] (Nat.lt_succ_self _) rfl
  have hv : decimalValue (Nat.toDigits 10 n) = n := by
    unfold decimalValue Nat.toDigits
    rw [a3]
    simp [digitsValue]
  refine ⟨?_, hv⟩
  unfold plainDecimal
  have hdec : decimal (Nat.toDigits 10 n) = true := by
    unfold Nat.toDigits
    cases h : Nat.toDigitsCore 10 (n + 1) n [] with
    | nil => exact absurd h a2
    | cons c r =>
      rw [h] at a1
      exact a1
  rw [hdec, Bool.true_and]
  by_cases hz : n = 0
  · subst hz
    decide
  · have := a4 (Nat.pos_of_ne_zero hz)
    simp only [Bool.or_eq_true, decide_eq_true_eq]
    exact Or.inr this

theorem formatInt_natCast (n : Nat) : formatInt (n : Int) = Nat.toDigits 10 n := by
  unfold formatInt
  rw [if_neg (by omega)]
  rfl

/-! ## Parsing the text of an emitted expression -/

namespace Parser

theorem parseGroupedExpression_returns (lib : StdLib) {p p1 : Parser} {exp : Expression}
    (h : Returns (fun m => parseExpression lib m LOWEST (p.nextToken lib)) (p1, exp))
    (h1 : p1.peekToken.Typ = RPAREN) :
    Returns (fun m => parseGroupedExpression lib m p) (p1.nextToken lib, exp) := by
  obtain ⟨n1, e1⟩ := h
  refine Returns.of_succ n1 (fun k hk => ?_)
  have a1 : parseExpression lib k LOWEST (p.nextToken lib) = some (p1, exp) := e1 k hk
  show parseGroupedExpression lib (k + 1) p = _
  rw [Parser.parseGroupedExpression, a1]
  simp only [expectPeek_of lib h1, Bool.true_eq_false, if_false]

theorem parseExpression_grouped (lib : StdLib) {prec : Nat} {p p1 : Parser}
    {left : Expression} {r : Parser × Expression} (h : p.curToken.Typ = LPAREN)
    (hs : Returns (fun m => parseGroupedExpression lib m p) (p1, left))
    (hl : Returns (fun m => parseExpressionLoop lib m prec p1 left) r) :
    Returns (fun m => parseExpression lib m prec p) r := by
  obtain ⟨n1, e1⟩ := hs
  obtain ⟨n2, e2⟩ := hl
  refine Returns.of_succ (n1 + n2) (fun k hk => ?_)
  have a1 : parseGroupedExpression lib k p = some (p1, left) := e1 k (by omega)
  have a2 : parseExpressionLoop lib k prec p1 left = some r := e2 k (by omega)
  show parseExpression lib (k + 1) prec p = _
  rw [Parser.parseExpression, h]
  simp only [prefixParseFns, a1]
  exact a2

end Parser

section RoundTrip

open Parser CodeGenerator

variable {lib : StdLib}

theorem IsOperand.of_atom {t : TokenType × Str} {E : Expression} (h : IsAtom lib t E) :
    IsOperand lib [t] E := by
  refine ⟨h.1, fun p rest hp => ?_⟩
  have hp0 : Parser.Ahead lib p (t :: rest) := hp
  obtain ⟨e, he, run⟩ := h.2 p hp0.1
  exact ⟨e, he, fun prec r hl => run prec r hl⟩

/-- An infix expression between parentheses is an operand. -/
theorem IsOperand.group {lts rts : List (TokenType × Str)} {L R : Expression}
    (hL : IsOperand lib lts L) (hR : IsOperand lib rts R) {op : TokenType × Str}
    (hop : op ∈ infixOps) (lp rp : Str) :
    IsOperand lib ((LPAREN, lp) :: (lts ++ op :: (rts ++ [(RPAREN, rp)])))
      (infixNode op L R) := by
  have hnL := nonempty_of_operand hL.1
  have hnR := nonempty_of_operand hR.1
  obtain ⟨_, _, f3, _⟩ := infixOps_facts hop
  refine ⟨rfl, fun p rest hp => ?_⟩
  have hp0 : Parser.Ahead lib p ((LPAREN, lp) :: (lts ++ op :: (rts ++ (RPAREN, rp) :: rest))) := by
    simpa using hp
  have hp1 := hp0.step
  obtain ⟨eL, heL, runL⟩ := hL.2 _ _ hp1
  obtain ⟨tL, hlastL⟩ := Parser.Ahead.at_last hnL hp1
  have hpop := hlastL.step
  have hpR := hpop.step
  obtain ⟨eR, heR, runR⟩ := hR.2 _ _ hpR
  obtain ⟨tR, hlastR⟩ := Parser.Ahead.at_last hnR hpR
  have hrp : precedenceOf RPAREN = LOWEST := rfl
  have r2 := runR _ _ (loop_leave hlastR
    (show ¬ precedenceOf op.1 < precedenceOf (((RPAREN, rp) :: rest).headD eofTok).1 from by
      show ¬ precedenceOf op.1 < precedenceOf RPAREN
      rw [hrp]
      omega) eR)
  obtain ⟨e, hi, hs⟩ := infix_run eL hpop r2
  have inner := runL _ _ (loop_take hlastL hop f3 hi (loop_leave hlastR
    (show ¬ LOWEST < precedenceOf (((RPAREN, rp) :: rest).headD eofTok).1 from by
      show ¬ LOWEST < precedenceOf RPAREN
      rw [hrp]
      omega) e))
  have hg := parseGroupedExpression_returns lib inner hlastR.peek
  refine ⟨e, by rw [hs, heL, heR], fun prec r hl => ?_⟩
  have hadv : Parser.advance lib
      (((LPAREN, lp) :: (lts ++ op :: (rts ++ [(RPAREN, rp)]))).length - 1) p =
      (Parser.advance lib (rts.length - 1)
        (((Parser.advance lib (lts.length - 1) (p.nextToken lib)).nextToken lib).nextToken
          lib)).nextToken lib := by
    have h1 : p.nextToken lib = Parser.advance lib 1 p := rfl
    have h2 : ∀ q : Parser, (q.nextToken lib).nextToken lib = Parser.advance lib 2 q :=
      fun _ => rfl
    rw [h2, h1, ← Parser.advance_one, ← Parser.advance_add, ← Parser.advance_add,
      ← Parser.advance_add, ← Parser.advance_add]
    congr 1
    have := List.length_pos.2 hnL
    have := List.length_pos.2 hnR
    simp only [List.length_cons, List.length_append, List.length_nil]
    omega
  rw [hadv] at hl
  exact parseExpression_grouped lib hp0.cur.1 hg hl

/-- An operand that is followed by a token without precedence is a whole expression. -/
theorem IsOperand.parsesExpr {ts : List (TokenType × Str)} {E : Expression}
    (h : IsOperand lib ts E) : ParsesExpr lib ts E := by
  refine ⟨h.1, fun p rest hp hrest => ?_⟩
  obtain ⟨e, he, run⟩ := h.2 p rest hp
  obtain ⟨t, hlast⟩ := Parser.Ahead.at_last (nonempty_of_operand h.1) hp
  exact ⟨e, run _ _ (loop_leave hlast (by rw [precedenceOf_none hrest]; exact Nat.lt_irrefl _) e),
    he⟩

theorem Arith.int_admitted {n : Nat} (h : n < 2 ^ 63) :
    (Operand.int (Nat.toDigits 10 n)).admitted lib = true := by
  obtain ⟨h1, h2⟩ := toDigits_decimal n
  simp only [Operand.admitted, h1, Bool.true_and, decide_eq_true_eq, h2]
  exact h

theorem Arith.int_node (n : Nat) :
    (Operand.int (Nat.toDigits 10 n)).node = (Arith.int n).node := by
  simp only [Operand.node, Arith.node, (toDigits_decimal n).2]

/-- The tokens of an admitted tree are an operand with the tree as its parse. -/
theorem Arith.isOperand : ∀ t : Arith, t.admitted lib = true → IsOperand lib t.tokens t.node := by
  intro t
  induction t with
  | ident a =>
    intro _
    exact IsOperand.of_atom (IsAtom_identifier lib a)
  | int n =>
    intro h
    have hn : n < 2 ^ 63 := by simpa [Arith.admitted] using h
    have := IsOperand.of_atom (Operand.isAtom (@Arith.int_admitted lib n hn))
    rw [Arith.int_node] at this
    exact this
  | binary op left right ihl ihr =>
    intro h
    simp only [Arith.admitted, Bool.and_eq_true, decide_eq_true_eq] at h
    exact IsOperand.group (ihl h.1.2) (ihr h.2) h.1.1 _ _

/-- The text of an admitted tree is scanned into its tokens. -/
theorem Arith.scanned : ∀ t : Arith, t.admitted lib = true → LexesIn lib t.text t.tokens := by
  have hsp : blank ' ' = true := by decide
  obtain ⟨s1, _, _, _⟩ := blank_facts lib hsp
  intro t
  induction t with
  | ident a =>
    intro h d rest ts' hd hl
    have ha : (Operand.ident a).admitted lib = true := h
    exact Operand.lexes ha hd hl
  | int n =>
    intro h d rest ts' hd hl
    have hn : n < 2 ^ 63 := by simpa [Arith.admitted] using h
    exact Operand.lexes (@Arith.int_admitted lib n hn) hd hl
  | binary op left right ihl ihr =>
    intro h d rest ts' hd hl
    simp only [Arith.admitted, Bool.and_eq_true, decide_eq_true_eq] at h
    have l5 := Lexes_rparen lib hl
    have l4 := ihr h.2 ')' _ _ (by decide) l5
    have l3 := Lexes_infixOp lib h.1.1 s1 (Lexes_blank lib hsp l4)
    have l2 := ihl h.1.2 ' ' _ _ s1 (Lexes_blank lib hsp l3)
    have l1 := Lexes_lparen lib l2
    simpa [Arith.text, Arith.tokens, List.append_assoc] using l1

/-- The emitter writes the text of the tree. -/
theorem Arith.emitted : ∀ (t : Arith) (g : CodeGenerator),
    generateExpression lib t.node g = .ok (g.write t.text) := by
  intro t
  induction t with
  | ident a =>
    intro g
    rw [Arith.node, identNode, generateExpression]
    rfl
  | int n =>
    intro g
    rw [Arith.node, generateExpression, formatInt_natCast]
    rfl
  | binary op left right ihl ihr =>
    intro g
    rw [Arith.node, infixNode, generateExpression, ihl]
    simp only [Res.bind]
    rw [ihr]
    simp [Res.bind, write, Arith.text, List.append_assoc]

/-- C39 (amended). Round trip of emitted expressions: for every expression built from
identifiers that are not keywords, integers from 0 to 2^63 - 1 and infix nodes over the
operators `+ - * / == != < > <= >= =~`, in which every node has the token that the lexer
returns for its emitted text (so every integer token has the decimal digits of its value
as lexeme), the emitter writes, at every indentation, the fully parenthesised text of the
expression, and that text followed by a newline is parsed, for every fuel that is large
enough, with an empty error list to one expression statement whose expression is the
tree again, up to the positions of the tokens. -/
theorem emitted_expression_round_trip (lib : StdLib) (t : Arith) (h : t.admitted lib = true) :
    (∀ d, emitExpression lib d t.node = some t.text) ∧
    ∃ (p : Parser) (program : Program),
      Returns (fun m => Parser.ParseProgram lib m (Parser.New lib (Lexer.New
        (t.text ++ ['\n'])))) (p, program) ∧
      p.errors = [] ∧
      stripStatements program.Statements =
        [.ExpressionStatement (tokenOf (t.tokens.headD eofTok)) t.node] := by
  constructor
  · intro d
    unfold emitExpression
    rw [Arith.emitted]
    simp [write]
  · have hnl : blank '\n' = true := by decide
    have l1 := Arith.scanned t h '\n' [] _ (blank_facts lib hnl).1
      (Lexes_blank lib hnl (Lexes_nil lib))
    exact program_of_statements [(t.tokens, _)]
      (by
        intro x hx
        rw [List.mem_singleton] at hx
        subst hx
        exact ParsesStmt_expression (Arith.isOperand t h).parsesExpr)
      (by simpa using l1)

/-- Witness for `emitted_expression_round_trip`: the tree `(x + 12) * y`, which is
written as `((x + 12) * y)`. -/
theorem emitted_expression_round_trip_witness :
    exampleArith.admitted asciiLib = true ∧
    exampleArith.text = "((x + 12) * y)".toList ∧
    (∀ d, emitExpression asciiLib d exampleArith.node = some exampleArith.text) ∧
    ∃ (p : Parser) (program : Program),
      Returns (fun m => Parser.ParseProgram asciiLib m (Parser.New asciiLib (Lexer.New
        (exampleArith.text ++ ['\n'])))) (p, program) ∧
      p.errors = [] ∧
      stripStatements program.Statements =
        [.ExpressionStatement (tokenOf (exampleArith.tokens.headD eofTok)) exampleArith.node] :=
  ⟨by decide, by decide, emitted_expression_round_trip asciiLib exampleArith (by decide)⟩

end RoundTrip

section ListedOperators

theorem Token.listed_of_kind {t : Token} (h : infixParseFns t.Typ = false) : t.Listed := by
  intro h1
  rw [h] at h1
  cases h1

theorem Token.listed_of_literal {t : Token} (h : t.Literal ∈ listedOperators) : t.Listed :=
  fun _ => h

theorem lookup_value_mem {α β : Type} [BEq α] (a : α) (b : β) :
    ∀ (l : List (α × β)), l.lookup a = some b → b ∈ l.map Prod.snd := by
  intro l
  induction l with
  | nil => intro h; cases h
  | cons x rest ih =>
    obtain ⟨k, v⟩ := x
    intro h
    rw [List.lookup_cons] at h
    cases hk : (a == k) with
    | true =>
      rw [hk] at h
      injection h with h
      rw [← h]
      exact List.mem_cons_self _ _
    | false =>
      rw [hk] at h
      exact List.mem_cons_of_mem _ (ih h)

theorem LookupIdent_no_operator (w : Str) : infixParseFns (LookupIdent w) = false := by
  unfold LookupIdent
  cases h : keywords.lookup w with
  | none => rfl
  | some tok =>
    have hm := lookup_value_mem w tok keywords h
    have hall : ∀ k ∈ keywords.map Prod.snd, infixParseFns k = false := by decide
    exact hall tok hm

theorem Lexer.readNumber_no_operator (lib : StdLib) (l : Lexer) :
    infixParseFns (l.readNumber lib).2.1 = false := by
  unfold Lexer.readNumber
  dsimp only
  split <;> rfl

theorem Lexer.NextTokenAux_listed (lib : StdLib) :
    ∀ (n : Nat) (l : Lexer), (Lexer.NextTokenAux lib n l).2.Listed := by
  intro n
  induction n with
  | zero => intro l; exact Token.listed_of_kind rfl
  | succ n ih =>
    intro l
    rw [Lexer.NextTokenAux]
    dsimp only
    generalize l.skipWhitespace = a
    by_cases hc1 : a.ch = '='
    · rw [if_pos hc1]
      by_cases hp1 : a.peekChar = '='
      · rw [if_pos hp1]
        exact Token.listed_of_literal (by show [a.ch, a.readChar.ch] ∈ listedOperators; rw [Lexer.readChar_ch, hc1, hp1]; decide)
      rw [if_neg hp1]
      by_cases hp2 : a.peekChar = '~'
      · rw [if_pos hp2]
        exact Token.listed_of_literal (by show [a.ch, a.readChar.ch] ∈ listedOperators; rw [Lexer.readChar_ch, hc1, hp2]; decide)
      rw [if_neg hp2]
      exact Token.listed_of_kind rfl
    rw [if_neg hc1]
    by_cases hc2 : a.ch = '+'
    · rw [if_pos hc2]
      exact Token.listed_of_literal (by show [a.ch] ∈ listedOperators; rw [hc2]; decide)
    rw [if_neg hc2]
    by_cases hc3 : a.ch = '-'
    · rw [if_pos hc3]
      by_cases hp1 : a.peekChar = '>'
      · rw [if_pos hp1]
        exact Token.listed_of_kind rfl
      rw [if_neg hp1]
      exact Token.listed_of_literal (by show [a.ch] ∈ listedOperators; rw [hc3]; decide)
    rw [if_neg hc3]
    by_cases hc4 : a.ch = '!'
    · rw [if_pos hc4]
      by_cases hp1 : a.peekChar = '='
      · rw [if_pos hp1]
        exact Token.listed_of_literal (by show [a.ch, a.readChar.ch] ∈ listedOperators; rw [Lexer.readChar_ch, hc4, hp1]; decide)
      rw [if_neg hp1]
      exact Token.listed_of_kind rfl
    rw [if_neg hc4]
    by_cases hc5 : a.ch = '/'
    · rw [if_pos hc5]
      by_cases hp1 : a.peekChar = '/'
      · rw [if_pos hp1]; exact ih _
      rw [if_neg hp1]
      exact Token.listed_of_literal (by show [a.ch] ∈ listedOperators; rw [hc5]; decide)
    rw [if_neg hc5]
    by_cases hc6 : a.ch = '*'
    · rw [if_pos hc6]
      exact Token.listed_of_literal (by show [a.ch] ∈ listedOperators; rw [hc6]; decide)
    rw [if_neg hc6]
    by_cases hc7 : a.ch = '<'
    · rw [if_pos hc7]
      by_cases hp1 : a.peekChar = '-'
      · rw [if_pos hp1]
        exact Token.listed_of_kind rfl
      rw [if_neg hp1]
      by_cases hp2 : a.peekChar = '='
      · rw [if_pos hp2]
        exact Token.listed_of_literal (by show [a.ch, a.readChar.ch] ∈ listedOperators; rw [Lexer.readChar_ch, hc7, hp2]; decide)
      rw [if_neg hp2]
      exact Token.listed_of_literal (by show [a.ch] ∈ listedOperators; rw [hc7]; decide)
    rw [if_neg hc7]
    by_cases hc8 : a.ch = '>'
    · rw [if_pos hc8]
      by_cases hp1 : a.peekChar = '='
      · rw [if_pos hp1]
        exact Token.listed_of_literal (by show [a.ch, a.readChar.ch] ∈ listedOperators; rw [Lexer.readChar_ch, hc8, hp1]; decide)
      rw [if_neg hp1]
      exact Token.listed_of_literal (by show [a.ch] ∈ listedOperators; rw [hc8]; decide)
    rw [if_neg hc8]
    by_cases hc9 : a.ch = ','
    · rw [if_pos hc9]
      exact Token.listed_of_kind rfl
    rw [if_neg hc9]
    by_cases hc10 : a.ch = ';'
    · rw [if_pos hc10]
      exact Token.listed_of_kind rfl
    rw [if_neg hc10]
    by_cases hc11 : a.ch = ':'
    · rw [if_pos hc11]
      exact Token.listed_of_kind rfl
    rw [if_neg hc11]
    by_cases hc12 : a.ch = '('
    · rw [if_pos hc12]
      exact Token.listed_of_kind rfl
    rw [if_neg hc12]
    by_cases hc13 : a.ch = ')'
    · rw [if_pos hc13]
      exact Token.listed_of_kind rfl
    rw [if_neg hc13]
    by_cases hc14 : a.ch = '{'
    · rw [if_pos hc14]
      exact Token.listed_of_kind rfl
    rw [if_neg hc14]
    by_cases hc15 : a.ch = '}'
    · rw [if_pos hc15]
      exact Token.listed_of_kind rfl
    rw [if_neg hc15]
    by_cases hc16 : a.ch = '['
    · rw [if_pos hc16]
      exact Token.listed_of_kind rfl
    rw [if_neg hc16]
    by_cases hc17 : a.ch = ']'
    · rw [if_pos hc17]
      exact Token.listed_of_kind rfl
    rw [if_neg hc17]
    by_cases hq : a.ch = '"'
    · rw [if_pos hq]; exact Token.listed_of_kind rfl
    rw [if_neg hq]
    by_cases hz : a.ch = NUL
    · rw [if_pos hz]; exact Token.listed_of_kind rfl
    rw [if_neg hz]
    by_cases hl : isLetter lib a.ch
    · rw [if_pos hl]; exact Token.listed_of_kind (LookupIdent_no_operator _)
    rw [if_neg hl]
    by_cases hd : isDigit lib a.ch
    · rw [if_pos hd]; exact Token.listed_of_kind (Lexer.readNumber_no_operator lib a)
    rw [if_neg hd]
    exact Token.listed_of_kind rfl

theorem Parser.nextToken_listed (lib : StdLib) (p : Parser) :
    (p.nextToken lib).peekToken.Listed :=
  Lexer.NextTokenAux_listed lib _ _

theorem Parser.expectPeek_listed (lib : StdLib) {p : Parser} (t : TokenType)
    (h : p.peekToken.Listed) : (p.expectPeek lib t).1.peekToken.Listed := by
  unfold Parser.expectPeek
  split
  · exact Parser.nextToken_listed lib p
  · exact h

theorem Parser.semicolon_listed (lib : StdLib) {p : Parser} (h : p.peekToken.Listed) :
    (if p.peekTokenIs SEMICOLON then p.nextToken lib else p).peekToken.Listed := by
  split
  · exact Parser.nextToken_listed lib p
  · exact h

theorem Parser.New_listed (lib : StdLib) (l : Lexer) : (Parser.New lib l).peekToken.Listed :=
  Parser.nextToken_listed lib _

theorem Parser.parsePatternLoop_listed (lib : StdLib) :
    ∀ (n : Nat) (p p' : Parser), Parser.parsePatternLoop lib n p = some p' →
      p.peekToken.Listed → p'.peekToken.Listed := by
  intro n
  induction n with
  | zero => intro p p' h; cases h
  | succ n ih =>
    intro p p' h hp
    rw [Parser.parsePatternLoop] at h
    split at h
    · exact ih _ _ h (Parser.nextToken_listed lib p)
    · injection h with h
      rw [← h]
      exact hp

theorem statementsListed_append (stmts : List Statement) (s : Statement)
    (h1 : statementsListed stmts = true) (h2 : s.operatorsListed = true) :
    statementsListed (Parser.appendStatement stmts s) = true := by
  have key : ∀ l : List Statement, statementsListed l = true →
      statementsListed (l ++ [s]) = true := by
    intro l
    induction l with
    | nil => intro _; simp [statementsListed, h2]
    | cons x rest ih =>
      intro h
      simp only [statementsListed, Bool.and_eq_true] at h
      simp only [List.cons_append, statementsListed, Bool.and_eq_true]
      exact ⟨h.1, ih h.2⟩
  unfold Parser.appendStatement
  split
  · exact h1
  · exact key _ h1

theorem argumentsListed_append (list : List Expression) (e : Expression)
    (h1 : argumentsListed list = true) (h2 : e.operatorsListed = true) :
    argumentsListed (list ++ [e]) = true := by
  induction list with
  | nil => simp [argumentsListed, h2]
  | cons x rest ih =>
    simp only [argumentsListed, Bool.and_eq_true] at h1
    simp only [List.cons_append, argumentsListed, Bool.and_eq_true]
    exact ⟨h1.1, ih h1.2⟩

theorem casesListed_append (cases : List WhenCase) (tok : Token) (pattern consequence : Expression)
    (h1 : casesListed cases = true) (h2 : pattern.operatorsListed = true)
    (h3 : consequence.operatorsListed = true) :
    casesListed (cases ++ [.mk tok pattern consequence]) = true := by
  induction cases with
  | nil => simp [casesListed, h2, h3]
  | cons x rest ih =>
    obtain ⟨t, a, b⟩ := x
    simp only [casesListed, Bool.and_eq_true] at h1
    simp only [List.cons_append, casesListed, Bool.and_eq_true]
    exact ⟨h1.1, ih h1.2⟩

end ListedOperators

namespace Parser

theorem Lists.apply {α : Type} {r : Option (Parser × α)} {p : Parser} {A : α → Prop}
    (h : Lists r p A) {p1 : Parser} {a : α} (hr : r = some (p1, a))
    (hp : p.peekToken.Listed) : p1.peekToken.Listed ∧ A a :=
  h _ hr hp

theorem parseIntegerLiteral_listed {p : Parser} (hp : p.peekToken.Listed) :
    p.parseIntegerLiteral.1.peekToken.Listed ∧
      p.parseIntegerLiteral.2.operatorsListed = true := by
  unfold Parser.parseIntegerLiteral
  split
  · exact ⟨hp, by simp only [Expression.operatorsListed]⟩
  · exact ⟨hp, by simp only [Expression.operatorsListed]⟩

theorem parseFloatLiteral_listed (lib : StdLib) {p : Parser} (hp : p.peekToken.Listed) :
    (p.parseFloatLiteral lib).1.peekToken.Listed ∧
      (p.parseFloatLiteral lib).2.operatorsListed = true := by
  unfold Parser.parseFloatLiteral
  split
  · exact ⟨hp, by simp only [Expression.operatorsListed]⟩
  · exact ⟨hp, by simp only [Expression.operatorsListed]⟩

theorem listing_zero (lib : StdLib) : Listing lib 0 := by
  constructor <;> intros <;> intro x h <;>
    first
    | (rw [Parser.parseStatement] at h; cases h)
    | (rw [Parser.parseDanceStatement] at h; cases h)
    | (rw [Parser.parseSwayStatement] at h; cases h)
    | (rw [Parser.parseStartStatement] at h; cases h)
    | (rw [Parser.parseSendStatement] at h; cases h)
    | (rw [Parser.parseIfStatement] at h; cases h)
    | (rw [Parser.parseExpressionStatement] at h; cases h)
    | (rw [Parser.parseExpression] at h; cases h)
    | (rw [Parser.parseExpressionLoop] at h; cases h)
    | (rw [Parser.parseGroupedExpression] at h; cases h)
    | (rw [Parser.parseSpinExpression] at h; cases h)
    | (rw [Parser.parseFlowExpression] at h; cases h)
    | (rw [Parser.parseMatchExpression] at h; cases h)
    | (rw [Parser.parseMatchLoop] at h; cases h)
    | (rw [Parser.parseWhenCase] at h; cases h)
    | (rw [Parser.parsePattern] at h; cases h)
    | (rw [Parser.parseInfixExpression] at h; cases h)
    | (rw [Parser.parseBlockStatement] at h; cases h)
    | (rw [Parser.parseBlockLoop] at h; cases h)
    | (rw [Parser.parseExpressionList] at h; cases h)
    | (rw [Parser.parseExpressionListLoop] at h; cases h)

theorem lists_parseStatement {lib : StdLib} {n : Nat} (ih : Listing lib n) :
    ∀ p, Lists (parseStatement lib (n + 1) p) p (fun s => s.operatorsListed = true) := by
  intro p x h hp
  rw [Parser.parseStatement] at h
  split at h
  · exact ih.parseDanceStatement p x h hp
  · exact ih.parseSwayStatement p x h hp
  · exact ih.parseStartStatement p x h hp
  · exact ih.parseSendStatement p x h hp
  · exact ih.parseIfStatement p x h hp
  · exact ih.parseExpressionStatement p x h hp

theorem lists_parseDanceStatement {lib : StdLib} {n : Nat} (ih : Listing lib n) :
    ∀ p, Lists (parseDanceStatement lib (n + 1) p) p (fun s => s.operatorsListed = true) := by
  intro p x h hp
  rw [Parser.parseDanceStatement] at h
  dsimp only at h
  have h1 := expectPeek_listed lib IDENT hp
  split at h
  · injection h with h; rw [← h]; exact ⟨h1, rfl⟩
  have h2 := expectPeek_listed lib ASSIGN h1
  split at h
  · injection h with h; rw [← h]; exact ⟨h2, rfl⟩
  split at h
  · cases h
  next p4 value hx =>
    injection h with h; rw [← h]
    obtain ⟨a, b⟩ := (ih.parseExpression _ _).apply hx (nextToken_listed lib _)
    exact ⟨semicolon_listed lib a, by simp only [Statement.operatorsListed]; exact b⟩

theorem lists_parseSwayStatement {lib : StdLib} {n : Nat} (ih : Listing lib n) :
    ∀ p, Lists (parseSwayStatement lib (n + 1) p) p (fun s => s.operatorsListed = true) := by
  intro p x h hp
  rw [Parser.parseSwayStatement] at h
  dsimp only at h
  have h1 := expectPeek_listed lib IDENT hp
  split at h
  · injection h with h; rw [← h]; exact ⟨h1, rfl⟩
  have h2 := expectPeek_listed lib FROM h1
  split at h
  · injection h with h; rw [← h]; exact ⟨h2, rfl⟩
  split at h
  · cases h
  next p3 from_ hx =>
    obtain ⟨a3, b3⟩ := (ih.parseExpression _ _).apply hx (nextToken_listed lib _)
    split at h
    · injection h with h; rw [← h]; exact ⟨expectPeek_listed lib TO a3, rfl⟩
    split at h
    · cases h
    next p4 to_ hy =>
      obtain ⟨a4, b4⟩ := (ih.parseExpression _ _).apply hy (nextToken_listed lib _)
      split at h
      · injection h with h; rw [← h]; exact ⟨expectPeek_listed lib LBRACE a4, rfl⟩
      split at h
      · cases h
      next p5 body hz =>
        injection h with h; rw [← h]
        obtain ⟨a5, b5⟩ := (ih.parseBlockStatement _).apply hz (expectPeek_listed lib LBRACE a4)
        obtain ⟨bt, stmts⟩ := body
        have b5' : statementsListed stmts = true := b5
        exact ⟨a5, by simp only [Statement.operatorsListed, b3, b4, b5', Bool.and_self]⟩

theorem lists_parseStartStatement {lib : StdLib} {n : Nat} (ih : Listing lib n) :
    ∀ p, Lists (parseStartStatement lib (n + 1) p) p (fun s => s.operatorsListed = true) := by
  intro p x h hp
  rw [Parser.parseStartStatement] at h
  split at h
  · cases h
  next p1 stmt hx =>
    injection h with h; rw [← h]
    obtain ⟨a, b⟩ := (ih.parseStatement _).apply hx (nextToken_listed lib p)
    exact ⟨a, by simp only [Statement.operatorsListed]; exact b⟩

theorem lists_parseSendStatement {lib : StdLib} {n : Nat} (ih : Listing lib n) :
    ∀ p, Lists (parseSendStatement lib (n + 1) p) p (fun s => s.operatorsListed = true) := by
  intro p x h hp
  rw [Parser.parseSendStatement] at h
  split at h
  · cases h
  next p1 channel hx =>
    obtain ⟨a1, b1⟩ := (ih.parseExpression _ _).apply hx (nextToken_listed lib p)
    dsimp only at h
    split at h
    · injection h with h; rw [← h]; exact ⟨expectPeek_listed lib SEND a1, rfl⟩
    split at h
    · cases h
    next p2 value hy =>
      injection h with h; rw [← h]
      obtain ⟨a2, b2⟩ := (ih.parseExpression _ _).apply hy (nextToken_listed lib _)
      exact ⟨semicolon_listed lib a2,
        by simp only [Statement.operatorsListed, b1, b2, Bool.and_self]⟩

theorem lists_parseIfStatement {lib : StdLib} {n : Nat} (ih : Listing lib n) :
    ∀ p, Lists (parseIfStatement lib (n + 1) p) p (fun s => s.operatorsListed = true) := by
  intro p x h hp
  rw [Parser.parseIfStatement] at h
  split at h
  · cases h
  next p1 condition hx =>
    obtain ⟨a1, b1⟩ := (ih.parseExpression _ _).apply hx (nextToken_listed lib p)
    dsimp only at h
    split at h
    · injection h with h; rw [← h]; exact ⟨expectPeek_listed lib LBRACE a1, rfl⟩
    split at h
    · cases h
    next p2 consequence hy =>
      obtain ⟨a2, b2⟩ := (ih.parseBlockStatement _).apply hy (expectPeek_listed lib LBRACE a1)
      obtain ⟨ct, stmts⟩ := consequence
      have b2' : statementsListed stmts = true := b2
      split at h
      · have a3 := expectPeek_listed lib LBRACE (nextToken_listed lib p2)
        split at h
        · injection h with h; rw [← h]; exact ⟨a3, rfl⟩
        split at h
        · cases h
        next p3 alternative hz =>
          injection h with h; rw [← h]
          obtain ⟨a4, b4⟩ := (ih.parseBlockStatement _).apply hz a3
          obtain ⟨at_, alt⟩ := alternative
          have b4' : statementsListed alt = true := b4
          exact ⟨a4, by simp only [Statement.operatorsListed, b1, b2', b4', Bool.and_self]⟩
      · injection h with h; rw [← h]
        exact ⟨a2, by simp only [Statement.operatorsListed, b1, b2', Bool.and_self]⟩

theorem lists_parseExpressionStatement {lib : StdLib} {n : Nat} (ih : Listing lib n) :
    ∀ p, Lists (parseExpressionStatement lib (n + 1) p) p
      (fun s => s.operatorsListed = true) := by
  intro p x h hp
  rw [Parser.parseExpressionStatement] at h
  split at h
  · cases h
  next p1 expression hx =>
    injection h with h; rw [← h]
    obtain ⟨a, b⟩ := (ih.parseExpression _ _).apply hx hp
    exact ⟨semicolon_listed lib a, by simp only [Statement.operatorsListed]; exact b⟩

theorem lists_parseExpression {lib : StdLib} {n : Nat} (ih : Listing lib n) :
    ∀ prec p, Lists (parseExpression lib (n + 1) prec p) p
      (fun e => e.operatorsListed = true) := by
  intro prec p x h hp
  rw [Parser.parseExpression] at h
  cases hfn : prefixParseFns p.curToken.Typ with
  | none =>
    rw [hfn] at h
    injection h with h
    rw [← h]
    exact ⟨hp, rfl⟩
  | some fn =>
    rw [hfn] at h
    simp only [] at h
    have key : ∀ r : Option (Parser × Expression),
        Lists r p (fun e => e.operatorsListed = true) →
        (match r with
          | none => none
          | some (p1, leftExp) => Parser.parseExpressionLoop lib n prec p1 leftExp) = some x →
        x.1.peekToken.Listed ∧ x.2.operatorsListed = true := by
      intro r hr hm
      cases r with
      | none => cases hm
      | some y =>
        obtain ⟨p1, l⟩ := y
        obtain ⟨a, b⟩ := hr.apply rfl hp
        exact ih.parseExpressionLoop prec p1 l b x hm a
    refine key _ ?_ h
    cases fn with
    | parseIdentifier =>
      intro y hy _; injection hy with hy; rw [← hy]; exact ⟨hp, rfl⟩
    | parseIntegerLiteral =>
      intro y hy _; injection hy with hy; rw [← hy]; exact parseIntegerLiteral_listed hp
    | parseFloatLiteral =>
      intro y hy _; injection hy with hy; rw [← hy]; exact parseFloatLiteral_listed lib hp
    | parseStringLiteral =>
      intro y hy _; injection hy with hy; rw [← hy]; exact ⟨hp, rfl⟩
    | parseBoolean =>
      intro y hy _; injection hy with hy; rw [← hy]; exact ⟨hp, rfl⟩
    | parseGroupedExpression => exact ih.parseGroupedExpression p
    | parseSpinExpression => exact ih.parseSpinExpression p
    | parseFlowExpression => exact ih.parseFlowExpression p
    | parseMatchExpression => exact ih.parseMatchExpression p

theorem lists_parseExpressionLoop {lib : StdLib} {n : Nat} (ih : Listing lib n) :
    ∀ prec p left, left.operatorsListed = true →
      Lists (parseExpressionLoop lib (n + 1) prec p left) p
        (fun e => e.operatorsListed = true) := by
  intro prec p left hl x h hp
  rw [Parser.parseExpressionLoop] at h
  split at h
  · split at h
    · injection h with h; rw [← h]; exact ⟨hp, hl⟩
    next hinf =>
      have hinf' : infixParseFns p.peekToken.Typ = true := by
        cases hb : infixParseFns p.peekToken.Typ with
        | true => rfl
        | false => exact absurd hb hinf
      split at h
      · cases h
      next p1 e hx =>
        obtain ⟨a, b⟩ := (ih.parseInfixExpression (p.nextToken lib) left (hp hinf') hl).apply hx
          (nextToken_listed lib p)
        exact ih.parseExpressionLoop prec p1 e b x h a
  · injection h with h; rw [← h]; exact ⟨hp, hl⟩

theorem lists_parseGroupedExpression {lib : StdLib} {n : Nat} (ih : Listing lib n) :
    ∀ p, Lists (parseGroupedExpression lib (n + 1) p) p
      (fun e => e.operatorsListed = true) := by
  intro p x h hp
  rw [Parser.parseGroupedExpression] at h
  split at h
  · cases h
  next p1 exp hx =>
    obtain ⟨a, b⟩ := (ih.parseExpression _ _).apply hx (nextToken_listed lib p)
    dsimp only at h
    have a2 := expectPeek_listed lib RPAREN a
    split at h
    · injection h with h; rw [← h]; exact ⟨a2, rfl⟩
    · injection h with h; rw [← h]; exact ⟨a2, b⟩

theorem lists_parseSpinExpression {lib : StdLib} {n : Nat} (ih : Listing lib n) :
    ∀ p, Lists (parseSpinExpression lib (n + 1) p) p
      (fun e => e.operatorsListed = true) := by
  intro p x h hp
  rw [Parser.parseSpinExpression] at h
  split at h
  · cases h
  next p1 function hx =>
    obtain ⟨a, b⟩ := (ih.parseExpression _ _).apply hx (nextToken_listed lib p)
    dsimp only at h
    have a2 := expectPeek_listed lib LPAREN a
    split at h
    · injection h with h; rw [← h]; exact ⟨a2, rfl⟩
    split at h
    · cases h
    next p2 arguments hy =>
      injection h with h; rw [← h]
      obtain ⟨c, d⟩ := (ih.parseExpressionList _ _).apply hy a2
      exact ⟨c, by simp only [Expression.operatorsListed, b, d, Bool.and_self]⟩

theorem lists_parseFlowExpression {lib : StdLib} {n : Nat} (ih : Listing lib n) :
    ∀ p, Lists (parseFlowExpression lib (n + 1) p) p
      (fun e => e.operatorsListed = true) := by
  intro p x h hp
  rw [Parser.parseFlowExpression] at h
  split at h
  · cases h
  next p1 channelType hx =>
    injection h with h; rw [← h]
    obtain ⟨a, b⟩ := (ih.parseExpression _ _).apply hx (nextToken_listed lib p)
    exact ⟨a, by simp only [Expression.operatorsListed]; exact b⟩

theorem lists_parseMatchExpression {lib : StdLib} {n : Nat} (ih : Listing lib n) :
    ∀ p, Lists (parseMatchExpression lib (n + 1) p) p
      (fun e => e.operatorsListed = true) := by
  intro p x h hp
  rw [Parser.parseMatchExpression] at h
  split at h
  · cases h
  next p1 expression hx =>
    obtain ⟨a, b⟩ := (ih.parseExpression _ _).apply hx (nextToken_listed lib p)
    dsimp only at h
    split at h
    · injection h with h; rw [← h]; exact ⟨expectPeek_listed lib LBRACE a, rfl⟩
    split at h
    · cases h
    next p2 cases hy =>
      injection h with h; rw [← h]
      obtain ⟨c, d⟩ := (ih.parseMatchLoop _ [] rfl).apply hy (nextToken_listed lib _)
      exact ⟨c, by simp only [Expression.operatorsListed, b, d, Bool.and_self]⟩

theorem lists_parseMatchLoop {lib : StdLib} {n : Nat} (ih : Listing lib n) :
    ∀ p cases, casesListed cases = true →
      Lists (parseMatchLoop lib (n + 1) p cases) p (fun cs => casesListed cs = true) := by
  intro p cases hc x h hp
  rw [Parser.parseMatchLoop] at h
  split at h
  · split at h
    · split at h
      · cases h
      next p1 whenCase hx =>
        obtain ⟨a, b⟩ := (ih.parseWhenCase p).apply hx hp
        exact ih.parseMatchLoop _ _ (b cases hc) x h (nextToken_listed lib p1)
    · exact ih.parseMatchLoop _ _ hc x h (nextToken_listed lib p)
  · injection h with h; rw [← h]; exact ⟨hp, hc⟩

theorem lists_parseWhenCase {lib : StdLib} {n : Nat} (ih : Listing lib n) :
    ∀ p, Lists (parseWhenCase lib (n + 1) p) p
      (fun c => ∀ cases, casesListed cases = true →
        casesListed (appendCase cases c) = true) := by
  intro p x h hp
  rw [Parser.parseWhenCase] at h
  split at h
  · cases h
  next p1 pattern hx =>
    obtain ⟨a, b⟩ := (ih.parsePattern _).apply hx (nextToken_listed lib p)
    dsimp only at h
    split at h
    · injection h with h; rw [← h]
      exact ⟨expectPeek_listed lib COLON a, fun cases hc => hc⟩
    split at h
    · cases h
    next p2 consequence hy =>
      injection h with h; rw [← h]
      obtain ⟨c, d⟩ := (ih.parseExpression _ _).apply hy (nextToken_listed lib _)
      exact ⟨c, fun cases hc => casesListed_append cases _ _ _ hc b d⟩

theorem lists_parsePattern {lib : StdLib} {n : Nat} (ih : Listing lib n) :
    ∀ p, Lists (parsePattern lib (n + 1) p) p (fun e => e.operatorsListed = true) := by
  intro p x h hp
  rw [Parser.parsePattern] at h
  split at h
  · cases h
  next p1 pattern hx =>
    obtain ⟨a, b⟩ := (ih.parseExpression _ _).apply hx hp
    split at h
    · split at h
      · cases h
      next p2 hy =>
        injection h with h; rw [← h]
        exact ⟨parsePatternLoop_listed lib n _ _ hy (nextToken_listed lib p1), b⟩
    · injection h with h; rw [← h]; exact ⟨a, b⟩

theorem lists_parseInfixExpression {lib : StdLib} {n : Nat} (ih : Listing lib n) :
    ∀ p left, p.curToken.Literal ∈ listedOperators → left.operatorsListed = true →
      Lists (parseInfixExpression lib (n + 1) p left) p
        (fun e => e.operatorsListed = true) := by
  intro p left hop hl x h hp
  rw [Parser.parseInfixExpression] at h
  split at h
  · cases h
  next p1 right hx =>
    injection h with h; rw [← h]
    obtain ⟨a, b⟩ := (ih.parseExpression _ _).apply hx (nextToken_listed lib p)
    exact ⟨a, by simp only [Expression.operatorsListed, hl, b, hop, decide_True, Bool.and_self]⟩

theorem lists_parseBlockStatement {lib : StdLib} {n : Nat} (ih : Listing lib n) :
    ∀ p, Lists (parseBlockStatement lib (n + 1) p) p
      (fun b => statementsListed b.Statements = true) := by
  intro p x h hp
  rw [Parser.parseBlockStatement] at h
  split at h
  · cases h
  next p1 stmts hx =>
    injection h with h; rw [← h]
    exact (ih.parseBlockLoop _ [] rfl).apply hx (nextToken_listed lib p)

theorem lists_parseBlockLoop {lib : StdLib} {n : Nat} (ih : Listing lib n) :
    ∀ p stmts, statementsListed stmts = true →
      Lists (parseBlockLoop lib (n + 1) p stmts) p
        (fun ss => statementsListed ss = true) := by
  intro p stmts hs x h hp
  rw [Parser.parseBlockLoop] at h
  split at h
  · split at h
    · cases h
    next p1 stmt hx =>
      obtain ⟨a, b⟩ := (ih.parseStatement p).apply hx hp
      exact ih.parseBlockLoop _ _ (statementsListed_append _ _ hs b) x h
        (nextToken_listed lib p1)
  · injection h with h; rw [← h]; exact ⟨hp, hs⟩

theorem lists_parseExpressionList {lib : StdLib} {n : Nat} (ih : Listing lib n) :
    ∀ end_ p, Lists (parseExpressionList lib (n + 1) end_ p) p
      (fun es => argumentsListed es = true) := by
  intro end_ p x h hp
  rw [Parser.parseExpressionList] at h
  split at h
  · injection h with h; rw [← h]; exact ⟨nextToken_listed lib p, rfl⟩
  split at h
  · cases h
  next p1 e hx =>
    obtain ⟨a, b⟩ := (ih.parseExpression _ _).apply hx (nextToken_listed lib p)
    split at h
    · cases h
    next p2 list hy =>
      obtain ⟨c, d⟩ := (ih.parseExpressionListLoop p1 [e]
        (by simp only [argumentsListed, b, Bool.and_self])).apply hy a
      dsimp only at h
      have c2 := expectPeek_listed lib end_ c
      split at h
      · injection h with h; rw [← h]; exact ⟨c2, rfl⟩
      · injection h with h; rw [← h]; exact ⟨c2, d⟩

theorem lists_parseExpressionListLoop {lib : StdLib} {n : Nat} (ih : Listing lib n) :
    ∀ p list, argumentsListed list = true →
      Lists (parseExpressionListLoop lib (n + 1) p list) p
        (fun es => argumentsListed es = true) := by
  intro p list hl x h hp
  rw [Parser.parseExpressionListLoop] at h
  split at h
  · split at h
    · cases h
    next p1 e hx =>
      obtain ⟨a, b⟩ := (ih.parseExpression _ _).apply hx (nextToken_listed lib _)
      exact ih.parseExpressionListLoop _ _ (argumentsListed_append _ _ hl b) x h a
  · injection h with h; rw [← h]; exact ⟨hp, hl⟩

theorem listing_all (lib : StdLib) : ∀ n, Listing lib n := by
  intro n
  induction n with
  | zero => exact listing_zero lib
  | succ n ih =>
    exact
      { parseStatement := lists_parseStatement ih
        parseDanceStatement := lists_parseDanceStatement ih
        parseSwayStatement := lists_parseSwayStatement ih
        parseStartStatement := lists_parseStartStatement ih
        parseSendStatement := lists_parseSendStatement ih
        parseIfStatement := lists_parseIfStatement ih
        parseExpressionStatement := lists_parseExpressionStatement ih
        parseExpression := lists_parseExpression ih
        parseExpressionLoop := lists_parseExpressionLoop ih
        parseGroupedExpression := lists_parseGroupedExpression ih
        parseSpinExpression := lists_parseSpinExpression ih
        parseFlowExpression := lists_parseFlowExpression ih
        parseMatchExpression := lists_parseMatchExpression ih
        parseMatchLoop := lists_parseMatchLoop ih
        parseWhenCase := lists_parseWhenCase ih
        parsePattern := lists_parsePattern ih
        parseInfixExpression := lists_parseInfixExpression ih
        parseBlockStatement := lists_parseBlockStatement ih
        parseBlockLoop := lists_parseBlockLoop ih
        parseExpressionList := lists_parseExpressionList ih
        parseExpressionListLoop := lists_parseExpressionListLoop ih }

theorem ParseProgramLoop_listed (lib : StdLib) :
    ∀ (n : Nat) (p : Parser) (stmts : List Statement),
      statementsListed stmts = true →
      Lists (ParseProgramLoop lib n p stmts) p (fun ss => statementsListed ss = true) := by
  intro n
  induction n with
  | zero => intro p stmts _ x h; rw [Parser.ParseProgramLoop] at h; cases h
  | succ n ih =>
    intro p stmts hs x h hp
    rw [Parser.ParseProgramLoop] at h
    split at h
    · split at h
      · cases h
      next p1 stmt hx =>
        obtain ⟨a, b⟩ := ((listing_all lib n).parseStatement p).apply hx hp
        exact ih _ _ (statementsListed_append _ _ hs b) x h (nextToken_listed lib p1)
    · injection h with h; rw [← h]; exact ⟨hp, hs⟩

theorem ParseProgram_listed (lib : StdLib) (n : Nat) (input : Str) (p : Parser)
    (program : Program)
    (h : ParseProgram lib n (Parser.New lib (Lexer.New input)) = some (p, program)) :
    statementsListed program.Statements = true := by
  unfold Parser.ParseProgram at h
  split at h
  · cases h
  next p1 stmts hx =>
    injection h with h
    injection h with h1 h2
    rw [← h2]
    exact ((ParseProgramLoop_listed lib n _ [] rfl).apply hx (New_listed lib _)).2

end Parser

section InfixOperators

/-- The notion `statementsListed` looks below statements, blocks, call arguments and match
cases: an infix node with the operator `=` is found in each of these places. -/
theorem statementsListed_rejects (t : Token) :
    statementsListed [.ExpressionStatement t (.InfixExpression t .nil "=".toList .nil)] = false ∧
    statementsListed [.IfStatement t .nil
      (.mk t [.ExpressionStatement t (.InfixExpression t .nil "=".toList .nil)]) none] = false ∧
    statementsListed [.ExpressionStatement t
      (.SpinExpression t .nil [.InfixExpression t .nil "=".toList .nil])] = false ∧
    statementsListed [.ExpressionStatement t
      (.MatchExpression t .nil [.mk t .nil (.InfixExpression t .nil "=".toList .nil)])] = false ∧
    statementsListed [.ExpressionStatement t
      (.InfixExpression t (.InfixExpression t .nil "<-".toList .nil) "+".toList .nil)] = false ∧
    statementsListed [.ExpressionStatement t
      (.InfixExpression t .nil "+".toList .nil)] = true := by
  refine ⟨?_, ?_, ?_, ?_, ?_, ?_⟩ <;>
    simp [statementsListed, Statement.operatorsListed, Expression.operatorsListed,
      argumentsListed, casesListed, listedOperators]

/-- C37. For every input, `ParseProgram` over `lexer.New(input)` returns a program (for
every amount of fuel that is large enough) in which every infix node anywhere, in the
statements, in the blocks, in the call arguments and in the match cases, has an operator
string that is one of `+ - * / == != < > <= >= =~`. -/
theorem infix_operators_listed (lib : StdLib) (input : Str) :
    ∃ (p : Parser) (program : Program),
      Returns (fun m => Parser.ParseProgram lib m (Parser.New lib (Lexer.New input)))
        (p, program) ∧
      statementsListed program.Statements = true := by
  obtain ⟨p, program, hr, _⟩ := Parser.ParseProgram_halts lib (Parser.New lib (Lexer.New input))
  obtain ⟨n, hn⟩ := hr
  exact ⟨p, program, ⟨n, hn⟩, Parser.ParseProgram_listed lib n input p program (hn n (Nat.le_refl n))⟩

end InfixOperators

section RoundTripLexeme

open Parser CodeGenerator

/-- C39 fails as stated. The input `010 + x` followed by a newline is parsed without a
diagnostic to the infix expression whose left operand is the integer literal with the
value 8 and the lexeme `010` (base 0 of `ParseInt`: a leading `0` is octal). The emitter
writes `(8 + x)` for it, and that text followed by a newline is parsed without a
diagnostic to the infix expression whose left operand has the value 8 and the lexeme
`8`: the tree of the round trip differs from the tree emitted in the lexeme of the integer
token, which is not a position. -/
theorem round_trip_changes_lexeme :
    (ParseProgram asciiLib 40 (Parser.New asciiLib (Lexer.New "010 + x\n".toList))).map
        (fun r => (r.1.errors, stripStatements r.2.Statements)) =
      some ([], [.ExpressionStatement (tokenOf (INT, "010".toList))
        (infixNode (PLUS, ['+']) (.IntegerLiteral (tokenOf (INT, "010".toList)) 8)
          (identNode ['x']))]) ∧
    emitExpression asciiLib 0
        (infixNode (PLUS, ['+']) (.IntegerLiteral (tokenOf (INT, "010".toList)) 8)
          (identNode ['x'])) = some "(8 + x)".toList ∧
    (ParseProgram asciiLib 40 (Parser.New asciiLib (Lexer.New "(8 + x)\n".toList))).map
        (fun r => (r.1.errors, stripStatements r.2.Statements)) =
      some ([], [.ExpressionStatement (tokenOf (LPAREN, ['(']))
        (infixNode (PLUS, ['+']) (.IntegerLiteral (tokenOf (INT, ['8'])) 8)
          (identNode ['x']))]) ∧
    (infixNode (PLUS, ['+']) (.IntegerLiteral (tokenOf (INT, ['8'])) 8) (identNode ['x'])).strip ≠
      (infixNode (PLUS, ['+']) (.IntegerLiteral (tokenOf (INT, "010".toList)) 8)
        (identNode ['x'])).strip := by
  refine ⟨rfl, rfl, rfl, ?_⟩
  intro h
  have h2 := congrArg (fun e : Expression => match e with
    | .InfixExpression _ (.IntegerLiteral t _) _ _ => t.Literal
    | _ => []) h
  exact absurd h2 (by decide)

end RoundTripLexeme

end Chorlang
